import Mathlib

/-! Sparse inverse from a Cholesky factor (`cholmod_spinv.c`).

A shallow embedding of `Source/cholmod_spinv.c` together with theorems about it.

* C arrays are total functions on `Nat` (`Nat → Nat` for `Int *`, `Nat → ℚ` for `double *`);
  a write `a[k] = v` is `store a k v`.  Floating point values are modelled in exact
  arithmetic by rationals.
* `for` loops are `loopUp` / `loopDown`; the unbounded `while` scans take a fuel argument
  and return `none` when the fuel is used up.
* The dense kernels of the BLAS (`cblas_dsymm`, `cblas_dgemm`, `cblas_dtrsm`, `cblas_dsymv`,
  `cblas_ddot`) and the CHOLMOD memory primitives are not part of the repository; they are
  modelled by their reference semantics for exactly the argument combinations used in the file.
* Index variables of type `Int` are natural numbers here; the only subtractions in the source
  whose result can be negative are guarded by a comparison that the truncated subtraction of
  `Nat` answers the same way.
-/

namespace Spinv

open Finset

/-! ## Loops and arrays -/

/-- The loop `for (i = 0; i < n; i++) s = f i s`. -/
def loopUp {σ : Type} : Nat → (Nat → σ → σ) → σ → σ
  | 0, _, s => s
  | n + 1, f, s => f n (loopUp n f s)

/-- The loop `for (i = n-1; i >= 0; i--) s = f i s`. -/
def loopDown {σ : Type} : Nat → (Nat → σ → σ) → σ → σ
  | 0, _, s => s
  | n + 1, f, s => loopDown n f (f n s)

/-- The state of the loop `for (i = n-1; i >= 0; i--) s = f i s` after its first `d`
iterations, those of `i = n-1, .., n-d`. -/
def loopDownSteps {σ : Type} (n : Nat) (f : Nat → σ → σ) (s : σ) : Nat → σ
  | 0 => s
  | d + 1 => f (n - 1 - d) (loopDownSteps n f s d)

/-- The array `a` after the assignment `a[k] = v`. -/
def store {α : Type} (a : Nat → α) (k : Nat) (v : α) : Nat → α :=
  fun i => if i = k then v else a i

/-! ## Dense kernels (BLAS), column major, in exact arithmetic

A read-only pointer argument is the function `k ↦ p[k]`; an argument that is written is the
whole buffer together with the offset of the pointer into it. -/

/-- Entry `(i, j)` of the symmetric matrix held in the lower triangle of `A` (`CblasLower`). -/
def symLower (A : Nat → ℚ) (lda i j : Nat) : ℚ :=
  if j ≤ i then A (i + j * lda) else A (j + i * lda)

/-- `cblas_dsymm (CblasColMajor, CblasLeft, CblasLower, M, N, alpha, A, lda, B, ldb, beta, C, ldc)`:
`C := alpha * A * B + beta * C` with `A` an `M × M` symmetric matrix read through its lower
triangle; `C` is the buffer `Cbuf` at offset `c0`. -/
def cblas_dsymm (M N : Nat) (alpha : ℚ) (A : Nat → ℚ) (lda : Nat) (B : Nat → ℚ) (ldb : Nat)
    (beta : ℚ) (Cbuf : Nat → ℚ) (c0 ldc : Nat) : Nat → ℚ :=
  loopUp N (fun j C => loopUp M (fun i C =>
    store C (c0 + i + j * ldc)
      (alpha * (∑ k in range M, symLower A lda i k * B (k + j * ldb))
        + beta * Cbuf (c0 + i + j * ldc))) C) Cbuf

/-- `cblas_dgemm (CblasColMajor, CblasTrans, CblasNoTrans, M, N, K, alpha, A, lda, B, ldb, beta,
C, ldc)`: `C := alpha * Aᵀ * B + beta * C`, `A` is `K × M`, `B` is `K × N`. -/
def cblas_dgemm (M N K : Nat) (alpha : ℚ) (A : Nat → ℚ) (lda : Nat) (B : Nat → ℚ) (ldb : Nat)
    (beta : ℚ) (Cbuf : Nat → ℚ) (c0 ldc : Nat) : Nat → ℚ :=
  loopUp N (fun j C => loopUp M (fun i C =>
    store C (c0 + i + j * ldc)
      (alpha * (∑ k in range K, A (k + i * lda) * B (k + j * ldb))
        + beta * Cbuf (c0 + i + j * ldc))) C) Cbuf

/-- `cblas_dtrsm (CblasColMajor, CblasLeft, CblasLower, CblasTrans, CblasNonUnit, M, N, alpha, A,
lda, B, ldb)`: `B := alpha * (Aᵀ)⁻¹ * B` by back substitution, column by column, rows from the
last to the first; only the lower triangle of `A` is read. -/
def cblas_dtrsm_left (M N : Nat) (alpha : ℚ) (A : Nat → ℚ) (lda : Nat)
    (Bbuf : Nat → ℚ) (b0 ldb : Nat) : Nat → ℚ :=
  loopUp N (fun j B => loopDown M (fun i B =>
    store B (b0 + i + j * ldb)
      ((alpha * B (b0 + i + j * ldb)
          - ∑ k in Ico (i + 1) M, A (k + i * lda) * B (b0 + k + j * ldb)) / A (i + i * lda))) B)
    Bbuf

/-- `cblas_dtrsm (CblasColMajor, CblasRight, CblasLower, CblasNoTrans, CblasNonUnit, M, N, alpha,
A, lda, B, ldb)`: `B := alpha * B * A⁻¹`, columns from the last to the first; only the lower
triangle of `A` is read. -/
def cblas_dtrsm_right (M N : Nat) (alpha : ℚ) (A : Nat → ℚ) (lda : Nat)
    (Bbuf : Nat → ℚ) (b0 ldb : Nat) : Nat → ℚ :=
  loopDown N (fun j B => loopUp M (fun i B =>
    store B (b0 + i + j * ldb)
      ((alpha * B (b0 + i + j * ldb)
          - ∑ k in Ico (j + 1) N, A (k + j * lda) * B (b0 + i + k * ldb)) / A (j + j * lda))) B)
    Bbuf

/-- `cblas_dsymv (CblasColMajor, CblasLower, N, alpha, A, lda, X, 1, beta, Y, 1)`:
`y := alpha * A * x + beta * y` with `A` symmetric, read through its lower triangle. -/
def cblas_dsymv (N : Nat) (alpha : ℚ) (A : Nat → ℚ) (lda : Nat) (X : Nat → ℚ) (beta : ℚ)
    (Y : Nat → ℚ) : Nat → ℚ :=
  loopUp N (fun i y =>
    store y i (alpha * (∑ k in range N, symLower A lda i k * X k) + beta * Y i)) Y

/-- `cblas_ddot (N, X, 1, Y, 1)`: the dot product of two vectors of length `N`. -/
def cblas_ddot (N : Nat) (X Y : Nat → ℚ) : ℚ :=
  ∑ k in range N, X k * Y k

/-! ## The dense block kernel -/

/-- `spinv_block (L, Z, V, m, n, Common)`: the buffer `Z` on return. -/
def spinv_block (L Z V : Nat → ℚ) (m n : Nat) : Nat → ℚ :=
  let m1 := n
  let m2 := m - m1
  let ld := m
  let L1 := L
  let L2 := fun k => L (m1 + k)
  -- Initialize Z1 to identity matrix
  let Z := loopUp m1 (fun i Z => loopUp m1 (fun j Z =>
    store Z (i + j * ld) (if i = j then 1 else 0)) Z) Z
  let Z :=
    if m2 > 0 then
      -- Z2 = - V * L2
      let Z := cblas_dsymm m2 n (-1) V m2 L2 ld 0 Z m1 ld
      -- Z1 = -Z2'*L2 + Z1
      cblas_dgemm m1 m1 m2 (-1) (fun k => Z (m1 + k)) ld L2 ld 1 Z 0 ld
    else Z
  -- Z1 = L1' \ Z1
  let Z := cblas_dtrsm_left m1 m1 1 L1 ld Z 0 ld
  -- Z = Z / L1
  cblas_dtrsm_right m n 1 L1 ld Z 0 ld

/-- The state of `Z` in `spinv_block` after the initialisation and the two products, before
the triangular solves. -/
def spinv_block_products (L Z V : Nat → ℚ) (m n : Nat) : Nat → ℚ :=
  let m1 := n
  let m2 := m - m1
  let ld := m
  let L2 := fun k => L (m1 + k)
  let Z := loopUp m1 (fun i Z => loopUp m1 (fun j Z =>
    store Z (i + j * ld) (if i = j then 1 else 0)) Z) Z
  if m2 > 0 then
    let Z := cblas_dsymm m2 n (-1) V m2 L2 ld 0 Z m1 ld
    cblas_dgemm m1 m1 m2 (-1) (fun k => Z (m1 + k)) ld L2 ld 1 Z 0 ld
  else Z

/-! ## Matrix views of column-major buffers -/

/-- The `r × c` matrix stored column major at offset `off` of `A` with leading dimension `ld`. -/
def matView (A : Nat → ℚ) (off ld r c : Nat) : Matrix (Fin r) (Fin c) ℚ :=
  fun i j => A (off + i + j * ld)

/-- The lower triangular `n × n` matrix whose lower triangle is read from `A` (leading
dimension `ld`); the strictly upper part of the buffer is not referenced. -/
def lowerView (A : Nat → ℚ) (ld n : Nat) : Matrix (Fin n) (Fin n) ℚ :=
  fun i j => if (j : Nat) ≤ i then A (i + j * ld) else 0

/-- The symmetric `n × n` matrix read through the lower triangle of `A`. -/
def symView (A : Nat → ℚ) (ld n : Nat) : Matrix (Fin n) (Fin n) ℚ :=
  fun i j => symLower A ld i j

/-! ## CHOLMOD objects

The declarations of `cholmod.h` are not part of the repository.  The constants below carry the
values of the CHOLMOD public header; the objects keep only the fields that `cholmod_spinv.c`
reads or writes. -/

/-- The status `CHOLMOD_OK` of `cholmod.h`. -/
def CHOLMOD_OK : Int := 0

/-- The status `CHOLMOD_OUT_OF_MEMORY` of `cholmod.h`. -/
def CHOLMOD_OUT_OF_MEMORY : Int := -2

/-- The status `CHOLMOD_INVALID` of `cholmod.h`. -/
def CHOLMOD_INVALID : Int := -4

/-- The numeric type `CHOLMOD_PATTERN` of `cholmod.h`. -/
def CHOLMOD_PATTERN : Int := 0

/-- The numeric type `CHOLMOD_REAL` of `cholmod.h`. -/
def CHOLMOD_REAL : Int := 1

/-- The numeric type `CHOLMOD_COMPLEX` of `cholmod.h`. -/
def CHOLMOD_COMPLEX : Int := 2

/-- The numeric type `CHOLMOD_ZOMPLEX` of `cholmod.h`. -/
def CHOLMOD_ZOMPLEX : Int := 3

/-- The precision `CHOLMOD_DOUBLE` of `cholmod.h`. -/
def CHOLMOD_DOUBLE : Int := 0

/-- The precision `CHOLMOD_SINGLE` of `cholmod.h`. -/
def CHOLMOD_SINGLE : Int := 4

/-- The fields of `cholmod_common` used by the file. -/
structure cholmod_common where
  status : Int
  itype : Int

/-- The fields of `cholmod_factor` used by the file.  `x_null` and `z_null` say whether the
pointers `L->x` and `L->z` are `NULL`; `Perm = none` is a `NULL` permutation.  For a simplicial
factor `p`, `i`, `x`, `nzmax` are used, for a supernodal one `super`, `pi`, `px`, `s`, `x`,
`nsuper`, `xsize`, `maxesize`. -/
structure cholmod_factor where
  n : Nat
  xtype : Int
  dtype : Int
  is_ll : Bool
  is_super : Bool
  x_null : Bool
  z_null : Bool
  Perm : Option (Nat → Nat)
  x : Nat → ℚ
  nzmax : Nat
  p : Nat → Nat
  i : Nat → Nat
  nsuper : Nat
  super : Nat → Nat
  pi : Nat → Nat
  px : Nat → Nat
  s : Nat → Nat
  xsize : Nat
  maxesize : Nat

/-- The fields of `cholmod_sparse` used by the file. -/
structure cholmod_sparse where
  nrow : Nat
  ncol : Nat
  nzmax : Nat
  p : Nat → Nat
  i : Nat → Nat
  x : Nat → ℚ
  xtype : Int
  stype : Int
  sorted : Bool

/-- The macro `PERM(j)`: `Lperm != NULL ? Lperm[j] : j`. -/
def PERM (Lperm : Option (Nat → Nat)) (j : Nat) : Nat :=
  match Lperm with
  | some p => p j
  | none => j

/-! ## The pattern pass of the simplicial driver -/

/-- First pass of `spinv_simplicial`: `Xp[jx+1]++` for every stored factor entry. -/
def simplicial_count (n : Nat) (Lp Li : Nat → Nat) (Lperm : Option (Nat → Nat))
    (Xp : Nat → Nat) : Nat → Nat :=
  loopUp n (fun jl Xp =>
    let jp := PERM Lperm jl
    loopUp (Lp (jl + 1) - Lp jl) (fun t Xp =>
      let kl := Lp jl + t
      let il := Li kl
      let ip := PERM Lperm il
      let jx := min ip jp
      store Xp (jx + 1) (Xp (jx + 1) + 1)) Xp) Xp

/-- The cumulative sum of `spinv_simplicial`, which also computes `maxsize`:
`for (jx = 1; jx <= n; jx++) { if (Xp[jx] > maxsize) maxsize = Xp[jx] - 1 ; Xp[jx] += Xp[jx-1] ; }`.
The state is `(Xp, maxsize)`. -/
def simplicial_cumsum (n : Nat) (Xp : Nat → Nat) (maxsize : Nat) : (Nat → Nat) × Nat :=
  loopUp n (fun t st =>
    let jx := t + 1
    let maxsize := if st.1 jx > st.2 then st.1 jx - 1 else st.2
    (store st.1 jx (st.1 jx + st.1 (jx - 1)), maxsize)) (Xp, maxsize)

/-- The arrays written by the second pass: the column counters `ncol`, the row indices `Xi` of
the result and the mapping table `perm`. -/
structure FillState where
  ncol : Nat → Nat
  Xi : Nat → Nat
  perm : Nat → Nat

/-- The body of the second pass for the factor entry with index `kl`, permuted row `ip` and
permuted column `jp`. -/
def fill_entry (Xp : Nat → Nat) (kl ip jp : Nat) (st : FillState) : FillState :=
  let jx := min ip jp
  let ix := max ip jp
  let kx := Xp jx + st.ncol jx
  { ncol := store st.ncol jx (st.ncol jx + 1), Xi := store st.Xi kx ix, perm := store st.perm kl kx }

/-- Second pass of `spinv_simplicial`: row indices and mapping table. -/
def simplicial_fill (n : Nat) (Lp Li : Nat → Nat) (Lperm : Option (Nat → Nat))
    (Xp : Nat → Nat) (st : FillState) : FillState :=
  loopUp n (fun jl st =>
    let jp := PERM Lperm jl
    loopUp (Lp (jl + 1) - Lp jl) (fun t st =>
      let kl := Lp jl + t
      let il := Li kl
      let ip := PERM Lperm il
      fill_entry Xp kl ip jp st) st) st

/-! ## The pattern pass of the supernodal driver -/

/-- First pass of `spinv_super`: `Xp[jx+1]++` and `nz++` for every entry of the lower trapezoid
of every supernode.  The state is `(Xp, nz)`. -/
def super_count (nsuper : Nat) (Super Lpi Ls : Nat → Nat) (Lperm : Option (Nat → Nat))
    (Xp : Nat → Nat) (nz : Nat) : (Nat → Nat) × Nat :=
  loopUp nsuper (fun s st =>
    let j0 := Super s
    let j1 := Super (s + 1)
    let ns := j1 - j0
    let psi0 := Lpi s
    let psi1 := Lpi (s + 1)
    let ms := psi1 - psi0
    loopUp ns (fun j st =>
      let jp := PERM Lperm (j0 + j)
      loopUp (ms - j) (fun t st =>
        let i := j + t
        let ip := PERM Lperm (Ls (psi0 + i))
        let jx := min ip jp
        (store st.1 (jx + 1) (st.1 (jx + 1) + 1), st.2 + 1)) st) st) (Xp, nz)

/-- The cumulative sum of `spinv_super`: `for (jx = 1; jx <= n; jx++) Xp[jx] += Xp[jx-1]`. -/
def super_cumsum (n : Nat) (Xp : Nat → Nat) : Nat → Nat :=
  loopUp n (fun t Xp =>
    let jx := t + 1
    store Xp jx (Xp jx + Xp (jx - 1))) Xp

/-- Second pass of `spinv_super`: row indices and mapping table, the factor index of entry
`(i, j)` of supernode `s` being `Lpx[s] + i + j*ms`. -/
def super_fill (nsuper : Nat) (Super Lpi Lpx Ls : Nat → Nat) (Lperm : Option (Nat → Nat))
    (Xp : Nat → Nat) (st : FillState) : FillState :=
  loopUp nsuper (fun s st =>
    let j0 := Super s
    let j1 := Super (s + 1)
    let ns := j1 - j0
    let psi0 := Lpi s
    let psi1 := Lpi (s + 1)
    let ms := psi1 - psi0
    loopUp ns (fun j st =>
      let jp := PERM Lperm (j0 + j)
      loopUp (ms - j) (fun t st =>
        let i := j + t
        let ip := PERM Lperm (Ls (psi0 + i))
        let kl := Lpx s + i + j * ms
        fill_entry Xp kl ip jp st) st) st) st

/-- The workspace size of `spinv_super`: the largest `Lpx[s+1] - Lpx[s]`. -/
def super_maxsize (nsuper : Nat) (Lpx : Nat → Nat) (maxsize : Nat) : Nat :=
  loopUp nsuper (fun s maxsize =>
    if Lpx (s + 1) - Lpx s > maxsize then Lpx (s + 1) - Lpx s else maxsize) maxsize

/-! ## The numeric pass of the simplicial driver -/

/-- The scan `while (a[k] < ix) k++`, returning the final `k`; `none` when the fuel is used up
before the scan stops. -/
def scan (a : Nat → Nat) (ix : Nat) : Nat → Nat → Option Nat
  | 0, _ => none
  | fuel + 1, k => if a k < ix then scan a ix fuel (k + 1) else some k

/-- The workspaces of the numeric pass of `spinv_simplicial`. -/
structure SimplicialState where
  Xx : Nat → ℚ
  V : Nat → ℚ
  z : Nat → ℚ

/-- The gather of `spinv_simplicial` for the column with first index `kmin` and `nj`
off-diagonal entries: `V[iz+jz*nj] = Xx[perm[kx]]` for `jz ≤ iz < nj`, where `kx` scans column
`jx = Li[kmin+1+jz]` from its diagonal for the row `Li[kmin+1+iz]`. -/
def simplicial_gather (Lp Li perm : Nat → Nat) (Xx : Nat → ℚ) (kmin nj fuel : Nat)
    (V : Nat → ℚ) : Option (Nat → ℚ) :=
  loopUp nj (fun jz V =>
    V.bind fun V =>
      let jx := Li (kmin + 1 + jz)
      let kx := Lp jx
      (loopUp (nj - jz) (fun t st =>
        st.bind fun st =>
          let iz := jz + t
          let ix := Li (kmin + 1 + iz)
          (scan Li ix fuel st.1).map fun kx =>
            (kx, store st.2 (iz + jz * nj) (Xx (perm kx)))) (some (kx, V))).map Prod.snd)
    (some V)

/-- One iteration of the column loop of `spinv_simplicial` (real LDLᵗ case). -/
def simplicial_column (Lp Li perm : Nat → Nat) (Lx : Nat → ℚ) (fuel jl : Nat)
    (st : SimplicialState) : Option SimplicialState :=
  let kmin := Lp jl
  let kmax := Lp (jl + 1) - 1
  let nj := kmax - kmin
  let djj := Lx kmin
  if kmax > kmin then
    let Lxj := fun k => Lx (kmin + 1 + k)
    (simplicial_gather Lp Li perm st.Xx kmin nj fuel st.V).map fun V =>
      let z := cblas_dsymv nj 1 V nj Lxj 0 st.z
      let Xx := loopUp nj (fun iz Xx =>
        let kx := kmin + 1 + iz
        store Xx (perm kx) (-(z iz))) st.Xx
      let Xx := store Xx (perm kmin) (1 / djj + cblas_ddot nj z Lxj)
      { Xx := Xx, V := V, z := z }
  else
    some { st with Xx := store st.Xx (perm kmin) (1 / djj) }

/-- The column loop `for (jl = n-1; jl >= 0; jl--)` of `spinv_simplicial`. -/
def simplicial_numeric (n : Nat) (Lp Li perm : Nat → Nat) (Lx : Nat → ℚ) (fuel : Nat)
    (st : SimplicialState) : Option SimplicialState :=
  loopDown n (fun jl st => st.bind (simplicial_column Lp Li perm Lx fuel jl)) (some st)

/-! ## The numeric pass of the supernodal driver -/

/-- The scan `while (Super[scol+1]-1 < jx) scol++`. -/
def scan_super (Super : Nat → Nat) (jx : Nat) : Nat → Nat → Option Nat
  | 0, _ => none
  | fuel + 1, scol =>
    if ((Super (scol + 1) : Int) - 1 < (jx : Int)) then scan_super Super jx fuel (scol + 1)
    else some scol

/-- The workspaces of the numeric pass of `spinv_super`. -/
structure SuperState where
  Xx : Nat → ℚ
  V : Nat → ℚ
  Z : Nat → ℚ

/-- The gather of `spinv_super` for supernode `s`: `V[i+j*m2] = Xx[perm[kl]]` for
`j ≤ i < m2`. -/
def super_gather (Super Lpi Lpx Ls perm : Nat → Nat) (Xx : Nat → ℚ) (s fuel : Nat)
    (V : Nat → ℚ) : Option (Nat → ℚ) :=
  let psi0 := Lpi s
  let m1 := Super (s + 1) - Super s
  let m2 := (Lpi (s + 1) - Lpi s) - m1
  (loopUp m2 (fun j st =>
    st.bind fun st =>
      let jx := Ls (psi0 + m1 + j)
      (scan_super Super jx fuel st.1).bind fun scol =>
        let jl := jx - Super scol
        (loopUp (m2 - j) (fun t st =>
          st.bind fun st =>
            let i := j + t
            let ix := Ls (psi0 + m1 + i)
            (scan (fun il => Ls (Lpi scol + il)) ix fuel st.1).map fun il =>
              let kl := Lpx scol + il + jl * (Lpi (scol + 1) - Lpi scol)
              let kx := perm kl
              (il, store st.2 (i + j * m2) (Xx kx))) (some (0, st.2))).map fun st' =>
                (scol, st'.2)) (some (s + 1, V))).map Prod.snd

/-- The scatter of `spinv_super` for supernode `s`. -/
def super_scatter (Super Lpi Lpx perm : Nat → Nat) (Z : Nat → ℚ) (s : Nat) (Xx : Nat → ℚ) :
    Nat → ℚ :=
  let ns := Super (s + 1) - Super s
  let ms := Lpi (s + 1) - Lpi s
  let m1 := ns
  loopUp ns (fun j Xx =>
    let Xx := loopUp (m1 - j) (fun t Xx =>
      let i := j + t
      let kl := Lpx s + i + j * ms
      let kx := perm kl
      store Xx kx (1 / 2 * (Z (i + j * ms) + Z (j + i * ms)))) Xx
    loopUp (ms - m1) (fun t Xx =>
      let i := m1 + t
      let kl := Lpx s + i + j * ms
      let kx := perm kl
      store Xx kx (Z (i + j * ms))) Xx) Xx

/-- One iteration of the supernode loop of `spinv_super`. -/
def super_step (Super Lpi Lpx Ls perm : Nat → Nat) (Lx : Nat → ℚ) (fuel s : Nat)
    (st : SuperState) : Option SuperState :=
  let ns := Super (s + 1) - Super s
  let ms := Lpi (s + 1) - Lpi s
  (super_gather Super Lpi Lpx Ls perm st.Xx s fuel st.V).map fun V =>
    let Z := spinv_block (fun k => Lx (Lpx s + k)) st.Z V ms ns
    { Xx := super_scatter Super Lpi Lpx perm Z s st.Xx, V := V, Z := Z }

/-- The supernode loop `for (s = nsuper - 1; s >= 0; s--)` of `spinv_super`. -/
def super_numeric (nsuper : Nat) (Super Lpi Lpx Ls perm : Nat → Nat) (Lx : Nat → ℚ)
    (fuel : Nat) (st : SuperState) : Option SuperState :=
  loopDown nsuper (fun s st => st.bind (super_step Super Lpi Lpx Ls perm Lx fuel s)) (some st)

/-! ## The factor indices of the scatter -/

/-- The factor indices `kl = Lpx[s] + i + j*ms` of the two inner loops of the scatter of
`spinv_super` for supernode `s`, in the order of the loops: `i = j, .., m1-1` and
`i = m1, .., ms-1` for `j = 0, .., ns-1`.  The scatter assigns `Xx[perm[kl]]` for these indices
and for no other (`super_scatter_writes`). -/
def super_step_writes (Super Lpi Lpx : Nat → Nat) (s : Nat) : List Nat :=
  let ns := Super (s + 1) - Super s
  let ms := Lpi (s + 1) - Lpi s
  let m1 := ns
  (List.range ns).flatMap fun j =>
    ((List.range (m1 - j)).map fun t => Lpx s + (j + t) + j * ms) ++
      ((List.range (ms - m1)).map fun t => Lpx s + (m1 + t) + j * ms)

/-! ## The cursors of the gathers -/

/-- The cursor `scol` of the gather of `spinv_super` for supernode `s` after the searches
`while (Super[scol+1]-1 < jx) scol++` for the update rows `jx = Ls[psi0+m1+j]`, `j < k`: it
starts at `s + 1` and is shared by all update rows; the inner loop does not change it. -/
def super_cursor (Super Ls : Nat → Nat) (psi0 m1 s fuel : Nat) : Nat → Option Nat
  | 0 => some (s + 1)
  | k + 1 =>
    (super_cursor Super Ls psi0 m1 s fuel k).bind fun scol =>
      scan_super Super (Ls (psi0 + m1 + k)) fuel scol

/-- The first `k` iterations of the outer loop of the gather of `spinv_super` for supernode
`s`, with the cursor `scol` kept in the result: `super_gather` is this loop run for `m2`
iterations. -/
def super_gather_loop (Super Lpi Lpx Ls perm : Nat → Nat) (Xx : Nat → ℚ) (s fuel : Nat)
    (V : Nat → ℚ) (k : Nat) : Option (Nat × (Nat → ℚ)) :=
  let psi0 := Lpi s
  let m1 := Super (s + 1) - Super s
  let m2 := (Lpi (s + 1) - Lpi s) - m1
  loopUp k (fun j st =>
    st.bind fun st =>
      let jx := Ls (psi0 + m1 + j)
      (scan_super Super jx fuel st.1).bind fun scol =>
        let jl := jx - Super scol
        (loopUp (m2 - j) (fun t st =>
          st.bind fun st =>
            let i := j + t
            let ix := Ls (psi0 + m1 + i)
            (scan (fun il => Ls (Lpi scol + il)) ix fuel st.1).map fun il =>
              let kl := Lpx scol + il + jl * (Lpi (scol + 1) - Lpi scol)
              let kx := perm kl
              (il, store st.2 (i + j * m2) (Xx kx))) (some (0, st.2))).map fun st' =>
                (scol, st'.2)) (some (s + 1, V))

/-- The cursor `kx` of the gather of `spinv_simplicial` for the column with first index `kmin`
and the column `jz` of `V`: it starts at the diagonal `Lp[jx]` of column `jx = Li[kmin+1+jz]`
and after `t` searches `while (Li[kx] < ix) kx++` for the rows `ix = Li[kmin+1+iz]`,
`iz = jz, .., jz+t-1`, it is the index used for the last of them. -/
def simplicial_cursor (Lp Li : Nat → Nat) (kmin jz fuel : Nat) : Nat → Option Nat
  | 0 => some (Lp (Li (kmin + 1 + jz)))
  | t + 1 =>
    (simplicial_cursor Lp Li kmin jz fuel t).bind fun kx =>
      scan Li (Li (kmin + 1 + (jz + t))) fuel kx

/-! ## The iterations of the descending loops -/

/-- The state of the column loop `for (jl = n-1; jl >= 0; jl--)` of `spinv_simplicial` after its
first `d` iterations, those of the columns `n-1, .., n-d`: the iteration of column `jl` starts
in the state after `n-1-jl` iterations and ends in the state after `n-jl` iterations. -/
def simplicial_numeric_steps (n : Nat) (Lp Li perm : Nat → Nat) (Lx : Nat → ℚ) (fuel : Nat)
    (st : SimplicialState) (d : Nat) : Option SimplicialState :=
  loopDownSteps n (fun jl st => st.bind (simplicial_column Lp Li perm Lx fuel jl)) (some st) d

/-- The state of the supernode loop `for (s = nsuper - 1; s >= 0; s--)` of `spinv_super` after
its first `d` iterations, those of the supernodes `nsuper-1, .., nsuper-d`. -/
def super_numeric_steps (nsuper : Nat) (Super Lpi Lpx Ls perm : Nat → Nat) (Lx : Nat → ℚ)
    (fuel : Nat) (st : SuperState) (d : Nat) : Option SuperState :=
  loopDownSteps nsuper (fun s st => st.bind (super_step Super Lpi Lpx Ls perm Lx fuel s))
    (some st) d

/-! ## The index of the dense workspace in machine integers -/

/-- The index `iz+jz*nj` of the assignment `V[iz+jz*nj] = Xx[perm[kx]]` as the gather of
`spinv_simplicial` evaluates it, in the signed integer type `Int` of `w` bits (`w = 32`, or
`w = 64` when the file is compiled for 64-bit BLAS integers): first the product, then the sum;
`none` when one of the two is not representable (signed overflow). -/
def V_index (w : Nat) (iz jz nj : Nat) : Option Nat :=
  if jz * nj < 2 ^ (w - 1) then
    if iz + jz * nj < 2 ^ (w - 1) then some (iz + jz * nj) else none
  else none

/-- The gather of `spinv_simplicial` with the index of `V` evaluated in `Int` of `w` bits: the
gather does not return a result when the index overflows. -/
def simplicial_gather_machine (w : Nat) (Lp Li perm : Nat → Nat) (Xx : Nat → ℚ)
    (kmin nj fuel : Nat) (V : Nat → ℚ) : Option (Nat → ℚ) :=
  loopUp nj (fun jz V =>
    V.bind fun V =>
      let jx := Li (kmin + 1 + jz)
      let kx := Lp jx
      (loopUp (nj - jz) (fun t st =>
        st.bind fun st =>
          let iz := jz + t
          let ix := Li (kmin + 1 + iz)
          (scan Li ix fuel st.1).bind fun kx =>
            (V_index w iz jz nj).map fun idx =>
              (kx, store st.2 idx (Xx (perm kx)))) (some (kx, V))).map Prod.snd)
    (some V)
/-! ## CHOLMOD primitives

`cholmod_error`, the allocation routines and `cholmod_sort` belong to CHOLMOD, not to the
repository.  They are modelled by what the file relies on: `cholmod_error` records the status,
an allocation either succeeds and leaves the status alone or reports out of memory, and the
sort puts every column into ascending row order. -/

/-- The call `cholmod_error (status, file, line, msg, Common)`: the status is recorded. -/
def cholmod_error (status : Int) (Common : cholmod_common) : cholmod_common :=
  { Common with status := status }

/-- The outcome of each call into the CHOLMOD memory manager made by one run of a driver:
`true` when the call succeeds.  `malloc_z` is the workspace `z` of the simplicial driver and
`Z` of the supernodal one. -/
structure Allocator where
  spzeros : Bool
  reallocate_sparse : Bool
  calloc_ncol : Bool
  malloc_perm : Bool
  malloc_z : Bool
  malloc_V : Bool
  sort : Bool

/-- The contents of the arrays that the drivers obtain uninitialised. -/
structure Fresh where
  Xi : Nat → Nat
  Xx : Nat → ℚ
  perm : Nat → Nat
  V : Nat → ℚ
  z : Nat → ℚ

/-- A call of an allocation routine: on failure `CHOLMOD_OUT_OF_MEMORY` is reported through
`cholmod_error`, on success the status is unchanged. -/
def cholmod_alloc (ok : Bool) (Common : cholmod_common) : cholmod_common :=
  if ok then Common else cholmod_error CHOLMOD_OUT_OF_MEMORY Common

/-- One column of `cholmod_sort`: the entries of column `j` in ascending row order. -/
def sort_column (Xp : Nat → Nat) (j : Nat) (st : (Nat → Nat) × (Nat → ℚ)) :
    (Nat → Nat) × (Nat → ℚ) :=
  let len := Xp (j + 1) - Xp j
  let col := ((List.range len).map fun t => (st.1 (Xp j + t), st.2 (Xp j + t))).insertionSort
    (fun a b => a.1 ≤ b.1)
  loopUp len (fun t st =>
    (store st.1 (Xp j + t) (col.getD t (0, 0)).1, store st.2 (Xp j + t) (col.getD t (0, 0)).2)) st

/-- The matrix after a successful `cholmod_sort (X, Common)`. -/
def cholmod_sort (X : cholmod_sparse) : cholmod_sparse :=
  let r := loopUp X.ncol (fun j st => sort_column X.p j st) (X.i, X.x)
  { X with i := r.1, x := r.2, sorted := true }

/-- The code after the label `cleanup` in both drivers: the workspaces are freed, and when
the status is not a fault `X->stype = -1`, the columns are sorted and `X` is returned;
otherwise `X` is freed and `NULL` is returned. -/
def cleanup (X : cholmod_sparse) (Common : cholmod_common) (sort_ok : Bool) :
    Option cholmod_sparse × cholmod_common :=
  if Common.status ≥ CHOLMOD_OK then
    let X := { X with stype := -1 }
    let Common := cholmod_alloc sort_ok Common
    if Common.status ≥ CHOLMOD_OK then (some (cholmod_sort X), Common) else (none, Common)
  else (none, Common)

/-! ## The drivers

A driver returns `none` when one of its scans runs out of fuel, and otherwise the pair of the
returned pointer (`none` for `NULL`) and the context on return. -/

/-- The result `X` of `spinv_simplicial` after the pattern pass, with the mapping table and
`maxsize`. -/
structure Pattern where
  Xp : Nat → Nat
  Xi : Nat → Nat
  perm : Nat → Nat
  maxsize : Nat

/-- The pattern pass of `spinv_simplicial` (both passes and the cumulative sum), started on the
zeroed column pointers of `cholmod_spzeros` and the zeroed counters of `cholmod_calloc`. -/
def simplicial_pattern (L : cholmod_factor) (h : Fresh) : Pattern :=
  let Xp := simplicial_count L.n L.p L.i L.Perm (fun _ => 0)
  let c := simplicial_cumsum L.n Xp 0
  let f := simplicial_fill L.n L.p L.i L.Perm c.1 { ncol := fun _ => 0, Xi := h.Xi, perm := h.perm }
  { Xp := c.1, Xi := f.Xi, perm := f.perm, maxsize := c.2 }

/-- The pattern pass of `spinv_super`; `maxsize` is the size of the workspace `Z`. -/
def super_pattern (L : cholmod_factor) (h : Fresh) : Pattern :=
  let c := super_count L.nsuper L.super L.pi L.s L.Perm (fun _ => 0) 0
  let Xp := super_cumsum L.n c.1
  let f := super_fill L.nsuper L.super L.pi L.px L.s L.Perm Xp
    { ncol := fun _ => 0, Xi := h.Xi, perm := h.perm }
  { Xp := Xp, Xi := f.Xi, perm := f.perm, maxsize := super_maxsize L.nsuper L.px 0 }

/-- The value array `Xx` at the end of the numeric pass of `spinv_simplicial`. -/
def simplicial_values (L : cholmod_factor) (h : Fresh) (fuel : Nat) : Option (Nat → ℚ) :=
  (simplicial_numeric L.n L.p L.i (simplicial_pattern L h).perm L.x fuel
    { Xx := h.Xx, V := h.V, z := h.z }).map fun st => st.Xx

/-- The value array `Xx` at the end of the numeric pass of `spinv_super`. -/
def super_values (L : cholmod_factor) (h : Fresh) (fuel : Nat) : Option (Nat → ℚ) :=
  (super_numeric L.nsuper L.super L.pi L.px L.s (super_pattern L h).perm L.x fuel
    { Xx := h.Xx, V := h.V, Z := h.z }).map fun st => st.Xx

/-- The switch of `spinv_simplicial` on an LLᵗ factor: every numeric type is reported as
`CHOLMOD_INVALID`; a type outside the three cases falls through the switch. -/
def simplicial_ll_switch (xtype : Int) (Common : cholmod_common) : cholmod_common :=
  if xtype = CHOLMOD_REAL then cholmod_error CHOLMOD_INVALID Common
  else if xtype = CHOLMOD_COMPLEX then cholmod_error CHOLMOD_INVALID Common
  else if xtype = CHOLMOD_ZOMPLEX then cholmod_error CHOLMOD_INVALID Common
  else Common

/-- The function `spinv_simplicial (L, Common)`. -/
def spinv_simplicial (L : cholmod_factor) (Common : cholmod_common) (a : Allocator) (h : Fresh)
    (fuel : Nat) : Option (Option cholmod_sparse × cholmod_common) :=
  let n := L.n
  let nz := L.nzmax
  let xtype := L.xtype
  -- Allocate the result X
  let Common := cholmod_alloc a.spzeros Common
  let X : cholmod_sparse :=
    { nrow := n, ncol := n, nzmax := nz, p := fun _ => 0, i := h.Xi, x := h.Xx, xtype := xtype,
      stype := 0, sorted := true }
  if Common.status < CHOLMOD_OK then some (cleanup X Common a.sort)
  else
    -- Count non-zeros on columns, cumulative sum
    let Xp := simplicial_count n L.p L.i L.Perm X.p
    let c := simplicial_cumsum n Xp 0
    let X := { X with p := c.1 }
    let Common := cholmod_alloc a.calloc_ncol Common
    let Common := cholmod_alloc a.malloc_perm Common
    if Common.status < CHOLMOD_OK then some (cleanup X Common a.sort)
    else
      -- Add row indices
      let f := simplicial_fill n L.p L.i L.Perm c.1 { ncol := fun _ => 0, Xi := X.i, perm := h.perm }
      let X := { X with i := f.Xi, sorted := false }
      let Common := cholmod_alloc a.malloc_z Common
      let Common := cholmod_alloc a.malloc_V Common
      if Common.status < CHOLMOD_OK then some (cleanup X Common a.sort)
      else if L.is_ll then
        some (cleanup X (simplicial_ll_switch xtype Common) a.sort)
      else if xtype = CHOLMOD_REAL then
        (simplicial_numeric n L.p L.i f.perm L.x fuel { Xx := X.x, V := h.V, z := h.z }).map
          fun st => cleanup { X with x := st.Xx } Common a.sort
      else if xtype = CHOLMOD_COMPLEX then
        some (cleanup X (cholmod_error CHOLMOD_INVALID Common) a.sort)
      else if xtype = CHOLMOD_ZOMPLEX then
        some (cleanup X (cholmod_error CHOLMOD_INVALID Common) a.sort)
      else some (cleanup X Common a.sort)

/-- The function `spinv_super (L, Common)`. -/
def spinv_super (L : cholmod_factor) (Common : cholmod_common) (a : Allocator) (h : Fresh)
    (fuel : Nat) : Option (Option cholmod_sparse × cholmod_common) :=
  let n := L.n
  let xtype := L.xtype
  -- Allocate the result X
  let Common := cholmod_alloc a.spzeros Common
  let X : cholmod_sparse :=
    { nrow := n, ncol := n, nzmax := 0, p := fun _ => 0, i := h.Xi, x := h.Xx, xtype := xtype,
      stype := 0, sorted := true }
  if Common.status < CHOLMOD_OK then some (cleanup X Common a.sort)
  else
    -- Count non-zeros on columns
    let c := super_count L.nsuper L.super L.pi L.s L.Perm X.p 0
    let Common := cholmod_alloc a.reallocate_sparse Common
    let X := { X with p := c.1, nzmax := c.2 }
    if Common.status < CHOLMOD_OK then some (cleanup X Common a.sort)
    else
      -- Compute column pointers by computing cumulative sum
      let Xp := super_cumsum n c.1
      let X := { X with p := Xp }
      let Common := cholmod_alloc a.calloc_ncol Common
      let Common := cholmod_alloc a.malloc_perm Common
      if Common.status < CHOLMOD_OK then some (cleanup X Common a.sort)
      else
        let f := super_fill L.nsuper L.super L.pi L.px L.s L.Perm Xp
          { ncol := fun _ => 0, Xi := X.i, perm := h.perm }
        let X := { X with i := f.Xi, sorted := false }
        let Common := cholmod_alloc a.malloc_V Common
        let Common := cholmod_alloc a.malloc_z Common
        if Common.status < CHOLMOD_OK then some (cleanup X Common a.sort)
        else
          (super_numeric L.nsuper L.super L.pi L.px L.s f.perm L.x fuel
              { Xx := X.x, V := h.V, Z := h.z }).map
            fun st => cleanup { X with x := st.Xx } Common a.sort

/-- The condition of the macro `RETURN_IF_XTYPE_INVALID (L, xtype1, xtype2, result)`. -/
def xtype_invalid (L : cholmod_factor) (xtype1 xtype2 : Int) : Bool :=
  decide (L.xtype < xtype1) || decide (L.xtype > xtype2) ||
    (decide (L.xtype ≠ CHOLMOD_PATTERN) && L.x_null) ||
    (decide (L.xtype = CHOLMOD_ZOMPLEX) && L.z_null) ||
    !(decide (L.dtype = CHOLMOD_DOUBLE) || decide (L.dtype = CHOLMOD_SINGLE))

/-- The function `spinv (L, Common)` from its input checks on: the leading `ASSERT` is an empty
statement when the file is compiled with `NDEBUG`, and `spinv_debug` below is the function
compiled without it.  `ITYPE` is the integer width the file is compiled for; `none` stands for a
`NULL` argument, and for the `NULL` result in the first component of the value. -/
def spinv (ITYPE : Int) (L : Option cholmod_factor) (Common : Option cholmod_common)
    (a : Allocator) (h : Fresh) (fuel : Nat) :
    Option (Option cholmod_sparse × Option cholmod_common) :=
  match Common with
  | none => some (none, none)
  | some Common =>
    if Common.itype ≠ ITYPE then some (none, some { Common with status := CHOLMOD_INVALID })
    else
      match L with
      | none =>
        some (none, some (if Common.status ≠ CHOLMOD_OUT_OF_MEMORY
          then cholmod_error CHOLMOD_INVALID Common else Common))
      | some L =>
        if xtype_invalid L CHOLMOD_REAL CHOLMOD_ZOMPLEX then
          some (none, some (if Common.status ≠ CHOLMOD_OUT_OF_MEMORY
            then cholmod_error CHOLMOD_INVALID Common else Common))
        else
          let Common := { Common with status := CHOLMOD_OK }
          if L.is_super then
            (spinv_super L Common a h fuel).map fun r => (r.1, some r.2)
          else
            (spinv_simplicial L Common a h fuel).map fun r => (r.1, some r.2)

/-- The status left in the context by a call, when the call returns and the context is
present. -/
def returned_status (r : Option (Option cholmod_sparse × Option cholmod_common)) : Option Int :=
  r.bind fun r => r.2.map fun c => c.status

/-- Whether a call returns `NULL`. -/
def returned_null (r : Option (Option cholmod_sparse × Option cholmod_common)) : Bool :=
  match r with
  | some (none, _) => true
  | _ => false

/-- Every allocation made before the numeric pass of the simplicial driver succeeds. -/
def Allocator.simplicial_ok (a : Allocator) : Prop :=
  a.spzeros = true ∧ a.calloc_ncol = true ∧ a.malloc_perm = true ∧ a.malloc_z = true ∧
    a.malloc_V = true

/-- Every allocation made before the numeric pass of the supernodal driver succeeds. -/
def Allocator.super_ok (a : Allocator) : Prop :=
  a.spzeros = true ∧ a.reallocate_sparse = true ∧ a.calloc_ncol = true ∧ a.malloc_perm = true ∧
    a.malloc_V = true ∧ a.malloc_z = true

/-- The matrix `X` of `spinv_simplicial` at the label `cleanup` after a complete numeric pass
that left the values `Xx`. -/
def simplicial_result (L : cholmod_factor) (h : Fresh) (Xx : Nat → ℚ) : cholmod_sparse :=
  { nrow := L.n, ncol := L.n, nzmax := L.nzmax, p := (simplicial_pattern L h).Xp,
    i := (simplicial_pattern L h).Xi, x := Xx, xtype := L.xtype, stype := 0, sorted := false }

/-- The matrix `X` of `spinv_super` at the label `cleanup` after a complete numeric pass that
left the values `Xx`. -/
def super_result (L : cholmod_factor) (h : Fresh) (Xx : Nat → ℚ) : cholmod_sparse :=
  { nrow := L.n, ncol := L.n,
    nzmax := (super_count L.nsuper L.super L.pi L.s L.Perm (fun _ => 0) 0).2,
    p := (super_pattern L h).Xp, i := (super_pattern L h).Xi, x := Xx, xtype := L.xtype,
    stype := 0, sorted := false }

/-- The leading `ASSERT (L->xtype != CHOLMOD_PATTERN)` of `spinv` in a build without `NDEBUG`:
`none` when evaluating the expression dereferences a `NULL` factor, otherwise the value of the
asserted expression (the call is aborted when it is `false`). -/
def spinv_assert (L : Option cholmod_factor) : Option Bool :=
  L.map fun L => decide (L.xtype ≠ CHOLMOD_PATTERN)

/-- The function `spinv (L, Common)` compiled without `NDEBUG`: the leading
`ASSERT (L->xtype != CHOLMOD_PATTERN)` is evaluated before the input checks.  The call does not
return (`none`) when the factor is `NULL`, which the asserted expression dereferences, or when
the assertion fails and the call is aborted; otherwise it goes on as `spinv`. -/
def spinv_debug (ITYPE : Int) (L : Option cholmod_factor) (Common : Option cholmod_common)
    (a : Allocator) (h : Fresh) (fuel : Nat) :
    Option (Option cholmod_sparse × Option cholmod_common) :=
  match spinv_assert L with
  | some true => spinv ITYPE L Common a h fuel
  | _ => none
/-! ## Stored entries and stored positions -/

/-- A stored entry of the factor: its index `kl` in the value array of the factor, its row `il`
and its column `jl`. -/
structure Entry where
  kl : Nat
  il : Nat
  jl : Nat

/-- The stored entries of a simplicial factor in the order of the loops of the pattern pass:
column `jl` holds the indices `Lp[jl] ≤ kl < Lp[jl+1]`. -/
def simplicial_entries (n : Nat) (Lp Li : Nat → Nat) : List Entry :=
  (List.range n).flatMap fun jl =>
    (List.range (Lp (jl + 1) - Lp jl)).map fun t =>
      { kl := Lp jl + t, il := Li (Lp jl + t), jl := jl }

/-- The entries of the lower trapezoids of the supernodes in the order of the loops of the
pattern pass: entry `(i, j)` with `j ≤ i < ms`, `j < ns` of supernode `s` has row `Ls[psi0+i]`,
column `Super[s]+j` and index `Lpx[s] + i + j*ms`. -/
def super_entries (nsuper : Nat) (Super Lpi Lpx Ls : Nat → Nat) : List Entry :=
  (List.range nsuper).flatMap fun s =>
    (List.range (Super (s + 1) - Super s)).flatMap fun j =>
      (List.range ((Lpi (s + 1) - Lpi s) - j)).map fun t =>
        { kl := Lpx s + (j + t) + j * (Lpi (s + 1) - Lpi s), il := Ls (Lpi s + (j + t)),
          jl := Super s + j }

/-- The column of the result that receives a factor entry: `MIN (ip, jp)`. -/
def Entry.jx (Lperm : Option (Nat → Nat)) (e : Entry) : Nat :=
  min (PERM Lperm e.il) (PERM Lperm e.jl)

/-- The row of the result that receives a factor entry: `MAX (ip, jp)`. -/
def Entry.ix (Lperm : Option (Nat → Nat)) (e : Entry) : Nat :=
  max (PERM Lperm e.il) (PERM Lperm e.jl)

/-- The (row, column) positions stored in a compressed-column pattern with `n` columns, column
by column in storage order. -/
def positions (n : Nat) (Xp Xi : Nat → Nat) : List (Nat × Nat) :=
  (List.range n).flatMap fun c =>
    (List.range (Xp (c + 1) - Xp c)).map fun r => (Xi (Xp c + r), c)

/-- The first pass over a list of entries. -/
def countL (Lperm : Option (Nat → Nat)) (E : List Entry) (Xp : Nat → Nat) : Nat → Nat :=
  E.foldl (fun Xp e => store Xp (e.jx Lperm + 1) (Xp (e.jx Lperm + 1) + 1)) Xp

/-- The second pass over a list of entries. -/
def fillL (Lperm : Option (Nat → Nat)) (Xp : Nat → Nat) (E : List Entry) (st : FillState) :
    FillState :=
  E.foldl (fun st e => fill_entry Xp e.kl (PERM Lperm e.il) (PERM Lperm e.jl) st) st

/-- `Perm` is absent or a permutation of `0 .. n-1`. -/
def PermOK (n : Nat) (Lperm : Option (Nat → Nat)) : Prop :=
  (∀ i, i < n → PERM Lperm i < n) ∧
    (∀ i, i < n → ∀ j, j < n → PERM Lperm i = PERM Lperm j → i = j)

/-- The entries of a list that go to column `c` of the result, in order. -/
def bucket (Lperm : Option (Nat → Nat)) (E : List Entry) (c : Nat) : List Entry :=
  E.filter fun e => decide (e.jx Lperm = c)

/-- The number of entries that go to the columns before `c`. -/
def start (Lperm : Option (Nat → Nat)) (E : List Entry) (c : Nat) : Nat :=
  ∑ i in range c, (bucket Lperm E i).length

/-- What the second pass has established after the entries `P`, a prefix of all entries, starting
from the state `st0`. -/
structure FillInv (Lperm : Option (Nat → Nat)) (n : Nat) (Xp : Nat → Nat) (st0 : FillState)
    (P : List Entry) (st : FillState) : Prop where
  ncol : ∀ c, st.ncol c = (bucket Lperm P c).length
  rows : ∀ c, c < n → ∀ r, r < (bucket Lperm P c).length →
    st.Xi (Xp c + r) = ((bucket Lperm P c).map (Entry.ix Lperm)).getD r 0
  slot : ∀ e, e ∈ P → Xp (e.jx Lperm) ≤ st.perm e.kl ∧
    st.perm e.kl < Xp (e.jx Lperm) + (bucket Lperm P (e.jx Lperm)).length
  row : ∀ e, e ∈ P → st.Xi (st.perm e.kl) = e.ix Lperm
  inj : ∀ e, e ∈ P → ∀ e', e' ∈ P → st.perm e.kl = st.perm e'.kl → e.kl = e'.kl
  frame : ∀ k, (∀ e, e ∈ P → k ≠ e.kl) → st.perm k = st0.perm k

/-- A well-formed packed simplicial factor pattern: every column `j` occupies the indices
`Lp[j] ≤ k < Lp[j+1]`, starts with its diagonal entry, and has strictly ascending rows below
`n`. -/
structure SimplicialWF (n : Nat) (Lp Li : Nat → Nat) : Prop where
  nonempty : ∀ j, j < n → Lp j < Lp (j + 1)
  diag : ∀ j, j < n → Li (Lp j) = j
  asc : ∀ j, j < n → ∀ k, Lp j ≤ k → k + 1 < Lp (j + 1) → Li k < Li (k + 1)
  bound : ∀ j, j < n → ∀ k, Lp j ≤ k → k < Lp (j + 1) → Li k < n

/-- A well-formed supernodal factor pattern: the supernodes partition the columns `0 .. n-1`
into consecutive nonempty ranges, the row list of a supernode begins with its own columns and
is strictly ascending with rows below `n`, and the panels do not overlap in the value array. -/
structure SuperWF (n nsuper : Nat) (Super Lpi Lpx Ls : Nat → Nat) : Prop where
  first : Super 0 = 0
  last : Super nsuper = n
  cols : ∀ s, s < nsuper → Super s < Super (s + 1)
  rows : ∀ s, s < nsuper → Super (s + 1) - Super s ≤ Lpi (s + 1) - Lpi s
  own : ∀ s, s < nsuper → ∀ j, j < Super (s + 1) - Super s → Ls (Lpi s + j) = Super s + j
  asc : ∀ s, s < nsuper → ∀ i, i + 1 < Lpi (s + 1) - Lpi s →
    Ls (Lpi s + i) < Ls (Lpi s + (i + 1))
  bound : ∀ s, s < nsuper → ∀ i, i < Lpi (s + 1) - Lpi s → Ls (Lpi s + i) < n
  panel : ∀ s, s < nsuper →
    Lpx s + (Lpi (s + 1) - Lpi s) * (Super (s + 1) - Super s) ≤ Lpx (s + 1)

/-- The stored lower-triangular entries of a factor of either layout. -/
def factor_entries (L : cholmod_factor) : List Entry :=
  if L.is_super then super_entries L.nsuper L.super L.pi L.px L.s
  else simplicial_entries L.n L.p L.i

/-- The result pattern and mapping table built by the driver that serves the factor. -/
def factor_pattern (L : cholmod_factor) (h : Fresh) : Pattern :=
  if L.is_super then super_pattern L h else simplicial_pattern L h

/-- The pattern of the factor is well formed for its layout. -/
def FactorWF (L : cholmod_factor) : Prop :=
  if L.is_super then SuperWF L.n L.nsuper L.super L.pi L.px L.s
  else SimplicialWF L.n L.p L.i

/-- A diagonal simplicial factor: well formed, one stored entry (the diagonal) in every
column, with a nonzero value. -/
structure DiagonalSimplicial (L : cholmod_factor) : Prop where
  wf : SimplicialWF L.n L.p L.i
  one : ∀ j, j < L.n → L.p (j + 1) = L.p j + 1
  nz : ∀ j, j < L.n → L.x (L.p j) ≠ 0

/-- A diagonal supernodal factor: well formed, every supernode has one column and one row,
with a nonzero value. -/
structure DiagonalSuper (L : cholmod_factor) : Prop where
  wf : SuperWF L.n L.nsuper L.super L.pi L.px L.s
  onecol : ∀ s, s < L.nsuper → L.super (s + 1) = L.super s + 1
  onerow : ∀ s, s < L.nsuper → L.pi (s + 1) = L.pi s + 1
  nz : ∀ s, s < L.nsuper → L.x (L.px s) ≠ 0

/-- A diagonal factor that `spinv` serves: a supernodal factor, or a simplicial LDLᵗ factor. -/
def DiagonalFactor (L : cholmod_factor) : Prop :=
  if L.is_super then DiagonalSuper L else L.is_ll = false ∧ DiagonalSimplicial L

/-- The `j`-th diagonal value of the inverse of the matrix factorised by a diagonal factor:
`1 / l_j²` for the LLᵗ factor held by the supernodal layout, `1 / d_j` for the LDLᵗ factor
held by the simplicial layout. -/
def diagonal_inverse (L : cholmod_factor) (j : Nat) : ℚ :=
  if L.is_super then 1 / (L.x (L.px j)) ^ 2 else 1 / L.x (L.p j)

/-- What `spinv` returns for a diagonal factor. -/
def DiagonalResult (L : cholmod_factor) (X : cholmod_sparse) : Prop :=
  X.nrow = L.n ∧ X.ncol = L.n ∧ (∀ c, c ≤ L.n → X.p c = c) ∧
    positions L.n X.p X.i = ((List.range L.n).map fun c => (c, c)) ∧
    ∀ j, j < L.n → X.i (PERM L.Perm j) = PERM L.Perm j ∧
      X.x (PERM L.Perm j) = diagonal_inverse L j

/-- Row `i` is stored in column `j` of a simplicial factor. -/
def simplicial_stored (Lp Li : Nat → Nat) (i j : Nat) : Prop :=
  ∃ k, Lp j ≤ k ∧ k < Lp (j + 1) ∧ Li k = i

/-- The pattern of a simplicial factor is closed under fill: if `(i, j)` and `(k, j)` are stored
with `i > k > j`, then `(i, k)` is stored. -/
def SimplicialFillClosed (n : Nat) (Lp Li : Nat → Nat) : Prop :=
  ∀ j, j < n → ∀ i k, simplicial_stored Lp Li i j → simplicial_stored Lp Li k j →
    j < k → k < i → simplicial_stored Lp Li i k

/-- The unit lower triangular matrix `L` of an LDLᵗ factor: ones on the diagonal, the stored
off-diagonal values below it. -/
def simplicial_L (n : Nat) (Lp Li : Nat → Nat) (Lx : Nat → ℚ) : Matrix (Fin n) (Fin n) ℚ :=
  fun i j => if i = j then 1
    else ∑ k in Ico (Lp j + 1) (Lp (j + 1)), if Li k = (i : Nat) then Lx k else 0

/-- The diagonal matrix `D` of an LDLᵗ factor: the values stored in the diagonal slots. -/
def simplicial_D (n : Nat) (Lp : Nat → Nat) (Lx : Nat → ℚ) : Matrix (Fin n) (Fin n) ℚ :=
  Matrix.diagonal fun j => Lx (Lp j)

/-- A matrix on `Fin n` as a function of natural numbers, zero outside the range. -/
def natEntry {n : Nat} (X : Matrix (Fin n) (Fin n) ℚ) (i j : Nat) : ℚ :=
  if h : i < n ∧ j < n then X ⟨i, h.1⟩ ⟨j, h.2⟩ else 0

/-- The facts about a simplicial LDLᵗ factor, its mapping table `perm` and the entries `XN` of
the inverse on which the numeric pass relies. -/
structure SimplicialCtx (n : Nat) (Lp Li perm : Nat → Nat) (Lx : Nat → ℚ) (XN : Nat → Nat → ℚ)
    (fuel : Nat) : Prop where
  wf : SimplicialWF n Lp Li
  fill : SimplicialFillClosed n Lp Li
  fuel : Lp n < fuel
  inj : ∀ c, c < n → ∀ k, Lp c ≤ k → k < Lp (c + 1) → ∀ c', c' < n → ∀ k', Lp c' ≤ k' →
    k' < Lp (c' + 1) → perm k = perm k' → k = k'
  sym : ∀ i j, XN i j = XN j i
  low : ∀ j, j < n → ∀ i, i < n → j < i →
    XN i j + ∑ t in range (Lp (j + 1) - (Lp j + 1)),
      XN i (Li (Lp j + 1 + t)) * Lx (Lp j + 1 + t) = 0
  diag : ∀ j, j < n →
    XN j j + ∑ t in range (Lp (j + 1) - (Lp j + 1)),
      XN j (Li (Lp j + 1 + t)) * Lx (Lp j + 1 + t) = 1 / Lx (Lp j)

/-- The values of the columns `c ≥ i` of the result are those of the inverse. -/
def SimplicialDone (n : Nat) (Lp Li perm : Nat → Nat) (XN : Nat → Nat → ℚ) (i : Nat)
    (Xx : Nat → ℚ) : Prop :=
  ∀ c, i ≤ c → c < n → ∀ k, Lp c ≤ k → k < Lp (c + 1) → Xx (perm k) = XN (Li k) c

/-- Row `i` is stored in column `j` of a supernodal factor: `(i, j)` is an entry of the lower
trapezoid of a supernode. -/
def super_stored (nsuper : Nat) (Super Lpi Ls : Nat → Nat) (i j : Nat) : Prop :=
  ∃ s, s < nsuper ∧ ∃ jj, jj < Super (s + 1) - Super s ∧
    ∃ ii, jj ≤ ii ∧ ii < Lpi (s + 1) - Lpi s ∧ Super s + jj = j ∧ Ls (Lpi s + ii) = i

/-- The pattern of a supernodal factor is closed under fill. -/
def SuperFillClosed (n nsuper : Nat) (Super Lpi Ls : Nat → Nat) : Prop :=
  ∀ j, j < n → ∀ i k, super_stored nsuper Super Lpi Ls i j →
    super_stored nsuper Super Lpi Ls k j → j < k → k < i → super_stored nsuper Super Lpi Ls i k

/-- The lower triangular matrix `L` of a supernodal LLᵗ factor: entry `(i, j)` with `j ≤ i` of
the panel of supernode `s` is the value of `L` at row `Ls[Lpi[s]+i]`, column `Super[s]+j`; the
strictly upper part of the diagonal block of a panel is not part of `L`. -/
def super_L (n nsuper : Nat) (Super Lpi Lpx Ls : Nat → Nat) (Lx : Nat → ℚ) :
    Matrix (Fin n) (Fin n) ℚ :=
  fun r c =>
    ∑ s in range nsuper, ∑ j in range (Super (s + 1) - Super s),
      ∑ i in Ico j (Lpi (s + 1) - Lpi s),
        if Super s + j = (c : Nat) ∧ Ls (Lpi s + i) = (r : Nat)
        then Lx (Lpx s + i + j * (Lpi (s + 1) - Lpi s)) else 0

/-- The product of the row vector `f` with the column `b` of supernode `s` of the factor, as a
sum over the stored entries of that column. -/
def super_colsum (Lpi Lpx Ls : Nat → Nat) (Lx : Nat → ℚ) (s b : Nat) (f : Nat → ℚ) : ℚ :=
  ∑ i in Ico b (Lpi (s + 1) - Lpi s),
    f (Ls (Lpi s + i)) * Lx (Lpx s + i + b * (Lpi (s + 1) - Lpi s))

/-- The facts about a supernodal LLᵗ factor, its mapping table `perm` and the entries `XN` of
the inverse on which the numeric pass relies. -/
structure SuperCtx (n nsuper : Nat) (Super Lpi Lpx Ls perm : Nat → Nat) (Lx : Nat → ℚ)
    (XN : Nat → Nat → ℚ) (fuel : Nat) : Prop where
  wf : SuperWF n nsuper Super Lpi Lpx Ls
  fill : SuperFillClosed n nsuper Super Lpi Ls
  nz : ∀ s, s < nsuper → ∀ j, j < Super (s + 1) - Super s →
    Lx (Lpx s + j + j * (Lpi (s + 1) - Lpi s)) ≠ 0
  fuel : nsuper + n < fuel
  inj : ∀ s, s < nsuper → ∀ j, j < Super (s + 1) - Super s → ∀ i, j ≤ i →
    i < Lpi (s + 1) - Lpi s → ∀ s', s' < nsuper → ∀ j', j' < Super (s' + 1) - Super s' →
    ∀ i', j' ≤ i' → i' < Lpi (s' + 1) - Lpi s' →
    perm (Lpx s + i + j * (Lpi (s + 1) - Lpi s))
      = perm (Lpx s' + i' + j' * (Lpi (s' + 1) - Lpi s')) →
    s = s' ∧ i = i' ∧ j = j'
  sym : ∀ i j, XN i j = XN j i
  low : ∀ s, s < nsuper → ∀ b, b < Super (s + 1) - Super s → ∀ r, r < n → Super s + b < r →
    super_colsum Lpi Lpx Ls Lx s b (XN r) = 0
  diag : ∀ s, s < nsuper → ∀ a, a < Super (s + 1) - Super s →
    ∀ b, b < Super (s + 1) - Super s →
    ∑ c in Ico a (Super (s + 1) - Super s),
      Lx (Lpx s + c + a * (Lpi (s + 1) - Lpi s))
        * super_colsum Lpi Lpx Ls Lx s b (XN (Super s + c))
      = if a = b then 1 else 0

/-- The values of the supernodes `s' ≥ s` of the result are those of the inverse. -/
def SuperDone (nsuper : Nat) (Super Lpi Lpx Ls perm : Nat → Nat) (XN : Nat → Nat → ℚ)
    (s : Nat) (Xx : Nat → ℚ) : Prop :=
  ∀ s', s ≤ s' → s' < nsuper → ∀ j, j < Super (s' + 1) - Super s' → ∀ i, j ≤ i →
    i < Lpi (s' + 1) - Lpi s' →
    Xx (perm (Lpx s' + i + j * (Lpi (s' + 1) - Lpi s'))) = XN (Ls (Lpi s' + i)) (Super s' + j)

/-- The `(k+1) × 1` panel `[l ; l·Lj]` in column-major storage. -/
def column_panel (l : ℚ) (Lj : Nat → ℚ) : Nat → ℚ :=
  fun i => if i = 0 then l else l * Lj (i - 1)

/-- The scatter of `spinv_super` for supernode `s` with the plain value `Z[i+j*ms]` stored for
the diagonal block in place of `0.5*(Z[i+j*ms]+Z[j+i*ms])`: the comparison definition for the
statement that the symmetrisation changes no result. -/
def super_scatter_plain (Super Lpi Lpx perm : Nat → Nat) (Z : Nat → ℚ) (s : Nat)
    (Xx : Nat → ℚ) : Nat → ℚ :=
  let ns := Super (s + 1) - Super s
  let ms := Lpi (s + 1) - Lpi s
  let m1 := ns
  loopUp ns (fun j Xx =>
    let Xx := loopUp (m1 - j) (fun t Xx =>
      let i := j + t
      let kl := Lpx s + i + j * ms
      let kx := perm kl
      store Xx kx (Z (i + j * ms))) Xx
    loopUp (ms - m1) (fun t Xx =>
      let i := m1 + t
      let kl := Lpx s + i + j * ms
      let kx := perm kl
      store Xx kx (Z (i + j * ms))) Xx) Xx
/-! ## Concrete factors -/

/-- The `Int` array with the given elements (zero beyond them). -/
def arrN (l : List Nat) : Nat → Nat := fun k => l.getD k 0

/-- The `double` array with the given elements (zero beyond them). -/
def arrQ (l : List ℚ) : Nat → ℚ := fun k => l.getD k 0

/-- An allocator all of whose calls succeed. -/
def alloc_ok : Allocator :=
  { spzeros := true, reallocate_sparse := true, calloc_ncol := true, malloc_perm := true,
    malloc_z := true, malloc_V := true, sort := true }

/-- Some contents for the uninitialised arrays. -/
def fresh_junk : Fresh :=
  { Xi := fun _ => 9, Xx := fun _ => 7, perm := fun _ => 5, V := fun _ => 3, z := fun _ => 1 }

/-- The simplicial LDLᵗ factor of order 3 with tridiagonal pattern, `D = (2, 3, 5)`,
`l10 = 1/2`, `l21 = 1/3` and no permutation. -/
def tridiagonal_factor : cholmod_factor :=
  { n := 3, xtype := CHOLMOD_REAL, dtype := CHOLMOD_DOUBLE, is_ll := false, is_super := false,
    x_null := false, z_null := true, Perm := none,
    x := arrQ [2, 1 / 2, 3, 1 / 3, 5], nzmax := 5, p := arrN [0, 2, 4, 5],
    i := arrN [0, 1, 1, 2, 2],
    nsuper := 0, super := arrN [], pi := arrN [], px := arrN [], s := arrN [],
    xsize := 0, maxesize := 0 }

/-- The same factor marked as an LLᵗ factor. -/
def tridiagonal_ll_factor : cholmod_factor :=
  { tridiagonal_factor with is_ll := true }

/-- A supernodal 1×1 factor of complex type with a single supernode. -/
def complex_super_factor : cholmod_factor :=
  { n := 1, xtype := CHOLMOD_COMPLEX, dtype := CHOLMOD_DOUBLE, is_ll := true, is_super := true,
    x_null := false, z_null := true, Perm := none,
    x := arrQ [2, 1], nzmax := 0, p := arrN [], i := arrN [],
    nsuper := 1, super := arrN [0, 1], pi := arrN [0, 1], px := arrN [0, 1], s := arrN [0],
    xsize := 1, maxesize := 0 }

/-- The tridiagonal factor with the permutation `Perm = [2, 0, 1]`. -/
def tridiagonal_perm_factor : cholmod_factor :=
  { tridiagonal_factor with Perm := some (arrN [2, 0, 1]) }

/-- A supernodal LLᵗ factor of order 3 with a supernode of two columns (rows 0, 1, 2) above a
supernode of one column: `L = [[2,0,0],[1,3,0],[1/2,1/3,5]]`. -/
def two_supernode_factor : cholmod_factor :=
  { n := 3, xtype := CHOLMOD_REAL, dtype := CHOLMOD_DOUBLE, is_ll := true, is_super := true,
    x_null := false, z_null := true, Perm := none,
    x := arrQ [2, 1, 1 / 2, 0, 3, 1 / 3, 5], nzmax := 0, p := arrN [], i := arrN [],
    nsuper := 2, super := arrN [0, 2, 3], pi := arrN [0, 3, 4], px := arrN [0, 6, 7],
    s := arrN [0, 1, 2, 2], xsize := 7, maxesize := 1 }

/-- The simplicial LDLᵗ factor of order 1 with `D = (2)`. -/
def one_by_one_factor : cholmod_factor :=
  { n := 1, xtype := CHOLMOD_REAL, dtype := CHOLMOD_DOUBLE, is_ll := false, is_super := false,
    x_null := false, z_null := true, Perm := none,
    x := arrQ [2], nzmax := 1, p := arrN [0, 1], i := arrN [0],
    nsuper := 0, super := arrN [], pi := arrN [], px := arrN [], s := arrN [],
    xsize := 0, maxesize := 0 }

/-- The supernodal LLᵗ factor of order 1 with `L = (2)`. -/
def one_by_one_super_factor : cholmod_factor :=
  { n := 1, xtype := CHOLMOD_REAL, dtype := CHOLMOD_DOUBLE, is_ll := true, is_super := true,
    x_null := false, z_null := true, Perm := none,
    x := arrQ [2], nzmax := 0, p := arrN [], i := arrN [],
    nsuper := 1, super := arrN [0, 1], pi := arrN [0, 1], px := arrN [0, 1], s := arrN [0],
    xsize := 1, maxesize := 0 }

/-- Whether `p k` holds for every `k < N`. -/
def allBelow (N : Nat) (p : Nat → Bool) : Bool := (List.range N).all p

/-- Whether `p k` holds for some `k < N`. -/
def anyBelow (N : Nat) (p : Nat → Bool) : Bool := (List.range N).any p

/-- A checker for fill closure of a simplicial pattern all of whose indices are below `N`. -/
def fill_closed_check (n N : Nat) (Lp Li : Nat → Nat) : Bool :=
  allBelow n fun j => decide (Lp (j + 1) ≤ N) &&
    allBelow N fun q1 => allBelow N fun q2 =>
      !(decide (Lp j ≤ q1) && decide (q1 < Lp (j + 1)) && decide (Lp j ≤ q2) &&
          decide (q2 < Lp (j + 1)) && decide (j < Li q2) && decide (Li q2 < Li q1)) ||
        anyBelow N fun q3 =>
          decide (Lp (Li q2) ≤ q3) && decide (q3 < Lp (Li q2 + 1)) && decide (Li q3 = Li q1)

/-- The simplicial LDLᵗ factor of order 3 with tridiagonal pattern, `D = (d0, d1, d2)`, the
values `l10`, `l21` below the diagonal and no permutation. -/
def tridiagonal_ldl (d0 l10 d1 l21 d2 : ℚ) : cholmod_factor :=
  { tridiagonal_factor with x := arrQ [d0, l10, d1, l21, d2] }

/-- A simplicial LLᵗ factor of order 0. -/
def empty_ll_factor : cholmod_factor :=
  { n := 0, xtype := CHOLMOD_REAL, dtype := CHOLMOD_DOUBLE, is_ll := true, is_super := false,
    x_null := false, z_null := true, Perm := none,
    x := arrQ [], nzmax := 0, p := arrN [0], i := arrN [],
    nsuper := 0, super := arrN [], pi := arrN [], px := arrN [], s := arrN [],
    xsize := 0, maxesize := 0 }

/-- A simplicial LDLᵗ factor of order 0. -/
def empty_ldl_factor : cholmod_factor :=
  { empty_ll_factor with is_ll := false }

/-- A supernodal factor of order 0. -/
def empty_super_factor : cholmod_factor :=
  { empty_ll_factor with is_super := true, super := arrN [0], pi := arrN [0], px := arrN [0] }

/-- An allocator whose first call, the allocation of the result, fails. -/
def alloc_fail : Allocator :=
  { alloc_ok with spzeros := false }

/-- An allocator whose allocation of the workspace `V` fails. -/
def alloc_fail_V : Allocator :=
  { alloc_ok with malloc_V := false }

/-- A simplicial factor of order 3 whose first column is full and whose other columns hold
the diagonal only (the pattern is not closed under fill), with the permutation
`Perm = [2, 1, 0]`. -/
def arrow_perm_factor : cholmod_factor :=
  { n := 3, xtype := CHOLMOD_REAL, dtype := CHOLMOD_DOUBLE, is_ll := false, is_super := false,
    x_null := false, z_null := true, Perm := some (arrN [2, 1, 0]),
    x := arrQ [2, 1, 1, 3, 5], nzmax := 5, p := arrN [0, 3, 4, 5],
    i := arrN [0, 1, 2, 1, 2],
    nsuper := 0, super := arrN [], pi := arrN [], px := arrN [], s := arrN [],
    xsize := 0, maxesize := 0 }

/-- A supernodal LLᵗ factor of order 3 with three supernodes of one column each and a full
lower triangle: `L = [[2,0,0],[1,3,0],[1/2,1/3,5]]`. -/
def dense_super_factor : cholmod_factor :=
  { n := 3, xtype := CHOLMOD_REAL, dtype := CHOLMOD_DOUBLE, is_ll := true, is_super := true,
    x_null := false, z_null := true, Perm := none,
    x := arrQ [2, 1, 1 / 2, 3, 1 / 3, 5], nzmax := 0, p := arrN [], i := arrN [],
    nsuper := 3, super := arrN [0, 1, 2, 3], pi := arrN [0, 3, 5, 6], px := arrN [0, 3, 5, 6],
    s := arrN [0, 1, 2, 1, 2, 2], xsize := 6, maxesize := 2 }

/-- The simplicial LDLᵗ factor of order 3 with a full lower triangle, `D = (2, 3, 5)`,
`l10 = 1`, `l20 = 1/2`, `l21 = 1/3` and no permutation. -/
def dense_factor : cholmod_factor :=
  { n := 3, xtype := CHOLMOD_REAL, dtype := CHOLMOD_DOUBLE, is_ll := false, is_super := false,
    x_null := false, z_null := true, Perm := none,
    x := arrQ [2, 1, 1 / 2, 3, 1 / 3, 5], nzmax := 6, p := arrN [0, 3, 5, 6],
    i := arrN [0, 1, 2, 1, 2, 2],
    nsuper := 0, super := arrN [], pi := arrN [], px := arrN [], s := arrN [],
    xsize := 0, maxesize := 0 }

/-- Column pointers of the full lower triangle of order `N`: column `j` holds the `N - j` rows
`j, .., N-1`. -/
def triangle_Lp (N : Nat) : Nat → Nat
  | 0 => 0
  | j + 1 => triangle_Lp N j + (N - j)

/-- Row indices of the full lower triangle of order `N`: the index `k` lies in the column `j`
that has `j` columns ending at or before `k`, at the row `j + (k - Lp[j])`. -/
def triangle_Li (N : Nat) (k : Nat) : Nat :=
  ((Finset.range N).filter fun c => triangle_Lp N (c + 1) ≤ k).card
    + (k - triangle_Lp N ((Finset.range N).filter fun c => triangle_Lp N (c + 1) ≤ k).card)

/-- The simplicial LDLᵗ factor of order `N` with a full lower triangle, all of whose values are
`1`, and no permutation. -/
def triangle_factor (N : Nat) : cholmod_factor :=
  { n := N, xtype := CHOLMOD_REAL, dtype := CHOLMOD_DOUBLE, is_ll := false, is_super := false,
    x_null := false, z_null := true, Perm := none,
    x := fun _ => 1, nzmax := triangle_Lp N N, p := triangle_Lp N, i := triangle_Li N,
    nsuper := 0, super := arrN [], pi := arrN [], px := arrN [], s := arrN [],
    xsize := 0, maxesize := 0 }
/-! ## Loop rules -/

theorem loopUp_inv {σ : Type} (P : Nat → σ → Prop) (n : Nat) (f : Nat → σ → σ) (s : σ)
    (h0 : P 0 s) (hstep : ∀ i, i < n → ∀ t, P i t → P (i + 1) (f i t)) :
    P n (loopUp n f s) := by
  induction n with
  | zero => exact h0
  | succ k ih =>
    exact hstep k (Nat.lt_succ_self k) _
      (ih (fun i hi t ht => hstep i (Nat.lt_succ_of_lt hi) t ht))

theorem loopDown_inv {σ : Type} (P : Nat → σ → Prop) (n : Nat) (f : Nat → σ → σ) (s : σ)
    (h0 : P n s) (hstep : ∀ i, i < n → ∀ t, P (i + 1) t → P i (f i t)) :
    P 0 (loopDown n f s) := by
  induction n generalizing s with
  | zero => exact h0
  | succ k ih =>
    exact ih (f k s) (hstep k (Nat.lt_succ_self k) s h0)
      (fun i hi t ht => hstep i (Nat.lt_succ_of_lt hi) t ht)

theorem store_same {α : Type} (a : Nat → α) (k : Nat) (v : α) : store a k v k = v := by
  simp [store]

theorem store_other {α : Type} (a : Nat → α) (k : Nat) (v : α) (p : Nat) (h : p ≠ k) :
    store a k v p = a p := by
  simp [store, h]

theorem colmajor_inj {ld i j i' j' : Nat} (hi : i < ld) (hi' : i' < ld)
    (h : i + j * ld = i' + j' * ld) : i = i' ∧ j = j' := by
  have hj : j = j' := by
    have h1 : (i + j * ld) / ld = j := by
      rw [Nat.add_mul_div_right _ _ (by omega), Nat.div_eq_of_lt hi, Nat.zero_add]
    have h2 : (i' + j' * ld) / ld = j' := by
      rw [Nat.add_mul_div_right _ _ (by omega), Nat.div_eq_of_lt hi', Nat.zero_add]
    rw [← h1, ← h2, h]
  subst hj
  exact ⟨by omega, rfl⟩

/-- A doubly nested loop that stores a value depending only on the loop indices at an
injective family of positions. -/
theorem fill2_spec (A B : Nat) (idx : Nat → Nat → Nat) (val : Nat → Nat → ℚ) (C : Nat → ℚ)
    (hinj : ∀ a, a < A → ∀ b, b < B → ∀ a', a' < A → ∀ b', b' < B →
      idx a b = idx a' b' → a = a' ∧ b = b') :
    (∀ a, a < A → ∀ b, b < B →
      loopUp A (fun a C => loopUp B (fun b C => store C (idx a b) (val a b)) C) C (idx a b)
        = val a b) ∧
    (∀ p, (∀ a, a < A → ∀ b, b < B → p ≠ idx a b) →
      loopUp A (fun a C => loopUp B (fun b C => store C (idx a b) (val a b)) C) C p = C p) := by
  have key := loopUp_inv
    (fun k (C' : Nat → ℚ) =>
      (∀ a, a < k → ∀ b, b < B → C' (idx a b) = val a b) ∧
      (∀ p, (∀ a, a < k → ∀ b, b < B → p ≠ idx a b) → C' p = C p))
    A (fun a C => loopUp B (fun b C => store C (idx a b) (val a b)) C) C
    ⟨fun a ha => absurd ha (Nat.not_lt_zero a), fun p _ => rfl⟩
    (by
      intro k hk t ⟨h1, h2⟩
      have inner := loopUp_inv
        (fun l (C' : Nat → ℚ) =>
          (∀ b, b < l → C' (idx k b) = val k b) ∧
          (∀ p, (∀ b, b < l → p ≠ idx k b) → C' p = t p))
        B (fun b C => store C (idx k b) (val k b)) t
        ⟨fun b hb => absurd hb (Nat.not_lt_zero b), fun p _ => rfl⟩
        (by
          intro l hl u ⟨g1, g2⟩
          refine ⟨fun b hb => ?_, fun p hp => ?_⟩ <;> dsimp only
          · by_cases hbl : b = l
            · subst hbl; exact store_same _ _ _
            · rw [store_other _ _ _ _ (fun h => hbl (hinj k hk b (by omega) k hk l hl h).2)]
              exact g1 b (by omega)
          · rw [store_other _ _ _ _ (hp l (Nat.lt_succ_self l))]
            exact g2 p (fun b hb => hp b (Nat.lt_succ_of_lt hb)))
      obtain ⟨i1, i2⟩ := inner
      refine ⟨fun a ha b hb => ?_, fun p hp => ?_⟩ <;> dsimp only
      · by_cases hak : a = k
        · subst hak; exact i1 b hb
        · have ha' : a < k := by omega
          rw [i2 _ (fun b' hb' h => hak (hinj a (by omega) b hb k hk b' hb' h).1)]
          exact h1 a ha' b hb
      · rw [i2 p (fun b hb => hp k (Nat.lt_succ_self k) b hb)]
        exact h2 p (fun a ha b hb => hp a (Nat.lt_succ_of_lt ha) b hb))
  exact key

/-! ## The dense kernels satisfy their contracts -/

theorem colmajor_off_inj {c0 ld i j i' j' : Nat} (hi : i < ld) (hi' : i' < ld)
    (h : c0 + i + j * ld = c0 + i' + j' * ld) : i = i' ∧ j = j' :=
  colmajor_inj hi hi' (by omega)

theorem cblas_dsymm_spec (M N : Nat) (alpha : ℚ) (A : Nat → ℚ) (lda : Nat) (B : Nat → ℚ)
    (ldb : Nat) (beta : ℚ) (Cbuf : Nat → ℚ) (c0 ldc : Nat) (hM : M ≤ ldc) :
    (∀ i, i < M → ∀ j, j < N →
      cblas_dsymm M N alpha A lda B ldb beta Cbuf c0 ldc (c0 + i + j * ldc)
        = alpha * (∑ k in range M, symLower A lda i k * B (k + j * ldb))
          + beta * Cbuf (c0 + i + j * ldc)) ∧
    (∀ p, (∀ i, i < M → ∀ j, j < N → p ≠ c0 + i + j * ldc) →
      cblas_dsymm M N alpha A lda B ldb beta Cbuf c0 ldc p = Cbuf p) := by
  have h := fill2_spec N M (fun j i => c0 + i + j * ldc)
    (fun j i => alpha * (∑ k in range M, symLower A lda i k * B (k + j * ldb))
          + beta * Cbuf (c0 + i + j * ldc)) Cbuf
    (fun a _ b hb a' _ b' hb' e =>
      (colmajor_off_inj (Nat.lt_of_lt_of_le hb hM) (Nat.lt_of_lt_of_le hb' hM) e).symm)
  exact ⟨fun i hi j hj => h.1 j hj i hi, fun p hp => h.2 p (fun a ha b hb => hp b hb a ha)⟩

theorem cblas_dgemm_spec (M N K : Nat) (alpha : ℚ) (A : Nat → ℚ) (lda : Nat) (B : Nat → ℚ)
    (ldb : Nat) (beta : ℚ) (Cbuf : Nat → ℚ) (c0 ldc : Nat) (hM : M ≤ ldc) :
    (∀ i, i < M → ∀ j, j < N →
      cblas_dgemm M N K alpha A lda B ldb beta Cbuf c0 ldc (c0 + i + j * ldc)
        = alpha * (∑ k in range K, A (k + i * lda) * B (k + j * ldb))
          + beta * Cbuf (c0 + i + j * ldc)) ∧
    (∀ p, (∀ i, i < M → ∀ j, j < N → p ≠ c0 + i + j * ldc) →
      cblas_dgemm M N K alpha A lda B ldb beta Cbuf c0 ldc p = Cbuf p) := by
  have h := fill2_spec N M (fun j i => c0 + i + j * ldc)
    (fun j i => alpha * (∑ k in range K, A (k + i * lda) * B (k + j * ldb))
          + beta * Cbuf (c0 + i + j * ldc)) Cbuf
    (fun a _ b hb a' _ b' hb' e =>
      (colmajor_off_inj (Nat.lt_of_lt_of_le hb hM) (Nat.lt_of_lt_of_le hb' hM) e).symm)
  exact ⟨fun i hi j hj => h.1 j hj i hi, fun p hp => h.2 p (fun a ha b hb => hp b hb a ha)⟩

/-- Back substitution solves `Aᵀ X = alpha B` entry by entry. -/
theorem cblas_dtrsm_left_spec (M N : Nat) (alpha : ℚ) (A : Nat → ℚ) (lda : Nat)
    (Bbuf : Nat → ℚ) (b0 ldb : Nat) (hM : M ≤ ldb) (hA : ∀ i, i < M → A (i + i * lda) ≠ 0) :
    (∀ j, j < N → ∀ r, r < M →
      A (r + r * lda) * cblas_dtrsm_left M N alpha A lda Bbuf b0 ldb (b0 + r + j * ldb)
        + ∑ k in Ico (r + 1) M,
            A (k + r * lda) * cblas_dtrsm_left M N alpha A lda Bbuf b0 ldb (b0 + k + j * ldb)
        = alpha * Bbuf (b0 + r + j * ldb)) ∧
    (∀ p, (∀ j, j < N → ∀ r, r < M → p ≠ b0 + r + j * ldb) →
      cblas_dtrsm_left M N alpha A lda Bbuf b0 ldb p = Bbuf p) := by
  have inj : ∀ {i j i' j' : Nat}, i < M → i' < M →
      b0 + i + j * ldb = b0 + i' + j' * ldb → i = i' ∧ j = j' :=
    fun hi hi' e => colmajor_off_inj (Nat.lt_of_lt_of_le hi hM) (Nat.lt_of_lt_of_le hi' hM) e
  unfold cblas_dtrsm_left
  refine loopUp_inv
    (fun n (B : Nat → ℚ) =>
      (∀ j, j < n → ∀ r, r < M →
        A (r + r * lda) * B (b0 + r + j * ldb)
          + ∑ k in Ico (r + 1) M, A (k + r * lda) * B (b0 + k + j * ldb)
          = alpha * Bbuf (b0 + r + j * ldb)) ∧
      (∀ p, (∀ j, j < n → ∀ r, r < M → p ≠ b0 + r + j * ldb) → B p = Bbuf p))
    N _ Bbuf ⟨fun j hj => absurd hj (Nat.not_lt_zero j), fun p _ => rfl⟩ ?_
  intro j _ B ⟨hsolved, hframe⟩
  -- the column loop
  have hcol := loopDown_inv
    (fun i (B' : Nat → ℚ) =>
      (∀ r, i ≤ r → r < M →
        A (r + r * lda) * B' (b0 + r + j * ldb)
          + ∑ k in Ico (r + 1) M, A (k + r * lda) * B' (b0 + k + j * ldb)
          = alpha * B (b0 + r + j * ldb)) ∧
      (∀ p, (∀ r, i ≤ r → r < M → p ≠ b0 + r + j * ldb) → B' p = B p))
    M (fun i B => store B (b0 + i + j * ldb)
      ((alpha * B (b0 + i + j * ldb)
          - ∑ k in Ico (i + 1) M, A (k + i * lda) * B (b0 + k + j * ldb)) / A (i + i * lda))) B
    ⟨fun r h1 h2 => absurd h2 (Nat.not_lt.mpr h1), fun p _ => rfl⟩
    (by
      intro i hi B' ⟨g1, g2⟩
      dsimp only
      refine ⟨fun r hr hrM => ?_, fun p hp => ?_⟩
      · by_cases hri : r = i
        · subst hri
          rw [store_same]
          have hsum : ∑ k in Ico (r + 1) M, A (k + r * lda) *
              store B' (b0 + r + j * ldb)
                ((alpha * B' (b0 + r + j * ldb)
                  - ∑ k in Ico (r + 1) M, A (k + r * lda) * B' (b0 + k + j * ldb))
                  / A (r + r * lda)) (b0 + k + j * ldb)
              = ∑ k in Ico (r + 1) M, A (k + r * lda) * B' (b0 + k + j * ldb) := by
            refine Finset.sum_congr rfl (fun k hk => ?_)
            have hk' := Finset.mem_Ico.mp hk
            rw [store_other _ _ _ _ (fun e => by have := (inj hk'.2 hrM e).1; omega)]
          rw [hsum, mul_div_cancel₀ _ (hA r hrM),
            g2 (b0 + r + j * ldb) (fun r' h1 h2 e => by have := (inj hrM h2 e).1; omega)]
          ring
        · have hri' : i + 1 ≤ r := by omega
          rw [store_other _ _ _ _ (fun e => hri (inj hrM hi e).1)]
          have hsum : ∑ k in Ico (r + 1) M, A (k + r * lda) *
              store B' (b0 + i + j * ldb)
                ((alpha * B' (b0 + i + j * ldb)
                  - ∑ k in Ico (i + 1) M, A (k + i * lda) * B' (b0 + k + j * ldb))
                  / A (i + i * lda)) (b0 + k + j * ldb)
              = ∑ k in Ico (r + 1) M, A (k + r * lda) * B' (b0 + k + j * ldb) := by
            refine Finset.sum_congr rfl (fun k hk => ?_)
            have hk' := Finset.mem_Ico.mp hk
            rw [store_other _ _ _ _ (fun e => by have := (inj hk'.2 hi e).1; omega)]
          rw [hsum]
          exact g1 r hri' hrM
      · rw [store_other _ _ _ _ (hp i (Nat.le_refl i) hi)]
        exact g2 p (fun r h1 h2 => hp r (by omega) h2))
  obtain ⟨c1, c2⟩ := hcol
  refine ⟨fun c hc r hr => ?_, fun p hp => ?_⟩
  · by_cases hcj : c = j
    · subst hcj
      rw [c1 r (Nat.zero_le r) hr,
        hframe _ (fun j' hj' r' hr' e => by have := (inj hr hr' e).2; omega)]
    · have hc' : c < j := by omega
      rw [c2 _ (fun r' _ h2 e => hcj (inj hr h2 e).2)]
      have hsum : ∑ k in Ico (r + 1) M, A (k + r * lda) *
          loopDown M (fun i B => store B (b0 + i + j * ldb)
            ((alpha * B (b0 + i + j * ldb)
              - ∑ k in Ico (i + 1) M, A (k + i * lda) * B (b0 + k + j * ldb))
              / A (i + i * lda))) B (b0 + k + c * ldb)
          = ∑ k in Ico (r + 1) M, A (k + r * lda) * B (b0 + k + c * ldb) := by
        refine Finset.sum_congr rfl (fun k hk => ?_)
        have hk' := Finset.mem_Ico.mp hk
        rw [c2 _ (fun r' _ h2 e => hcj (inj hk'.2 h2 e).2)]
      rw [hsum]
      exact hsolved c hc' r hr
  · rw [c2 p (fun r _ h2 => hp j (Nat.lt_succ_self j) r h2)]
    exact hframe p (fun j' hj' r hr => hp j' (Nat.lt_succ_of_lt hj') r hr)

/-- Substitution from the last column solves `X A = alpha B` entry by entry. -/
theorem cblas_dtrsm_right_spec (M N : Nat) (alpha : ℚ) (A : Nat → ℚ) (lda : Nat)
    (Bbuf : Nat → ℚ) (b0 ldb : Nat) (hM : M ≤ ldb) (hA : ∀ j, j < N → A (j + j * lda) ≠ 0) :
    (∀ i, i < M → ∀ j, j < N →
      cblas_dtrsm_right M N alpha A lda Bbuf b0 ldb (b0 + i + j * ldb) * A (j + j * lda)
        + ∑ k in Ico (j + 1) N,
            A (k + j * lda) * cblas_dtrsm_right M N alpha A lda Bbuf b0 ldb (b0 + i + k * ldb)
        = alpha * Bbuf (b0 + i + j * ldb)) ∧
    (∀ p, (∀ i, i < M → ∀ j, j < N → p ≠ b0 + i + j * ldb) →
      cblas_dtrsm_right M N alpha A lda Bbuf b0 ldb p = Bbuf p) := by
  have inj : ∀ {i j i' j' : Nat}, i < M → i' < M →
      b0 + i + j * ldb = b0 + i' + j' * ldb → i = i' ∧ j = j' :=
    fun hi hi' e => colmajor_off_inj (Nat.lt_of_lt_of_le hi hM) (Nat.lt_of_lt_of_le hi' hM) e
  unfold cblas_dtrsm_right
  have key := loopDown_inv
    (fun n (B : Nat → ℚ) =>
      (∀ j, n ≤ j → j < N → ∀ i, i < M →
        B (b0 + i + j * ldb) * A (j + j * lda)
          + ∑ k in Ico (j + 1) N, A (k + j * lda) * B (b0 + i + k * ldb)
          = alpha * Bbuf (b0 + i + j * ldb)) ∧
      (∀ p, (∀ j, n ≤ j → j < N → ∀ i, i < M → p ≠ b0 + i + j * ldb) → B p = Bbuf p))
    N (fun j B => loopUp M (fun i B =>
      store B (b0 + i + j * ldb)
        ((alpha * B (b0 + i + j * ldb)
            - ∑ k in Ico (j + 1) N, A (k + j * lda) * B (b0 + i + k * ldb)) / A (j + j * lda))) B)
    Bbuf ⟨fun j h1 h2 => absurd h2 (Nat.not_lt.mpr h1), fun p _ => rfl⟩ ?_
  · exact ⟨fun i hi j hj => key.1 j (Nat.zero_le j) hj i hi,
      fun p hp => key.2 p (fun j _ hj i hi => hp i hi j hj)⟩
  intro j hj B ⟨hsolved, hframe⟩
  have hrow := loopUp_inv
    (fun m (B' : Nat → ℚ) =>
      (∀ i, i < m →
        B' (b0 + i + j * ldb) * A (j + j * lda)
          + ∑ k in Ico (j + 1) N, A (k + j * lda) * B' (b0 + i + k * ldb)
          = alpha * B (b0 + i + j * ldb)) ∧
      (∀ p, (∀ i, i < m → p ≠ b0 + i + j * ldb) → B' p = B p))
    M (fun i B => store B (b0 + i + j * ldb)
        ((alpha * B (b0 + i + j * ldb)
            - ∑ k in Ico (j + 1) N, A (k + j * lda) * B (b0 + i + k * ldb)) / A (j + j * lda))) B
    ⟨fun i hi => absurd hi (Nat.not_lt_zero i), fun p _ => rfl⟩
    (by
      intro i hi B' ⟨g1, g2⟩
      dsimp only
      refine ⟨fun r hr => ?_, fun p hp => ?_⟩
      · by_cases hri : r = i
        · subst hri
          rw [store_same]
          have hsum : ∑ k in Ico (j + 1) N, A (k + j * lda) *
              store B' (b0 + r + j * ldb)
                ((alpha * B' (b0 + r + j * ldb)
                  - ∑ k in Ico (j + 1) N, A (k + j * lda) * B' (b0 + r + k * ldb))
                  / A (j + j * lda)) (b0 + r + k * ldb)
              = ∑ k in Ico (j + 1) N, A (k + j * lda) * B' (b0 + r + k * ldb) := by
            refine Finset.sum_congr rfl (fun k hk => ?_)
            have hk' := Finset.mem_Ico.mp hk
            rw [store_other _ _ _ _ (fun e => by have := (inj hi hi e).2; omega)]
          rw [hsum, div_mul_cancel₀ _ (hA j hj),
            g2 (b0 + r + j * ldb) (fun r' h1 e => by have := (inj hi (by omega) e).1; omega)]
          ring
        · have hri' : r < i := by omega
          rw [store_other _ _ _ _ (fun e => hri (inj (by omega) hi e).1)]
          have hsum : ∑ k in Ico (j + 1) N, A (k + j * lda) *
              store B' (b0 + i + j * ldb)
                ((alpha * B' (b0 + i + j * ldb)
                  - ∑ k in Ico (j + 1) N, A (k + j * lda) * B' (b0 + i + k * ldb))
                  / A (j + j * lda)) (b0 + r + k * ldb)
              = ∑ k in Ico (j + 1) N, A (k + j * lda) * B' (b0 + r + k * ldb) := by
            refine Finset.sum_congr rfl (fun k hk => ?_)
            rw [store_other _ _ _ _ (fun e => hri (inj (by omega) hi e).1)]
          rw [hsum]
          exact g1 r hri'
      · rw [store_other _ _ _ _ (hp i (Nat.lt_succ_self i))]
        exact g2 p (fun r h1 => hp r (by omega)))
  obtain ⟨c1, c2⟩ := hrow
  refine ⟨fun c hc hcN i hi => ?_, fun p hp => ?_⟩ <;> beta_reduce
  · have hsum : ∀ c', j ≤ c' → ∑ k in Ico (c' + 1) N, A (k + c' * lda) *
          loopUp M (fun i B => store B (b0 + i + j * ldb)
            ((alpha * B (b0 + i + j * ldb)
              - ∑ k in Ico (j + 1) N, A (k + j * lda) * B (b0 + i + k * ldb))
              / A (j + j * lda))) B (b0 + i + k * ldb)
          = ∑ k in Ico (c' + 1) N, A (k + c' * lda) * B (b0 + i + k * ldb) := by
      intro c' hc'
      refine Finset.sum_congr rfl (fun k hk => ?_)
      have hk' := Finset.mem_Ico.mp hk
      rw [c2 _ (fun r hr e => by have := (inj hi hr e).2; omega)]
    by_cases hcj : c = j
    · subst hcj
      have h := c1 i hi
      rw [hsum c (Nat.le_refl c)] at h ⊢
      rw [h, hframe _ (fun j' h1 _ r' hr' e => by have := (inj hi hr' e).2; omega)]
    · have hc' : j + 1 ≤ c := by omega
      rw [hsum c hc, c2 _ (fun r hr e => hcj (inj hi hr e).2)]
      exact hsolved c hc' hcN i hi
  · rw [c2 p (fun i hi => hp j (Nat.le_refl j) hj i hi)]
    exact hframe p (fun j' h1 h2 i hi => hp j' (by omega) h2 i hi)

/-! ## The block kernel in matrix form -/

theorem sum_lower_split (n r : Nat) (hr : r < n) (f : Nat → ℚ) :
    ∑ k in range n, (if r ≤ k then f k else 0) = f r + ∑ k in Ico (r + 1) n, f k := by
  rw [← Finset.sum_filter]
  have h : (range n).filter (fun k => r ≤ k) = Ico r n := by
    ext k
    simp only [Finset.mem_filter, Finset.mem_range, Finset.mem_Ico]
    omega
  rw [h, Finset.sum_eq_sum_Ico_succ_bot hr]

theorem symView_transpose (V : Nat → ℚ) (ld n : Nat) :
    (symView V ld n).transpose = symView V ld n := by
  ext i j
  simp only [Matrix.transpose_apply, symView, symLower]
  by_cases h1 : (i : Nat) ≤ j <;> by_cases h2 : (j : Nat) ≤ i
  · have : (i : Nat) = j := by omega
    simp [this]
  · simp [h1, h2]
  · simp [h1, h2]
  · omega

/-- The left triangular solve in matrix form: `L1ᵀ * X = B` on the leading `n × n` block, the
rows below it are left as they were. -/
theorem cblas_dtrsm_left_matrix (L Z : Nat → ℚ) (m n : Nat) (hnm : n ≤ m)
    (hd : ∀ i, i < n → L (i + i * m) ≠ 0) :
    (lowerView L m n).transpose * matView (cblas_dtrsm_left n n 1 L m Z 0 m) 0 m n n
        = matView Z 0 m n n ∧
    matView (cblas_dtrsm_left n n 1 L m Z 0 m) n m (m - n) n = matView Z n m (m - n) n := by
  obtain ⟨h1, h2⟩ := cblas_dtrsm_left_spec n n 1 L m Z 0 m hnm hd
  constructor
  · ext r c
    rw [Matrix.mul_apply]
    simp only [Matrix.transpose_apply, lowerView, matView, ite_mul, zero_mul]
    rw [Fin.sum_univ_eq_sum_range
      (fun k => if (r : Nat) ≤ k then
        L (k + r * m) * cblas_dtrsm_left n n 1 L m Z 0 m (0 + k + c * m) else 0) n,
      sum_lower_split n r r.2]
    have := h1 c c.2 r r.2
    rw [one_mul] at this
    exact this
  · ext r c
    simp only [matView]
    refine h2 _ (fun j _ i hi e => ?_)
    have := (@colmajor_inj m (n + r) c i j (by omega) (by omega) (by omega)).1
    omega

/-- The right triangular solve in matrix form: `X * L1 = B` for the whole `m × n` block, stated
for its leading `n` rows and for the remaining `m - n` rows. -/
theorem cblas_dtrsm_right_matrix (L Z : Nat → ℚ) (m n : Nat) (hnm : n ≤ m)
    (hd : ∀ i, i < n → L (i + i * m) ≠ 0) :
    matView (cblas_dtrsm_right m n 1 L m Z 0 m) 0 m n n * lowerView L m n = matView Z 0 m n n ∧
    matView (cblas_dtrsm_right m n 1 L m Z 0 m) n m (m - n) n * lowerView L m n
        = matView Z n m (m - n) n := by
  obtain ⟨h1, _⟩ := cblas_dtrsm_right_spec m n 1 L m Z 0 m (Nat.le_refl m) hd
  have key : ∀ i, i < m → ∀ c : Fin n,
      ∑ k : Fin n, cblas_dtrsm_right m n 1 L m Z 0 m (0 + i + k * m) * lowerView L m n k c
        = Z (0 + i + c * m) := by
    intro i hi c
    simp only [lowerView, mul_ite, mul_zero]
    rw [Fin.sum_univ_eq_sum_range
      (fun k => if (c : Nat) ≤ k then
        cblas_dtrsm_right m n 1 L m Z 0 m (0 + i + k * m) * L (k + c * m) else 0) n,
      sum_lower_split n c c.2]
    have := h1 i hi c c.2
    rw [one_mul] at this
    rw [← this]
    congr 1
    exact Finset.sum_congr rfl (fun k _ => mul_comm _ _)
  constructor
  · ext r c
    rw [Matrix.mul_apply]
    simp only [matView]
    exact key r (by omega) c
  · ext r c
    rw [Matrix.mul_apply]
    simp only [matView]
    have := key (n + r) (by omega) c
    simpa [Nat.zero_add] using this

/-- The buffer after the identity initialisation of `spinv_block`. -/
theorem init_identity_spec (Z : Nat → ℚ) (m n : Nat) (hnm : n ≤ m) :
    (∀ i, i < n → ∀ j, j < n →
      loopUp n (fun i Z => loopUp n (fun j Z =>
        store Z (i + j * m) (if i = j then 1 else 0)) Z) Z (i + j * m)
        = if i = j then 1 else 0) ∧
    (∀ p, (∀ i, i < n → ∀ j, j < n → p ≠ i + j * m) →
      loopUp n (fun i Z => loopUp n (fun j Z =>
        store Z (i + j * m) (if i = j then 1 else 0)) Z) Z p = Z p) :=
  fill2_spec n n (fun i j => i + j * m) (fun i j => if i = j then 1 else 0) Z
    (fun _ ha _ _ _ ha' _ _ e => colmajor_inj (by omega) (by omega) e)

/-- The symmetric product followed by the general product, on any buffer `Zi`. -/
theorem products_core (L V Zi : Nat → ℚ) (m n : Nat) (hnm : n ≤ m) :
    matView (cblas_dgemm n n (m - n) (-1)
        (fun k => cblas_dsymm (m - n) n (-1) V (m - n) (fun k => L (n + k)) m 0 Zi n m (n + k)) m
        (fun k => L (n + k)) m 1
        (cblas_dsymm (m - n) n (-1) V (m - n) (fun k => L (n + k)) m 0 Zi n m) 0 m) n m (m - n) n
      = -(symView V (m - n) (m - n) * matView L n m (m - n) n) ∧
    matView (cblas_dgemm n n (m - n) (-1)
        (fun k => cblas_dsymm (m - n) n (-1) V (m - n) (fun k => L (n + k)) m 0 Zi n m (n + k)) m
        (fun k => L (n + k)) m 1
        (cblas_dsymm (m - n) n (-1) V (m - n) (fun k => L (n + k)) m 0 Zi n m) 0 m) 0 m n n
      = matView Zi 0 m n n + (matView L n m (m - n) n).transpose * symView V (m - n) (m - n)
            * matView L n m (m - n) n := by
  obtain ⟨s1, s2⟩ := cblas_dsymm_spec (m - n) n (-1) V (m - n) (fun k => L (n + k)) m 0
    Zi n m (by omega)
  generalize cblas_dsymm (m - n) n (-1) V (m - n) (fun k => L (n + k)) m 0 Zi n m = Zs at s1 s2 ⊢
  obtain ⟨g1, g2⟩ := cblas_dgemm_spec n n (m - n) (-1) (fun k => Zs (n + k)) m
    (fun k => L (n + k)) m 1 Zs 0 m hnm
  generalize cblas_dgemm n n (m - n) (-1) (fun k => Zs (n + k)) m
    (fun k => L (n + k)) m 1 Zs 0 m = Zg at g1 g2 ⊢
  have hA : matView Zs n m (m - n) n = -(symView V (m - n) (m - n) * matView L n m (m - n) n) := by
    ext r c
    simp only [matView, Matrix.neg_apply, Matrix.mul_apply, symView]
    rw [s1 r r.2 c c.2, Fin.sum_univ_eq_sum_range
      (fun k => symLower V (m - n) r k * L (n + k + c * m)) (m - n)]
    simp only [zero_mul, add_zero, neg_mul, one_mul, Nat.add_assoc]
  have hB : matView Zg n m (m - n) n = matView Zs n m (m - n) n := by
    ext r c
    simp only [matView]
    refine g2 _ (fun i hi j _ e => ?_)
    have := (@colmajor_inj m (n + r) c i j (by omega) (by omega) (by omega)).1
    omega
  have hC : matView Zg 0 m n n
      = matView Zs 0 m n n - (matView Zs n m (m - n) n).transpose * matView L n m (m - n) n := by
    ext r c
    simp only [matView, Matrix.sub_apply, Matrix.mul_apply, Matrix.transpose_apply]
    rw [g1 r r.2 c c.2, Fin.sum_univ_eq_sum_range
      (fun k => Zs (n + k + r * m) * L (n + k + c * m)) (m - n)]
    simp only [Nat.add_assoc]
    ring
  have hD : matView Zs 0 m n n = matView Zi 0 m n n := by
    ext r c
    simp only [matView]
    refine s2 _ (fun i hi j _ e => ?_)
    have := (@colmajor_inj m r c (n + i) j (by omega) (by omega) (by omega)).1
    omega
  refine ⟨hB.trans hA, ?_⟩
  rw [hC, hD, hA, Matrix.transpose_neg, Matrix.transpose_mul, symView_transpose, Matrix.neg_mul,
    sub_neg_eq_add]

/-- Steps 1 and 2 of the kernel in matrix form: `Z2 = -V L2` and `Z1 = I + L2ᵀ V L2`. -/
theorem spinv_block_products_matrix (L Z V : Nat → ℚ) (m n : Nat) (hnm : n ≤ m) :
    matView (spinv_block_products L Z V m n) n m (m - n) n
        = -(symView V (m - n) (m - n) * matView L n m (m - n) n) ∧
    matView (spinv_block_products L Z V m n) 0 m n n
        = 1 + (matView L n m (m - n) n).transpose * symView V (m - n) (m - n)
            * matView L n m (m - n) n := by
  obtain ⟨i1, _⟩ := init_identity_spec Z m n hnm
  have hI : matView (loopUp n (fun i Z => loopUp n (fun j Z =>
      store Z (i + j * m) (if i = j then 1 else 0)) Z) Z) 0 m n n = 1 := by
    ext r c
    simp only [matView, Nat.zero_add]
    rw [i1 r r.2 c c.2, Matrix.one_apply]
    simp only [Fin.ext_iff]
  by_cases hm2 : m - n > 0
  · have hp : spinv_block_products L Z V m n
        = cblas_dgemm n n (m - n) (-1)
            (fun k => cblas_dsymm (m - n) n (-1) V (m - n) (fun k => L (n + k)) m 0
              (loopUp n (fun i Z => loopUp n (fun j Z =>
                store Z (i + j * m) (if i = j then 1 else 0)) Z) Z) n m (n + k)) m
            (fun k => L (n + k)) m 1
            (cblas_dsymm (m - n) n (-1) V (m - n) (fun k => L (n + k)) m 0
              (loopUp n (fun i Z => loopUp n (fun j Z =>
                store Z (i + j * m) (if i = j then 1 else 0)) Z) Z) n m) 0 m := by
      simp only [spinv_block_products, hm2, if_true]
    rw [hp]
    have h := products_core L V (loopUp n (fun i Z => loopUp n (fun j Z =>
      store Z (i + j * m) (if i = j then 1 else 0)) Z) Z) m n hnm
    rw [hI] at h
    exact h
  · have hp : spinv_block_products L Z V m n
        = loopUp n (fun i Z => loopUp n (fun j Z =>
            store Z (i + j * m) (if i = j then 1 else 0)) Z) Z := by
      simp only [spinv_block_products, hm2, if_false]
    have h0 : m - n = 0 := by omega
    rw [hp, hI]
    constructor
    · ext r c
      exact absurd r.2 (by omega)
    · ext r c
      rw [Matrix.add_apply, Matrix.mul_apply]
      have : IsEmpty (Fin (m - n)) := by rw [h0]; infer_instance
      simp
  
/-! ## The whole kernel -/

theorem spinv_block_eq (L Z V : Nat → ℚ) (m n : Nat) :
    spinv_block L Z V m n
      = cblas_dtrsm_right m n 1 L m
          (cblas_dtrsm_left n n 1 L m (spinv_block_products L Z V m n) 0 m) 0 m := rfl

/-- The block equations satisfied by the result of the kernel. -/
theorem spinv_block_matrix (L Z V : Nat → ℚ) (m n : Nat) (hnm : n ≤ m)
    (hd : ∀ i, i < n → L (i + i * m) ≠ 0) :
    matView (spinv_block L Z V m n) n m (m - n) n * lowerView L m n
        + symView V (m - n) (m - n) * matView L n m (m - n) n = 0 ∧
    (lowerView L m n).transpose *
      (matView (spinv_block L Z V m n) 0 m n n * lowerView L m n
        + (matView (spinv_block L Z V m n) n m (m - n) n).transpose * matView L n m (m - n) n)
      = 1 := by
  obtain ⟨p2, p1⟩ := spinv_block_products_matrix L Z V m n hnm
  obtain ⟨l1, l2⟩ := cblas_dtrsm_left_matrix L (spinv_block_products L Z V m n) m n hnm hd
  obtain ⟨r1, r2⟩ := cblas_dtrsm_right_matrix L
    (cblas_dtrsm_left n n 1 L m (spinv_block_products L Z V m n) 0 m) m n hnm hd
  rw [spinv_block_eq]
  have e2 : matView (cblas_dtrsm_right m n 1 L m
      (cblas_dtrsm_left n n 1 L m (spinv_block_products L Z V m n) 0 m) 0 m) n m (m - n) n
        * lowerView L m n
      = -(symView V (m - n) (m - n) * matView L n m (m - n) n) := by
    rw [r2, l2, p2]
  constructor
  · rw [e2, neg_add_cancel]
  · rw [Matrix.mul_add, r1, l1, p1, ← Matrix.mul_assoc, ← Matrix.transpose_mul, e2,
      Matrix.transpose_neg, Matrix.transpose_mul, symView_transpose, Matrix.neg_mul,
      add_neg_cancel_right]

theorem lowerView_isUnit_det (L : Nat → ℚ) (ld n : Nat) (hd : ∀ i, i < n → L (i + i * ld) ≠ 0) :
    IsUnit (lowerView L ld n).det := by
  have htri : (lowerView L ld n).BlockTriangular (⇑OrderDual.toDual) := by
    intro i j hij
    have hlt : (i : Nat) < j := hij
    simp only [lowerView]
    rw [if_neg (by omega)]
  rw [Matrix.det_of_lowerTriangular _ htri, isUnit_iff_ne_zero]
  refine Finset.prod_ne_zero_iff.mpr (fun i _ => ?_)
  simp only [lowerView, le_refl, if_true]
  exact hd i i.2

/-- With `m = n` the kernel does not use `V`: it is the two triangular solves applied to the
identity. -/
theorem spinv_block_square_eq (L Z V : Nat → ℚ) (n : Nat) :
    spinv_block L Z V n n
      = cblas_dtrsm_right n n 1 L n
          (cblas_dtrsm_left n n 1 L n
            (loopUp n (fun i Z => loopUp n (fun j Z =>
              store Z (i + j * n) (if i = j then 1 else 0)) Z) Z) 0 n) 0 n := by
  simp only [spinv_block, Nat.sub_self, gt_iff_lt, Nat.lt_irrefl, if_false]

/-- With `m = n` the kernel returns `(L1ᵀ)⁻¹ * L1⁻¹`. -/
theorem spinv_block_square_matrix (L Z V : Nat → ℚ) (n : Nat)
    (hd : ∀ i, i < n → L (i + i * n) ≠ 0) :
    matView (spinv_block L Z V n n) 0 n n n
      = ((lowerView L n n).transpose)⁻¹ * (lowerView L n n)⁻¹ := by
  obtain ⟨_, h2⟩ := spinv_block_matrix L Z V n n (le_refl n) hd
  have hempty : IsEmpty (Fin (n - n)) := by rw [Nat.sub_self]; infer_instance
  have hz : (matView (spinv_block L Z V n n) n n (n - n) n).transpose * matView L n n (n - n) n
      = 0 := by
    ext r c
    rw [Matrix.mul_apply]
    simp
  rw [hz, add_zero] at h2
  have hu := lowerView_isUnit_det L n n hd
  have h3 : matView (spinv_block L Z V n n) 0 n n n * lowerView L n n
      = ((lowerView L n n).transpose)⁻¹ := (Matrix.inv_eq_right_inv h2).symm
  calc matView (spinv_block L Z V n n) 0 n n n
      = matView (spinv_block L Z V n n) 0 n n n * (lowerView L n n * (lowerView L n n)⁻¹) := by
        rw [Matrix.mul_nonsing_inv _ hu, Matrix.mul_one]
    _ = ((lowerView L n n).transpose)⁻¹ * (lowerView L n n)⁻¹ := by
        rw [← Matrix.mul_assoc, h3]

/-! ## Status flow -/

theorem xtype_valid_range (L : cholmod_factor)
    (h : xtype_invalid L CHOLMOD_REAL CHOLMOD_ZOMPLEX = false) :
    L.xtype = CHOLMOD_REAL ∨ L.xtype = CHOLMOD_COMPLEX ∨ L.xtype = CHOLMOD_ZOMPLEX := by
  simp only [xtype_invalid, Bool.or_eq_false_iff, decide_eq_false_iff_not, not_lt,
    CHOLMOD_REAL, CHOLMOD_ZOMPLEX, CHOLMOD_COMPLEX] at h ⊢
  omega

theorem cleanup_fault (X : cholmod_sparse) (Common : cholmod_common) (b : Bool)
    (h : Common.status < CHOLMOD_OK) : cleanup X Common b = (none, Common) := by
  simp [cleanup, not_le.mpr h]

/-- The simplicial driver on an LLᵗ factor or a complex or zomplex one: the fault
`CHOLMOD_INVALID` is recorded and `NULL` returned. -/
theorem spinv_simplicial_unsupported (L : cholmod_factor) (Common : cholmod_common)
    (a : Allocator) (h : Fresh) (fuel : Nat) (hst : Common.status = CHOLMOD_OK)
    (hx : L.xtype = CHOLMOD_REAL ∨ L.xtype = CHOLMOD_COMPLEX ∨ L.xtype = CHOLMOD_ZOMPLEX)
    (hun : L.is_ll = true ∨ L.xtype = CHOLMOD_COMPLEX ∨ L.xtype = CHOLMOD_ZOMPLEX)
    (ha : a.simplicial_ok) :
    spinv_simplicial L Common a h fuel
      = some (none, { Common with status := CHOLMOD_INVALID }) := by
  obtain ⟨a1, a2, a3, a4, a5⟩ := ha
  have hnlt : ¬ Common.status < CHOLMOD_OK := by rw [hst]; decide
  have hinv : ∀ X, cleanup X (cholmod_error CHOLMOD_INVALID Common) a.sort
      = (none, { Common with status := CHOLMOD_INVALID }) := fun X =>
    cleanup_fault X _ _ (by simp [cholmod_error, CHOLMOD_INVALID, CHOLMOD_OK])
  unfold spinv_simplicial
  simp only [cholmod_alloc, a1, a2, a3, a4, a5, if_true, hnlt, if_false]
  by_cases hll : L.is_ll = true
  · simp only [hll, if_true]
    rcases hx with hx | hx | hx <;>
      simp [simplicial_ll_switch, hx, hinv, CHOLMOD_REAL, CHOLMOD_COMPLEX, CHOLMOD_ZOMPLEX]
  · simp only [hll, if_false]
    rcases hun with hun | hun | hun
    · exact absurd hun hll
    · simp [hun, hinv, CHOLMOD_REAL, CHOLMOD_COMPLEX, CHOLMOD_ZOMPLEX]
    · simp [hun, hinv, CHOLMOD_REAL, CHOLMOD_COMPLEX, CHOLMOD_ZOMPLEX]

theorem spinv_dispatch_simplicial (ITYPE : Int) (L : cholmod_factor) (Common : cholmod_common)
    (a : Allocator) (h : Fresh) (fuel : Nat) (hit : Common.itype = ITYPE)
    (hv : xtype_invalid L CHOLMOD_REAL CHOLMOD_ZOMPLEX = false) (hs : L.is_super = false) :
    spinv ITYPE (some L) (some Common) a h fuel
      = (spinv_simplicial L { Common with status := CHOLMOD_OK } a h fuel).map
          fun r => (r.1, some r.2) := by
  simp [spinv, hit, hv, hs]

theorem spinv_dispatch_super (ITYPE : Int) (L : cholmod_factor) (Common : cholmod_common)
    (a : Allocator) (h : Fresh) (fuel : Nat) (hit : Common.itype = ITYPE)
    (hv : xtype_invalid L CHOLMOD_REAL CHOLMOD_ZOMPLEX = false) (hs : L.is_super = true) :
    spinv ITYPE (some L) (some Common) a h fuel
      = (spinv_super L { Common with status := CHOLMOD_OK } a h fuel).map
          fun r => (r.1, some r.2) := by
  simp [spinv, hit, hv, hs]

/-- The dispatcher on a simplicial factor of an unsupported kind that passes validation. -/
theorem spinv_unsupported (ITYPE : Int) (L : cholmod_factor) (Common : cholmod_common)
    (a : Allocator) (h : Fresh) (fuel : Nat) (hit : Common.itype = ITYPE)
    (hv : xtype_invalid L CHOLMOD_REAL CHOLMOD_ZOMPLEX = false) (hs : L.is_super = false)
    (hun : L.is_ll = true ∨ L.xtype = CHOLMOD_COMPLEX ∨ L.xtype = CHOLMOD_ZOMPLEX)
    (ha : a.simplicial_ok) :
    spinv ITYPE (some L) (some Common) a h fuel
      = some (none, some { Common with status := CHOLMOD_INVALID }) := by
  rw [spinv_dispatch_simplicial ITYPE L Common a h fuel hit hv hs,
    spinv_simplicial_unsupported L _ a h fuel rfl (xtype_valid_range L hv) hun ha]
  rfl

theorem cleanup_ok (X : cholmod_sparse) (Common : cholmod_common)
    (h : Common.status = CHOLMOD_OK) :
    cleanup X Common true = (some (cholmod_sort { X with stype := -1 }), Common) := by
  simp [cleanup, cholmod_alloc, h]

/-- The simplicial driver on a real LDLᵗ factor when every allocation succeeds. -/
theorem spinv_simplicial_real (L : cholmod_factor) (Common : cholmod_common)
    (a : Allocator) (h : Fresh) (fuel : Nat) (hst : Common.status = CHOLMOD_OK)
    (hx : L.xtype = CHOLMOD_REAL) (hll : L.is_ll = false) (ha : a.simplicial_ok) :
    spinv_simplicial L Common a h fuel
      = (simplicial_values L h fuel).map fun Xx =>
          cleanup (simplicial_result L h Xx) Common a.sort := by
  obtain ⟨a1, a2, a3, a4, a5⟩ := ha
  have hnlt : ¬ Common.status < CHOLMOD_OK := by rw [hst]; decide
  unfold spinv_simplicial
  simp only [cholmod_alloc, a1, a2, a3, a4, a5, if_true, hnlt, if_false, hll,
    Bool.false_eq_true, simplicial_values, Option.map_map]
  rw [if_pos hx]
  rfl

/-- The supernodal driver when every allocation succeeds. -/
theorem spinv_super_run (L : cholmod_factor) (Common : cholmod_common)
    (a : Allocator) (h : Fresh) (fuel : Nat) (hst : Common.status = CHOLMOD_OK)
    (ha : a.super_ok) :
    spinv_super L Common a h fuel
      = (super_values L h fuel).map fun Xx =>
          cleanup (super_result L h Xx) Common a.sort := by
  obtain ⟨a1, a2, a3, a4, a5, a6⟩ := ha
  have hnlt : ¬ Common.status < CHOLMOD_OK := by rw [hst]; decide
  unfold spinv_super
  simp only [cholmod_alloc, a1, a2, a3, a4, a5, a6, if_true, hnlt, if_false,
    super_values, Option.map_map]
  rfl

/-! ## Loops as folds -/

theorem loopUp_eq_foldl {σ : Type} (n : Nat) (f : Nat → σ → σ) (s : σ) :
    loopUp n f s = (List.range n).foldl (fun s i => f i s) s := by
  induction n with
  | zero => rfl
  | succ k ih => rw [List.range_succ, List.foldl_append, ← ih]; rfl

theorem loopUp_map_eq_foldl {σ α : Type} (n : Nat) (e : Nat → α) (g : σ → α → σ) (s : σ) :
    loopUp n (fun t s => g s (e t)) s = ((List.range n).map e).foldl g s := by
  rw [loopUp_eq_foldl, List.foldl_map]

theorem loopUp2_eq_foldl {σ α : Type} (n : Nat) (len : Nat → Nat) (e : Nat → Nat → α)
    (g : σ → α → σ) (s : σ) :
    loopUp n (fun j s => loopUp (len j) (fun t s => g s (e j t)) s) s
      = ((List.range n).flatMap fun j => (List.range (len j)).map (e j)).foldl g s := by
  induction n with
  | zero => rfl
  | succ k ih =>
    rw [List.range_succ, List.flatMap_append, List.foldl_append, ← ih]
    simp only [List.flatMap_cons, List.flatMap_nil, List.append_nil]
    rw [← loopUp_map_eq_foldl]
    rfl

theorem simplicial_count_eq (n : Nat) (Lp Li : Nat → Nat) (Lperm : Option (Nat → Nat))
    (Xp : Nat → Nat) :
    simplicial_count n Lp Li Lperm Xp = countL Lperm (simplicial_entries n Lp Li) Xp := by
  unfold simplicial_count countL simplicial_entries
  exact loopUp2_eq_foldl n (fun jl => Lp (jl + 1) - Lp jl)
    (fun jl t => ({ kl := Lp jl + t, il := Li (Lp jl + t), jl := jl } : Entry))
    (fun Xp e => store Xp (e.jx Lperm + 1) (Xp (e.jx Lperm + 1) + 1)) Xp

theorem simplicial_fill_eq (n : Nat) (Lp Li : Nat → Nat) (Lperm : Option (Nat → Nat))
    (Xp : Nat → Nat) (st : FillState) :
    simplicial_fill n Lp Li Lperm Xp st = fillL Lperm Xp (simplicial_entries n Lp Li) st := by
  unfold simplicial_fill fillL simplicial_entries
  exact loopUp2_eq_foldl n (fun jl => Lp (jl + 1) - Lp jl)
    (fun jl t => ({ kl := Lp jl + t, il := Li (Lp jl + t), jl := jl } : Entry))
    (fun st e => fill_entry Xp e.kl (PERM Lperm e.il) (PERM Lperm e.jl) st) st

theorem loopUp3_eq_foldl {σ α : Type} (n : Nat) (l1 : Nat → Nat) (l2 : Nat → Nat → Nat)
    (e : Nat → Nat → Nat → α) (g : σ → α → σ) (s : σ) :
    loopUp n (fun a s => loopUp (l1 a) (fun j s =>
        loopUp (l2 a j) (fun t s => g s (e a j t)) s) s) s
      = ((List.range n).flatMap fun a => (List.range (l1 a)).flatMap fun j =>
          (List.range (l2 a j)).map (e a j)).foldl g s := by
  induction n with
  | zero => rfl
  | succ k ih =>
    rw [List.range_succ, List.flatMap_append, List.foldl_append, ← ih]
    simp only [List.flatMap_cons, List.flatMap_nil, List.append_nil]
    rw [← loopUp2_eq_foldl]
    rfl

theorem super_count_eq (nsuper : Nat) (Super Lpi Lpx Ls : Nat → Nat)
    (Lperm : Option (Nat → Nat)) (Xp : Nat → Nat) (nz : Nat) :
    super_count nsuper Super Lpi Ls Lperm Xp nz
      = (countL Lperm (super_entries nsuper Super Lpi Lpx Ls) Xp,
          nz + (super_entries nsuper Super Lpi Lpx Ls).length) := by
  have h := loopUp3_eq_foldl nsuper (fun s => Super (s + 1) - Super s)
    (fun s j => (Lpi (s + 1) - Lpi s) - j)
    (fun s j t => (⟨Lpx s + (j + t) + j * (Lpi (s + 1) - Lpi s), Ls (Lpi s + (j + t)),
      Super s + j⟩ : Entry))
    (fun (st : (Nat → Nat) × Nat) e =>
      (store st.1 (e.jx Lperm + 1) (st.1 (e.jx Lperm + 1) + 1), st.2 + 1)) (Xp, nz)
  have h2 : ∀ (E : List Entry) (Xp : Nat → Nat) (nz : Nat),
      E.foldl (fun (st : (Nat → Nat) × Nat) e =>
        (store st.1 (e.jx Lperm + 1) (st.1 (e.jx Lperm + 1) + 1), st.2 + 1)) (Xp, nz)
        = (countL Lperm E Xp, nz + E.length) := by
    intro E
    induction E with
    | nil => intro Xp nz; rfl
    | cons e E ih =>
      intro Xp nz
      rw [List.foldl_cons, ih]
      simp only [countL, List.foldl_cons, List.length_cons]
      congr 1
      omega
  unfold super_count
  rw [← h2]
  exact h

theorem super_fill_eq (nsuper : Nat) (Super Lpi Lpx Ls : Nat → Nat)
    (Lperm : Option (Nat → Nat)) (Xp : Nat → Nat) (st : FillState) :
    super_fill nsuper Super Lpi Lpx Ls Lperm Xp st
      = fillL Lperm Xp (super_entries nsuper Super Lpi Lpx Ls) st := by
  unfold super_fill fillL super_entries
  exact loopUp3_eq_foldl nsuper (fun s => Super (s + 1) - Super s)
    (fun s j => (Lpi (s + 1) - Lpi s) - j)
    (fun s j t => (⟨Lpx s + (j + t) + j * (Lpi (s + 1) - Lpi s), Ls (Lpi s + (j + t)),
      Super s + j⟩ : Entry))
    (fun st e => fill_entry Xp e.kl (PERM Lperm e.il) (PERM Lperm e.jl) st) st

/-! ## The two passes as a counting sort -/

theorem bucket_append (Lperm : Option (Nat → Nat)) (P R : List Entry) (c : Nat) :
    bucket Lperm (P ++ R) c = bucket Lperm P c ++ bucket Lperm R c := by
  simp [bucket, List.filter_append]

theorem bucket_singleton_same (Lperm : Option (Nat → Nat)) (e : Entry) :
    bucket Lperm [e] (e.jx Lperm) = [e] := by
  simp [bucket, List.filter]

theorem bucket_singleton_other (Lperm : Option (Nat → Nat)) (e : Entry) (c : Nat)
    (h : e.jx Lperm ≠ c) : bucket Lperm [e] c = [] := by
  simp [bucket, List.filter, h]

theorem countL_spec (Lperm : Option (Nat → Nat)) (E : List Entry) (Xp : Nat → Nat) :
    countL Lperm E Xp 0 = Xp 0 ∧
    ∀ c, countL Lperm E Xp (c + 1) = Xp (c + 1) + (bucket Lperm E c).length := by
  induction E generalizing Xp with
  | nil => simp [countL, bucket]
  | cons e E ih =>
    have h := ih (store Xp (e.jx Lperm + 1) (Xp (e.jx Lperm + 1) + 1))
    have hc : countL Lperm (e :: E) Xp
        = countL Lperm E (store Xp (e.jx Lperm + 1) (Xp (e.jx Lperm + 1) + 1)) := rfl
    rw [hc]
    refine ⟨by rw [h.1, store_other _ _ _ _ (by omega)], fun c => ?_⟩
    rw [h.2 c]
    have hb : bucket Lperm (e :: E) c = bucket Lperm [e] c ++ bucket Lperm E c :=
      bucket_append Lperm [e] E c
    rw [hb, List.length_append]
    by_cases hk : e.jx Lperm = c
    · subst hk
      rw [store_same, bucket_singleton_same]
      simp only [List.length_singleton]
      omega
    · rw [store_other _ _ _ _ (by omega), bucket_singleton_other Lperm e c hk]
      simp

theorem super_cumsum_spec (n : Nat) (Xp : Nat → Nat) :
    ∀ c, super_cumsum n Xp c = if c ≤ n then ∑ i in range (c + 1), Xp i else Xp c := by
  induction n with
  | zero =>
    intro c
    by_cases hc : c ≤ 0
    · have : c = 0 := by omega
      subst this
      simp [super_cumsum, loopUp]
    · simp [super_cumsum, loopUp, hc]
  | succ k ih =>
    intro c
    have hstep : super_cumsum (k + 1) Xp
        = store (super_cumsum k Xp) (k + 1)
            (super_cumsum k Xp (k + 1) + super_cumsum k Xp (k + 1 - 1)) := rfl
    rw [hstep]
    by_cases hc : c = k + 1
    · subst hc
      rw [store_same, ih (k + 1), ih (k + 1 - 1)]
      simp only [Nat.add_sub_cancel]
      rw [if_neg (by omega), if_pos (by omega), if_pos (le_refl _),
        Finset.sum_range_succ _ (k + 1)]
      ring
    · rw [store_other _ _ _ _ hc, ih c]
      by_cases h1 : c ≤ k
      · rw [if_pos h1, if_pos (by omega)]
      · rw [if_neg h1, if_neg (by omega)]

theorem simplicial_cumsum_fst (n : Nat) (Xp : Nat → Nat) (maxsize : Nat) :
    (simplicial_cumsum n Xp maxsize).1 = super_cumsum n Xp := by
  induction n with
  | zero => rfl
  | succ k ih =>
    have h1 : (simplicial_cumsum (k + 1) Xp maxsize).1
        = store (simplicial_cumsum k Xp maxsize).1 (k + 1)
            ((simplicial_cumsum k Xp maxsize).1 (k + 1)
              + (simplicial_cumsum k Xp maxsize).1 (k + 1 - 1)) := rfl
    rw [h1, ih]
    rfl

/-- The column pointers after the first pass and the cumulative sum. -/
theorem pointers_spec (Lperm : Option (Nat → Nat)) (E : List Entry) (n c : Nat) (hc : c ≤ n) :
    super_cumsum n (countL Lperm E (fun _ => 0)) c = start Lperm E c := by
  rw [super_cumsum_spec, if_pos hc, Finset.sum_range_succ', (countL_spec Lperm E _).1]
  simp only [(countL_spec Lperm E _).2, Nat.zero_add, Nat.add_zero, start]

theorem start_succ (Lperm : Option (Nat → Nat)) (E : List Entry) (c : Nat) :
    start Lperm E (c + 1) = start Lperm E c + (bucket Lperm E c).length := by
  simp [start, Finset.sum_range_succ]

theorem start_mono (Lperm : Option (Nat → Nat)) (E : List Entry) {c d : Nat} (h : c ≤ d) :
    start Lperm E c ≤ start Lperm E d := by
  induction d with
  | zero =>
    have : c = 0 := by omega
    subst this
    exact le_refl _
  | succ k ih =>
    by_cases hk : c = k + 1
    · subst hk; exact le_refl _
    · have := ih (by omega)
      rw [start_succ]
      omega

/-- Slots of different columns are different. -/
theorem slot_disjoint (Lperm : Option (Nat → Nat)) (E : List Entry) {c d r q : Nat}
    (hcd : c ≠ d) (hr : r < (bucket Lperm E c).length) (hq : q < (bucket Lperm E d).length) :
    start Lperm E c + r ≠ start Lperm E d + q := by
  rcases Nat.lt_or_gt_of_ne hcd with h | h
  · have h1 := start_mono Lperm E (Nat.succ_le_of_lt h)
    rw [start_succ] at h1
    omega
  · have h1 := start_mono Lperm E (Nat.succ_le_of_lt h)
    rw [start_succ] at h1
    omega

theorem fillL_snoc (Lperm : Option (Nat → Nat)) (Xp : Nat → Nat) (P : List Entry) (e : Entry)
    (st : FillState) :
    fillL Lperm Xp (P ++ [e]) st
      = fill_entry Xp e.kl (PERM Lperm e.il) (PERM Lperm e.jl) (fillL Lperm Xp P st) := by
  simp [fillL, List.foldl_append]

theorem bucket_length_le (Lperm : Option (Nat → Nat)) (P R : List Entry) (c : Nat) :
    (bucket Lperm P c).length ≤ (bucket Lperm (P ++ R) c).length := by
  rw [bucket_append, List.length_append]
  omega

theorem bucket_length_lt (Lperm : Option (Nat → Nat)) (P R : List Entry) (e : Entry) :
    (bucket Lperm P (e.jx Lperm)).length
      < (bucket Lperm (P ++ [e] ++ R) (e.jx Lperm)).length := by
  rw [bucket_append, bucket_append, bucket_singleton_same, List.length_append,
    List.length_append, List.length_singleton]
  omega

/-- One step of the second pass keeps the invariant. -/
theorem fillInv_step (Lperm : Option (Nat → Nat)) (n : Nat) (E : List Entry) (Xp : Nat → Nat)
    (st0 : FillState) (hXp : ∀ c, c ≤ n → Xp c = start Lperm E c)
    (hkey : ∀ e, e ∈ E → e.jx Lperm < n) (hkl : (E.map Entry.kl).Nodup)
    (P R : List Entry) (e0 : Entry) (hE : E = P ++ [e0] ++ R) (st : FillState)
    (inv : FillInv Lperm n Xp st0 P st) :
    FillInv Lperm n Xp st0 (P ++ [e0])
      (fill_entry Xp e0.kl (PERM Lperm e0.il) (PERM Lperm e0.jl) st) := by
  have hc0 : e0.jx Lperm < n := hkey e0 (by rw [hE]; simp)
  have hlt0 : (bucket Lperm P (e0.jx Lperm)).length < (bucket Lperm E (e0.jx Lperm)).length := by
    rw [hE]; exact bucket_length_lt Lperm P R e0
  have hle : ∀ c, (bucket Lperm P c).length ≤ (bucket Lperm E c).length := by
    intro c
    rw [hE, List.append_assoc]
    exact bucket_length_le Lperm P _ c
  have hfresh : ∀ e, e ∈ P → e.kl ≠ e0.kl := by
    intro e he heq
    rw [hE, List.append_assoc, List.map_append, List.nodup_append] at hkl
    exact hkl.2.2 (List.mem_map_of_mem Entry.kl he)
      (by rw [heq]; exact List.mem_map_of_mem Entry.kl (by simp))
  -- the slot written by this step
  have hkx : ∀ c r, c < n → r < (bucket Lperm P c).length →
      Xp c + r ≠ Xp (e0.jx Lperm) + (bucket Lperm P (e0.jx Lperm)).length := by
    intro c r hc hr
    by_cases hcc : c = e0.jx Lperm
    · subst hcc; omega
    · rw [hXp c (Nat.le_of_lt hc), hXp _ (Nat.le_of_lt hc0)]
      exact slot_disjoint Lperm E hcc (Nat.lt_of_lt_of_le hr (hle c)) hlt0
  have hold : ∀ e, e ∈ P →
      st.perm e.kl ≠ Xp (e0.jx Lperm) + (bucket Lperm P (e0.jx Lperm)).length := by
    intro e he
    have hs := inv.slot e he
    have hcn : e.jx Lperm < n := hkey e (by rw [hE]; simp [he])
    have := hkx (e.jx Lperm) (st.perm e.kl - Xp (e.jx Lperm)) hcn (by omega)
    intro heq
    apply this
    omega
  have hfe : fill_entry Xp e0.kl (PERM Lperm e0.il) (PERM Lperm e0.jl) st
      = { ncol := store st.ncol (e0.jx Lperm) (st.ncol (e0.jx Lperm) + 1),
          Xi := store st.Xi (Xp (e0.jx Lperm) + (bucket Lperm P (e0.jx Lperm)).length)
            (e0.ix Lperm),
          perm := store st.perm e0.kl
            (Xp (e0.jx Lperm) + (bucket Lperm P (e0.jx Lperm)).length) } := by
    simp only [fill_entry, Entry.jx, Entry.ix]
    rw [← Entry.jx, inv.ncol]
  rw [hfe]
  have hbsame : bucket Lperm (P ++ [e0]) (e0.jx Lperm)
      = bucket Lperm P (e0.jx Lperm) ++ [e0] := by
    rw [bucket_append, bucket_singleton_same]
  have hbother : ∀ c, e0.jx Lperm ≠ c → bucket Lperm (P ++ [e0]) c = bucket Lperm P c := by
    intro c hc
    rw [bucket_append, bucket_singleton_other Lperm e0 c hc, List.append_nil]
  constructor
  · intro c
    by_cases hc : c = e0.jx Lperm
    · subst hc
      simp only [store_same, hbsame, List.length_append, List.length_singleton, inv.ncol]
    · simp only [store_other _ _ _ _ hc, hbother c (Ne.symm hc), inv.ncol]
  · intro c hc r hr
    by_cases hcc : c = e0.jx Lperm
    · subst hcc
      rw [hbsame] at hr ⊢
      rw [List.length_append, List.length_singleton] at hr
      by_cases hrl : r = (bucket Lperm P (e0.jx Lperm)).length
      · subst hrl
        simp only [store_same]
        rw [List.map_append, List.getD_append_right _ _ _ _ (by simp)]
        simp
      · have hr' : r < (bucket Lperm P (e0.jx Lperm)).length := by omega
        simp only []
        rw [store_other _ _ _ _ (by omega), List.map_append,
          List.getD_append _ _ _ _ (by simpa using hr')]
        exact inv.rows _ hc r hr'
    · rw [hbother c (Ne.symm hcc)] at hr ⊢
      simp only []
      rw [store_other _ _ _ _ (hkx c r hc hr)]
      exact inv.rows c hc r hr
  · intro e he
    rcases List.mem_append.mp he with he | he
    · have hs := inv.slot e he
      simp only []
      rw [store_other _ _ _ _ (hfresh e he)]
      refine ⟨hs.1, Nat.lt_of_lt_of_le hs.2 ?_⟩
      have := bucket_length_le Lperm P [e0] (e.jx Lperm)
      omega
    · have : e = e0 := by simpa using he
      subst this
      simp only [store_same, hbsame, List.length_append, List.length_singleton]
      omega
  · intro e he
    rcases List.mem_append.mp he with he | he
    · simp only []
      rw [store_other _ _ _ _ (hfresh e he), store_other _ _ _ _ (hold e he)]
      exact inv.row e he
    · have : e = e0 := by simpa using he
      subst this
      simp only [store_same]
  · intro e he e' he' heq
    simp only [] at heq
    rcases List.mem_append.mp he with h1 | h1 <;> rcases List.mem_append.mp he' with h2 | h2
    · rw [store_other _ _ _ _ (hfresh e h1), store_other _ _ _ _ (hfresh e' h2)] at heq
      exact inv.inj e h1 e' h2 heq
    · have h3 : e' = e0 := by simpa using h2
      rw [h3] at heq
      rw [store_other _ _ _ _ (hfresh e h1), store_same] at heq
      exact absurd heq (hold e h1)
    · have h3 : e = e0 := by simpa using h1
      rw [h3] at heq
      rw [store_other _ _ _ _ (hfresh e' h2), store_same] at heq
      exact absurd heq.symm (hold e' h2)
    · have h3 : e = e0 := by simpa using h1
      have h4 : e' = e0 := by simpa using h2
      rw [h3, h4]
  · intro k hk
    simp only []
    rw [store_other _ _ _ _ (hk e0 (by simp))]
    exact inv.frame k (fun e he => hk e (by simp [he]))

theorem fillInv_nil (Lperm : Option (Nat → Nat)) (n : Nat) (Xp : Nat → Nat) (st0 : FillState)
    (hncol : ∀ c, st0.ncol c = 0) : FillInv Lperm n Xp st0 [] st0 where
  ncol := fun c => by simp [hncol, bucket]
  rows := fun c _ r hr => by simp [bucket] at hr
  slot := fun e he => by simp at he
  row := fun e he => by simp at he
  inj := fun e he => by simp at he
  frame := fun _ _ => rfl

theorem fillL_prefix_inv (Lperm : Option (Nat → Nat)) (n : Nat) (E : List Entry)
    (Xp : Nat → Nat) (st0 : FillState) (hXp : ∀ c, c ≤ n → Xp c = start Lperm E c)
    (hkey : ∀ e, e ∈ E → e.jx Lperm < n) (hkl : (E.map Entry.kl).Nodup)
    (hncol : ∀ c, st0.ncol c = 0) (P : List Entry) :
    ∀ R, E = P ++ R → FillInv Lperm n Xp st0 P (fillL Lperm Xp P st0) := by
  induction P using List.reverseRecOn with
  | nil => intro R _; exact fillInv_nil Lperm n Xp st0 hncol
  | append_singleton P e0 ih =>
    intro R hE
    rw [fillL_snoc]
    exact fillInv_step Lperm n E Xp st0 hXp hkey hkl P R e0 hE _
      (ih ([e0] ++ R) (by rw [hE, List.append_assoc]))

/-- The second pass on all entries. -/
theorem fillL_inv (Lperm : Option (Nat → Nat)) (n : Nat) (E : List Entry)
    (Xp : Nat → Nat) (st0 : FillState) (hXp : ∀ c, c ≤ n → Xp c = start Lperm E c)
    (hkey : ∀ e, e ∈ E → e.jx Lperm < n) (hkl : (E.map Entry.kl).Nodup)
    (hncol : ∀ c, st0.ncol c = 0) :
    FillInv Lperm n Xp st0 E (fillL Lperm Xp E st0) :=
  fillL_prefix_inv Lperm n E Xp st0 hXp hkey hkl hncol E [] (List.append_nil E).symm

/-- The stored positions after the two passes are the buckets of the entries, column by
column. -/
theorem positions_eq_buckets (Lperm : Option (Nat → Nat)) (n : Nat) (E : List Entry)
    (Xp : Nat → Nat) (st0 st : FillState) (hXp : ∀ c, c ≤ n → Xp c = start Lperm E c)
    (inv : FillInv Lperm n Xp st0 E st) :
    positions n Xp st.Xi
      = (List.range n).flatMap fun c =>
          (bucket Lperm E c).map fun e => (e.ix Lperm, c) := by
  unfold positions
  refine List.flatMap_congr (fun c hc => ?_)
  have hcn : c < n := List.mem_range.mp hc
  have hlen : Xp (c + 1) - Xp c = (bucket Lperm E c).length := by
    rw [hXp c (Nat.le_of_lt hcn), hXp (c + 1) hcn, start_succ]
    omega
  rw [hlen]
  refine List.ext_getElem (by simp) (fun r h1 h2 => ?_)
  have hr : r < (bucket Lperm E c).length := by simpa using h1
  simp only [List.getElem_map, List.getElem_range]
  rw [inv.rows c hcn r hr, List.getD_eq_getElem _ _ (by simpa using hr), List.getElem_map]

theorem filter_lt_succ_perm (Lperm : Option (Nat → Nat)) (E : List Entry) (n : Nat) :
    (E.filter (fun e => decide (e.jx Lperm < n)) ++ bucket Lperm E n).Perm
      (E.filter fun e => decide (e.jx Lperm < n + 1)) := by
  induction E with
  | nil => simp [bucket]
  | cons e E ih =>
    unfold bucket at ih ⊢
    by_cases h1 : e.jx Lperm < n
    · have h2 : e.jx Lperm < n + 1 := by omega
      have h3 : e.jx Lperm ≠ n := by omega
      simp only [List.filter_cons, h1, h2, h3, decide_True, decide_False, if_true]
      exact (List.Perm.cons e ih)
    · by_cases h2 : e.jx Lperm = n
      · have h3 : e.jx Lperm < n + 1 := by omega
        rw [List.filter_cons, List.filter_cons, List.filter_cons, if_neg (by simpa using h1),
          if_pos (by simpa using h2), if_pos (by simpa using h3)]
        exact List.perm_middle.trans (List.Perm.cons e ih)
      · have h3 : ¬ e.jx Lperm < n + 1 := by omega
        simp only [List.filter_cons, h1, h2, h3, decide_False]
        exact ih

theorem buckets_perm (Lperm : Option (Nat → Nat)) (E : List Entry) (n : Nat) :
    ((List.range n).flatMap fun c => bucket Lperm E c).Perm
      (E.filter fun e => decide (e.jx Lperm < n)) := by
  induction n with
  | zero => simp
  | succ k ih =>
    rw [List.range_succ, List.flatMap_append]
    simp only [List.flatMap_cons, List.flatMap_nil, List.append_nil]
    exact (List.Perm.append_right _ ih).trans (filter_lt_succ_perm Lperm E k)

/-- The stored positions after the two passes are, up to the order, the images of the
entries. -/
theorem positions_perm (Lperm : Option (Nat → Nat)) (n : Nat) (E : List Entry)
    (Xp : Nat → Nat) (st0 st : FillState) (hXp : ∀ c, c ≤ n → Xp c = start Lperm E c)
    (hkey : ∀ e, e ∈ E → e.jx Lperm < n)
    (inv : FillInv Lperm n Xp st0 E st) :
    (positions n Xp st.Xi).Perm (E.map fun e => (e.ix Lperm, e.jx Lperm)) := by
  rw [positions_eq_buckets Lperm n E Xp st0 st hXp inv]
  have h1 : ((List.range n).flatMap fun c => (bucket Lperm E c).map fun e => (e.ix Lperm, c))
      = ((List.range n).flatMap fun c => bucket Lperm E c).map
          fun e => (e.ix Lperm, e.jx Lperm) := by
    rw [List.map_flatMap]
    refine List.flatMap_congr (fun c _ => List.map_congr_left (fun e he => ?_))
    have : e.jx Lperm = c := by
      have := (List.mem_filter.mp he).2
      simpa using this
    rw [this]
  rw [h1]
  have h2 : E.filter (fun e => decide (e.jx Lperm < n)) = E :=
    List.filter_eq_self.mpr (fun e he => by simpa using hkey e he)
  have h3 := buckets_perm Lperm E n
  rw [h2] at h3
  exact h3.map _

/-! ## Well-formed factors -/

theorem nodup_map_flatMap {α β γ : Type} (l : List α) (F : α → List β) (f : β → γ)
    (hl : l.Nodup) (h1 : ∀ a, a ∈ l → ((F a).map f).Nodup)
    (h2 : ∀ a, a ∈ l → ∀ b, b ∈ l → a ≠ b → ∀ x, x ∈ F a → ∀ y, y ∈ F b → f x ≠ f y) :
    ((l.flatMap F).map f).Nodup := by
  rw [List.map_flatMap, List.nodup_flatMap]
  refine ⟨h1, ?_⟩
  have hp : l.Pairwise (fun a b => a ≠ b) := hl
  refine hp.imp_of_mem (fun {a b} ha hb hab => ?_)
  intro z hz1 hz2
  obtain ⟨x, hx, rfl⟩ := List.mem_map.mp hz1
  obtain ⟨y, hy, hxy⟩ := List.mem_map.mp hz2
  exact h2 a ha b hb hab x hx y hy hxy.symm

theorem nodup_map_range {γ : Type} (len : Nat) (g : Nat → γ)
    (h : ∀ t, t < len → ∀ t', t' < len → g t = g t' → t = t') :
    ((List.range len).map g).Nodup :=
  List.Nodup.map_on
    (fun x hx y hy e => h x (List.mem_range.mp hx) y (List.mem_range.mp hy) e)
    (List.nodup_range len)

theorem mem_simplicial_entries (n : Nat) (Lp Li : Nat → Nat) (e : Entry) :
    e ∈ simplicial_entries n Lp Li ↔
      ∃ j, j < n ∧ ∃ t, t < Lp (j + 1) - Lp j ∧
        e = { kl := Lp j + t, il := Li (Lp j + t), jl := j } := by
  simp only [simplicial_entries, List.mem_flatMap, List.mem_range, List.mem_map]
  constructor
  · rintro ⟨j, hj, t, ht, rfl⟩
    exact ⟨j, hj, t, ht, rfl⟩
  · rintro ⟨j, hj, t, ht, rfl⟩
    exact ⟨j, hj, t, ht, rfl⟩

theorem SimplicialWF.Lp_mono {n : Nat} {Lp Li : Nat → Nat} (wf : SimplicialWF n Lp Li)
    {a b : Nat} (hab : a ≤ b) (hb : b ≤ n) : Lp a ≤ Lp b := by
  induction b with
  | zero =>
    have : a = 0 := by omega
    subst this
    exact le_refl _
  | succ k ih =>
    by_cases h : a = k + 1
    · subst h; exact le_refl _
    · have h1 := ih (by omega) (by omega)
      have h2 := wf.nonempty k (by omega)
      omega

theorem SimplicialWF.asc_lt {n : Nat} {Lp Li : Nat → Nat} (wf : SimplicialWF n Lp Li)
    {j : Nat} (hj : j < n) {k k' : Nat} (hk : Lp j ≤ k) (hkk : k < k') (hk' : k' < Lp (j + 1)) :
    Li k < Li k' := by
  induction k' with
  | zero => omega
  | succ m ih =>
    by_cases h : k = m
    · subst h
      exact wf.asc j hj k hk hk'
    · have h1 := ih (by omega) (by omega)
      have h2 := wf.asc j hj m (by omega) hk'
      omega

theorem SimplicialWF.row_ge {n : Nat} {Lp Li : Nat → Nat} (wf : SimplicialWF n Lp Li)
    {j : Nat} (hj : j < n) {k : Nat} (hk : Lp j ≤ k) (hk' : k < Lp (j + 1)) : j ≤ Li k := by
  by_cases h : k = Lp j
  · rw [h, wf.diag j hj]
  · have := wf.asc_lt hj (le_refl (Lp j)) (by omega : Lp j < k) hk'
    rw [wf.diag j hj] at this
    omega

theorem PERM_minmax_inj (n : Nat) (Lperm : Option (Nat → Nat)) (hp : PermOK n Lperm)
    {i j i' j' : Nat} (hi : i < n) (hj : j < n) (hi' : i' < n) (hj' : j' < n)
    (hij : j ≤ i) (hij' : j' ≤ i')
    (hmax : max (PERM Lperm i) (PERM Lperm j) = max (PERM Lperm i') (PERM Lperm j'))
    (hmin : min (PERM Lperm i) (PERM Lperm j) = min (PERM Lperm i') (PERM Lperm j')) :
    i = i' ∧ j = j' := by
  have h : (PERM Lperm i = PERM Lperm i' ∧ PERM Lperm j = PERM Lperm j') ∨
      (PERM Lperm i = PERM Lperm j' ∧ PERM Lperm j = PERM Lperm i') := by omega
  rcases h with ⟨h1, h2⟩ | ⟨h1, h2⟩
  · exact ⟨hp.2 i hi i' hi' h1, hp.2 j hj j' hj' h2⟩
  · have e1 := hp.2 i hi j' hj' h1
    have e2 := hp.2 j hj i' hi' h2
    omega

theorem simplicial_key_lt (n : Nat) (Lp Li : Nat → Nat) (Lperm : Option (Nat → Nat))
    (hp : PermOK n Lperm) :
    ∀ e, e ∈ simplicial_entries n Lp Li → e.jx Lperm < n := by
  intro e he
  obtain ⟨j, hj, t, _, rfl⟩ := (mem_simplicial_entries n Lp Li e).mp he
  have := hp.1 j hj
  simp only [Entry.jx]
  omega

theorem simplicial_kl_nodup (n : Nat) (Lp Li : Nat → Nat) (wf : SimplicialWF n Lp Li) :
    ((simplicial_entries n Lp Li).map Entry.kl).Nodup := by
  unfold simplicial_entries
  refine nodup_map_flatMap _ _ _ (List.nodup_range n) (fun j _ => ?_) ?_
  · rw [List.map_map]
    exact nodup_map_range _ _ (fun t _ t' _ e => by simpa using e)
  · intro a ha b hb hab x hx y hy
    obtain ⟨t, ht, rfl⟩ := List.mem_map.mp hx
    obtain ⟨t', ht', rfl⟩ := List.mem_map.mp hy
    have ha' := List.mem_range.mp ha
    have hb' := List.mem_range.mp hb
    have ht1 := List.mem_range.mp ht
    have ht2 := List.mem_range.mp ht'
    show Lp a + t ≠ Lp b + t'
    rcases Nat.lt_or_gt_of_ne hab with h | h
    · have := wf.Lp_mono (by omega : a + 1 ≤ b) (Nat.le_of_lt hb')
      omega
    · have := wf.Lp_mono (by omega : b + 1 ≤ a) (Nat.le_of_lt ha')
      omega

theorem simplicial_images_nodup (n : Nat) (Lp Li : Nat → Nat) (Lperm : Option (Nat → Nat))
    (wf : SimplicialWF n Lp Li) (hp : PermOK n Lperm) :
    ((simplicial_entries n Lp Li).map fun e => (e.ix Lperm, e.jx Lperm)).Nodup := by
  unfold simplicial_entries
  refine nodup_map_flatMap _ _ _ (List.nodup_range n) (fun j hj => ?_) ?_
  · have hj' := List.mem_range.mp hj
    rw [List.map_map]
    refine nodup_map_range _ _ (fun t ht t' ht' e => ?_)
    simp only [Function.comp, Entry.ix, Entry.jx, Prod.mk.injEq] at e
    have h1 := wf.bound j hj' (Lp j + t) (by omega) (by omega)
    have h2 := wf.bound j hj' (Lp j + t') (by omega) (by omega)
    have h3 := wf.row_ge hj' (by omega : Lp j ≤ Lp j + t) (by omega)
    have h4 := wf.row_ge hj' (by omega : Lp j ≤ Lp j + t') (by omega)
    have h5 := (PERM_minmax_inj n Lperm hp h1 hj' h2 hj' h3 h4 e.1 e.2).1
    by_contra hne
    rcases Nat.lt_or_gt_of_ne hne with h | h
    · have := wf.asc_lt hj' (by omega : Lp j ≤ Lp j + t) (by omega : Lp j + t < Lp j + t')
        (by omega)
      omega
    · have := wf.asc_lt hj' (by omega : Lp j ≤ Lp j + t') (by omega : Lp j + t' < Lp j + t)
        (by omega)
      omega
  · intro a ha b hb hab x hx y hy
    obtain ⟨t, ht, rfl⟩ := List.mem_map.mp hx
    obtain ⟨t', ht', rfl⟩ := List.mem_map.mp hy
    have ha' := List.mem_range.mp ha
    have hb' := List.mem_range.mp hb
    have ht1 := List.mem_range.mp ht
    have ht2 := List.mem_range.mp ht'
    intro e
    simp only [Entry.ix, Entry.jx, Prod.mk.injEq] at e
    have h1 := wf.bound a ha' (Lp a + t) (by omega) (by omega)
    have h2 := wf.bound b hb' (Lp b + t') (by omega) (by omega)
    have h3 := wf.row_ge ha' (by omega : Lp a ≤ Lp a + t) (by omega)
    have h4 := wf.row_ge hb' (by omega : Lp b ≤ Lp b + t') (by omega)
    exact hab (PERM_minmax_inj n Lperm hp h1 ha' h2 hb' h3 h4 e.1 e.2).2

/-- The pattern pass of the simplicial driver: column pointers and the invariant of the
second pass on all entries. -/
theorem simplicial_pattern_inv (L : cholmod_factor) (h : Fresh)
    (wf : SimplicialWF L.n L.p L.i) (hp : PermOK L.n L.Perm) :
    (∀ c, c ≤ L.n →
      (simplicial_pattern L h).Xp c = start L.Perm (simplicial_entries L.n L.p L.i) c) ∧
    FillInv L.Perm L.n (simplicial_pattern L h).Xp
      { ncol := fun _ => 0, Xi := h.Xi, perm := h.perm } (simplicial_entries L.n L.p L.i)
      { ncol := (simplicial_fill L.n L.p L.i L.Perm (simplicial_pattern L h).Xp
          { ncol := fun _ => 0, Xi := h.Xi, perm := h.perm }).ncol,
        Xi := (simplicial_pattern L h).Xi, perm := (simplicial_pattern L h).perm } := by
  have hXp : ∀ c, c ≤ L.n →
      (simplicial_pattern L h).Xp c = start L.Perm (simplicial_entries L.n L.p L.i) c := by
    intro c hc
    simp only [simplicial_pattern]
    rw [simplicial_cumsum_fst, simplicial_count_eq]
    exact pointers_spec L.Perm _ L.n c hc
  refine ⟨hXp, ?_⟩
  have := fillL_inv L.Perm L.n (simplicial_entries L.n L.p L.i) (simplicial_pattern L h).Xp
    { ncol := fun _ => 0, Xi := h.Xi, perm := h.perm } hXp
    (simplicial_key_lt L.n L.p L.i L.Perm hp) (simplicial_kl_nodup L.n L.p L.i wf)
    (fun _ => rfl)
  rw [← simplicial_fill_eq] at this
  exact this

theorem mem_super_entries (nsuper : Nat) (Super Lpi Lpx Ls : Nat → Nat) (e : Entry) :
    e ∈ super_entries nsuper Super Lpi Lpx Ls ↔
      ∃ s, s < nsuper ∧ ∃ j, j < Super (s + 1) - Super s ∧
        ∃ t, t < (Lpi (s + 1) - Lpi s) - j ∧
          e = { kl := Lpx s + (j + t) + j * (Lpi (s + 1) - Lpi s), il := Ls (Lpi s + (j + t)),
                jl := Super s + j } := by
  simp only [super_entries, List.mem_flatMap, List.mem_range, List.mem_map]
  constructor
  · rintro ⟨s, hs, j, hj, t, ht, rfl⟩
    exact ⟨s, hs, j, hj, t, ht, rfl⟩
  · rintro ⟨s, hs, j, hj, t, ht, rfl⟩
    exact ⟨s, hs, j, hj, t, ht, rfl⟩

theorem SuperWF.Super_mono {n nsuper : Nat} {Super Lpi Lpx Ls : Nat → Nat}
    (wf : SuperWF n nsuper Super Lpi Lpx Ls) {a b : Nat} (hab : a ≤ b) (hb : b ≤ nsuper) :
    Super a ≤ Super b := by
  induction b with
  | zero =>
    have : a = 0 := by omega
    subst this
    exact le_refl _
  | succ k ih =>
    by_cases h : a = k + 1
    · subst h; exact le_refl _
    · have h1 := ih (by omega) (by omega)
      have h2 := wf.cols k (by omega)
      omega

theorem SuperWF.Lpx_mono {n nsuper : Nat} {Super Lpi Lpx Ls : Nat → Nat}
    (wf : SuperWF n nsuper Super Lpi Lpx Ls) {a b : Nat} (hab : a ≤ b) (hb : b ≤ nsuper) :
    Lpx a ≤ Lpx b := by
  induction b with
  | zero =>
    have : a = 0 := by omega
    subst this
    exact le_refl _
  | succ k ih =>
    by_cases h : a = k + 1
    · subst h; exact le_refl _
    · have h1 := ih (by omega) (by omega)
      have h2 := wf.panel k (by omega)
      omega

theorem SuperWF.col_lt {n nsuper : Nat} {Super Lpi Lpx Ls : Nat → Nat}
    (wf : SuperWF n nsuper Super Lpi Lpx Ls) {s j : Nat} (hs : s < nsuper)
    (hj : j < Super (s + 1) - Super s) : Super s + j < n := by
  have := wf.Super_mono (by omega : s + 1 ≤ nsuper) (le_refl nsuper)
  rw [wf.last] at this
  omega

theorem SuperWF.srow_lt {n nsuper : Nat} {Super Lpi Lpx Ls : Nat → Nat}
    (wf : SuperWF n nsuper Super Lpi Lpx Ls) {s : Nat} (hs : s < nsuper) {i i' : Nat}
    (hii : i < i') (hi' : i' < Lpi (s + 1) - Lpi s) : Ls (Lpi s + i) < Ls (Lpi s + i') := by
  induction i' with
  | zero => omega
  | succ m ih =>
    by_cases h : i = m
    · subst h
      exact wf.asc s hs i hi'
    · have h1 := ih (by omega) (by omega)
      have h2 := wf.asc s hs m hi'
      omega

theorem SuperWF.srow_ge {n nsuper : Nat} {Super Lpi Lpx Ls : Nat → Nat}
    (wf : SuperWF n nsuper Super Lpi Lpx Ls) {s : Nat} (hs : s < nsuper) {i j : Nat}
    (hj : j < Super (s + 1) - Super s) (hji : j ≤ i) (hi : i < Lpi (s + 1) - Lpi s) :
    Super s + j ≤ Ls (Lpi s + i) := by
  by_cases h : i = j
  · subst h
    rw [wf.own s hs i hj]
  · have := wf.srow_lt hs (by omega : j < i) hi
    rw [wf.own s hs j hj] at this
    omega

theorem panel_index_lt {ms ns i j : Nat} (hi : i < ms) (hj : j < ns) : i + j * ms < ms * ns := by
  have h1 : (j + 1) * ms ≤ ns * ms := Nat.mul_le_mul_right ms hj
  have h2 : (j + 1) * ms = j * ms + ms := by ring
  have h3 : ns * ms = ms * ns := Nat.mul_comm _ _
  omega

theorem super_key_lt (n nsuper : Nat) (Super Lpi Lpx Ls : Nat → Nat)
    (Lperm : Option (Nat → Nat)) (wf : SuperWF n nsuper Super Lpi Lpx Ls)
    (hp : PermOK n Lperm) :
    ∀ e, e ∈ super_entries nsuper Super Lpi Lpx Ls → e.jx Lperm < n := by
  intro e he
  obtain ⟨s, hs, j, hj, t, _, rfl⟩ := (mem_super_entries nsuper Super Lpi Lpx Ls e).mp he
  have := hp.1 (Super s + j) (wf.col_lt hs hj)
  simp only [Entry.jx]
  omega

theorem super_kl_nodup (n nsuper : Nat) (Super Lpi Lpx Ls : Nat → Nat)
    (wf : SuperWF n nsuper Super Lpi Lpx Ls) :
    ((super_entries nsuper Super Lpi Lpx Ls).map Entry.kl).Nodup := by
  unfold super_entries
  refine nodup_map_flatMap _ _ _ (List.nodup_range nsuper) (fun s hs => ?_) ?_
  · refine nodup_map_flatMap _ _ _ (List.nodup_range _) (fun j _ => ?_) ?_
    · rw [List.map_map]
      exact nodup_map_range _ _ (fun t _ t' _ e => by
        simp only [Function.comp] at e
        omega)
    · intro a ha b hb hab x hx y hy
      obtain ⟨t, ht, rfl⟩ := List.mem_map.mp hx
      obtain ⟨t', ht', rfl⟩ := List.mem_map.mp hy
      have ht1 := List.mem_range.mp ht
      have ht2 := List.mem_range.mp ht'
      show Lpx s + (a + t) + a * (Lpi (s + 1) - Lpi s)
        ≠ Lpx s + (b + t') + b * (Lpi (s + 1) - Lpi s)
      intro e
      exact hab (colmajor_off_inj (by omega) (by omega) e).2
  · intro a ha b hb hab x hx y hy
    obtain ⟨j, hj, hx⟩ := List.mem_flatMap.mp hx
    obtain ⟨t, ht, rfl⟩ := List.mem_map.mp hx
    obtain ⟨j', hj', hy⟩ := List.mem_flatMap.mp hy
    obtain ⟨t', ht', rfl⟩ := List.mem_map.mp hy
    have ha' := List.mem_range.mp ha
    have hb' := List.mem_range.mp hb
    have hj1 := List.mem_range.mp hj
    have hj2 := List.mem_range.mp hj'
    have ht1 := List.mem_range.mp ht
    have ht2 := List.mem_range.mp ht'
    show Lpx a + (j + t) + j * (Lpi (a + 1) - Lpi a)
      ≠ Lpx b + (j' + t') + j' * (Lpi (b + 1) - Lpi b)
    have p1 := panel_index_lt (by omega : j + t < Lpi (a + 1) - Lpi a) hj1
    have p2 := panel_index_lt (by omega : j' + t' < Lpi (b + 1) - Lpi b) hj2
    have q1 := wf.panel a ha'
    have q2 := wf.panel b hb'
    rcases Nat.lt_or_gt_of_ne hab with h | h
    · have := wf.Lpx_mono (by omega : a + 1 ≤ b) (Nat.le_of_lt hb')
      omega
    · have := wf.Lpx_mono (by omega : b + 1 ≤ a) (Nat.le_of_lt ha')
      omega

theorem super_images_nodup (n nsuper : Nat) (Super Lpi Lpx Ls : Nat → Nat)
    (Lperm : Option (Nat → Nat)) (wf : SuperWF n nsuper Super Lpi Lpx Ls)
    (hp : PermOK n Lperm) :
    ((super_entries nsuper Super Lpi Lpx Ls).map fun e => (e.ix Lperm, e.jx Lperm)).Nodup := by
  unfold super_entries
  refine nodup_map_flatMap _ _ _ (List.nodup_range nsuper) (fun s hs => ?_) ?_
  · have hs' := List.mem_range.mp hs
    refine nodup_map_flatMap _ _ _ (List.nodup_range _) (fun j hj => ?_) ?_
    · have hj' := List.mem_range.mp hj
      rw [List.map_map]
      refine nodup_map_range _ _ (fun t ht t' ht' e => ?_)
      simp only [Function.comp, Entry.ix, Entry.jx, Prod.mk.injEq] at e
      have h1 := wf.bound s hs' (j + t) (by omega)
      have h2 := wf.bound s hs' (j + t') (by omega)
      have h3 := wf.srow_ge hs' hj' (by omega : j ≤ j + t) (by omega)
      have h4 := wf.srow_ge hs' hj' (by omega : j ≤ j + t') (by omega)
      have hc := wf.col_lt hs' hj'
      have h5 := (PERM_minmax_inj n Lperm hp h1 hc h2 hc h3 h4 e.1 e.2).1
      by_contra hne
      rcases Nat.lt_or_gt_of_ne hne with h | h
      · have := wf.srow_lt hs' (by omega : j + t < j + t') (by omega)
        omega
      · have := wf.srow_lt hs' (by omega : j + t' < j + t) (by omega)
        omega
    · intro a ha b hb hab x hx y hy
      obtain ⟨t, ht, rfl⟩ := List.mem_map.mp hx
      obtain ⟨t', ht', rfl⟩ := List.mem_map.mp hy
      have ha' := List.mem_range.mp ha
      have hb' := List.mem_range.mp hb
      have ht1 := List.mem_range.mp ht
      have ht2 := List.mem_range.mp ht'
      intro e
      simp only [Entry.ix, Entry.jx, Prod.mk.injEq] at e
      have h1 := wf.bound s hs' (a + t) (by omega)
      have h2 := wf.bound s hs' (b + t') (by omega)
      have h3 := wf.srow_ge hs' ha' (by omega : a ≤ a + t) (by omega)
      have h4 := wf.srow_ge hs' hb' (by omega : b ≤ b + t') (by omega)
      have := (PERM_minmax_inj n Lperm hp h1 (wf.col_lt hs' ha') h2 (wf.col_lt hs' hb')
        h3 h4 e.1 e.2).2
      omega
  · intro a ha b hb hab x hx y hy
    obtain ⟨j, hj, hx⟩ := List.mem_flatMap.mp hx
    obtain ⟨t, ht, rfl⟩ := List.mem_map.mp hx
    obtain ⟨j', hj', hy⟩ := List.mem_flatMap.mp hy
    obtain ⟨t', ht', rfl⟩ := List.mem_map.mp hy
    have ha' := List.mem_range.mp ha
    have hb' := List.mem_range.mp hb
    have hj1 := List.mem_range.mp hj
    have hj2 := List.mem_range.mp hj'
    have ht1 := List.mem_range.mp ht
    have ht2 := List.mem_range.mp ht'
    intro e
    simp only [Entry.ix, Entry.jx, Prod.mk.injEq] at e
    have h1 := wf.bound a ha' (j + t) (by omega)
    have h2 := wf.bound b hb' (j' + t') (by omega)
    have h3 := wf.srow_ge ha' hj1 (by omega : j ≤ j + t) (by omega)
    have h4 := wf.srow_ge hb' hj2 (by omega : j' ≤ j' + t') (by omega)
    have h5 := (PERM_minmax_inj n Lperm hp h1 (wf.col_lt ha' hj1) h2 (wf.col_lt hb' hj2)
      h3 h4 e.1 e.2).2
    rcases Nat.lt_or_gt_of_ne hab with h | h
    · have := wf.Super_mono (by omega : a + 1 ≤ b) (Nat.le_of_lt hb')
      omega
    · have := wf.Super_mono (by omega : b + 1 ≤ a) (Nat.le_of_lt ha')
      omega

/-- The pattern pass of the supernodal driver: column pointers and the invariant of the
second pass on all entries. -/
theorem super_pattern_inv (L : cholmod_factor) (h : Fresh)
    (wf : SuperWF L.n L.nsuper L.super L.pi L.px L.s) (hp : PermOK L.n L.Perm) :
    (∀ c, c ≤ L.n →
      (super_pattern L h).Xp c
        = start L.Perm (super_entries L.nsuper L.super L.pi L.px L.s) c) ∧
    FillInv L.Perm L.n (super_pattern L h).Xp
      { ncol := fun _ => 0, Xi := h.Xi, perm := h.perm }
      (super_entries L.nsuper L.super L.pi L.px L.s)
      { ncol := (super_fill L.nsuper L.super L.pi L.px L.s L.Perm (super_pattern L h).Xp
          { ncol := fun _ => 0, Xi := h.Xi, perm := h.perm }).ncol,
        Xi := (super_pattern L h).Xi, perm := (super_pattern L h).perm } := by
  have hXp : ∀ c, c ≤ L.n →
      (super_pattern L h).Xp c
        = start L.Perm (super_entries L.nsuper L.super L.pi L.px L.s) c := by
    intro c hc
    simp only [super_pattern]
    rw [super_count_eq L.nsuper L.super L.pi L.px L.s]
    exact pointers_spec L.Perm _ L.n c hc
  refine ⟨hXp, ?_⟩
  have := fillL_inv L.Perm L.n (super_entries L.nsuper L.super L.pi L.px L.s)
    (super_pattern L h).Xp
    { ncol := fun _ => 0, Xi := h.Xi, perm := h.perm } hXp
    (super_key_lt L.n L.nsuper L.super L.pi L.px L.s L.Perm wf hp)
    (super_kl_nodup L.n L.nsuper L.super L.pi L.px L.s wf)
    (fun _ => rfl)
  rw [← super_fill_eq] at this
  exact this

/-- The stored positions of the result pattern of either driver. -/
theorem factor_positions (L : cholmod_factor) (h : Fresh) (hp : PermOK L.n L.Perm)
    (wf : FactorWF L) :
    (positions L.n (factor_pattern L h).Xp (factor_pattern L h).Xi).Perm
        ((factor_entries L).map fun e => (e.ix L.Perm, e.jx L.Perm)) ∧
      ((factor_entries L).map fun e => (e.ix L.Perm, e.jx L.Perm)).Nodup := by
  unfold FactorWF at wf
  unfold factor_pattern factor_entries
  by_cases hs : L.is_super = true
  · rw [if_pos hs] at wf ⊢
    rw [if_pos hs]
    obtain ⟨hXp, inv⟩ := super_pattern_inv L h wf hp
    exact ⟨positions_perm L.Perm L.n _ _ _ _ hXp
      (super_key_lt L.n L.nsuper L.super L.pi L.px L.s L.Perm wf hp) inv,
      super_images_nodup L.n L.nsuper L.super L.pi L.px L.s L.Perm wf hp⟩
  · rw [if_neg hs] at wf ⊢
    rw [if_neg hs]
    obtain ⟨hXp, inv⟩ := simplicial_pattern_inv L h wf hp
    exact ⟨positions_perm L.Perm L.n _ _ _ _ hXp
      (simplicial_key_lt L.n L.p L.i L.Perm hp) inv,
      simplicial_images_nodup L.n L.p L.i L.Perm wf hp⟩

/-! ## The concrete factors are well formed -/

theorem permOK_none (n : Nat) : PermOK n none :=
  ⟨fun _ hi => hi, fun _ _ _ _ e => e⟩

/-- A bounded, decidable form of `SimplicialWF`. -/
theorem simplicialWF_of_bounded (n N : Nat) (Lp Li : Nat → Nat)
    (h : ∀ j, j < n → Lp j < Lp (j + 1) ∧ Li (Lp j) = j ∧ Lp (j + 1) ≤ N ∧
      ∀ k, k < N → (Lp j ≤ k → k + 1 < Lp (j + 1) → Li k < Li (k + 1)) ∧
        (Lp j ≤ k → k < Lp (j + 1) → Li k < n)) :
    SimplicialWF n Lp Li where
  nonempty := fun j hj => (h j hj).1
  diag := fun j hj => (h j hj).2.1
  asc := fun j hj k h1 h2 => ((h j hj).2.2.2 k (by have := (h j hj).2.2.1; omega)).1 h1 h2
  bound := fun j hj k h1 h2 => ((h j hj).2.2.2 k (by have := (h j hj).2.2.1; omega)).2 h1 h2

/-- A bounded, decidable form of `SuperWF`. -/
theorem superWF_of_bounded (n nsuper N : Nat) (Super Lpi Lpx Ls : Nat → Nat)
    (h0 : Super 0 = 0) (h1 : Super nsuper = n)
    (h : ∀ s, s < nsuper → Super s < Super (s + 1) ∧
      Super (s + 1) - Super s ≤ Lpi (s + 1) - Lpi s ∧ Lpi (s + 1) - Lpi s ≤ N ∧
      Lpx s + (Lpi (s + 1) - Lpi s) * (Super (s + 1) - Super s) ≤ Lpx (s + 1) ∧
      ∀ i, i < N → (i < Super (s + 1) - Super s → Ls (Lpi s + i) = Super s + i) ∧
        (i + 1 < Lpi (s + 1) - Lpi s → Ls (Lpi s + i) < Ls (Lpi s + (i + 1))) ∧
        (i < Lpi (s + 1) - Lpi s → Ls (Lpi s + i) < n)) :
    SuperWF n nsuper Super Lpi Lpx Ls where
  first := h0
  last := h1
  cols := fun s hs => (h s hs).1
  rows := fun s hs => (h s hs).2.1
  own := fun s hs j hj =>
    ((h s hs).2.2.2.2 j (by have := (h s hs).2.1; have := (h s hs).2.2.1; omega)).1 hj
  asc := fun s hs i hi =>
    ((h s hs).2.2.2.2 i (by have := (h s hs).2.2.1; omega)).2.1 hi
  bound := fun s hs i hi =>
    ((h s hs).2.2.2.2 i (by have := (h s hs).2.2.1; omega)).2.2 hi
  panel := fun s hs => (h s hs).2.2.2.1

theorem permOK_of_bounded (n : Nat) (p : Nat → Nat)
    (h : ∀ i, i < n → p i < n ∧ ∀ j, j < n → p i = p j → i = j) : PermOK n (some p) :=
  ⟨fun i hi => (h i hi).1, fun i hi j hj e => (h i hi).2 j hj e⟩

theorem tridiagonal_perm_ok : PermOK 3 (some (arrN [2, 0, 1])) :=
  permOK_of_bounded 3 _ (by decide)

theorem tridiagonal_wf : SimplicialWF 3 (arrN [0, 2, 4, 5]) (arrN [0, 1, 1, 2, 2]) :=
  simplicialWF_of_bounded 3 5 _ _ (by decide)

theorem two_supernode_wf :
    SuperWF 3 2 (arrN [0, 2, 3]) (arrN [0, 3, 4]) (arrN [0, 6, 7]) (arrN [0, 1, 2, 2]) :=
  superWF_of_bounded 3 2 3 _ _ _ _ rfl rfl (by decide)

theorem tridiagonal_perm_factor_wf : FactorWF tridiagonal_perm_factor := by
  unfold FactorWF
  rw [if_neg (by decide)]
  exact tridiagonal_wf

theorem two_supernode_factor_wf : FactorWF two_supernode_factor := by
  unfold FactorWF
  rw [if_pos (by decide)]
  exact two_supernode_wf

theorem one_by_one_diagonal : DiagonalFactor one_by_one_factor := by
  unfold DiagonalFactor
  rw [if_neg (by decide)]
  refine ⟨rfl, simplicialWF_of_bounded 1 1 _ _ (by decide), ?_, ?_⟩
  · intro j hj
    have : j = 0 := Nat.lt_one_iff.mp hj
    subst this
    rfl
  · intro j hj
    have : j = 0 := Nat.lt_one_iff.mp hj
    subst this
    simp [one_by_one_factor, arrQ, arrN]

theorem one_by_one_super_diagonal : DiagonalFactor one_by_one_super_factor := by
  unfold DiagonalFactor
  rw [if_pos (by decide)]
  refine ⟨superWF_of_bounded 1 1 1 _ _ _ _ rfl rfl (by decide), ?_, ?_, ?_⟩
  · intro j hj
    have : j = 0 := Nat.lt_one_iff.mp hj
    subst this
    rfl
  · intro j hj
    have : j = 0 := Nat.lt_one_iff.mp hj
    subst this
    rfl
  · intro j hj
    have : j = 0 := Nat.lt_one_iff.mp hj
    subst this
    simp [one_by_one_super_factor, arrQ, arrN]

theorem allBelow_spec {N : Nat} {p : Nat → Bool} (h : allBelow N p = true) :
    ∀ k, k < N → p k = true := by
  intro k hk
  exact List.all_eq_true.mp h k (List.mem_range.mpr hk)

theorem anyBelow_spec {N : Nat} {p : Nat → Bool} (h : anyBelow N p = true) :
    ∃ k, k < N ∧ p k = true := by
  obtain ⟨k, hk, hp⟩ := List.any_eq_true.mp h
  exact ⟨k, List.mem_range.mp hk, hp⟩

/-- The checker for fill closure is sound. -/
theorem fillClosed_of_check (n N : Nat) (Lp Li : Nat → Nat)
    (h : fill_closed_check n N Lp Li = true) : SimplicialFillClosed n Lp Li := by
  rintro j hj i k ⟨q1, a1, a2, rfl⟩ ⟨q2, b1, b2, rfl⟩ hjk hki
  have hj' := allBelow_spec h j hj
  rw [Bool.and_eq_true] at hj'
  obtain ⟨hN, hq⟩ := hj'
  have hN' : Lp (j + 1) ≤ N := of_decide_eq_true hN
  have h12 := allBelow_spec (allBelow_spec hq q1 (by omega)) q2 (by omega)
  rw [Bool.or_eq_true] at h12
  rcases h12 with h12 | h12
  · simp [a1, a2, b1, b2, hjk, hki] at h12
  · obtain ⟨q3, _, h3⟩ := anyBelow_spec h12
    simp only [Bool.and_eq_true, decide_eq_true_eq] at h3
    exact ⟨q3, h3.1.1, h3.1.2, h3.2⟩

theorem tridiagonal_fill_closed :
    SimplicialFillClosed 3 (arrN [0, 2, 4, 5]) (arrN [0, 1, 1, 2, 2]) :=
  fillClosed_of_check 3 5 _ _ (by decide)

theorem tridiagonal_diag_ne_zero :
    ∀ j, j < tridiagonal_factor.n → tridiagonal_factor.x (tridiagonal_factor.p j) ≠ 0 := by
  intro j hj
  have hj' : j < 3 := hj
  interval_cases j <;> simp [tridiagonal_factor, arrQ, arrN]

/-! ## Factors with one entry per column -/

theorem bucket_length_eq_count (Lperm : Option (Nat → Nat)) (E : List Entry) (c : Nat) :
    (bucket Lperm E c).length = List.count c (E.map (Entry.jx Lperm)) := by
  rw [List.count_eq_countP, List.countP_map, List.countP_eq_length_filter]
  unfold bucket
  congr 1

theorem range_one_eq : List.range 1 = [0] := rfl

theorem permOK_map_perm (n : Nat) (Lperm : Option (Nat → Nat)) (hp : PermOK n Lperm) :
    ((List.range n).map (PERM Lperm)).Perm (List.range n) := by
  have hnd : ((List.range n).map (PERM Lperm)).Nodup :=
    nodup_map_range n _ (fun t ht t' ht' e => hp.2 t ht t' ht' e)
  have hsub : (List.range n).map (PERM Lperm) ⊆ List.range n := by
    intro x hx
    obtain ⟨i, hi, rfl⟩ := List.mem_map.mp hx
    exact List.mem_range.mpr (hp.1 i (List.mem_range.mp hi))
  exact (List.subperm_of_subset hnd hsub).perm_of_length_le (by simp)

/-- When every column of the result receives exactly one entry, the column pointers are the
identity. -/
theorem start_of_perm_range (Lperm : Option (Nat → Nat)) (E : List Entry) (n : Nat)
    (hE : (E.map (Entry.jx Lperm)).Perm (List.range n)) :
    (∀ c, c < n → (bucket Lperm E c).length = 1) ∧ ∀ c, c ≤ n → start Lperm E c = c := by
  have h1 : ∀ c, c < n → (bucket Lperm E c).length = 1 := by
    intro c hc
    rw [bucket_length_eq_count, hE.count_eq]
    exact List.count_eq_one_of_mem (List.nodup_range n) (List.mem_range.mpr hc)
  refine ⟨h1, fun c hc => ?_⟩
  induction c with
  | zero => simp [start]
  | succ k ih => rw [start_succ, ih (by omega), h1 k (by omega)]

theorem simplicial_entries_diagonal (n : Nat) (Lp Li : Nat → Nat)
    (hone : ∀ j, j < n → Lp (j + 1) = Lp j + 1) :
    simplicial_entries n Lp Li
      = (List.range n).map fun j => { kl := Lp j, il := Li (Lp j), jl := j } := by
  unfold simplicial_entries
  induction n with
  | zero => rfl
  | succ k ih =>
    rw [List.range_succ, List.flatMap_append, List.map_append,
      ih (fun j hj => hone j (by omega))]
    have : Lp (k + 1) - Lp k = 1 := by rw [hone k (by omega)]; omega
    simp [this, range_one_eq]

theorem super_entries_diagonal (nsuper : Nat) (Super Lpi Lpx Ls : Nat → Nat)
    (hcol : ∀ s, s < nsuper → Super (s + 1) = Super s + 1)
    (hrow : ∀ s, s < nsuper → Lpi (s + 1) = Lpi s + 1) :
    super_entries nsuper Super Lpi Lpx Ls
      = (List.range nsuper).map fun s => { kl := Lpx s, il := Ls (Lpi s), jl := Super s } := by
  unfold super_entries
  induction nsuper with
  | zero => rfl
  | succ k ih =>
    rw [List.range_succ, List.flatMap_append, List.map_append,
      ih (fun j hj => hcol j (by omega)) (fun j hj => hrow j (by omega))]
    have h1 : Super (k + 1) - Super k = 1 := by rw [hcol k (by omega)]; omega
    have h2 : Lpi (k + 1) - Lpi k = 1 := by rw [hrow k (by omega)]; omega
    simp [h1, h2, range_one_eq]

theorem sort_column_single (Xp : Nat → Nat) (j : Nat) (st : (Nat → Nat) × (Nat → ℚ))
    (h : Xp (j + 1) - Xp j = 1) : sort_column Xp j st = st := by
  unfold sort_column
  simp only [h, range_one_eq, List.map_cons, List.map_nil, List.insertionSort,
    List.orderedInsert, loopUp, Nat.add_zero]
  refine Prod.ext (funext fun k => ?_) (funext fun k => ?_)
  · by_cases hk : k = Xp j
    · subst hk; simp [store]
    · simp [store, hk]
  · by_cases hk : k = Xp j
    · subst hk; simp [store]
    · simp [store, hk]

theorem cholmod_sort_single (X : cholmod_sparse)
    (h : ∀ j, j < X.ncol → X.p (j + 1) - X.p j = 1) :
    cholmod_sort X = { X with sorted := true } := by
  have key : loopUp X.ncol (fun j st => sort_column X.p j st) (X.i, X.x) = (X.i, X.x) :=
    loopUp_inv (fun _ st => st = (X.i, X.x)) X.ncol _ _ rfl
      (fun j hj st hst => by rw [hst]; exact sort_column_single X.p j _ (h j hj))
  unfold cholmod_sort
  simp only [key]

/-- The pattern pass on a list with exactly one entry `g j` per column `j`, each on the
diagonal. -/
theorem diagonal_pattern (Lperm : Option (Nat → Nat)) (n : Nat) (g : Nat → Entry)
    (Xp : Nat → Nat) (st0 st : FillState) (hp : PermOK n Lperm)
    (hg : ∀ j, j < n → (g j).il = j ∧ (g j).jl = j)
    (hXp : ∀ c, c ≤ n → Xp c = start Lperm ((List.range n).map g) c)
    (inv : FillInv Lperm n Xp st0 ((List.range n).map g) st) :
    (∀ c, c ≤ n → Xp c = c) ∧
      ∀ j, j < n → st.perm (g j).kl = PERM Lperm j ∧ st.Xi (PERM Lperm j) = PERM Lperm j := by
  have hjx : ∀ j, j < n → (g j).jx Lperm = PERM Lperm j := by
    intro j hj
    simp [Entry.jx, (hg j hj).1, (hg j hj).2]
  have hix : ∀ j, j < n → (g j).ix Lperm = PERM Lperm j := by
    intro j hj
    simp [Entry.ix, (hg j hj).1, (hg j hj).2]
  have hmap : ((List.range n).map g).map (Entry.jx Lperm) = (List.range n).map (PERM Lperm) := by
    rw [List.map_map]
    exact List.map_congr_left (fun j hj => hjx j (List.mem_range.mp hj))
  have hperm : (((List.range n).map g).map (Entry.jx Lperm)).Perm (List.range n) := by
    rw [hmap]; exact permOK_map_perm n Lperm hp
  obtain ⟨hb, hs⟩ := start_of_perm_range Lperm _ n hperm
  have hX : ∀ c, c ≤ n → Xp c = c := fun c hc => by rw [hXp c hc, hs c hc]
  refine ⟨hX, fun j hj => ?_⟩
  have hmem : g j ∈ (List.range n).map g := List.mem_map_of_mem g (List.mem_range.mpr hj)
  have hslot := inv.slot (g j) hmem
  have hrow := inv.row (g j) hmem
  have hPj := hp.1 j hj
  rw [hjx j hj, hb _ hPj, hX _ (Nat.le_of_lt hPj)] at hslot
  have hk : st.perm (g j).kl = PERM Lperm j := by omega
  rw [hk, hix j hj] at hrow
  exact ⟨hk, hrow⟩

theorem simplicial_diagonal_pattern (L : cholmod_factor) (h : Fresh)
    (hd : DiagonalSimplicial L) (hp : PermOK L.n L.Perm) :
    (∀ c, c ≤ L.n → (simplicial_pattern L h).Xp c = c) ∧
      ∀ j, j < L.n → (simplicial_pattern L h).perm (L.p j) = PERM L.Perm j ∧
        (simplicial_pattern L h).Xi (PERM L.Perm j) = PERM L.Perm j := by
  obtain ⟨hXp, inv⟩ := simplicial_pattern_inv L h hd.wf hp
  rw [simplicial_entries_diagonal L.n L.p L.i hd.one] at hXp inv
  exact diagonal_pattern L.Perm L.n (fun j => { kl := L.p j, il := L.i (L.p j), jl := j })
    _ _ _ hp (fun j hj => ⟨hd.wf.diag j hj, rfl⟩) hXp inv

theorem DiagonalSuper.super_eq {L : cholmod_factor} (hd : DiagonalSuper L) :
    ∀ s, s ≤ L.nsuper → L.super s = s := by
  intro s hs
  induction s with
  | zero => exact hd.wf.first
  | succ k ih => rw [hd.onecol k (by omega), ih (by omega)]

theorem DiagonalSuper.nsuper_eq {L : cholmod_factor} (hd : DiagonalSuper L) :
    L.nsuper = L.n := by
  rw [← hd.wf.last, hd.super_eq L.nsuper (le_refl _)]

theorem super_diagonal_pattern (L : cholmod_factor) (h : Fresh)
    (hd : DiagonalSuper L) (hp : PermOK L.n L.Perm) :
    (∀ c, c ≤ L.n → (super_pattern L h).Xp c = c) ∧
      ∀ j, j < L.n → (super_pattern L h).perm (L.px j) = PERM L.Perm j ∧
        (super_pattern L h).Xi (PERM L.Perm j) = PERM L.Perm j := by
  obtain ⟨hXp, inv⟩ := super_pattern_inv L h hd.wf hp
  have hE : super_entries L.nsuper L.super L.pi L.px L.s
      = (List.range L.n).map fun s => { kl := L.px s, il := L.s (L.pi s), jl := L.super s } := by
    rw [super_entries_diagonal L.nsuper L.super L.pi L.px L.s hd.onecol hd.onerow,
      hd.nsuper_eq]
  rw [hE] at hXp inv
  refine diagonal_pattern L.Perm L.n
    (fun s => { kl := L.px s, il := L.s (L.pi s), jl := L.super s })
    _ _ _ hp (fun j hj => ?_) hXp inv
  have hj' : j < L.nsuper := by rw [hd.nsuper_eq]; exact hj
  have h1 := hd.wf.own j hj' 0 (by rw [hd.onecol j hj']; omega)
  rw [Nat.add_zero, Nat.add_zero] at h1
  exact ⟨h1.trans (hd.super_eq j (Nat.le_of_lt hj')), hd.super_eq j (Nat.le_of_lt hj')⟩

theorem simplicial_column_diagonal (Lp Li perm : Nat → Nat) (Lx : Nat → ℚ) (fuel jl : Nat)
    (st : SimplicialState) (h : Lp (jl + 1) = Lp jl + 1) :
    simplicial_column Lp Li perm Lx fuel jl st
      = some { st with Xx := store st.Xx (perm (Lp jl)) (1 / Lx (Lp jl)) } := by
  unfold simplicial_column
  simp only [h, Nat.add_sub_cancel, gt_iff_lt, Nat.lt_irrefl, if_false]

theorem simplicial_diagonal_values (L : cholmod_factor) (h : Fresh) (fuel : Nat)
    (hd : DiagonalSimplicial L) (hp : PermOK L.n L.Perm) :
    ∃ Xx, simplicial_values L h fuel = some Xx ∧
      ∀ j, j < L.n → Xx (PERM L.Perm j) = 1 / L.x (L.p j) := by
  obtain ⟨_, hperm⟩ := simplicial_diagonal_pattern L h hd hp
  have key := loopDown_inv
    (fun i (s : Option SimplicialState) => ∃ st, s = some st ∧
      ∀ j, i ≤ j → j < L.n → st.Xx (PERM L.Perm j) = 1 / L.x (L.p j))
    L.n (fun jl st => st.bind
      (simplicial_column L.p L.i (simplicial_pattern L h).perm L.x fuel jl))
    (some { Xx := h.Xx, V := h.V, z := h.z })
    ⟨_, rfl, fun j h1 h2 => absurd h2 (Nat.not_lt.mpr h1)⟩
    (by
      rintro i hi s ⟨st, rfl, hst⟩
      refine ⟨_, simplicial_column_diagonal _ _ _ _ _ _ _ (hd.one i hi), ?_⟩
      intro j hij hj
      simp only []
      rw [(hperm i hi).1]
      by_cases hji : j = i
      · subst hji; rw [store_same]
      · rw [store_other _ _ _ _ (fun e => hji (hp.2 j hj i hi e))]
        exact hst j (by omega) hj)
  obtain ⟨st, hst, hval⟩ := key
  refine ⟨st.Xx, ?_, fun j hj => hval j (Nat.zero_le j) hj⟩
  unfold simplicial_values simplicial_numeric
  rw [hst]
  rfl

theorem spinv_block_one (L Z V : Nat → ℚ) : spinv_block L Z V 1 1 0 = 1 / (L 0) ^ 2 := by
  simp [spinv_block, loopUp, loopDown, store, cblas_dtrsm_left, cblas_dtrsm_right]
  ring

theorem super_step_diagonal (Super Lpi Lpx Ls perm : Nat → Nat) (Lx : Nat → ℚ) (fuel s : Nat)
    (st : SuperState) (h1 : Super (s + 1) = Super s + 1) (h2 : Lpi (s + 1) = Lpi s + 1) :
    ∃ st', super_step Super Lpi Lpx Ls perm Lx fuel s st = some st' ∧
      st'.Xx = store st.Xx (perm (Lpx s)) (1 / (Lx (Lpx s)) ^ 2) := by
  have e1 : Super (s + 1) - Super s = 1 := by omega
  have e2 : Lpi (s + 1) - Lpi s = 1 := by omega
  refine ⟨_, by
    unfold super_step super_gather
    simp only [e1, e2, Nat.sub_self, loopUp, Option.map_some']
    rfl, ?_⟩
  simp only [super_scatter, e1, e2, Nat.sub_self, loopUp, Nat.sub_zero, Nat.add_zero,
    Nat.zero_mul]
  rw [spinv_block_one]
  have e : (1 : ℚ) / 2 * (1 / Lx (Lpx s + 0) ^ 2 + 1 / Lx (Lpx s + 0) ^ 2)
      = 1 / Lx (Lpx s) ^ 2 := by
    rw [Nat.add_zero]; ring
  rw [e]

theorem super_diagonal_values (L : cholmod_factor) (h : Fresh) (fuel : Nat)
    (hd : DiagonalSuper L) (hp : PermOK L.n L.Perm) :
    ∃ Xx, super_values L h fuel = some Xx ∧
      ∀ j, j < L.n → Xx (PERM L.Perm j) = 1 / (L.x (L.px j)) ^ 2 := by
  obtain ⟨_, hperm⟩ := super_diagonal_pattern L h hd hp
  have hn := hd.nsuper_eq
  have key := loopDown_inv
    (fun i (s : Option SuperState) => ∃ st, s = some st ∧
      ∀ j, i ≤ j → j < L.n → st.Xx (PERM L.Perm j) = 1 / (L.x (L.px j)) ^ 2)
    L.nsuper (fun s st => st.bind
      (super_step L.super L.pi L.px L.s (super_pattern L h).perm L.x fuel s))
    (some { Xx := h.Xx, V := h.V, Z := h.z })
    ⟨_, rfl, fun j h1 h2 => absurd h2 (by omega)⟩
    (by
      rintro i hi s ⟨st, rfl, hst⟩
      obtain ⟨st', hs1, hs2⟩ := super_step_diagonal L.super L.pi L.px L.s
        (super_pattern L h).perm L.x fuel i st (hd.onecol i hi) (hd.onerow i hi)
      refine ⟨st', hs1, ?_⟩
      intro j hij hj
      have hi' : i < L.n := by omega
      rw [hs2, (hperm i hi').1]
      by_cases hji : j = i
      · subst hji; rw [store_same]
      · rw [store_other _ _ _ _ (fun e => hji (hp.2 j hj i hi' e))]
        exact hst j (by omega) hj)
  obtain ⟨st, hst, hval⟩ := key
  refine ⟨st.Xx, ?_, fun j hj => hval j (Nat.zero_le j) hj⟩
  unfold super_values super_numeric
  rw [hst]
  rfl

theorem positions_identity (n : Nat) (Xp Xi : Nat → Nat) (hXp : ∀ c, c ≤ n → Xp c = c)
    (hXi : ∀ c, c < n → Xi c = c) :
    positions n Xp Xi = (List.range n).map fun c => (c, c) := by
  unfold positions
  induction n with
  | zero => rfl
  | succ k ih =>
    rw [List.range_succ, List.flatMap_append, List.map_append,
      ih (fun c hc => hXp c (by omega)) (fun c hc => hXi c (by omega))]
    have h1 : Xp (k + 1) - Xp k = 1 := by
      rw [hXp (k + 1) (le_refl _), hXp k (by omega)]; omega
    simp only [List.flatMap_cons, List.flatMap_nil, List.append_nil]
    rw [h1]
    simp only [range_one_eq, List.map_cons, List.map_nil, Nat.add_zero, hXp k (by omega),
      hXi k (by omega)]

theorem permOK_surj (n : Nat) (Lperm : Option (Nat → Nat)) (hp : PermOK n Lperm) (c : Nat)
    (hc : c < n) : ∃ j, j < n ∧ PERM Lperm j = c := by
  have := (permOK_map_perm n Lperm hp).symm.subset (List.mem_range.mpr hc)
  obtain ⟨j, hj, e⟩ := List.mem_map.mp this
  exact ⟨j, List.mem_range.mp hj, e⟩

theorem diagonal_result_of (L : cholmod_factor) (X : cholmod_sparse) (hp : PermOK L.n L.Perm)
    (h1 : X.nrow = L.n) (h2 : X.ncol = L.n) (h3 : ∀ c, c ≤ L.n → X.p c = c)
    (h4 : ∀ j, j < L.n → X.i (PERM L.Perm j) = PERM L.Perm j ∧
      X.x (PERM L.Perm j) = diagonal_inverse L j) :
    DiagonalResult L X := by
  refine ⟨h1, h2, h3, positions_identity L.n X.p X.i h3 (fun c hc => ?_), h4⟩
  obtain ⟨j, hj, rfl⟩ := permOK_surj L.n L.Perm hp c hc
  exact (h4 j hj).1

theorem spinv_diagonal_simplicial (ITYPE : Int) (L : cholmod_factor) (Common : cholmod_common)
    (a : Allocator) (h : Fresh) (fuel : Nat) (hit : Common.itype = ITYPE)
    (hv : xtype_invalid L CHOLMOD_REAL CHOLMOD_ZOMPLEX = false) (hx : L.xtype = CHOLMOD_REAL)
    (hs : L.is_super = false) (hll : L.is_ll = false) (hd : DiagonalSimplicial L)
    (hp : PermOK L.n L.Perm) (ha : a.simplicial_ok) (hsort : a.sort = true) :
    ∃ X, spinv ITYPE (some L) (some Common) a h fuel
        = some (some X, some { Common with status := CHOLMOD_OK }) ∧ DiagonalResult L X := by
  obtain ⟨Xx, hXx, hval⟩ := simplicial_diagonal_values L h fuel hd hp
  obtain ⟨hXp, hperm⟩ := simplicial_diagonal_pattern L h hd hp
  have hone : ∀ j, j < ({ simplicial_result L h Xx with stype := -1 } : cholmod_sparse).ncol →
      ({ simplicial_result L h Xx with stype := -1 } : cholmod_sparse).p (j + 1)
        - ({ simplicial_result L h Xx with stype := -1 } : cholmod_sparse).p j = 1 := by
    intro j hj
    have hj' : j < L.n := hj
    show (simplicial_pattern L h).Xp (j + 1) - (simplicial_pattern L h).Xp j = 1
    rw [hXp (j + 1) hj', hXp j (Nat.le_of_lt hj')]
    omega
  refine ⟨_, by
    rw [spinv_dispatch_simplicial ITYPE L Common a h fuel hit hv hs,
      spinv_simplicial_real L _ a h fuel rfl hx hll ha, hXx, hsort, Option.map_some',
      cleanup_ok _ _ rfl, cholmod_sort_single _ hone]
    rfl, ?_⟩
  refine diagonal_result_of L _ hp rfl rfl hXp (fun j hj => ⟨(hperm j hj).2, ?_⟩)
  show Xx (PERM L.Perm j) = diagonal_inverse L j
  rw [hval j hj, diagonal_inverse, if_neg (by simp [hs])]

theorem spinv_diagonal_super (ITYPE : Int) (L : cholmod_factor) (Common : cholmod_common)
    (a : Allocator) (h : Fresh) (fuel : Nat) (hit : Common.itype = ITYPE)
    (hv : xtype_invalid L CHOLMOD_REAL CHOLMOD_ZOMPLEX = false)
    (hs : L.is_super = true) (hd : DiagonalSuper L)
    (hp : PermOK L.n L.Perm) (ha : a.super_ok) (hsort : a.sort = true) :
    ∃ X, spinv ITYPE (some L) (some Common) a h fuel
        = some (some X, some { Common with status := CHOLMOD_OK }) ∧ DiagonalResult L X := by
  obtain ⟨Xx, hXx, hval⟩ := super_diagonal_values L h fuel hd hp
  obtain ⟨hXp, hperm⟩ := super_diagonal_pattern L h hd hp
  have hone : ∀ j, j < ({ super_result L h Xx with stype := -1 } : cholmod_sparse).ncol →
      ({ super_result L h Xx with stype := -1 } : cholmod_sparse).p (j + 1)
        - ({ super_result L h Xx with stype := -1 } : cholmod_sparse).p j = 1 := by
    intro j hj
    have hj' : j < L.n := hj
    show (super_pattern L h).Xp (j + 1) - (super_pattern L h).Xp j = 1
    rw [hXp (j + 1) hj', hXp j (Nat.le_of_lt hj')]
    omega
  refine ⟨_, by
    rw [spinv_dispatch_super ITYPE L Common a h fuel hit hv hs,
      spinv_super_run L _ a h fuel rfl ha, hXx, hsort, Option.map_some',
      cleanup_ok _ _ rfl, cholmod_sort_single _ hone]
    rfl, ?_⟩
  refine diagonal_result_of L _ hp rfl rfl hXp (fun j hj => ⟨(hperm j hj).2, ?_⟩)
  show Xx (PERM L.Perm j) = diagonal_inverse L j
  rw [hval j hj, diagonal_inverse, if_pos hs]

/-! ## The equations of the selected inverse -/

/-- For a lower triangular `Lm` and a diagonal `d`, both with nonzero diagonal, the inverse
`X` of `Lm * diag d * Lmᵀ` is symmetric and `X * Lm` is upper triangular with diagonal
`1 / (d j * Lm j j)`. -/
theorem selected_inverse_equations (n : Nat) (Lm : Matrix (Fin n) (Fin n) ℚ) (d : Fin n → ℚ)
    (hd : ∀ i, d i ≠ 0) (hL1 : ∀ i, Lm i i ≠ 0) (hL0 : ∀ i j, i < j → Lm i j = 0) :
    ((Lm * Matrix.diagonal d * Lm.transpose)⁻¹).transpose
        = (Lm * Matrix.diagonal d * Lm.transpose)⁻¹ ∧
    (∀ i j, j < i → ((Lm * Matrix.diagonal d * Lm.transpose)⁻¹ * Lm) i j = 0) ∧
    (∀ j, ((Lm * Matrix.diagonal d * Lm.transpose)⁻¹ * Lm) j j = 1 / (d j * Lm j j)) ∧
    IsUnit (Lm * Matrix.diagonal d * Lm.transpose).det := by
  have htri : Lm.BlockTriangular (⇑OrderDual.toDual) := fun i j hij => hL0 i j hij
  have hdetL : Lm.det ≠ 0 := by
    rw [Matrix.det_of_lowerTriangular _ htri]
    exact Finset.prod_ne_zero_iff.mpr (fun i _ => hL1 i)
  have hdetD : (Matrix.diagonal d).det ≠ 0 := by
    rw [Matrix.det_diagonal]
    exact Finset.prod_ne_zero_iff.mpr (fun i _ => hd i)
  have hu : IsUnit (Lm * Matrix.diagonal d * Lm.transpose).det := by
    rw [Matrix.det_mul, Matrix.det_mul, Matrix.det_transpose, isUnit_iff_ne_zero]
    exact mul_ne_zero (mul_ne_zero hdetL hdetD) hdetL
  have hMU : ((Lm * Matrix.diagonal d * Lm.transpose)⁻¹ * Lm)
      * (Matrix.diagonal d * Lm.transpose) = 1 := by
    rw [Matrix.mul_assoc, ← Matrix.mul_assoc Lm, Matrix.nonsing_inv_mul _ hu]
  have hUM : (Matrix.diagonal d * Lm.transpose)
      * ((Lm * Matrix.diagonal d * Lm.transpose)⁻¹ * Lm) = 1 := Matrix.mul_eq_one_comm.mp hMU
  have hUtri : (Matrix.diagonal d * Lm.transpose).BlockTriangular id := by
    intro i j hij
    rw [Matrix.diagonal_mul, Matrix.transpose_apply, hL0 j i hij, mul_zero]
  have hMtri : ((Lm * Matrix.diagonal d * Lm.transpose)⁻¹ * Lm).BlockTriangular id := by
    have inst : Invertible (Matrix.diagonal d * Lm.transpose) :=
      Matrix.invertibleOfRightInverse _ _ hUM
    have h := Matrix.blockTriangular_inv_of_blockTriangular hUtri
    rw [Matrix.inv_eq_right_inv hUM] at h
    exact h
  refine ⟨?_, fun i j hij => hMtri hij, fun j => ?_, hu⟩
  · rw [Matrix.transpose_nonsing_inv, Matrix.transpose_mul, Matrix.transpose_mul,
      Matrix.transpose_transpose, Matrix.diagonal_transpose, Matrix.mul_assoc]
  · have h1 := congrFun (congrFun hUM j) j
    rw [Matrix.mul_apply, Matrix.one_apply_eq,
      Finset.sum_eq_single j (fun k _ hk => ?_) (fun h => absurd (Finset.mem_univ j) h)] at h1
    · rw [Matrix.diagonal_mul, Matrix.transpose_apply] at h1
      rw [eq_div_iff (mul_ne_zero (hd j) (hL1 j)), mul_comm]
      exact h1
    · rcases lt_or_gt_of_ne hk with h | h
      · rw [hUtri h, zero_mul]
      · rw [hMtri h, mul_zero]

/-! ## The numeric pass of the simplicial driver -/

theorem scan_spec (a : Nat → Nat) (ix : Nat) (fuel k kstar : Nat) (hk : k ≤ kstar)
    (hlt : ∀ q, k ≤ q → q < kstar → a q < ix) (hstop : ¬ a kstar < ix)
    (hfuel : kstar - k < fuel) : scan a ix fuel k = some kstar := by
  induction fuel generalizing k with
  | zero => omega
  | succ f ih =>
    unfold scan
    by_cases hkk : k = kstar
    · subst hkk
      rw [if_neg hstop]
    · rw [if_pos (hlt k (le_refl k) (by omega))]
      exact ih (k + 1) (by omega) (fun q h1 h2 => hlt q (by omega) h2) (by omega)

theorem cblas_dsymv_spec (N : Nat) (alpha : ℚ) (A : Nat → ℚ) (lda : Nat) (X : Nat → ℚ)
    (beta : ℚ) (Y : Nat → ℚ) :
    (∀ i, i < N → cblas_dsymv N alpha A lda X beta Y i
      = alpha * (∑ k in range N, symLower A lda i k * X k) + beta * Y i) ∧
    (∀ i, N ≤ i → cblas_dsymv N alpha A lda X beta Y i = Y i) := by
  unfold cblas_dsymv
  have key := loopUp_inv
    (fun m (y : Nat → ℚ) =>
      (∀ i, i < m → y i = alpha * (∑ k in range N, symLower A lda i k * X k) + beta * Y i) ∧
      (∀ i, m ≤ i → y i = Y i))
    N (fun i y => store y i (alpha * (∑ k in range N, symLower A lda i k * X k) + beta * Y i)) Y
    ⟨fun i hi => absurd hi (Nat.not_lt_zero i), fun _ _ => rfl⟩
    (by
      intro m _ y ⟨h1, h2⟩
      refine ⟨fun i hi => ?_, fun i hi => ?_⟩ <;> beta_reduce
      · by_cases him : i = m
        · subst him; rw [store_same]
        · rw [store_other _ _ _ _ him]; exact h1 i (by omega)
      · rw [store_other _ _ _ _ (by omega)]; exact h2 i (by omega))
  exact key

/-- A loop that stores values depending only on the index at pairwise different positions. -/
theorem loopUp_store_spec {α : Type} (n : Nat) (idx : Nat → Nat) (v : Nat → α) (a : Nat → α)
    (hinj : ∀ i, i < n → ∀ j, j < n → idx i = idx j → i = j) :
    (∀ i, i < n → loopUp n (fun i a => store a (idx i) (v i)) a (idx i) = v i) ∧
    (∀ p, (∀ i, i < n → p ≠ idx i) → loopUp n (fun i a => store a (idx i) (v i)) a p = a p) := by
  have key := loopUp_inv
    (fun m (b : Nat → α) =>
      (∀ i, i < m → b (idx i) = v i) ∧ (∀ p, (∀ i, i < m → p ≠ idx i) → b p = a p))
    n (fun i a => store a (idx i) (v i)) a
    ⟨fun i hi => absurd hi (Nat.not_lt_zero i), fun _ _ => rfl⟩
    (by
      intro m hm b ⟨h1, h2⟩
      refine ⟨fun i hi => ?_, fun p hp => ?_⟩ <;> beta_reduce
      · by_cases him : i = m
        · subst him; rw [store_same]
        · rw [store_other _ _ _ _ (fun e => him (hinj i (by omega) m hm e))]
          exact h1 i (by omega)
      · rw [store_other _ _ _ _ (hp m (Nat.lt_succ_self m))]
        exact h2 p (fun i hi => hp i (by omega)))
  exact key

theorem simplicial_gather_step (Lp Li perm : Nat → Nat) (Xx : Nat → ℚ) (kmin nj fuel : Nat)
    (pos : Nat → Nat → Nat)
    (h1 : ∀ jz iz, jz ≤ iz → iz < nj →
      Lp (Li (kmin + 1 + jz)) ≤ pos jz iz ∧
      (∀ q, Lp (Li (kmin + 1 + jz)) ≤ q → q < pos jz iz → Li q < Li (kmin + 1 + iz)) ∧
      ¬ (Li (pos jz iz) < Li (kmin + 1 + iz)) ∧
      pos jz iz - Lp (Li (kmin + 1 + jz)) < fuel)
    (h2 : ∀ jz iz, jz ≤ iz → iz + 1 < nj → pos jz iz ≤ pos jz (iz + 1)) :
    ∀ jz, jz < nj → ∀ s : Option (Nat → ℚ),
      (∃ V', s = some V' ∧
        ∀ jz' iz, jz' < jz → jz' ≤ iz → iz < nj →
          V' (iz + jz' * nj) = Xx (perm (pos jz' iz))) →
      ∃ V', (s.bind fun V =>
          let jx := Li (kmin + 1 + jz)
          let kx := Lp jx
          (loopUp (nj - jz) (fun t st =>
            st.bind fun st =>
              let iz := jz + t
              let ix := Li (kmin + 1 + iz)
              (scan Li ix fuel st.1).map fun kx =>
                (kx, store st.2 (iz + jz * nj) (Xx (perm kx)))) (some (kx, V))).map Prod.snd)
          = some V' ∧
        ∀ jz' iz, jz' < jz + 1 → jz' ≤ iz → iz < nj →
          V' (iz + jz' * nj) = Xx (perm (pos jz' iz)) := by
  rintro jz hjz s ⟨V0, rfl, hV0⟩
  -- the loop over the rows of column `jz` of `V`
  have inner := loopUp_inv
    (fun t (s : Option (Nat × (Nat → ℚ))) => ∃ kx V1, s = some (kx, V1) ∧
      Lp (Li (kmin + 1 + jz)) ≤ kx ∧ (jz + t < nj → kx ≤ pos jz (jz + t)) ∧
      (∀ iz, jz ≤ iz → iz < jz + t → V1 (iz + jz * nj) = Xx (perm (pos jz iz))) ∧
      (∀ p, (∀ iz, jz ≤ iz → iz < jz + t → p ≠ iz + jz * nj) → V1 p = V0 p))
    (nj - jz)
    (fun t (st : Option (Nat × (Nat → ℚ))) =>
      st.bind fun st =>
        (scan Li (Li (kmin + 1 + (jz + t))) fuel st.1).map fun kx =>
          (kx, store st.2 (jz + t + jz * nj) (Xx (perm kx))))
    (some (Lp (Li (kmin + 1 + jz)), V0))
    ⟨_, _, rfl, le_refl _, fun _ => (h1 jz jz (le_refl _) hjz).1,
      fun iz h3 h4 => absurd h4 (by omega), fun _ _ => rfl⟩
    (by
      rintro t ht s ⟨kx, V1, rfl, hk1, hk2, hv, hfr⟩
      have hiz : jz + t < nj := by omega
      obtain ⟨p1, p2, p3, p4⟩ := h1 jz (jz + t) (by omega) hiz
      have hscan : scan Li (Li (kmin + 1 + (jz + t))) fuel kx = some (pos jz (jz + t)) :=
        scan_spec Li _ fuel kx _ (hk2 hiz) (fun q hq1 hq2 => p2 q (by omega) hq2) p3
          (by omega)
      refine ⟨pos jz (jz + t),
        store V1 (jz + t + jz * nj) (Xx (perm (pos jz (jz + t)))), ?_, p1, ?_, ?_, ?_⟩
      · show Option.map _ (scan Li (Li (kmin + 1 + (jz + t))) fuel kx) = _
        rw [hscan]
        rfl
      · intro h
        exact h2 jz (jz + t) (by omega) h
      · intro iz hi1 hi2
        by_cases hit : iz = jz + t
        · subst hit; rw [store_same]
        · rw [store_other _ _ _ _ (fun e =>
            hit (colmajor_inj (by omega) (by omega) e).1)]
          exact hv iz hi1 (by omega)
      · intro p hp
        rw [store_other _ _ _ _ (hp (jz + t) (by omega) (by omega))]
        exact hfr p (fun iz hi1 hi2 => hp iz hi1 (by omega)))
  obtain ⟨kx, V1, hs, _, _, hv, hfr⟩ := inner
  refine ⟨V1, congrArg (Option.map Prod.snd) hs, ?_⟩
  · intro jz' iz hj1 hj2 hiz
    by_cases hjj : jz' = jz
    · subst hjj
      exact hv iz hj2 (by omega)
    · rw [hfr _ (fun iz' hi1 hi2 e => hjj (colmajor_inj (by omega) (by omega) e).2)]
      exact hV0 jz' iz (by omega) hj2 hiz


/-- The gather of the simplicial driver, given for every pair `jz ≤ iz` the index `pos jz iz`
at which the scan of column `Li[kmin+1+jz]` for the row `Li[kmin+1+iz]` stops. -/
theorem simplicial_gather_spec (Lp Li perm : Nat → Nat) (Xx : Nat → ℚ) (kmin nj fuel : Nat)
    (V : Nat → ℚ) (pos : Nat → Nat → Nat)
    (h1 : ∀ jz iz, jz ≤ iz → iz < nj →
      Lp (Li (kmin + 1 + jz)) ≤ pos jz iz ∧
      (∀ q, Lp (Li (kmin + 1 + jz)) ≤ q → q < pos jz iz → Li q < Li (kmin + 1 + iz)) ∧
      ¬ (Li (pos jz iz) < Li (kmin + 1 + iz)) ∧
      pos jz iz - Lp (Li (kmin + 1 + jz)) < fuel)
    (h2 : ∀ jz iz, jz ≤ iz → iz + 1 < nj → pos jz iz ≤ pos jz (iz + 1)) :
    ∃ V', simplicial_gather Lp Li perm Xx kmin nj fuel V = some V' ∧
      ∀ jz iz, jz ≤ iz → iz < nj → V' (iz + jz * nj) = Xx (perm (pos jz iz)) := by
  have key : ∃ V', simplicial_gather Lp Li perm Xx kmin nj fuel V = some V' ∧
      ∀ jz iz, jz < nj → jz ≤ iz → iz < nj → V' (iz + jz * nj) = Xx (perm (pos jz iz)) := by
    unfold simplicial_gather
    refine loopUp_inv
      (fun m (s : Option (Nat → ℚ)) => ∃ V', s = some V' ∧
        ∀ jz iz, jz < m → jz ≤ iz → iz < nj → V' (iz + jz * nj) = Xx (perm (pos jz iz)))
      nj _ (some V) ⟨V, rfl, fun jz iz h => absurd h (Nat.not_lt_zero jz)⟩ ?_
    exact simplicial_gather_step Lp Li perm Xx kmin nj fuel pos h1 h2
  obtain ⟨V', hV, hval⟩ := key
  exact ⟨V', hV, fun jz iz hji hiz => hval jz iz (by omega) hji hiz⟩

theorem SimplicialWF.offdiag_gt {n : Nat} {Lp Li : Nat → Nat} (wf : SimplicialWF n Lp Li)
    {j : Nat} (hj : j < n) {q : Nat} (h1 : Lp j + 1 ≤ q) (h2 : q < Lp (j + 1)) : j < Li q := by
  have := wf.asc_lt hj (le_refl (Lp j)) (by omega : Lp j < q) h2
  rw [wf.diag j hj] at this
  exact this

theorem simplicial_L_diag (n : Nat) (Lp Li : Nat → Nat) (Lx : Nat → ℚ) (i : Fin n) :
    simplicial_L n Lp Li Lx i i = 1 := by
  simp [simplicial_L]

theorem simplicial_L_upper (n : Nat) (Lp Li : Nat → Nat) (Lx : Nat → ℚ)
    (wf : SimplicialWF n Lp Li) (i j : Fin n) (hij : i < j) :
    simplicial_L n Lp Li Lx i j = 0 := by
  unfold simplicial_L
  rw [if_neg (ne_of_lt hij)]
  refine Finset.sum_eq_zero (fun q hq => ?_)
  have hq' := Finset.mem_Ico.mp hq
  have := wf.offdiag_gt j.2 hq'.1 hq'.2
  have hlt : (i : Nat) < j := hij
  rw [if_neg (by omega)]

/-- The product of a row vector with column `j` of `L`, as a sum over the stored entries of
the column. -/
theorem simplicial_L_col_sum (n : Nat) (Lp Li : Nat → Nat) (Lx : Nat → ℚ)
    (wf : SimplicialWF n Lp Li) (f : Fin n → ℚ) (j : Fin n) :
    ∑ k, f k * simplicial_L n Lp Li Lx k j
      = f j + ∑ q in Ico (Lp j + 1) (Lp (j + 1)),
          (if h : Li q < n then f ⟨Li q, h⟩ else 0) * Lx q := by
  have hsplit : ∀ k : Fin n, f k * simplicial_L n Lp Li Lx k j
      = (if k = j then f k else 0)
        + ∑ q in Ico (Lp j + 1) (Lp (j + 1)), (if Li q = (k : Nat) then f k * Lx q else 0) := by
    intro k
    unfold simplicial_L
    by_cases hkj : k = j
    · subst hkj
      rw [if_pos rfl, if_pos rfl, mul_one, Finset.sum_eq_zero, add_zero]
      intro q hq
      have hq' := Finset.mem_Ico.mp hq
      have := wf.offdiag_gt k.2 hq'.1 hq'.2
      rw [if_neg (by omega)]
    · rw [if_neg hkj, if_neg hkj, zero_add, Finset.mul_sum]
      refine Finset.sum_congr rfl (fun q _ => ?_)
      by_cases h : Li q = (k : Nat)
      · rw [if_pos h, if_pos h]
      · rw [if_neg h, if_neg h, mul_zero]
  rw [Finset.sum_congr rfl (fun k _ => hsplit k), Finset.sum_add_distrib,
    Finset.sum_ite_eq' Finset.univ j f, if_pos (Finset.mem_univ j), Finset.sum_comm]
  congr 1
  refine Finset.sum_congr rfl (fun q hq => ?_)
  have hq' := Finset.mem_Ico.mp hq
  have hb := wf.bound j j.2 q (by omega) hq'.2
  rw [dif_pos hb, Finset.sum_eq_single (⟨Li q, hb⟩ : Fin n)]
  · rw [if_pos rfl]
  · intro k _ hk
    rw [if_neg (fun e => hk (Fin.ext e.symm))]
  · intro h
    exact absurd (Finset.mem_univ _) h

theorem natEntry_of_lt {n : Nat} (X : Matrix (Fin n) (Fin n) ℚ) (i j : Nat) (hi : i < n)
    (hj : j < n) : natEntry X i j = X ⟨i, hi⟩ ⟨j, hj⟩ := by
  simp [natEntry, hi, hj]

theorem natEntry_symm {n : Nat} (X : Matrix (Fin n) (Fin n) ℚ) (hX : X.transpose = X)
    (i j : Nat) : natEntry X i j = natEntry X j i := by
  unfold natEntry
  by_cases h : i < n ∧ j < n
  · rw [dif_pos h, dif_pos ⟨h.2, h.1⟩]
    have := congrFun (congrFun hX ⟨i, h.1⟩) ⟨j, h.2⟩
    rw [Matrix.transpose_apply] at this
    exact this.symm
  · rw [dif_neg h, dif_neg (fun h' => h ⟨h'.2, h'.1⟩)]

/-- The equations that determine the stored entries of the inverse of `L D Lᵗ`, column by
column, in terms of the stored entries of the factor. -/
theorem simplicial_takahashi (n : Nat) (Lp Li : Nat → Nat) (Lx : Nat → ℚ)
    (wf : SimplicialWF n Lp Li) (hD : ∀ j, j < n → Lx (Lp j) ≠ 0) :
    (∀ i j, natEntry (simplicial_L n Lp Li Lx * simplicial_D n Lp Lx
          * (simplicial_L n Lp Li Lx).transpose)⁻¹ i j
        = natEntry (simplicial_L n Lp Li Lx * simplicial_D n Lp Lx
          * (simplicial_L n Lp Li Lx).transpose)⁻¹ j i) ∧
    (∀ j, j < n → ∀ i, i < n → j < i →
      natEntry (simplicial_L n Lp Li Lx * simplicial_D n Lp Lx
          * (simplicial_L n Lp Li Lx).transpose)⁻¹ i j
        + ∑ t in range (Lp (j + 1) - (Lp j + 1)),
            natEntry (simplicial_L n Lp Li Lx * simplicial_D n Lp Lx
              * (simplicial_L n Lp Li Lx).transpose)⁻¹ i (Li (Lp j + 1 + t))
              * Lx (Lp j + 1 + t) = 0) ∧
    (∀ j, j < n →
      natEntry (simplicial_L n Lp Li Lx * simplicial_D n Lp Lx
          * (simplicial_L n Lp Li Lx).transpose)⁻¹ j j
        + ∑ t in range (Lp (j + 1) - (Lp j + 1)),
            natEntry (simplicial_L n Lp Li Lx * simplicial_D n Lp Lx
              * (simplicial_L n Lp Li Lx).transpose)⁻¹ j (Li (Lp j + 1 + t))
              * Lx (Lp j + 1 + t) = 1 / Lx (Lp j)) := by
  obtain ⟨hsym, hlow, hdiag, _⟩ := selected_inverse_equations n (simplicial_L n Lp Li Lx)
    (fun j => Lx (Lp j)) (fun i => hD i i.2)
    (fun i => by rw [simplicial_L_diag]; exact one_ne_zero)
    (fun i j hij => simplicial_L_upper n Lp Li Lx wf i j hij)
  have hD' : simplicial_D n Lp Lx = Matrix.diagonal fun j : Fin n => Lx (Lp j) := rfl
  rw [hD']
  generalize (simplicial_L n Lp Li Lx * (Matrix.diagonal fun j : Fin n => Lx (Lp j))
    * (simplicial_L n Lp Li Lx).transpose)⁻¹ = X at hsym hlow hdiag ⊢
  have hrow : ∀ (i j : Nat) (hi : i < n) (hj : j < n),
      (X * simplicial_L n Lp Li Lx) ⟨i, hi⟩ ⟨j, hj⟩
        = natEntry X i j + ∑ t in range (Lp (j + 1) - (Lp j + 1)),
            natEntry X i (Li (Lp j + 1 + t)) * Lx (Lp j + 1 + t) := by
    intro i j hi hj
    rw [Matrix.mul_apply, simplicial_L_col_sum n Lp Li Lx wf (fun k => X ⟨i, hi⟩ k) ⟨j, hj⟩,
      Finset.sum_Ico_eq_sum_range, natEntry_of_lt X i j hi hj]
    congr 1
    refine Finset.sum_congr rfl (fun t _ => ?_)
    congr 1
    unfold natEntry
    by_cases h : Li (Lp j + 1 + t) < n
    · rw [dif_pos h, dif_pos ⟨hi, h⟩]
    · rw [dif_neg h, dif_neg (fun h' => h h'.2)]
  refine ⟨natEntry_symm X hsym, fun j hj i hi hji => ?_, fun j hj => ?_⟩
  · rw [← hrow i j hi hj]
    exact hlow ⟨i, hi⟩ ⟨j, hj⟩ hji
  · rw [← hrow j j hj hj, hdiag ⟨j, hj⟩, simplicial_L_diag, mul_one]

/-- A column with no off-diagonal entry. -/
theorem simplicial_column_leaf (n : Nat) (Lp Li perm : Nat → Nat) (Lx : Nat → ℚ)
    (XN : Nat → Nat → ℚ) (fuel : Nat) (ctx : SimplicialCtx n Lp Li perm Lx XN fuel)
    (j : Nat) (hj : j < n) (st : SimplicialState) (hone : Lp (j + 1) = Lp j + 1)
    (hdone : SimplicialDone n Lp Li perm XN (j + 1) st.Xx) :
    ∃ st', simplicial_column Lp Li perm Lx fuel j st = some st' ∧
      SimplicialDone n Lp Li perm XN j st'.Xx := by
  refine ⟨_, simplicial_column_diagonal Lp Li perm Lx fuel j st hone, ?_⟩
  intro c hc hcn k hk1 hk2
  show store st.Xx (perm (Lp j)) (1 / Lx (Lp j)) (perm k) = XN (Li k) c
  by_cases hcj : c = j
  · subst hcj
    have hk : k = Lp c := by omega
    subst hk
    rw [store_same, ctx.wf.diag c hcn]
    have h := ctx.diag c hcn
    rw [hone, Nat.sub_self, Finset.sum_range_zero, add_zero] at h
    exact h.symm
  · have h1 := ctx.wf.Lp_mono (by omega : j + 1 ≤ c) (Nat.le_of_lt hcn)
    rw [store_other _ _ _ _ (fun e => by
      have := ctx.inj c hcn k hk1 hk2 j hj (Lp j) (le_refl _) (by omega) e
      omega)]
    exact hdone c (by omega) hcn k hk1 hk2

/-- A column with off-diagonal entries: gather, symmetric product, scatter. -/
theorem simplicial_column_inner (n : Nat) (Lp Li perm : Nat → Nat) (Lx : Nat → ℚ)
    (XN : Nat → Nat → ℚ) (fuel : Nat) (ctx : SimplicialCtx n Lp Li perm Lx XN fuel)
    (j : Nat) (hj : j < n) (st : SimplicialState) (hmany : Lp j + 1 < Lp (j + 1))
    (hdone : SimplicialDone n Lp Li perm XN (j + 1) st.Xx) :
    ∃ st', simplicial_column Lp Li perm Lx fuel j st = some st' ∧
      SimplicialDone n Lp Li perm XN j st'.Xx := by
  have hnj : Lp (j + 1) - (Lp j + 1) = Lp (j + 1) - 1 - Lp j := by omega
  have hlow := ctx.low j hj
  have hdiag := ctx.diag j hj
  rw [hnj] at hlow hdiag
  generalize hnjdef : Lp (j + 1) - 1 - Lp j = nj at hlow hdiag
  have hgt : Lp (j + 1) - 1 > Lp j := by omega
  -- the rows of the column
  have hr_gt : ∀ t, t < nj → j < Li (Lp j + 1 + t) := fun t ht =>
    ctx.wf.offdiag_gt hj (by omega) (by omega)
  have hr_lt : ∀ t, t < nj → Li (Lp j + 1 + t) < n := fun t ht =>
    ctx.wf.bound j hj _ (by omega) (by omega)
  have hr_asc : ∀ t u, t < u → u < nj → Li (Lp j + 1 + t) < Li (Lp j + 1 + u) :=
    fun t u htu hu => ctx.wf.asc_lt hj (by omega) (by omega) (by omega)
  -- where the scans stop
  have hex : ∀ jz iz, jz ≤ iz → iz < nj → ∃ k, Lp (Li (Lp j + 1 + jz)) ≤ k ∧
      k < Lp (Li (Lp j + 1 + jz) + 1) ∧ Li k = Li (Lp j + 1 + iz) := by
    intro jz iz hji hiz
    by_cases he : jz = iz
    · subst he
      exact ⟨Lp (Li (Lp j + 1 + jz)), le_refl _, ctx.wf.nonempty _ (hr_lt jz hiz),
        ctx.wf.diag _ (hr_lt jz hiz)⟩
    · exact ctx.fill j hj _ _ ⟨Lp j + 1 + iz, by omega, by omega, rfl⟩
        ⟨Lp j + 1 + jz, by omega, by omega, rfl⟩ (hr_gt jz (by omega))
        (hr_asc jz iz (by omega) hiz)
  choose! pos hpos using hex
  have hfuel : ∀ c, c < n → Lp (c + 1) < fuel := fun c hc =>
    Nat.lt_of_le_of_lt (ctx.wf.Lp_mono (by omega : c + 1 ≤ n) (le_refl n)) ctx.fuel
  obtain ⟨V', hV, hVval⟩ := simplicial_gather_spec Lp Li perm st.Xx (Lp j) nj fuel st.V pos
    (by
      intro jz iz hji hiz
      obtain ⟨p1, p2, p3⟩ := hpos jz iz hji hiz
      have hjx := hr_lt jz (by omega)
      refine ⟨p1, fun q hq1 hq2 => ?_, by omega, ?_⟩
      · rw [← p3]
        exact ctx.wf.asc_lt hjx hq1 hq2 p2
      · have := hfuel _ hjx
        omega)
    (by
      intro jz iz hji hiz
      obtain ⟨p1, p2, p3⟩ := hpos jz iz hji (by omega)
      obtain ⟨q1, q2, q3⟩ := hpos jz (iz + 1) (by omega) hiz
      have hjx := hr_lt jz (by omega)
      by_contra hcon
      have h1 := ctx.wf.asc_lt hjx q1 (by omega : pos jz (iz + 1) < pos jz iz) p2
      have h2 := hr_asc iz (iz + 1) (by omega) hiz
      omega)
  have hVX : ∀ jz iz, jz ≤ iz → iz < nj →
      V' (iz + jz * nj) = XN (Li (Lp j + 1 + iz)) (Li (Lp j + 1 + jz)) := by
    intro jz iz hji hiz
    obtain ⟨p1, p2, p3⟩ := hpos jz iz hji hiz
    rw [hVval jz iz hji hiz, hdone _ (hr_gt jz (by omega)) (hr_lt jz (by omega)) _ p1 p2, p3]
  have hsymV : ∀ t u, t < nj → u < nj →
      symLower V' nj t u = XN (Li (Lp j + 1 + t)) (Li (Lp j + 1 + u)) := by
    intro t u ht hu
    unfold symLower
    by_cases htu : u ≤ t
    · rw [if_pos htu, hVX u t htu ht]
    · rw [if_neg htu, hVX t u (by omega) hu, ctx.sym]
  obtain ⟨hz, _⟩ := cblas_dsymv_spec nj 1 V' nj (fun k => Lx (Lp j + 1 + k)) 0 st.z
  have hzX : ∀ t, t < nj →
      cblas_dsymv nj 1 V' nj (fun k => Lx (Lp j + 1 + k)) 0 st.z t
        = -XN (Li (Lp j + 1 + t)) j := by
    intro t ht
    rw [hz t ht, one_mul, zero_mul, add_zero,
      Finset.sum_congr rfl (fun u hu => by rw [hsymV t u ht (Finset.mem_range.mp hu)])]
    have := hlow _ (hr_lt t ht) (hr_gt t ht)
    linarith
  obtain ⟨hs1, hs2⟩ := loopUp_store_spec nj (fun iz => perm (Lp j + 1 + iz))
    (fun iz => -(cblas_dsymv nj 1 V' nj (fun k => Lx (Lp j + 1 + k)) 0 st.z iz)) st.Xx
    (fun a ha b hb e => by
      have := ctx.inj j hj (Lp j + 1 + a) (by omega) (by omega) j hj (Lp j + 1 + b)
        (by omega) (by omega) e
      omega)
  refine ⟨SimplicialState.mk
      (store (loopUp nj (fun iz Xx => store Xx (perm (Lp j + 1 + iz))
        (-(cblas_dsymv nj 1 V' nj (fun k => Lx (Lp j + 1 + k)) 0 st.z iz))) st.Xx)
        (perm (Lp j)) (1 / Lx (Lp j)
          + cblas_ddot nj (cblas_dsymv nj 1 V' nj (fun k => Lx (Lp j + 1 + k)) 0 st.z)
              (fun k => Lx (Lp j + 1 + k))))
      V' (cblas_dsymv nj 1 V' nj (fun k => Lx (Lp j + 1 + k)) 0 st.z), ?_, ?_⟩
  · unfold simplicial_column
    simp only [hnjdef, if_pos hgt, hV, Option.map_some']
  · intro c hc hcn k hk1 hk2
    simp only []
    by_cases hk : k = Lp j
    · subst hk
      have hcj : c = j := by
        by_contra hne
        have := ctx.wf.Lp_mono (by omega : j + 1 ≤ c) (Nat.le_of_lt hcn)
        omega
      subst hcj
      rw [store_same, ctx.wf.diag c hcn]
      unfold cblas_ddot
      rw [Finset.sum_congr rfl (fun t ht => by rw [hzX t (Finset.mem_range.mp ht)])]
      have h2 : ∑ t in range nj, -XN (Li (Lp c + 1 + t)) c * Lx (Lp c + 1 + t)
          = -∑ t in range nj, XN c (Li (Lp c + 1 + t)) * Lx (Lp c + 1 + t) := by
        rw [← Finset.sum_neg_distrib]
        refine Finset.sum_congr rfl (fun t _ => ?_)
        rw [ctx.sym c, neg_mul]
      rw [h2]
      linarith
    · rw [store_other _ _ _ _ (fun e => hk (ctx.inj c hcn k hk1 hk2 j hj (Lp j) (le_refl _)
        (by omega) e))]
      by_cases hcj : c = j
      · subst hcj
        have hkt : k = Lp c + 1 + (k - (Lp c + 1)) := by omega
        rw [hkt, hs1 (k - (Lp c + 1)) (by omega), hzX _ (by omega), neg_neg]
      · rw [hs2 _ (fun iz hiz e => by
          have := ctx.inj c hcn k hk1 hk2 j hj (Lp j + 1 + iz) (by omega) (by omega) e
          have := ctx.wf.Lp_mono (by omega : j + 1 ≤ c) (Nat.le_of_lt hcn)
          omega)]
        exact hdone c (by omega) hcn k hk1 hk2

/-- The column loop of the simplicial driver computes the stored entries of the inverse. -/
theorem simplicial_numeric_spec (n : Nat) (Lp Li perm : Nat → Nat) (Lx : Nat → ℚ)
    (XN : Nat → Nat → ℚ) (fuel : Nat) (ctx : SimplicialCtx n Lp Li perm Lx XN fuel)
    (st : SimplicialState) :
    ∃ st', simplicial_numeric n Lp Li perm Lx fuel st = some st' ∧
      SimplicialDone n Lp Li perm XN 0 st'.Xx := by
  unfold simplicial_numeric
  refine loopDown_inv
    (fun i (s : Option SimplicialState) => ∃ st', s = some st' ∧
      SimplicialDone n Lp Li perm XN i st'.Xx)
    n _ (some st) ⟨st, rfl, fun c h1 h2 => absurd h2 (by omega)⟩ ?_
  rintro i hi s ⟨st1, rfl, hdone⟩
  have hne := ctx.wf.nonempty i hi
  by_cases hone : Lp (i + 1) = Lp i + 1
  · exact simplicial_column_leaf n Lp Li perm Lx XN fuel ctx i hi st1 hone hdone
  · exact simplicial_column_inner n Lp Li perm Lx XN fuel ctx i hi st1 (by omega) hdone

theorem simplicial_perm_inj (L : cholmod_factor) (h : Fresh)
    (wf : SimplicialWF L.n L.p L.i) (hp : PermOK L.n L.Perm) :
    ∀ c, c < L.n → ∀ k, L.p c ≤ k → k < L.p (c + 1) → ∀ c', c' < L.n → ∀ k', L.p c' ≤ k' →
      k' < L.p (c' + 1) →
      (simplicial_pattern L h).perm k = (simplicial_pattern L h).perm k' → k = k' := by
  obtain ⟨_, inv⟩ := simplicial_pattern_inv L h wf hp
  intro c hc k hk1 hk2 c' hc' k' hk1' hk2' e
  have m1 : ({ kl := k, il := L.i k, jl := c } : Entry) ∈ simplicial_entries L.n L.p L.i :=
    (mem_simplicial_entries _ _ _ _).mpr ⟨c, hc, k - L.p c, by omega, by
      rw [show L.p c + (k - L.p c) = k by omega]⟩
  have m2 : ({ kl := k', il := L.i k', jl := c' } : Entry) ∈ simplicial_entries L.n L.p L.i :=
    (mem_simplicial_entries _ _ _ _).mpr ⟨c', hc', k' - L.p c', by omega, by
      rw [show L.p c' + (k' - L.p c') = k' by omega]⟩
  exact inv.inj _ m1 _ m2 e

/-- The value array after the numeric pass of the simplicial driver, in factor coordinates. -/
theorem simplicial_values_spec (L : cholmod_factor) (h : Fresh) (fuel : Nat)
    (wf : SimplicialWF L.n L.p L.i) (hfill : SimplicialFillClosed L.n L.p L.i)
    (hD : ∀ j, j < L.n → L.x (L.p j) ≠ 0) (hp : PermOK L.n L.Perm)
    (hfuel : L.p L.n < fuel) :
    ∃ Xx, simplicial_values L h fuel = some Xx ∧
      ∀ c, c < L.n → ∀ k, L.p c ≤ k → k < L.p (c + 1) →
        Xx ((simplicial_pattern L h).perm k)
          = natEntry (simplicial_L L.n L.p L.i L.x * simplicial_D L.n L.p L.x
              * (simplicial_L L.n L.p L.i L.x).transpose)⁻¹ (L.i k) c := by
  obtain ⟨hsym, hlow, hdiag⟩ := simplicial_takahashi L.n L.p L.i L.x wf hD
  have ctx : SimplicialCtx L.n L.p L.i (simplicial_pattern L h).perm L.x
      (natEntry (simplicial_L L.n L.p L.i L.x * simplicial_D L.n L.p L.x
        * (simplicial_L L.n L.p L.i L.x).transpose)⁻¹) fuel :=
    { wf := wf, fill := hfill, fuel := hfuel, inj := simplicial_perm_inj L h wf hp,
      sym := hsym, low := hlow, diag := hdiag }
  obtain ⟨st', hst, hdone⟩ := simplicial_numeric_spec L.n L.p L.i
    (simplicial_pattern L h).perm L.x _ fuel ctx { Xx := h.Xx, V := h.V, z := h.z }
  refine ⟨st'.Xx, ?_, fun c hc k hk1 hk2 => hdone c (Nat.zero_le c) hc k hk1 hk2⟩
  unfold simplicial_values
  rw [hst]
  rfl

theorem permOK_of_equiv (n : Nat) (Lperm : Option (Nat → Nat)) (σ : Equiv.Perm (Fin n))
    (hσ : ∀ i : Fin n, ((σ i : Fin n) : Nat) = PERM Lperm i) : PermOK n Lperm := by
  constructor
  · intro i hi
    rw [← hσ ⟨i, hi⟩]
    exact (σ ⟨i, hi⟩).2
  · intro i hi j hj e
    rw [← hσ ⟨i, hi⟩, ← hσ ⟨j, hj⟩] at e
    have := σ.injective (Fin.ext e)
    exact congrArg Fin.val this

theorem inv_of_permuted (n : Nat) (σ : Equiv.Perm (Fin n)) (A B : Matrix (Fin n) (Fin n) ℚ)
    (hA : ∀ i j, A (σ i) (σ j) = B i j) (i j : Fin n) : A⁻¹ (σ i) (σ j) = B⁻¹ i j := by
  have hAB : A = B.submatrix σ.symm σ.symm := by
    ext a b
    rw [Matrix.submatrix_apply, ← hA, Equiv.apply_symm_apply, Equiv.apply_symm_apply]
  rw [hAB, Matrix.inv_submatrix_equiv, Matrix.submatrix_apply, Equiv.symm_apply_apply,
    Equiv.symm_apply_apply]

/-! ## The equations of the selected inverse for a supernodal factor -/

theorem SuperWF.col_unique {n nsuper : Nat} {Super Lpi Lpx Ls : Nat → Nat}
    (wf : SuperWF n nsuper Super Lpi Lpx Ls) {s s' j j' : Nat} (hs : s < nsuper)
    (hs' : s' < nsuper) (hj : j < Super (s + 1) - Super s)
    (hj' : j' < Super (s' + 1) - Super s') (e : Super s + j = Super s' + j') :
    s = s' ∧ j = j' := by
  have hss : s = s' := by
    by_contra hne
    rcases Nat.lt_or_gt_of_ne hne with h | h
    · have := wf.Super_mono (by omega : s + 1 ≤ s') (Nat.le_of_lt hs')
      omega
    · have := wf.Super_mono (by omega : s' + 1 ≤ s) (Nat.le_of_lt hs)
      omega
  subst hss
  exact ⟨rfl, by omega⟩

/-- The product of a row vector with the column `Super[s] + b` of `L`. -/
theorem super_L_col_sum (n nsuper : Nat) (Super Lpi Lpx Ls : Nat → Nat) (Lx : Nat → ℚ)
    (wf : SuperWF n nsuper Super Lpi Lpx Ls) (f : Fin n → ℚ) (s b : Nat) (hs : s < nsuper)
    (hb : b < Super (s + 1) - Super s) (c : Fin n) (hc : (c : Nat) = Super s + b) :
    ∑ k, f k * super_L n nsuper Super Lpi Lpx Ls Lx k c
      = super_colsum Lpi Lpx Ls Lx s b (fun r => if h : r < n then f ⟨r, h⟩ else 0) := by
  unfold super_L super_colsum
  -- move the sum over the rows inside
  have h1 : ∀ k : Fin n, f k * (∑ s' in range nsuper, ∑ j in range (Super (s' + 1) - Super s'),
      ∑ i in Ico j (Lpi (s' + 1) - Lpi s'),
        if Super s' + j = (c : Nat) ∧ Ls (Lpi s' + i) = (k : Nat)
        then Lx (Lpx s' + i + j * (Lpi (s' + 1) - Lpi s')) else 0)
      = ∑ s' in range nsuper, ∑ j in range (Super (s' + 1) - Super s'),
          ∑ i in Ico j (Lpi (s' + 1) - Lpi s'),
            if Super s' + j = (c : Nat) ∧ Ls (Lpi s' + i) = (k : Nat)
            then f k * Lx (Lpx s' + i + j * (Lpi (s' + 1) - Lpi s')) else 0 := by
    intro k
    rw [Finset.mul_sum]
    refine Finset.sum_congr rfl (fun s' _ => ?_)
    rw [Finset.mul_sum]
    refine Finset.sum_congr rfl (fun j _ => ?_)
    rw [Finset.mul_sum]
    refine Finset.sum_congr rfl (fun i _ => ?_)
    rw [mul_ite, mul_zero]
  rw [Finset.sum_congr rfl (fun k _ => h1 k), Finset.sum_comm]
  rw [Finset.sum_eq_single s]
  · rw [Finset.sum_comm, Finset.sum_eq_single b]
    · rw [Finset.sum_comm]
      refine Finset.sum_congr rfl (fun i hi => ?_)
      have hi' := Finset.mem_Ico.mp hi
      have hbound := wf.bound s hs i hi'.2
      beta_reduce
      rw [dif_pos hbound, Finset.sum_eq_single (⟨Ls (Lpi s + i), hbound⟩ : Fin n)]
      · rw [if_pos ⟨hc.symm, rfl⟩]
      · intro k _ hk
        rw [if_neg (fun e => hk (Fin.ext e.2.symm))]
      · intro h
        exact absurd (Finset.mem_univ _) h
    · intro j hj hjb
      refine Finset.sum_eq_zero (fun k _ => Finset.sum_eq_zero (fun i _ => ?_))
      rw [if_neg (fun e => hjb (by have := e.1; omega))]
    · intro h
      exact absurd (Finset.mem_range.mpr hb) h
  · intro s' hs' hne
    refine Finset.sum_eq_zero (fun k _ => Finset.sum_eq_zero (fun j hj =>
      Finset.sum_eq_zero (fun i _ => ?_)))
    rw [if_neg (fun e => hne (wf.col_unique (Finset.mem_range.mp hs') hs
      (Finset.mem_range.mp hj) hb (by rw [e.1, hc])).1)]
  · intro h
    exact absurd (Finset.mem_range.mpr hs) h

theorem SuperWF.col_exists {n nsuper : Nat} {Super Lpi Lpx Ls : Nat → Nat}
    (wf : SuperWF n nsuper Super Lpi Lpx Ls) (c : Nat) (hc : c < n) :
    ∃ s, s < nsuper ∧ ∃ j, j < Super (s + 1) - Super s ∧ c = Super s + j := by
  have key : ∀ m, m ≤ nsuper → c < Super m → ∃ s, s < m ∧ Super s ≤ c ∧ c < Super (s + 1) := by
    intro m
    induction m with
    | zero =>
      intro _ h
      rw [wf.first] at h
      omega
    | succ k ih =>
      intro hk h
      by_cases hck : c < Super k
      · obtain ⟨s, hs, h1, h2⟩ := ih (by omega) hck
        exact ⟨s, by omega, h1, h2⟩
      · exact ⟨k, by omega, by omega, h⟩
  obtain ⟨s, hs, h1, h2⟩ := key nsuper (le_refl _) (by rw [wf.last]; exact hc)
  exact ⟨s, hs, c - Super s, by omega, by omega⟩

theorem super_L_entry (n nsuper : Nat) (Super Lpi Lpx Ls : Nat → Nat) (Lx : Nat → ℚ)
    (wf : SuperWF n nsuper Super Lpi Lpx Ls) (s b : Nat) (hs : s < nsuper)
    (hb : b < Super (s + 1) - Super s) (r c : Fin n) (hc : (c : Nat) = Super s + b) :
    super_L n nsuper Super Lpi Lpx Ls Lx r c
      = ∑ i in Ico b (Lpi (s + 1) - Lpi s),
          if Ls (Lpi s + i) = (r : Nat) then Lx (Lpx s + i + b * (Lpi (s + 1) - Lpi s))
          else 0 := by
  have h := super_L_col_sum n nsuper Super Lpi Lpx Ls Lx wf
    (fun k => if k = r then 1 else 0) s b hs hb c hc
  beta_reduce at h
  rw [Finset.sum_eq_single r (fun k _ hk => by rw [if_neg hk, zero_mul])
    (fun h => absurd (Finset.mem_univ r) h), if_pos rfl, one_mul] at h
  rw [h]
  unfold super_colsum
  refine Finset.sum_congr rfl (fun i hi => ?_)
  have hbound := wf.bound s hs i (Finset.mem_Ico.mp hi).2
  beta_reduce
  rw [dif_pos hbound]
  by_cases e : Ls (Lpi s + i) = (r : Nat)
  · rw [if_pos e, if_pos (Fin.ext e), one_mul]
  · rw [if_neg e, if_neg (fun e' => e (congrArg Fin.val e')), zero_mul]

theorem super_L_upper (n nsuper : Nat) (Super Lpi Lpx Ls : Nat → Nat) (Lx : Nat → ℚ)
    (wf : SuperWF n nsuper Super Lpi Lpx Ls) (r c : Fin n) (hrc : r < c) :
    super_L n nsuper Super Lpi Lpx Ls Lx r c = 0 := by
  obtain ⟨s, hs, b, hb, hc⟩ := wf.col_exists c c.2
  rw [super_L_entry n nsuper Super Lpi Lpx Ls Lx wf s b hs hb r c hc]
  refine Finset.sum_eq_zero (fun i hi => ?_)
  have hi' := Finset.mem_Ico.mp hi
  have := wf.srow_ge hs hb hi'.1 hi'.2
  have hlt : (r : Nat) < c := hrc
  rw [if_neg (by omega)]

theorem super_L_diag (n nsuper : Nat) (Super Lpi Lpx Ls : Nat → Nat) (Lx : Nat → ℚ)
    (wf : SuperWF n nsuper Super Lpi Lpx Ls) (s b : Nat) (hs : s < nsuper)
    (hb : b < Super (s + 1) - Super s) (c : Fin n) (hc : (c : Nat) = Super s + b) :
    super_L n nsuper Super Lpi Lpx Ls Lx c c
      = Lx (Lpx s + b + b * (Lpi (s + 1) - Lpi s)) := by
  rw [super_L_entry n nsuper Super Lpi Lpx Ls Lx wf s b hs hb c c hc]
  have hbm : b < Lpi (s + 1) - Lpi s := Nat.lt_of_lt_of_le hb (wf.rows s hs)
  rw [Finset.sum_eq_single b]
  · rw [if_pos (by rw [wf.own s hs b hb, hc])]
  · intro i hi hib
    have hi' := Finset.mem_Ico.mp hi
    have := wf.srow_lt hs (by omega : b < i) hi'.2
    rw [wf.own s hs b hb] at this
    rw [if_neg (by omega)]
  · intro h
    exact absurd (Finset.mem_Ico.mpr ⟨le_refl b, hbm⟩) h

/-- The equations that determine the stored entries of the inverse of `L Lᵗ`, supernode by
supernode. -/
theorem super_takahashi (n nsuper : Nat) (Super Lpi Lpx Ls : Nat → Nat) (Lx : Nat → ℚ)
    (wf : SuperWF n nsuper Super Lpi Lpx Ls)
    (hnz : ∀ s, s < nsuper → ∀ j, j < Super (s + 1) - Super s →
      Lx (Lpx s + j + j * (Lpi (s + 1) - Lpi s)) ≠ 0) :
    (∀ i j, natEntry (super_L n nsuper Super Lpi Lpx Ls Lx
          * (super_L n nsuper Super Lpi Lpx Ls Lx).transpose)⁻¹ i j
        = natEntry (super_L n nsuper Super Lpi Lpx Ls Lx
          * (super_L n nsuper Super Lpi Lpx Ls Lx).transpose)⁻¹ j i) ∧
    (∀ s, s < nsuper → ∀ b, b < Super (s + 1) - Super s → ∀ r, r < n → Super s + b < r →
      super_colsum Lpi Lpx Ls Lx s b
        (natEntry (super_L n nsuper Super Lpi Lpx Ls Lx
          * (super_L n nsuper Super Lpi Lpx Ls Lx).transpose)⁻¹ r) = 0) ∧
    (∀ s, s < nsuper → ∀ a, a < Super (s + 1) - Super s →
      ∀ b, b < Super (s + 1) - Super s →
      ∑ c in Ico a (Super (s + 1) - Super s),
        Lx (Lpx s + c + a * (Lpi (s + 1) - Lpi s))
          * super_colsum Lpi Lpx Ls Lx s b
              (natEntry (super_L n nsuper Super Lpi Lpx Ls Lx
                * (super_L n nsuper Super Lpi Lpx Ls Lx).transpose)⁻¹ (Super s + c))
        = if a = b then 1 else 0) := by
  have hdiagL : ∀ c : Fin n, super_L n nsuper Super Lpi Lpx Ls Lx c c ≠ 0 := by
    intro c
    obtain ⟨s, hs, b, hb, hc⟩ := wf.col_exists c c.2
    rw [super_L_diag n nsuper Super Lpi Lpx Ls Lx wf s b hs hb c hc]
    exact hnz s hs b hb
  obtain ⟨hsym, hlow, _, hu⟩ := selected_inverse_equations n
    (super_L n nsuper Super Lpi Lpx Ls Lx) (fun _ => 1) (fun _ => one_ne_zero) hdiagL
    (fun i j hij => super_L_upper n nsuper Super Lpi Lpx Ls Lx wf i j hij)
  rw [Matrix.diagonal_one, Matrix.mul_one] at hsym hlow hu
  have hML : ((super_L n nsuper Super Lpi Lpx Ls Lx
      * (super_L n nsuper Super Lpi Lpx Ls Lx).transpose)⁻¹
      * super_L n nsuper Super Lpi Lpx Ls Lx)
      * (super_L n nsuper Super Lpi Lpx Ls Lx).transpose = 1 := by
    rw [Matrix.mul_assoc, Matrix.nonsing_inv_mul _ hu]
  have hLM := Matrix.mul_eq_one_comm.mp hML
  generalize (super_L n nsuper Super Lpi Lpx Ls Lx
      * (super_L n nsuper Super Lpi Lpx Ls Lx).transpose)⁻¹ = X at hsym hlow hLM ⊢
  -- an entry of `X * L` as a column sum
  have hM : ∀ (r : Nat) (hr : r < n) (s b : Nat) (hs : s < nsuper)
      (hb : b < Super (s + 1) - Super s) (c : Fin n) (_ : (c : Nat) = Super s + b),
      (X * super_L n nsuper Super Lpi Lpx Ls Lx) ⟨r, hr⟩ c
        = super_colsum Lpi Lpx Ls Lx s b (natEntry X r) := by
    intro r hr s b hs hb c hc
    rw [Matrix.mul_apply, super_L_col_sum n nsuper Super Lpi Lpx Ls Lx wf
      (fun k => X ⟨r, hr⟩ k) s b hs hb c hc]
    unfold super_colsum
    refine Finset.sum_congr rfl (fun i hi => ?_)
    have hbound := wf.bound s hs i (Finset.mem_Ico.mp hi).2
    beta_reduce
    rw [dif_pos hbound, natEntry_of_lt X _ _ hr hbound]
  refine ⟨natEntry_symm X hsym, fun s hs b hb r hr hlt => ?_, fun s hs a ha b hb => ?_⟩
  · have hc : Super s + b < n := wf.col_lt hs hb
    rw [← hM r hr s b hs hb ⟨Super s + b, hc⟩ rfl]
    exact hlow ⟨r, hr⟩ ⟨Super s + b, hc⟩ hlt
  · have hca : Super s + a < n := wf.col_lt hs ha
    have hcb : Super s + b < n := wf.col_lt hs hb
    have h1 := congrFun (congrFun hLM ⟨Super s + a, hca⟩) ⟨Super s + b, hcb⟩
    rw [Matrix.mul_apply] at h1
    have h2 : ∑ k, (super_L n nsuper Super Lpi Lpx Ls Lx).transpose ⟨Super s + a, hca⟩ k
        * (X * super_L n nsuper Super Lpi Lpx Ls Lx) k ⟨Super s + b, hcb⟩
        = ∑ k, (X * super_L n nsuper Super Lpi Lpx Ls Lx) k ⟨Super s + b, hcb⟩
          * super_L n nsuper Super Lpi Lpx Ls Lx k ⟨Super s + a, hca⟩ :=
      Finset.sum_congr rfl (fun k _ => by rw [Matrix.transpose_apply, mul_comm])
    rw [h2, super_L_col_sum n nsuper Super Lpi Lpx Ls Lx wf
      (fun k => (X * super_L n nsuper Super Lpi Lpx Ls Lx) k ⟨Super s + b, hcb⟩)
      s a hs ha ⟨Super s + a, hca⟩ rfl] at h1
    have hone : (1 : Matrix (Fin n) (Fin n) ℚ) ⟨Super s + a, hca⟩ ⟨Super s + b, hcb⟩
        = if a = b then 1 else 0 := by
      rw [Matrix.one_apply]
      by_cases hab : a = b
      · subst hab; rw [if_pos rfl, if_pos rfl]
      · rw [if_neg hab, if_neg (fun e => hab (by
          have := congrArg Fin.val e
          simp only [] at this
          omega))]
    rw [hone] at h1
    rw [← h1]
    unfold super_colsum
    have hrows := wf.rows s hs
    rw [← Finset.sum_Ico_consecutive _ (Nat.le_of_lt ha) hrows]
    have hzero : ∑ i in Ico (Super (s + 1) - Super s) (Lpi (s + 1) - Lpi s),
        (fun r => if h : r < n then
          (X * super_L n nsuper Super Lpi Lpx Ls Lx) ⟨r, h⟩ ⟨Super s + b, hcb⟩ else 0)
          (Ls (Lpi s + i)) * Lx (Lpx s + i + a * (Lpi (s + 1) - Lpi s)) = 0 := by
      refine Finset.sum_eq_zero (fun i hi => ?_)
      have hi' := Finset.mem_Ico.mp hi
      have hbound := wf.bound s hs i hi'.2
      beta_reduce
      rw [dif_pos hbound]
      have hge := wf.srow_ge hs hb (by omega : b ≤ i) hi'.2
      have hgt : Super s + b < Ls (Lpi s + i) := by
        have h3 := wf.srow_lt hs (by omega : Super (s + 1) - Super s - 1 < i) hi'.2
        rw [wf.own s hs _ (by omega)] at h3
        omega
      rw [hlow ⟨Ls (Lpi s + i), hbound⟩ ⟨Super s + b, hcb⟩ hgt, zero_mul]
    rw [hzero, add_zero]
    refine Finset.sum_congr rfl (fun i hi => ?_)
    have hi' := Finset.mem_Ico.mp hi
    have hci : Super s + i < n := wf.col_lt hs hi'.2
    beta_reduce
    rw [wf.own s hs i hi'.2, dif_pos hci, hM (Super s + i) hci s b hs hb ⟨Super s + b, hcb⟩ rfl,
      mul_comm]
    rfl

/-! ## The numeric pass of the supernodal driver -/

theorem scan_super_spec (Super : Nat → Nat) (jx fuel k kstar : Nat) (hk : k ≤ kstar)
    (hlt : ∀ q, k ≤ q → q < kstar → Super (q + 1) ≤ jx) (hstop : jx < Super (kstar + 1))
    (hfuel : kstar - k < fuel) : scan_super Super jx fuel k = some kstar := by
  induction fuel generalizing k with
  | zero => omega
  | succ f ih =>
    unfold scan_super
    by_cases hkk : k = kstar
    · subst hkk
      rw [if_neg (by omega)]
    · have := hlt k (le_refl k) (by omega)
      rw [if_pos (by omega)]
      exact ih (k + 1) (by omega) (fun q h1 h2 => hlt q (by omega) h2) (by omega)

theorem super_gather_step (Super Lpi Lpx Ls perm : Nat → Nat) (Xx : Nat → ℚ)
    (r0 m2 c0 fuel : Nat) (sc : Nat → Nat) (pos : Nat → Nat → Nat)
    (h3 : ∀ j, j < m2 → c0 ≤ sc j ∧ (∀ q, c0 ≤ q → q < sc j → Super (q + 1) ≤ Ls (r0 + j)) ∧
      Ls (r0 + j) < Super (sc j + 1) ∧ sc j - c0 < fuel)
    (h4 : ∀ j, j + 1 < m2 → sc j ≤ sc (j + 1))
    (h1 : ∀ j i, j ≤ i → i < m2 →
      (∀ q, q < pos j i → Ls (Lpi (sc j) + q) < Ls (r0 + i)) ∧
      ¬ (Ls (Lpi (sc j) + pos j i) < Ls (r0 + i)) ∧ pos j i < fuel)
    (h2 : ∀ j i, j ≤ i → i + 1 < m2 → pos j i ≤ pos j (i + 1)) :
    ∀ j, j < m2 → ∀ st : Option (Nat × (Nat → ℚ)),
      (∃ c V0, st = some (c, V0) ∧ c0 ≤ c ∧ (j < m2 → c ≤ sc j) ∧
        ∀ j' i, j' < j → j' ≤ i → i < m2 →
          V0 (i + j' * m2) = Xx (perm (Lpx (sc j') + pos j' i
            + (Ls (r0 + j') - Super (sc j')) * (Lpi (sc j' + 1) - Lpi (sc j'))))) →
      ∃ c V0, (st.bind fun st =>
          let jx := Ls (r0 + j)
          (scan_super Super jx fuel st.1).bind fun scol =>
            let jl := jx - Super scol
            (loopUp (m2 - j) (fun t st =>
              st.bind fun st =>
                let i := j + t
                let ix := Ls (r0 + i)
                (scan (fun il => Ls (Lpi scol + il)) ix fuel st.1).map fun il =>
                  let kl := Lpx scol + il + jl * (Lpi (scol + 1) - Lpi scol)
                  let kx := perm kl
                  (il, store st.2 (i + j * m2) (Xx kx))) (some (0, st.2))).map fun st' =>
                    (scol, st'.2)) = some (c, V0) ∧ c0 ≤ c ∧ (j + 1 < m2 → c ≤ sc (j + 1)) ∧
        ∀ j' i, j' < j + 1 → j' ≤ i → i < m2 →
          V0 (i + j' * m2) = Xx (perm (Lpx (sc j') + pos j' i
            + (Ls (r0 + j') - Super (sc j')) * (Lpi (sc j' + 1) - Lpi (sc j')))) := by
  rintro j hj st ⟨c, V0, rfl, hc0, hc, hV0⟩
  obtain ⟨q1, q2, q3, q4⟩ := h3 j hj
  have hsc : scan_super Super (Ls (r0 + j)) fuel c = some (sc j) :=
    scan_super_spec Super _ fuel c _ (hc hj) (fun q a b => q2 q (by omega) b) q3 (by omega)
  have inner := loopUp_inv
    (fun t (s : Option (Nat × (Nat → ℚ))) => ∃ il V1, s = some (il, V1) ∧
      (j + t < m2 → il ≤ pos j (j + t)) ∧
      (∀ i, j ≤ i → i < j + t → V1 (i + j * m2) = Xx (perm (Lpx (sc j) + pos j i
            + (Ls (r0 + j) - Super (sc j)) * (Lpi (sc j + 1) - Lpi (sc j))))) ∧
      (∀ p, (∀ i, j ≤ i → i < j + t → p ≠ i + j * m2) → V1 p = V0 p))
    (m2 - j)
    (fun t (st : Option (Nat × (Nat → ℚ))) =>
      st.bind fun st =>
        (scan (fun il => Ls (Lpi (sc j) + il)) (Ls (r0 + (j + t))) fuel st.1).map fun il =>
          (il, store st.2 (j + t + j * m2) (Xx (perm (Lpx (sc j) + il
            + (Ls (r0 + j) - Super (sc j)) * (Lpi (sc j + 1) - Lpi (sc j)))))))
    (some (0, V0))
    ⟨_, _, rfl, fun _ => Nat.zero_le _, fun i a b => absurd b (by omega), fun _ _ => rfl⟩
    (by
      rintro t ht s ⟨il, V1, rfl, hk2, hv, hfr⟩
      have hi : j + t < m2 := by omega
      obtain ⟨p2, p3, p4⟩ := h1 j (j + t) (by omega) hi
      have hscan : scan (fun il => Ls (Lpi (sc j) + il)) (Ls (r0 + (j + t))) fuel il
          = some (pos j (j + t)) :=
        scan_spec _ _ fuel il _ (hk2 hi) (fun q _ b => p2 q b) p3 (by omega)
      refine ⟨pos j (j + t), store V1 (j + t + j * m2) (Xx (perm (Lpx (sc j) + pos j (j + t)
            + (Ls (r0 + j) - Super (sc j)) * (Lpi (sc j + 1) - Lpi (sc j))))), ?_, ?_, ?_, ?_⟩
      · show Option.map _ (scan _ (Ls (r0 + (j + t))) fuel il) = _
        rw [hscan]
        rfl
      · intro h
        exact h2 j (j + t) (by omega) h
      · intro i hi1 hi2
        by_cases hit : i = j + t
        · subst hit; rw [store_same]
        · rw [store_other _ _ _ _ (fun e =>
            hit (colmajor_inj (by omega) (by omega) e).1)]
          exact hv i hi1 (by omega)
      · intro p hp
        rw [store_other _ _ _ _ (hp (j + t) (by omega) (by omega))]
        exact hfr p (fun i hi1 hi2 => hp i hi1 (by omega)))
  obtain ⟨il, V1, hs, _, hv, hfr⟩ := inner
  refine ⟨sc j, V1, ?_, q1, fun h => h4 j h, ?_⟩
  · show Option.bind (scan_super Super (Ls (r0 + j)) fuel c) _ = _
    rw [hsc]
    show Option.map _ _ = _
    rw [hs]
    rfl
  · intro j' i hj1 hj2 hi
    by_cases hjj : j' = j
    · subst hjj
      exact hv i hj2 (by omega)
    · rw [hfr _ (fun i' hi1 hi2 e => hjj (colmajor_inj (by omega) (by omega) e).2)]
      exact hV0 j' i (by omega) hj2 hi

theorem SuperWF.srow_idx_le {n nsuper : Nat} {Super Lpi Lpx Ls : Nat → Nat}
    (wf : SuperWF n nsuper Super Lpi Lpx Ls) {s : Nat} (hs : s < nsuper) {i : Nat}
    (hi : i < Lpi (s + 1) - Lpi s) : i ≤ Ls (Lpi s + i) := by
  induction i with
  | zero => exact Nat.zero_le _
  | succ m ih =>
    have h1 := ih (by omega)
    have h2 := wf.asc s hs m hi
    omega

/-- The gather of the supernodal driver reads the entries of the inverse at the rows and
columns of the rectangular part of the panel, once the later supernodes are done. -/
theorem super_gather_spec (n nsuper : Nat) (Super Lpi Lpx Ls perm : Nat → Nat) (Lx : Nat → ℚ)
    (XN : Nat → Nat → ℚ) (fuel : Nat) (ctx : SuperCtx n nsuper Super Lpi Lpx Ls perm Lx XN fuel)
    (s : Nat) (hs : s < nsuper) (Xx V : Nat → ℚ)
    (hdone : SuperDone nsuper Super Lpi Lpx Ls perm XN (s + 1) Xx) :
    ∃ V', super_gather Super Lpi Lpx Ls perm Xx s fuel V = some V' ∧
      ∀ j i, j ≤ i → i < (Lpi (s + 1) - Lpi s) - (Super (s + 1) - Super s) →
        V' (i + j * ((Lpi (s + 1) - Lpi s) - (Super (s + 1) - Super s)))
          = XN (Ls (Lpi s + (Super (s + 1) - Super s) + i))
              (Ls (Lpi s + (Super (s + 1) - Super s) + j)) := by
  have wf := ctx.wf
  have hcols := wf.cols s hs
  have hrows := wf.rows s hs
  -- the rows of the rectangular part
  have hr_lt : ∀ j, j < (Lpi (s + 1) - Lpi s) - (Super (s + 1) - Super s) →
      Ls (Lpi s + (Super (s + 1) - Super s) + j) < n := fun j hj => by
    rw [Nat.add_assoc]
    exact wf.bound s hs _ (by omega)
  have hr_ge : ∀ j, j < (Lpi (s + 1) - Lpi s) - (Super (s + 1) - Super s) →
      Super (s + 1) ≤ Ls (Lpi s + (Super (s + 1) - Super s) + j) := fun j hj => by
    have h1 := wf.srow_lt hs (by omega : Super (s + 1) - Super s - 1
      < Super (s + 1) - Super s + j) (by omega)
    rw [wf.own s hs _ (by omega), ← Nat.add_assoc] at h1
    omega
  have hr_asc : ∀ j i, j < i → i < (Lpi (s + 1) - Lpi s) - (Super (s + 1) - Super s) →
      Ls (Lpi s + (Super (s + 1) - Super s) + j)
        < Ls (Lpi s + (Super (s + 1) - Super s) + i) := fun j i hji hi => by
    rw [Nat.add_assoc, Nat.add_assoc]
    exact wf.srow_lt hs (by omega) (by omega)
  -- the supernode of every gathered column
  have hexsc : ∀ j, j < (Lpi (s + 1) - Lpi s) - (Super (s + 1) - Super s) →
      ∃ q, q < nsuper ∧ s + 1 ≤ q ∧ Super q ≤ Ls (Lpi s + (Super (s + 1) - Super s) + j) ∧
        Ls (Lpi s + (Super (s + 1) - Super s) + j) < Super (q + 1) := by
    intro j hj
    obtain ⟨q, hq, b, hb, e⟩ := wf.col_exists _ (hr_lt j hj)
    refine ⟨q, hq, ?_, by omega, by omega⟩
    by_contra hcon
    have h1 := wf.Super_mono (by omega : q + 1 ≤ s + 1) (by omega : s + 1 ≤ nsuper)
    have h2 := hr_ge j hj
    omega
  choose! sc hsc using hexsc
  -- where the scans of the row lists stop
  have hexpos : ∀ j i, j ≤ i → i < (Lpi (s + 1) - Lpi s) - (Super (s + 1) - Super s) →
      ∃ il, Ls (Lpi s + (Super (s + 1) - Super s) + j) - Super (sc j) ≤ il ∧
        il < Lpi (sc j + 1) - Lpi (sc j) ∧
        Ls (Lpi (sc j) + il) = Ls (Lpi s + (Super (s + 1) - Super s) + i) := by
    intro j i hji hi
    obtain ⟨q1, q2, q3, q4⟩ := hsc j (by omega)
    have hrq := wf.rows (sc j) q1
    by_cases he : j = i
    · subst he
      exact ⟨_, le_refl _, by omega, by rw [wf.own (sc j) q1 _ (by omega)]; omega⟩
    · obtain ⟨s', hs', jj, hjj, ii, h1, h2, h3, h4⟩ := ctx.fill (Super s)
        (by have := wf.col_lt hs (by omega : 0 < Super (s + 1) - Super s); omega) _ _
        ⟨s, hs, 0, by omega, Super (s + 1) - Super s + i, Nat.zero_le _, by omega, rfl,
          by rw [← Nat.add_assoc]⟩
        ⟨s, hs, 0, by omega, Super (s + 1) - Super s + j, Nat.zero_le _, by omega, rfl,
          by rw [← Nat.add_assoc]⟩
        (by have := hr_ge j (by omega); omega) (hr_asc j i (by omega) hi)
      obtain ⟨e1, e2⟩ := wf.col_unique hs' q1 hjj
        (by omega : Ls (Lpi s + (Super (s + 1) - Super s) + j) - Super (sc j)
          < Super (sc j + 1) - Super (sc j))
        (by omega : Super s' + jj = Super (sc j)
          + (Ls (Lpi s + (Super (s + 1) - Super s) + j) - Super (sc j)))
      subst e1
      exact ⟨ii, by omega, h2, h4⟩
  choose! pos hpos using hexpos
  unfold super_gather
  have key := loopUp_inv
    (fun j (st : Option (Nat × (Nat → ℚ))) =>
      ∃ c V0, st = some (c, V0) ∧ s + 1 ≤ c ∧
        (j < (Lpi (s + 1) - Lpi s) - (Super (s + 1) - Super s) → c ≤ sc j) ∧
        ∀ j' i, j' < j → j' ≤ i → i < (Lpi (s + 1) - Lpi s) - (Super (s + 1) - Super s) →
          V0 (i + j' * ((Lpi (s + 1) - Lpi s) - (Super (s + 1) - Super s)))
            = Xx (perm (Lpx (sc j') + pos j' i
              + (Ls (Lpi s + (Super (s + 1) - Super s) + j') - Super (sc j'))
                * (Lpi (sc j' + 1) - Lpi (sc j')))))
    ((Lpi (s + 1) - Lpi s) - (Super (s + 1) - Super s)) _ (some (s + 1, V))
    ⟨s + 1, V, rfl, le_refl _, fun h => (hsc 0 h).2.1, fun j' i h => absurd h (by omega)⟩
    (super_gather_step Super Lpi Lpx Ls perm Xx (Lpi s + (Super (s + 1) - Super s))
      ((Lpi (s + 1) - Lpi s) - (Super (s + 1) - Super s)) (s + 1) fuel sc pos
      (by
        intro j hj
        obtain ⟨q1, q2, q3, q4⟩ := hsc j hj
        refine ⟨q2, fun q a b => ?_, q4, by have := ctx.fuel; omega⟩
        have := wf.Super_mono (by omega : q + 1 ≤ sc j) (by omega : sc j ≤ nsuper)
        omega)
      (by
        intro j hj
        obtain ⟨q1, q2, q3, q4⟩ := hsc j (by omega)
        obtain ⟨r1, r2, r3, r4⟩ := hsc (j + 1) hj
        by_contra hcon
        have h1 := wf.Super_mono (by omega : sc (j + 1) + 1 ≤ sc j) (by omega : sc j ≤ nsuper)
        have h2 := hr_asc j (j + 1) (by omega) hj
        omega)
      (by
        intro j i hji hi
        obtain ⟨q1, q2, q3, q4⟩ := hsc j (by omega)
        obtain ⟨p1, p2, p3⟩ := hpos j i hji hi
        refine ⟨fun q hq => ?_, by omega, ?_⟩
        · rw [← p3]
          exact wf.srow_lt q1 hq p2
        · have h1 := wf.srow_idx_le q1 p2
          have h2 := hr_lt i hi
          have := ctx.fuel
          omega)
      (by
        intro j i hji hi
        obtain ⟨q1, q2, q3, q4⟩ := hsc j (by omega)
        obtain ⟨p1, p2, p3⟩ := hpos j i hji (by omega)
        obtain ⟨r1, r2, r3⟩ := hpos j (i + 1) (by omega) hi
        by_contra hcon
        have h1 := wf.srow_lt q1 (by omega : pos j (i + 1) < pos j i) p2
        have h2 := hr_asc i (i + 1) (by omega) hi
        omega))
  obtain ⟨c, V0, hk, _, _, hval⟩ := key
  refine ⟨V0, congrArg (Option.map Prod.snd) hk, fun j i hji hi => ?_⟩
  obtain ⟨q1, q2, q3, q4⟩ := hsc j (by omega)
  obtain ⟨p1, p2, p3⟩ := hpos j i hji hi
  rw [hval j i (by omega) hji hi,
    hdone (sc j) q2 q1 _ (by omega) (pos j i) p1 p2, p3]
  congr 1
  omega

/-- A loop over the columns `j < ns` of a trapezoid with `ms` rows that stores `v1 i j` for the
rows `j ≤ i < ns` and `v2 i j` for the rows `ns ≤ i < ms` at pairwise different positions. -/
theorem trapezoid_store_spec (ns ms : Nat) (hnm : ns ≤ ms) (idx : Nat → Nat → Nat)
    (v1 v2 : Nat → Nat → ℚ) (X : Nat → ℚ)
    (hinj : ∀ j, j < ns → ∀ i, j ≤ i → i < ms → ∀ j', j' < ns → ∀ i', j' ≤ i' → i' < ms →
      idx i j = idx i' j' → i = i' ∧ j = j') :
    (∀ j, j < ns → ∀ i, j ≤ i → i < ms →
      loopUp ns (fun j X =>
        loopUp (ms - ns) (fun t X => store X (idx (ns + t) j) (v2 (ns + t) j))
          (loopUp (ns - j) (fun t X => store X (idx (j + t) j) (v1 (j + t) j)) X)) X (idx i j)
        = if i < ns then v1 i j else v2 i j) ∧
    (∀ p, (∀ j, j < ns → ∀ i, j ≤ i → i < ms → p ≠ idx i j) →
      loopUp ns (fun j X =>
        loopUp (ms - ns) (fun t X => store X (idx (ns + t) j) (v2 (ns + t) j))
          (loopUp (ns - j) (fun t X => store X (idx (j + t) j) (v1 (j + t) j)) X)) X p
        = X p) := by
  have key := loopUp_inv
    (fun k (Y : Nat → ℚ) =>
      (∀ j, j < k → ∀ i, j ≤ i → i < ms → Y (idx i j) = if i < ns then v1 i j else v2 i j) ∧
      (∀ p, (∀ j, j < k → ∀ i, j ≤ i → i < ms → p ≠ idx i j) → Y p = X p))
    ns (fun j X =>
        loopUp (ms - ns) (fun t X => store X (idx (ns + t) j) (v2 (ns + t) j))
          (loopUp (ns - j) (fun t X => store X (idx (j + t) j) (v1 (j + t) j)) X)) X
    ⟨fun j hj => absurd hj (Nat.not_lt_zero j), fun _ _ => rfl⟩
    (by
      intro k hk Y ⟨g1, g2⟩
      obtain ⟨a1, a2⟩ := loopUp_store_spec (ns - k) (fun t => idx (k + t) k)
        (fun t => v1 (k + t) k) Y
        (fun a ha b hb e => by
          have := (hinj k hk (k + a) (by omega) (by omega) k hk (k + b) (by omega)
            (by omega) e).1
          omega)
      obtain ⟨b1, b2⟩ := loopUp_store_spec (ms - ns) (fun t => idx (ns + t) k)
        (fun t => v2 (ns + t) k)
        (loopUp (ns - k) (fun t X => store X (idx (k + t) k) (v1 (k + t) k)) Y)
        (fun a ha b hb e => by
          have := (hinj k hk (ns + a) (by omega) (by omega) k hk (ns + b) (by omega)
            (by omega) e).1
          omega)
      refine ⟨fun j hj i hji hi => ?_, fun p hp => ?_⟩ <;> beta_reduce
      · by_cases hjk : j = k
        · subst hjk
          by_cases hin : i < ns
          · rw [if_pos hin, b2 _ (fun t ht e => by
              have := (hinj j hk i hji hi j hk (ns + t) (by omega) (by omega) e).1
              omega)]
            have := a1 (i - j) (by omega)
            rw [(by omega : j + (i - j) = i)] at this
            exact this
          · rw [if_neg hin]
            have := b1 (i - ns) (by omega)
            rw [(by omega : ns + (i - ns) = i)] at this
            exact this
        · rw [b2 _ (fun t ht e => hjk
              (hinj j (by omega) i hji hi k hk (ns + t) (by omega) (by omega) e).2),
            a2 _ (fun t ht e => hjk
              (hinj j (by omega) i hji hi k hk (k + t) (by omega) (by omega) e).2)]
          exact g1 j (by omega) i hji hi
      · rw [b2 _ (fun t ht => hp k (by omega) (ns + t) (by omega) (by omega)),
          a2 _ (fun t ht => hp k (by omega) (k + t) (by omega) (by omega))]
        exact g2 p (fun j hj i hji hi => hp j (by omega) i hji hi))
  exact key

/-- The scatter of the supernodal driver. -/
theorem super_scatter_spec (Super Lpi Lpx perm : Nat → Nat) (Z : Nat → ℚ) (s : Nat)
    (Xx : Nat → ℚ) (hnm : Super (s + 1) - Super s ≤ Lpi (s + 1) - Lpi s)
    (hinj : ∀ j, j < Super (s + 1) - Super s → ∀ i, j ≤ i → i < Lpi (s + 1) - Lpi s →
      ∀ j', j' < Super (s + 1) - Super s → ∀ i', j' ≤ i' → i' < Lpi (s + 1) - Lpi s →
      perm (Lpx s + i + j * (Lpi (s + 1) - Lpi s))
        = perm (Lpx s + i' + j' * (Lpi (s + 1) - Lpi s)) → i = i' ∧ j = j') :
    (∀ j, j < Super (s + 1) - Super s → ∀ i, j ≤ i → i < Lpi (s + 1) - Lpi s →
      super_scatter Super Lpi Lpx perm Z s Xx (perm (Lpx s + i + j * (Lpi (s + 1) - Lpi s)))
        = if i < Super (s + 1) - Super s
          then 1 / 2 * (Z (i + j * (Lpi (s + 1) - Lpi s)) + Z (j + i * (Lpi (s + 1) - Lpi s)))
          else Z (i + j * (Lpi (s + 1) - Lpi s))) ∧
    (∀ p, (∀ j, j < Super (s + 1) - Super s → ∀ i, j ≤ i → i < Lpi (s + 1) - Lpi s →
        p ≠ perm (Lpx s + i + j * (Lpi (s + 1) - Lpi s))) →
      super_scatter Super Lpi Lpx perm Z s Xx p = Xx p) :=
  trapezoid_store_spec (Super (s + 1) - Super s) (Lpi (s + 1) - Lpi s) hnm
    (fun i j => perm (Lpx s + i + j * (Lpi (s + 1) - Lpi s)))
    (fun i j => 1 / 2 * (Z (i + j * (Lpi (s + 1) - Lpi s)) + Z (j + i * (Lpi (s + 1) - Lpi s))))
    (fun i j => Z (i + j * (Lpi (s + 1) - Lpi s))) Xx hinj

/-! ## The kernel call of the supernodal driver -/

theorem block_unique {p q : Nat} (L1 : Matrix (Fin q) (Fin q) ℚ) (L2 : Matrix (Fin p) (Fin q) ℚ)
    (VS : Matrix (Fin p) (Fin p) ℚ) (Z1 X1 : Matrix (Fin q) (Fin q) ℚ)
    (Z2 X2 : Matrix (Fin p) (Fin q) ℚ) (hu : IsUnit L1.det)
    (hZ2 : Z2 * L1 + VS * L2 = 0)
    (hZ1 : L1.transpose * (Z1 * L1 + Z2.transpose * L2) = 1)
    (hX2 : X2 * L1 + VS * L2 = 0)
    (hX1 : L1.transpose * (X1 * L1 + X2.transpose * L2) = 1) : Z1 = X1 ∧ Z2 = X2 := by
  have hut : IsUnit L1.transpose.det := by rw [Matrix.det_transpose]; exact hu
  have cancel : ∀ {r : Nat} (A B : Matrix (Fin r) (Fin q) ℚ), A * L1 = B * L1 → A = B := by
    intro r A B h
    calc A = A * L1 * L1⁻¹ := by rw [Matrix.mul_assoc, Matrix.mul_nonsing_inv _ hu, Matrix.mul_one]
      _ = B * L1 * L1⁻¹ := by rw [h]
      _ = B := by rw [Matrix.mul_assoc, Matrix.mul_nonsing_inv _ hu, Matrix.mul_one]
  have h2 : Z2 = X2 := by
    refine cancel Z2 X2 ?_
    have : Z2 * L1 + VS * L2 = X2 * L1 + VS * L2 := by rw [hZ2, hX2]
    exact add_right_cancel this
  subst h2
  refine ⟨cancel Z1 X1 ?_, rfl⟩
  have h3 : Z1 * L1 + Z2.transpose * L2 = X1 * L1 + Z2.transpose * L2 := by
    calc Z1 * L1 + Z2.transpose * L2
        = L1.transpose⁻¹ * (L1.transpose * (Z1 * L1 + Z2.transpose * L2)) := by
          rw [← Matrix.mul_assoc, Matrix.nonsing_inv_mul _ hut, Matrix.one_mul]
      _ = L1.transpose⁻¹ * (L1.transpose * (X1 * L1 + Z2.transpose * L2)) := by rw [hZ1, hX1]
      _ = X1 * L1 + Z2.transpose * L2 := by
          rw [← Matrix.mul_assoc, Matrix.nonsing_inv_mul _ hut, Matrix.one_mul]
  exact add_right_cancel h3

theorem sum_lower_Ico (n r : Nat) (f : Nat → ℚ) :
    ∑ k in range n, (if r ≤ k then f k else 0) = ∑ k in Ico r n, f k := by
  rw [← Finset.sum_filter]
  have h : (range n).filter (fun k => r ≤ k) = Ico r n := by
    ext k
    simp only [Finset.mem_filter, Finset.mem_range, Finset.mem_Ico]
    omega
  rw [h]

/-- A sum over the stored entries of column `b` of a panel, split into its triangular and its
rectangular part. -/
theorem colsum_blocks (ns ms : Nat) (hnm : ns ≤ ms) (Lb : Nat → ℚ) (b : Fin ns)
    (g : Nat → ℚ) :
    ∑ a : Fin ns, g a * lowerView Lb ms ns a b
      + ∑ k : Fin (ms - ns), g (ns + k) * matView Lb ns ms (ms - ns) ns k b
      = ∑ i in Ico (b : Nat) ms, g i * Lb (i + b * ms) := by
  have hb := b.2
  rw [← Finset.sum_Ico_consecutive _ (Nat.le_of_lt hb) hnm]
  congr 1
  · simp only [lowerView, mul_ite, mul_zero]
    rw [Fin.sum_univ_eq_sum_range
      (fun k => if (b : Nat) ≤ k then g k * Lb (k + b * ms) else 0) ns, sum_lower_Ico]
  · simp only [matView]
    rw [Fin.sum_univ_eq_sum_range (fun k => g (ns + k) * Lb (ns + k + b * ms)) (ms - ns),
      Finset.sum_Ico_eq_sum_range]

/-- The kernel call for supernode `s` returns the entries of the inverse at the rows and columns
of the panel, provided `V` holds those of the rectangular part. -/
theorem super_block_values (n nsuper : Nat) (Super Lpi Lpx Ls perm : Nat → Nat) (Lx : Nat → ℚ)
    (XN : Nat → Nat → ℚ) (fuel : Nat) (ctx : SuperCtx n nsuper Super Lpi Lpx Ls perm Lx XN fuel)
    (s : Nat) (hs : s < nsuper) (Z V : Nat → ℚ)
    (hV : ∀ j i, j ≤ i → i < (Lpi (s + 1) - Lpi s) - (Super (s + 1) - Super s) →
      V (i + j * ((Lpi (s + 1) - Lpi s) - (Super (s + 1) - Super s)))
        = XN (Ls (Lpi s + (Super (s + 1) - Super s) + i))
            (Ls (Lpi s + (Super (s + 1) - Super s) + j))) :
    (∀ a b, a < Super (s + 1) - Super s → b < Super (s + 1) - Super s →
      spinv_block (fun k => Lx (Lpx s + k)) Z V (Lpi (s + 1) - Lpi s)
          (Super (s + 1) - Super s) (a + b * (Lpi (s + 1) - Lpi s))
        = XN (Super s + a) (Super s + b)) ∧
    (∀ i b, i < (Lpi (s + 1) - Lpi s) - (Super (s + 1) - Super s) →
      b < Super (s + 1) - Super s →
      spinv_block (fun k => Lx (Lpx s + k)) Z V (Lpi (s + 1) - Lpi s)
          (Super (s + 1) - Super s)
          (Super (s + 1) - Super s + i + b * (Lpi (s + 1) - Lpi s))
        = XN (Ls (Lpi s + (Super (s + 1) - Super s) + i)) (Super s + b)) := by
  have wf := ctx.wf
  have hcols := wf.cols s hs
  have hrows := wf.rows s hs
  have hown := wf.own s hs
  have hr_lt : ∀ j, j < (Lpi (s + 1) - Lpi s) - (Super (s + 1) - Super s) →
      Ls (Lpi s + (Super (s + 1) - Super s) + j) < n := fun j hj => by
    rw [Nat.add_assoc]
    exact wf.bound s hs _ (by omega)
  have hr_ge : ∀ j, j < (Lpi (s + 1) - Lpi s) - (Super (s + 1) - Super s) →
      Super (s + 1) ≤ Ls (Lpi s + (Super (s + 1) - Super s) + j) := fun j hj => by
    have h1 := wf.srow_lt hs (by omega : Super (s + 1) - Super s - 1
      < Super (s + 1) - Super s + j) (by omega)
    rw [wf.own s hs _ (by omega), ← Nat.add_assoc] at h1
    omega
  have hd : ∀ i, i < Super (s + 1) - Super s →
      (fun k => Lx (Lpx s + k)) (i + i * (Lpi (s + 1) - Lpi s)) ≠ 0 := fun i hi => by
    have := ctx.nz s hs i hi
    rw [Nat.add_assoc] at this
    exact this
  obtain ⟨e1, e2⟩ := spinv_block_matrix (fun k => Lx (Lpx s + k)) Z V (Lpi (s + 1) - Lpi s)
    (Super (s + 1) - Super s) hrows hd
  have hu := lowerView_isUnit_det (fun k => Lx (Lpx s + k)) (Lpi (s + 1) - Lpi s)
    (Super (s + 1) - Super s) hd
  have hVS : symView V ((Lpi (s + 1) - Lpi s) - (Super (s + 1) - Super s))
      ((Lpi (s + 1) - Lpi s) - (Super (s + 1) - Super s))
      = Matrix.of (fun (i j : Fin ((Lpi (s + 1) - Lpi s) - (Super (s + 1) - Super s))) =>
          XN (Ls (Lpi s + (Super (s + 1) - Super s) + (i : Nat)))
          (Ls (Lpi s + (Super (s + 1) - Super s) + (j : Nat)))) := by
    ext i j
    simp only [symView, symLower, Matrix.of_apply]
    by_cases hij : (j : Nat) ≤ i
    · rw [if_pos hij, hV j i hij i.2]
    · rw [if_neg hij, hV i j (by omega) j.2, ctx.sym]
  -- a column sum over the panel in block form
  have hsum : ∀ (f : Nat → ℚ) (b : Fin (Super (s + 1) - Super s)),
      ∑ a : Fin (Super (s + 1) - Super s), f (Super s + a)
          * lowerView (fun k => Lx (Lpx s + k)) (Lpi (s + 1) - Lpi s)
              (Super (s + 1) - Super s) a b
        + ∑ k : Fin ((Lpi (s + 1) - Lpi s) - (Super (s + 1) - Super s)),
            f (Ls (Lpi s + (Super (s + 1) - Super s) + k))
          * matView (fun k => Lx (Lpx s + k)) (Super (s + 1) - Super s)
              (Lpi (s + 1) - Lpi s) ((Lpi (s + 1) - Lpi s) - (Super (s + 1) - Super s))
              (Super (s + 1) - Super s) k b
        = super_colsum Lpi Lpx Ls Lx s b f := by
    intro f b
    have h := colsum_blocks (Super (s + 1) - Super s) (Lpi (s + 1) - Lpi s) hrows
      (fun k => Lx (Lpx s + k)) b (fun t => f (Ls (Lpi s + t)))
    have t1 : ∑ a : Fin (Super (s + 1) - Super s), f (Super s + a)
          * lowerView (fun k => Lx (Lpx s + k)) (Lpi (s + 1) - Lpi s)
              (Super (s + 1) - Super s) a b
        = ∑ a : Fin (Super (s + 1) - Super s), (fun t => f (Ls (Lpi s + t))) a
          * lowerView (fun k => Lx (Lpx s + k)) (Lpi (s + 1) - Lpi s)
              (Super (s + 1) - Super s) a b :=
      Finset.sum_congr rfl (fun a _ => by beta_reduce; rw [hown a a.2])
    have t2 : ∑ k : Fin ((Lpi (s + 1) - Lpi s) - (Super (s + 1) - Super s)),
            f (Ls (Lpi s + (Super (s + 1) - Super s) + k))
          * matView (fun k => Lx (Lpx s + k)) (Super (s + 1) - Super s)
              (Lpi (s + 1) - Lpi s) ((Lpi (s + 1) - Lpi s) - (Super (s + 1) - Super s))
              (Super (s + 1) - Super s) k b
        = ∑ k : Fin ((Lpi (s + 1) - Lpi s) - (Super (s + 1) - Super s)),
            (fun t => f (Ls (Lpi s + t))) (Super (s + 1) - Super s + k)
          * matView (fun k => Lx (Lpx s + k)) (Super (s + 1) - Super s)
              (Lpi (s + 1) - Lpi s) ((Lpi (s + 1) - Lpi s) - (Super (s + 1) - Super s))
              (Super (s + 1) - Super s) k b :=
      Finset.sum_congr rfl (fun k _ => by beta_reduce; rw [Nat.add_assoc])
    rw [t1, t2, h]
    unfold super_colsum
    refine Finset.sum_congr rfl (fun t _ => ?_)
    beta_reduce
    rw [Nat.add_assoc]
  have hX2 : Matrix.of (fun (i : Fin ((Lpi (s + 1) - Lpi s) - (Super (s + 1) - Super s)))
        (b : Fin (Super (s + 1) - Super s)) =>
        XN (Ls (Lpi s + (Super (s + 1) - Super s) + (i : Nat))) (Super s + (b : Nat)))
      * lowerView (fun k => Lx (Lpx s + k)) (Lpi (s + 1) - Lpi s) (Super (s + 1) - Super s)
      + symView V ((Lpi (s + 1) - Lpi s) - (Super (s + 1) - Super s))
          ((Lpi (s + 1) - Lpi s) - (Super (s + 1) - Super s))
        * matView (fun k => Lx (Lpx s + k)) (Super (s + 1) - Super s) (Lpi (s + 1) - Lpi s)
            ((Lpi (s + 1) - Lpi s) - (Super (s + 1) - Super s)) (Super (s + 1) - Super s)
      = 0 := by
    ext i b
    rw [hVS, Matrix.add_apply, Matrix.mul_apply, Matrix.mul_apply, Matrix.zero_apply]
    simp only [Matrix.of_apply]
    rw [hsum (XN (Ls (Lpi s + (Super (s + 1) - Super s) + (i : Nat)))) b]
    exact ctx.low s hs b b.2 _ (hr_lt i i.2) (by have := hr_ge i i.2; omega)
  have hX1 : (lowerView (fun k => Lx (Lpx s + k)) (Lpi (s + 1) - Lpi s)
        (Super (s + 1) - Super s)).transpose
      * (Matrix.of (fun (a b : Fin (Super (s + 1) - Super s)) =>
            XN (Super s + (a : Nat)) (Super s + (b : Nat)))
          * lowerView (fun k => Lx (Lpx s + k)) (Lpi (s + 1) - Lpi s)
              (Super (s + 1) - Super s)
        + (Matrix.of (fun (i : Fin ((Lpi (s + 1) - Lpi s) - (Super (s + 1) - Super s)))
            (b : Fin (Super (s + 1) - Super s)) =>
            XN (Ls (Lpi s + (Super (s + 1) - Super s) + (i : Nat)))
              (Super s + (b : Nat)))).transpose
          * matView (fun k => Lx (Lpx s + k)) (Super (s + 1) - Super s) (Lpi (s + 1) - Lpi s)
              ((Lpi (s + 1) - Lpi s) - (Super (s + 1) - Super s)) (Super (s + 1) - Super s))
      = 1 := by
    ext a b
    rw [Matrix.mul_apply]
    have inner : ∀ c : Fin (Super (s + 1) - Super s),
        (Matrix.of (fun (a b : Fin (Super (s + 1) - Super s)) =>
            XN (Super s + (a : Nat)) (Super s + (b : Nat)))
          * lowerView (fun k => Lx (Lpx s + k)) (Lpi (s + 1) - Lpi s)
              (Super (s + 1) - Super s)
        + (Matrix.of (fun (i : Fin ((Lpi (s + 1) - Lpi s) - (Super (s + 1) - Super s)))
            (b : Fin (Super (s + 1) - Super s)) =>
            XN (Ls (Lpi s + (Super (s + 1) - Super s) + (i : Nat)))
              (Super s + (b : Nat)))).transpose
          * matView (fun k => Lx (Lpx s + k)) (Super (s + 1) - Super s) (Lpi (s + 1) - Lpi s)
              ((Lpi (s + 1) - Lpi s) - (Super (s + 1) - Super s)) (Super (s + 1) - Super s))
          c b = super_colsum Lpi Lpx Ls Lx s b (XN (Super s + c)) := by
      intro c
      rw [Matrix.add_apply, Matrix.mul_apply, Matrix.mul_apply, ← hsum (XN (Super s + c)) b]
      congr 1
      refine Finset.sum_congr rfl (fun k _ => ?_)
      rw [Matrix.transpose_apply, Matrix.of_apply, ctx.sym]
    rw [Finset.sum_congr rfl (fun c _ => by rw [inner c])]
    simp only [Matrix.transpose_apply, lowerView, ite_mul, zero_mul]
    rw [Fin.sum_univ_eq_sum_range
      (fun c => if (a : Nat) ≤ c then
        Lx (Lpx s + (c + a * (Lpi (s + 1) - Lpi s)))
          * super_colsum Lpi Lpx Ls Lx s b (XN (Super s + c)) else 0)
      (Super (s + 1) - Super s), sum_lower_Ico]
    have hdg := ctx.diag s hs a a.2 b b.2
    rw [Matrix.one_apply]
    have hab : (a = b) = ((a : Nat) = (b : Nat)) := by rw [Fin.ext_iff]
    simp only [hab]
    rw [← hdg]
    refine Finset.sum_congr rfl (fun c _ => ?_)
    rw [Nat.add_assoc]
  obtain ⟨hZ1, hZ2⟩ := block_unique _ _ _ _ _ _ _ hu e1 e2 hX2 hX1
  refine ⟨fun a b ha hb => ?_, fun i b hi hb => ?_⟩
  · have := congrFun (congrFun hZ1 ⟨a, ha⟩) ⟨b, hb⟩
    simp only [matView, Nat.zero_add, Matrix.of_apply] at this
    exact this
  · have := congrFun (congrFun hZ2 ⟨i, hi⟩) ⟨b, hb⟩
    simp only [matView, Matrix.of_apply] at this
    exact this

/-! ## The supernode loop -/

/-- One iteration of the supernode loop: with the later supernodes done, supernode `s` is
done. -/
theorem super_step_spec (n nsuper : Nat) (Super Lpi Lpx Ls perm : Nat → Nat) (Lx : Nat → ℚ)
    (XN : Nat → Nat → ℚ) (fuel : Nat) (ctx : SuperCtx n nsuper Super Lpi Lpx Ls perm Lx XN fuel)
    (s : Nat) (hs : s < nsuper) (st : SuperState)
    (hdone : SuperDone nsuper Super Lpi Lpx Ls perm XN (s + 1) st.Xx) :
    ∃ st', super_step Super Lpi Lpx Ls perm Lx fuel s st = some st' ∧
      SuperDone nsuper Super Lpi Lpx Ls perm XN s st'.Xx := by
  have wf := ctx.wf
  have hrows := wf.rows s hs
  obtain ⟨V', hV, hVval⟩ := super_gather_spec n nsuper Super Lpi Lpx Ls perm Lx XN fuel ctx s hs
    st.Xx st.V hdone
  obtain ⟨z1, z2⟩ := super_block_values n nsuper Super Lpi Lpx Ls perm Lx XN fuel ctx s hs
    st.Z V' hVval
  obtain ⟨c1, c2⟩ := super_scatter_spec Super Lpi Lpx perm
    (spinv_block (fun k => Lx (Lpx s + k)) st.Z V' (Lpi (s + 1) - Lpi s)
      (Super (s + 1) - Super s)) s st.Xx hrows
    (fun j hj i hji hi j' hj' i' hji' hi' e =>
      (ctx.inj s hs j hj i hji hi s hs j' hj' i' hji' hi' e).2)
  refine ⟨SuperState.mk
    (super_scatter Super Lpi Lpx perm
      (spinv_block (fun k => Lx (Lpx s + k)) st.Z V' (Lpi (s + 1) - Lpi s)
        (Super (s + 1) - Super s)) s st.Xx) V'
    (spinv_block (fun k => Lx (Lpx s + k)) st.Z V' (Lpi (s + 1) - Lpi s)
      (Super (s + 1) - Super s)), ?_, ?_⟩
  · unfold super_step
    simp only [hV, Option.map_some']
  · intro s' hs1 hs2 j hj i hji hi
    simp only []
    by_cases hss : s' = s
    · subst hss
      rw [c1 j hj i hji hi]
      by_cases hin : i < Super (s' + 1) - Super s'
      · rw [if_pos hin, z1 i j hin hj, z1 j i hj hin, ctx.sym (Super s' + j),
          wf.own s' hs i hin]
        ring
      · rw [if_neg hin]
        have h1 := z2 (i - (Super (s' + 1) - Super s')) j (by omega) hj
        have e1 : Super (s' + 1) - Super s' + (i - (Super (s' + 1) - Super s')) = i := by omega
        have e2 : Lpi s' + (Super (s' + 1) - Super s') + (i - (Super (s' + 1) - Super s'))
            = Lpi s' + i := by omega
        rw [e1, e2] at h1
        exact h1
    · rw [c2 _ (fun j' hj' i' hji' hi' e =>
        hss (ctx.inj s' hs2 j hj i hji hi s hs j' hj' i' hji' hi' e).1)]
      exact hdone s' (by omega) hs2 j hj i hji hi

/-- The supernode loop of the supernodal driver computes the stored entries of the inverse. -/
theorem super_numeric_spec (n nsuper : Nat) (Super Lpi Lpx Ls perm : Nat → Nat) (Lx : Nat → ℚ)
    (XN : Nat → Nat → ℚ) (fuel : Nat) (ctx : SuperCtx n nsuper Super Lpi Lpx Ls perm Lx XN fuel)
    (st : SuperState) :
    ∃ st', super_numeric nsuper Super Lpi Lpx Ls perm Lx fuel st = some st' ∧
      SuperDone nsuper Super Lpi Lpx Ls perm XN 0 st'.Xx := by
  unfold super_numeric
  refine loopDown_inv
    (fun i (s : Option SuperState) => ∃ st', s = some st' ∧
      SuperDone nsuper Super Lpi Lpx Ls perm XN i st'.Xx)
    nsuper _ (some st) ⟨st, rfl, fun c h1 h2 => absurd h2 (by omega)⟩ ?_
  rintro i hi s ⟨st1, rfl, hdone⟩
  exact super_step_spec n nsuper Super Lpi Lpx Ls perm Lx XN fuel ctx i hi st1 hdone

theorem super_perm_inj (L : cholmod_factor) (h : Fresh)
    (wf : SuperWF L.n L.nsuper L.super L.pi L.px L.s) (hp : PermOK L.n L.Perm) :
    ∀ s, s < L.nsuper → ∀ j, j < L.super (s + 1) - L.super s → ∀ i, j ≤ i →
      i < L.pi (s + 1) - L.pi s → ∀ s', s' < L.nsuper →
      ∀ j', j' < L.super (s' + 1) - L.super s' → ∀ i', j' ≤ i' → i' < L.pi (s' + 1) - L.pi s' →
      (super_pattern L h).perm (L.px s + i + j * (L.pi (s + 1) - L.pi s))
        = (super_pattern L h).perm (L.px s' + i' + j' * (L.pi (s' + 1) - L.pi s')) →
      s = s' ∧ i = i' ∧ j = j' := by
  obtain ⟨_, inv⟩ := super_pattern_inv L h wf hp
  intro s hs j hj i hji hi s' hs' j' hj' i' hji' hi' e
  have m1 : (⟨L.px s + (j + (i - j)) + j * (L.pi (s + 1) - L.pi s),
      L.s (L.pi s + (j + (i - j))), L.super s + j⟩ : Entry)
      ∈ super_entries L.nsuper L.super L.pi L.px L.s :=
    (mem_super_entries _ _ _ _ _ _).mpr ⟨s, hs, j, hj, i - j, by omega, rfl⟩
  have m2 : (⟨L.px s' + (j' + (i' - j')) + j' * (L.pi (s' + 1) - L.pi s'),
      L.s (L.pi s' + (j' + (i' - j'))), L.super s' + j'⟩ : Entry)
      ∈ super_entries L.nsuper L.super L.pi L.px L.s :=
    (mem_super_entries _ _ _ _ _ _).mpr ⟨s', hs', j', hj', i' - j', by omega, rfl⟩
  have e1 : j + (i - j) = i := by omega
  have e2 : j' + (i' - j') = i' := by omega
  rw [e1] at m1
  rw [e2] at m2
  have hk : L.px s + i + j * (L.pi (s + 1) - L.pi s)
      = L.px s' + i' + j' * (L.pi (s' + 1) - L.pi s') := inv.inj _ m1 _ m2 e
  have p1 := panel_index_lt hi hj
  have p2 := panel_index_lt hi' hj'
  have q1 := wf.panel s hs
  have q2 := wf.panel s' hs'
  have hss : s = s' := by
    by_contra hne
    rcases Nat.lt_or_gt_of_ne hne with hlt | hlt
    · have := wf.Lpx_mono (by omega : s + 1 ≤ s') (Nat.le_of_lt hs')
      omega
    · have := wf.Lpx_mono (by omega : s' + 1 ≤ s) (Nat.le_of_lt hs)
      omega
  subst hss
  exact ⟨rfl, colmajor_off_inj hi hi' hk⟩

/-- The value array after the numeric pass of the supernodal driver, in factor coordinates. -/
theorem super_values_spec (L : cholmod_factor) (h : Fresh) (fuel : Nat)
    (wf : SuperWF L.n L.nsuper L.super L.pi L.px L.s)
    (hfill : SuperFillClosed L.n L.nsuper L.super L.pi L.s)
    (hnz : ∀ s, s < L.nsuper → ∀ j, j < L.super (s + 1) - L.super s →
      L.x (L.px s + j + j * (L.pi (s + 1) - L.pi s)) ≠ 0)
    (hp : PermOK L.n L.Perm) (hfuel : L.nsuper + L.n < fuel) :
    ∃ Xx, super_values L h fuel = some Xx ∧
      ∀ s, s < L.nsuper → ∀ j, j < L.super (s + 1) - L.super s → ∀ i, j ≤ i →
        i < L.pi (s + 1) - L.pi s →
        Xx ((super_pattern L h).perm (L.px s + i + j * (L.pi (s + 1) - L.pi s)))
          = natEntry (super_L L.n L.nsuper L.super L.pi L.px L.s L.x
              * (super_L L.n L.nsuper L.super L.pi L.px L.s L.x).transpose)⁻¹
              (L.s (L.pi s + i)) (L.super s + j) := by
  obtain ⟨hsym, hlow, hdiag⟩ := super_takahashi L.n L.nsuper L.super L.pi L.px L.s L.x wf hnz
  have ctx : SuperCtx L.n L.nsuper L.super L.pi L.px L.s (super_pattern L h).perm L.x
      (natEntry (super_L L.n L.nsuper L.super L.pi L.px L.s L.x
        * (super_L L.n L.nsuper L.super L.pi L.px L.s L.x).transpose)⁻¹) fuel :=
    { wf := wf, fill := hfill, nz := hnz, fuel := hfuel, inj := super_perm_inj L h wf hp,
      sym := hsym, low := hlow, diag := hdiag }
  obtain ⟨st', hst, hdone⟩ := super_numeric_spec L.n L.nsuper L.super L.pi L.px L.s
    (super_pattern L h).perm L.x _ fuel ctx { Xx := h.Xx, V := h.V, Z := h.z }
  refine ⟨st'.Xx, ?_, fun s hs j hj i hji hi => hdone s (Nat.zero_le s) hs j hj i hji hi⟩
  unfold super_values
  rw [hst]
  rfl

/-! ## The two-supernode factor -/

theorem super_stored_lt {n nsuper : Nat} {Super Lpi Lpx Ls : Nat → Nat}
    (wf : SuperWF n nsuper Super Lpi Lpx Ls) {i j : Nat}
    (h : super_stored nsuper Super Lpi Ls i j) : i < n := by
  obtain ⟨s, hs, jj, _, ii, _, h2, _, h4⟩ := h
  rw [← h4]
  exact wf.bound s hs ii h2

theorem two_supernode_fill_closed :
    SuperFillClosed two_supernode_factor.n two_supernode_factor.nsuper
      two_supernode_factor.super two_supernode_factor.pi two_supernode_factor.s := by
  intro j hj i k hi hk hjk hki
  have hi3 : i < 3 := super_stored_lt two_supernode_wf hi
  have h : j = 0 ∧ k = 1 ∧ i = 2 := by omega
  obtain ⟨rfl, rfl, rfl⟩ := h
  exact ⟨0, by decide, 1, by decide, 2, by decide, by decide, by decide, by decide⟩

theorem two_supernode_diag_ne_zero :
    ∀ s, s < two_supernode_factor.nsuper →
      ∀ j, j < two_supernode_factor.super (s + 1) - two_supernode_factor.super s →
      two_supernode_factor.x (two_supernode_factor.px s + j
        + j * (two_supernode_factor.pi (s + 1) - two_supernode_factor.pi s)) ≠ 0 := by
  intro s hs j hj
  have hs' : s < 2 := hs
  interval_cases s
  · have hj' : j < 2 := hj
    interval_cases j <;> simp [two_supernode_factor, arrQ, arrN]
  · have hj' : j < 1 := hj
    interval_cases j
    simp [two_supernode_factor, arrQ, arrN]

/-! ## The tridiagonal factor with symbolic values -/

theorem getD_map_range {α : Type} (f : Nat → α) (len t : Nat) (d : α) (ht : t < len) :
    ((List.range len).map f).getD t d = f t := by
  rw [List.getD_eq_getElem?_getD, List.getElem?_map, List.getElem?_range ht]
  rfl

/-- A column whose rows are already in ascending order is left as it is by the sort. -/
theorem sort_column_sorted (Xp : Nat → Nat) (j : Nat) (st : (Nat → Nat) × (Nat → ℚ))
    (hs : ((List.range (Xp (j + 1) - Xp j)).map fun t =>
      (st.1 (Xp j + t), st.2 (Xp j + t))).Sorted (fun a b => a.1 ≤ b.1)) :
    sort_column Xp j st = st := by
  unfold sort_column
  simp only [List.Sorted.insertionSort_eq hs]
  refine loopUp_inv (fun _ s => s = st) (Xp (j + 1) - Xp j) _ st rfl ?_
  intro t ht s hst
  subst hst
  beta_reduce
  rw [getD_map_range _ _ _ _ ht]
  refine Prod.ext (funext fun k => ?_) (funext fun k => ?_)
  · by_cases hk : k = Xp j + t
    · subst hk; simp [store]
    · simp [store, hk]
  · by_cases hk : k = Xp j + t
    · subst hk; simp [store]
    · simp [store, hk]

theorem cholmod_sort_sorted (X : cholmod_sparse)
    (h : ∀ j, j < X.ncol → ∀ t u, t < u → u < X.p (j + 1) - X.p j →
      X.i (X.p j + t) ≤ X.i (X.p j + u)) :
    cholmod_sort X = { X with sorted := true } := by
  have key : loopUp X.ncol (fun j st => sort_column X.p j st) (X.i, X.x) = (X.i, X.x) :=
    loopUp_inv (fun _ st => st = (X.i, X.x)) X.ncol _ _ rfl
      (fun j hj st hst => by
        rw [hst]
        refine sort_column_sorted X.p j _ ?_
        rw [List.Sorted, List.pairwise_map]
        refine (List.pairwise_lt_range _).imp_of_mem ?_
        intro t u _ hu htu
        exact h j hj t u htu (List.mem_range.mp hu))
  unfold cholmod_sort
  simp only [key]

theorem tridiagonal_ldl_diag_ne_zero (d0 l10 d1 l21 d2 : ℚ) (hd0 : d0 ≠ 0) (hd1 : d1 ≠ 0)
    (hd2 : d2 ≠ 0) :
    ∀ j, j < 3 → arrQ [d0, l10, d1, l21, d2] (arrN [0, 2, 4, 5] j) ≠ 0 := by
  intro j hj
  interval_cases j <;> simpa [arrQ, arrN]

/-- The selected entries of the inverse of `L D Lᵗ` for the tridiagonal factor, from the
equations they satisfy. -/
theorem tridiagonal_ldl_entries (d0 l10 d1 l21 d2 : ℚ) (hd0 : d0 ≠ 0) (hd1 : d1 ≠ 0)
    (hd2 : d2 ≠ 0) (XN : Nat → Nat → ℚ) (hsym : ∀ i j, XN i j = XN j i)
    (hlow : ∀ j, j < 3 → ∀ i, i < 3 → j < i →
      XN i j + ∑ t in range (arrN [0, 2, 4, 5] (j + 1) - (arrN [0, 2, 4, 5] j + 1)),
        XN i (arrN [0, 1, 1, 2, 2] (arrN [0, 2, 4, 5] j + 1 + t))
          * arrQ [d0, l10, d1, l21, d2] (arrN [0, 2, 4, 5] j + 1 + t) = 0)
    (hdiag : ∀ j, j < 3 →
      XN j j + ∑ t in range (arrN [0, 2, 4, 5] (j + 1) - (arrN [0, 2, 4, 5] j + 1)),
        XN j (arrN [0, 1, 1, 2, 2] (arrN [0, 2, 4, 5] j + 1 + t))
          * arrQ [d0, l10, d1, l21, d2] (arrN [0, 2, 4, 5] j + 1 + t)
        = 1 / arrQ [d0, l10, d1, l21, d2] (arrN [0, 2, 4, 5] j)) :
    XN 2 2 = 1 / d2 ∧ XN 2 1 = -l21 / d2 ∧ XN 1 1 = 1 / d1 + l21 ^ 2 / d2 ∧
      XN 1 0 = -l10 * (1 / d1 + l21 ^ 2 / d2) ∧
      XN 0 0 = 1 / d0 + l10 ^ 2 * (1 / d1 + l21 ^ 2 / d2) := by
  have e22 := hdiag 2 (by decide)
  have e21 := hlow 1 (by decide) 2 (by decide) (by decide)
  have e11 := hdiag 1 (by decide)
  have e10 := hlow 0 (by decide) 1 (by decide) (by decide)
  have e00 := hdiag 0 (by decide)
  simp [arrN, arrQ, Finset.sum_range_succ] at e22 e21 e11 e10 e00
  have h22 : XN 2 2 = 1 / d2 := by rw [e22, one_div]
  have h21 : XN 2 1 = -l21 / d2 := by rw [h22] at e21; linear_combination e21
  have h11 : XN 1 1 = 1 / d1 + l21 ^ 2 / d2 := by
    rw [hsym 1 2, h21] at e11
    field_simp at e11 ⊢
    linear_combination e11
  have h10 : XN 1 0 = -l10 * (1 / d1 + l21 ^ 2 / d2) := by
    rw [h11] at e10; linear_combination e10
  have h00 : XN 0 0 = 1 / d0 + l10 ^ 2 * (1 / d1 + l21 ^ 2 / d2) := by
    rw [hsym 0 1, h10] at e00
    field_simp at e00 ⊢
    linear_combination e00
  exact ⟨h22, h21, h11, h10, h00⟩


theorem tridiagonal_ldl_pattern (d0 l10 d1 l21 d2 : ℚ) (h : Fresh) :
    (∀ c, c ≤ 3 → (simplicial_pattern (tridiagonal_ldl d0 l10 d1 l21 d2) h).Xp c
      = arrN [0, 2, 4, 5] c) ∧
    (∀ k, k < 5 → (simplicial_pattern (tridiagonal_ldl d0 l10 d1 l21 d2) h).Xi k
      = arrN [0, 1, 1, 2, 2] k) ∧
    (∀ k, k < 5 → (simplicial_pattern (tridiagonal_ldl d0 l10 d1 l21 d2) h).perm k = k) ∧
    positions 3 (simplicial_pattern (tridiagonal_ldl d0 l10 d1 l21 d2) h).Xp
      (simplicial_pattern (tridiagonal_ldl d0 l10 d1 l21 d2) h).Xi
      = [(0, 0), (1, 0), (1, 1), (2, 1), (2, 2)] := by
  refine ⟨fun c hc => ?_, fun k hk => ?_, fun k hk => ?_, rfl⟩
  · interval_cases c <;> rfl
  · interval_cases k <;> rfl
  · interval_cases k <;> rfl

/-! ## Factors of order zero -/

theorem superWF_nsuper_zero {nsuper : Nat} {Super Lpi Lpx Ls : Nat → Nat}
    (wf : SuperWF 0 nsuper Super Lpi Lpx Ls) : nsuper = 0 := by
  by_contra hne
  have h1 : Super 0 < Super 1 := wf.cols 0 (by omega)
  have h2 := wf.Super_mono (by omega : 1 ≤ nsuper) (le_refl nsuper)
  have h3 := wf.last
  omega

theorem simplicial_pattern_empty (L : cholmod_factor) (h : Fresh) (hn : L.n = 0) :
    (simplicial_pattern L h).Xp 0 = 0 := by
  simp [simplicial_pattern, simplicial_cumsum, simplicial_count, hn, loopUp]

theorem super_pattern_empty (L : cholmod_factor) (h : Fresh) (hn : L.n = 0)
    (hs : L.nsuper = 0) : (super_pattern L h).Xp 0 = 0 := by
  simp [super_pattern, super_cumsum, super_count, hn, hs, loopUp]

theorem simplicial_values_empty (L : cholmod_factor) (h : Fresh) (fuel : Nat) (hn : L.n = 0) :
    simplicial_values L h fuel = some h.Xx := by
  simp [simplicial_values, simplicial_numeric, hn, loopDown]

theorem super_values_empty (L : cholmod_factor) (h : Fresh) (fuel : Nat)
    (hs : L.nsuper = 0) : super_values L h fuel = some h.Xx := by
  simp [super_values, super_numeric, hs, loopDown]

theorem empty_ldl_wf : FactorWF empty_ldl_factor := by
  unfold FactorWF
  rw [if_neg (by decide)]
  exact ⟨fun j hj => absurd hj (Nat.not_lt_zero j), fun j hj => absurd hj (Nat.not_lt_zero j),
    fun j hj => absurd hj (Nat.not_lt_zero j), fun j hj => absurd hj (Nat.not_lt_zero j)⟩

theorem empty_super_wf : FactorWF empty_super_factor := by
  unfold FactorWF
  rw [if_pos (by decide)]
  exact ⟨rfl, rfl, fun s hs => absurd hs (Nat.not_lt_zero s),
    fun s hs => absurd hs (Nat.not_lt_zero s), fun s hs => absurd hs (Nat.not_lt_zero s),
    fun s hs => absurd hs (Nat.not_lt_zero s), fun s hs => absurd hs (Nat.not_lt_zero s),
    fun s hs => absurd hs (Nat.not_lt_zero s)⟩

/-! ## Rejected calls and failed allocations -/

theorem cleanup_returns_iff (X : cholmod_sparse) (Common : cholmod_common) (b : Bool) :
    ((cleanup X Common b).1.isSome ↔ CHOLMOD_OK ≤ (cleanup X Common b).2.status) := by
  unfold cleanup
  by_cases h1 : Common.status ≥ CHOLMOD_OK
  · rw [if_pos h1]
    by_cases h2 : (cholmod_alloc b Common).status ≥ CHOLMOD_OK
    · simp only [if_pos h2, Option.isSome_some, true_iff]
      exact h2
    · simp only [if_neg h2, Option.isSome_none, Bool.false_eq_true, false_iff]
      exact h2
  · rw [if_neg h1]
    simp only [Option.isSome_none, Bool.false_eq_true, false_iff]
    exact h1

/-- Every return of the simplicial driver goes through the code after the label `cleanup`. -/
theorem spinv_simplicial_cleanup (L : cholmod_factor) (Common : cholmod_common) (a : Allocator)
    (h : Fresh) (fuel : Nat) (r : Option cholmod_sparse × cholmod_common)
    (hr : spinv_simplicial L Common a h fuel = some r) :
    ∃ X C, r = cleanup X C a.sort := by
  unfold spinv_simplicial at hr
  simp only [] at hr
  split_ifs at hr
  all_goals first
    | exact ⟨_, _, (Option.some.inj hr).symm⟩
    | (obtain ⟨st, _, hst⟩ := Option.map_eq_some'.mp hr
       exact ⟨_, _, hst.symm⟩)

/-- Every return of the supernodal driver goes through the code after the label `cleanup`. -/
theorem spinv_super_cleanup (L : cholmod_factor) (Common : cholmod_common) (a : Allocator)
    (h : Fresh) (fuel : Nat) (r : Option cholmod_sparse × cholmod_common)
    (hr : spinv_super L Common a h fuel = some r) :
    ∃ X C, r = cleanup X C a.sort := by
  unfold spinv_super at hr
  simp only [] at hr
  split_ifs at hr
  all_goals first
    | exact ⟨_, _, (Option.some.inj hr).symm⟩
    | (obtain ⟨st, _, hst⟩ := Option.map_eq_some'.mp hr
       exact ⟨_, _, hst.symm⟩)

theorem alloc_fail_status (b : Bool) (Common : cholmod_common)
    (h : Common.status = CHOLMOD_OUT_OF_MEMORY) :
    cholmod_alloc b Common = Common := by
  cases b
  · simp [cholmod_alloc, cholmod_error, ← h]
  · rfl

/-- The simplicial driver when an allocation fails. -/
theorem spinv_simplicial_oom (L : cholmod_factor) (Common : cholmod_common) (a : Allocator)
    (h : Fresh) (fuel : Nat) (hst : CHOLMOD_OK ≤ Common.status) (ha : ¬ a.simplicial_ok) :
    spinv_simplicial L Common a h fuel
      = some (none, { Common with status := CHOLMOD_OUT_OF_MEMORY }) := by
  have hnlt : ¬ Common.status < CHOLMOD_OK := not_lt.mpr hst
  have hoom : ∀ X, cleanup X { Common with status := CHOLMOD_OUT_OF_MEMORY } a.sort
      = (none, { Common with status := CHOLMOD_OUT_OF_MEMORY }) := fun X =>
    cleanup_fault X _ _ (show (CHOLMOD_OUT_OF_MEMORY : Int) < CHOLMOD_OK by decide)
  have hlt : (CHOLMOD_OUT_OF_MEMORY : Int) < CHOLMOD_OK := by decide
  unfold Allocator.simplicial_ok at ha
  unfold spinv_simplicial
  cases h1 : a.spzeros
  · simp [cholmod_alloc, cholmod_error, hlt, hoom]
  · cases h2 : a.calloc_ncol
    · cases h3 : a.malloc_perm <;> simp [cholmod_alloc, cholmod_error, hlt, hoom, hnlt]
    · cases h3 : a.malloc_perm
      · simp [cholmod_alloc, cholmod_error, hlt, hoom, hnlt]
      · cases h4 : a.malloc_z
        · cases h5 : a.malloc_V <;> simp [cholmod_alloc, cholmod_error, hlt, hoom, hnlt]
        · cases h5 : a.malloc_V
          · simp [cholmod_alloc, cholmod_error, hlt, hoom, hnlt]
          · exact absurd ⟨h1, h2, h3, h4, h5⟩ ha

/-- The supernodal driver when an allocation fails. -/
theorem spinv_super_oom (L : cholmod_factor) (Common : cholmod_common) (a : Allocator)
    (h : Fresh) (fuel : Nat) (hst : CHOLMOD_OK ≤ Common.status) (ha : ¬ a.super_ok) :
    spinv_super L Common a h fuel
      = some (none, { Common with status := CHOLMOD_OUT_OF_MEMORY }) := by
  have hnlt : ¬ Common.status < CHOLMOD_OK := not_lt.mpr hst
  have hoom : ∀ X, cleanup X { Common with status := CHOLMOD_OUT_OF_MEMORY } a.sort
      = (none, { Common with status := CHOLMOD_OUT_OF_MEMORY }) := fun X =>
    cleanup_fault X _ _ (show (CHOLMOD_OUT_OF_MEMORY : Int) < CHOLMOD_OK by decide)
  have hlt : (CHOLMOD_OUT_OF_MEMORY : Int) < CHOLMOD_OK := by decide
  unfold Allocator.super_ok at ha
  unfold spinv_super
  cases h1 : a.spzeros
  · simp [cholmod_alloc, cholmod_error, hlt, hoom]
  · cases h2 : a.reallocate_sparse
    · simp [cholmod_alloc, cholmod_error, hlt, hoom, hnlt]
    · cases h3 : a.calloc_ncol
      · cases h4 : a.malloc_perm <;> simp [cholmod_alloc, cholmod_error, hlt, hoom, hnlt]
      · cases h4 : a.malloc_perm
        · simp [cholmod_alloc, cholmod_error, hlt, hoom, hnlt]
        · cases h5 : a.malloc_V
          · cases h6 : a.malloc_z <;> simp [cholmod_alloc, cholmod_error, hlt, hoom, hnlt]
          · cases h6 : a.malloc_z
            · simp [cholmod_alloc, cholmod_error, hlt, hoom, hnlt]
            · exact absurd ⟨h1, h2, h3, h4, h5, h6⟩ ha

/-! ## The build with the leading assertion -/

/-- Compiled without `NDEBUG`, the function agrees with `spinv` whenever the factor is present
and not symbolic. -/
theorem spinv_debug_of_assert (ITYPE : Int) (F : cholmod_factor) (Common : Option cholmod_common)
    (a : Allocator) (h : Fresh) (fuel : Nat) (hF : F.xtype ≠ CHOLMOD_PATTERN) :
    spinv_debug ITYPE (some F) Common a h fuel = spinv ITYPE (some F) Common a h fuel := by
  simp [spinv_debug, spinv_assert, hF]

/-- Compiled without `NDEBUG`, a call with a missing or a symbolic factor does not return,
whatever the context is. -/
theorem spinv_debug_stops (ITYPE : Int) (L : Option cholmod_factor)
    (Common : Option cholmod_common) (a : Allocator) (h : Fresh) (fuel : Nat)
    (hL : L = none ∨ ∃ F, L = some F ∧ F.xtype = CHOLMOD_PATTERN) :
    spinv_debug ITYPE L Common a h fuel = none := by
  rcases hL with rfl | ⟨F, rfl, hF⟩
  · rfl
  · simp [spinv_debug, spinv_assert, hF]

/-! ## The mapping table as a bijection -/

theorem start_eq_length (Lperm : Option (Nat → Nat)) (E : List Entry) (n : Nat) :
    start Lperm E n = ((List.range n).flatMap fun c => bucket Lperm E c).length := by
  induction n with
  | zero => simp [start]
  | succ k ih =>
    rw [start_succ, ih, List.range_succ, List.flatMap_append, List.length_append]
    simp

theorem start_total (Lperm : Option (Nat → Nat)) (E : List Entry) (n : Nat)
    (hkey : ∀ e, e ∈ E → e.jx Lperm < n) : start Lperm E n = E.length := by
  rw [start_eq_length, (buckets_perm Lperm E n).length_eq]
  congr 1
  exact List.filter_eq_self.mpr (fun e he => by simpa using hkey e he)

/-- The mapping table after the two passes over a list of entries with pairwise different
indices: a bijection from the entries onto the slots below `Xp[n]`, each entry going to a slot
of its column that holds its row. -/
theorem mapping_table_spec (Lperm : Option (Nat → Nat)) (n : Nat) (E : List Entry)
    (Xp : Nat → Nat) (st0 st : FillState) (hXp : ∀ c, c ≤ n → Xp c = start Lperm E c)
    (hkey : ∀ e, e ∈ E → e.jx Lperm < n) (hnd : (E.map Entry.kl).Nodup)
    (inv : FillInv Lperm n Xp st0 E st) :
    Xp 0 = 0 ∧
    (∀ c, c < n → Xp c ≤ Xp (c + 1) ∧ Xp (c + 1) - Xp c = (bucket Lperm E c).length) ∧
    (∀ e, e ∈ E → Xp (e.jx Lperm) ≤ st.perm e.kl ∧ st.perm e.kl < Xp (e.jx Lperm + 1) ∧
      st.Xi (st.perm e.kl) = e.ix Lperm ∧ st.perm e.kl < Xp n) ∧
    (∀ e, e ∈ E → ∀ e', e' ∈ E → st.perm e.kl = st.perm e'.kl → e = e') ∧
    (∀ q, q < Xp n → ∃ e, e ∈ E ∧ st.perm e.kl = q) := by
  have hX0 : Xp 0 = 0 := by rw [hXp 0 (Nat.zero_le n)]; simp [start]
  have hstep : ∀ c, c < n → Xp (c + 1) = Xp c + (bucket Lperm E c).length := by
    intro c hc
    rw [hXp c (Nat.le_of_lt hc), hXp (c + 1) hc, start_succ]
  have hslot : ∀ e, e ∈ E → Xp (e.jx Lperm) ≤ st.perm e.kl ∧
      st.perm e.kl < Xp (e.jx Lperm + 1) ∧ st.Xi (st.perm e.kl) = e.ix Lperm ∧
      st.perm e.kl < Xp n := by
    intro e he
    obtain ⟨s1, s2⟩ := inv.slot e he
    have hk := hkey e he
    have h2 : st.perm e.kl < Xp (e.jx Lperm + 1) := by rw [hstep _ hk]; exact s2
    refine ⟨s1, h2, inv.row e he, Nat.lt_of_lt_of_le h2 ?_⟩
    rw [hXp _ hk, hXp n (le_refl n)]
    exact start_mono Lperm E hk
  have hinj : ∀ e, e ∈ E → ∀ e', e' ∈ E → st.perm e.kl = st.perm e'.kl → e = e' :=
    fun e he e' he' h => List.inj_on_of_nodup_map hnd he he' (inv.inj e he e' he' h)
  refine ⟨hX0, fun c hc => ⟨by rw [hstep c hc]; omega, by rw [hstep c hc]; omega⟩, hslot, hinj,
    fun q hq => ?_⟩
  have hN : Xp n = E.length := by rw [hXp n (le_refl n)]; exact start_total Lperm E n hkey
  have hnd2 : (E.map fun e => st.perm e.kl).Nodup :=
    (List.nodup_map_iff_inj_on (List.Nodup.of_map _ hnd)).mpr hinj
  have hsub : (E.map fun e => st.perm e.kl) ⊆ List.range (Xp n) := by
    intro x hx
    obtain ⟨e, he, rfl⟩ := List.mem_map.mp hx
    exact List.mem_range.mpr (hslot e he).2.2.2
  have hperm := (List.subperm_of_subset hnd2 hsub).perm_of_length_le
    (by rw [List.length_range, List.length_map, hN])
  obtain ⟨e, he, h⟩ := List.mem_map.mp (hperm.symm.subset (List.mem_range.mpr hq))
  exact ⟨e, he, h⟩

/-! ## One column step, and the kernel on a panel with one column -/

/-- One iteration of the column loop for a column with off-diagonal entries, in terms of the
values of `Xx` before the iteration: `pos jz iz` is the index of row `r_iz` in column `r_jz`. -/
theorem simplicial_column_values (n : Nat) (Lp Li perm : Nat → Nat) (Lx : Nat → ℚ)
    (fuel : Nat) (wf : SimplicialWF n Lp Li) (hfuel : Lp n < fuel) (j : Nat) (hj : j < n)
    (hinj : ∀ k, Lp j ≤ k → k < Lp (j + 1) → ∀ k', Lp j ≤ k' → k' < Lp (j + 1) →
      perm k = perm k' → k = k')
    (st : SimplicialState) (hmany : Lp j + 1 < Lp (j + 1)) (pos : Nat → Nat → Nat)
    (hpos : ∀ jz iz, jz ≤ iz → iz < Lp (j + 1) - (Lp j + 1) →
      Lp (Li (Lp j + 1 + jz)) ≤ pos jz iz ∧ pos jz iz < Lp (Li (Lp j + 1 + jz) + 1) ∧
      Li (pos jz iz) = Li (Lp j + 1 + iz)) :
    ∃ st', simplicial_column Lp Li perm Lx fuel j st = some st' ∧
      (∀ t, t < Lp (j + 1) - (Lp j + 1) →
        st'.Xx (perm (Lp j + 1 + t))
          = -∑ u in range (Lp (j + 1) - (Lp j + 1)),
              (if u ≤ t then st.Xx (perm (pos u t)) else st.Xx (perm (pos t u)))
                * Lx (Lp j + 1 + u)) ∧
      st'.Xx (perm (Lp j))
        = 1 / Lx (Lp j) + ∑ t in range (Lp (j + 1) - (Lp j + 1)),
            (∑ u in range (Lp (j + 1) - (Lp j + 1)),
              (if u ≤ t then st.Xx (perm (pos u t)) else st.Xx (perm (pos t u)))
                * Lx (Lp j + 1 + u)) * Lx (Lp j + 1 + t) ∧
      ∀ p, (∀ k, Lp j ≤ k → k < Lp (j + 1) → p ≠ perm k) → st'.Xx p = st.Xx p := by
  have hnj : Lp (j + 1) - (Lp j + 1) = Lp (j + 1) - 1 - Lp j := by omega
  rw [hnj] at hpos ⊢
  generalize hnjdef : Lp (j + 1) - 1 - Lp j = nj at hpos ⊢
  have hgt : Lp (j + 1) - 1 > Lp j := by omega
  have hr_lt : ∀ t, t < nj → Li (Lp j + 1 + t) < n := fun t ht =>
    wf.bound j hj _ (by omega) (by omega)
  have hr_asc : ∀ t u, t < u → u < nj → Li (Lp j + 1 + t) < Li (Lp j + 1 + u) :=
    fun t u htu hu => wf.asc_lt hj (by omega) (by omega) (by omega)
  have hfuel' : ∀ c, c < n → Lp (c + 1) < fuel := fun c hc =>
    Nat.lt_of_le_of_lt (wf.Lp_mono (by omega : c + 1 ≤ n) (le_refl n)) hfuel
  obtain ⟨V', hV, hVval⟩ := simplicial_gather_spec Lp Li perm st.Xx (Lp j) nj fuel st.V pos
    (by
      intro jz iz hji hiz
      obtain ⟨p1, p2, p3⟩ := hpos jz iz hji hiz
      have hjx := hr_lt jz (by omega)
      refine ⟨p1, fun q hq1 hq2 => ?_, by omega, ?_⟩
      · rw [← p3]
        exact wf.asc_lt hjx hq1 hq2 p2
      · have := hfuel' _ hjx
        omega)
    (by
      intro jz iz hji hiz
      obtain ⟨p1, p2, p3⟩ := hpos jz iz hji (by omega)
      obtain ⟨q1, q2, q3⟩ := hpos jz (iz + 1) (by omega) hiz
      have hjx := hr_lt jz (by omega)
      by_contra hcon
      have h1 := wf.asc_lt hjx q1 (by omega : pos jz (iz + 1) < pos jz iz) p2
      have h2 := hr_asc iz (iz + 1) (by omega) hiz
      omega)
  have hsymV : ∀ t u, t < nj → u < nj →
      symLower V' nj t u
        = if u ≤ t then st.Xx (perm (pos u t)) else st.Xx (perm (pos t u)) := by
    intro t u ht hu
    unfold symLower
    by_cases htu : u ≤ t
    · rw [if_pos htu, if_pos htu, hVval u t htu ht]
    · rw [if_neg htu, if_neg htu, hVval t u (by omega) hu]
  obtain ⟨hz, _⟩ := cblas_dsymv_spec nj 1 V' nj (fun k => Lx (Lp j + 1 + k)) 0 st.z
  have hzX : ∀ t, t < nj →
      cblas_dsymv nj 1 V' nj (fun k => Lx (Lp j + 1 + k)) 0 st.z t
        = ∑ u in range nj,
            (if u ≤ t then st.Xx (perm (pos u t)) else st.Xx (perm (pos t u)))
              * Lx (Lp j + 1 + u) := by
    intro t ht
    rw [hz t ht, one_mul, zero_mul, add_zero]
    exact Finset.sum_congr rfl (fun u hu => by rw [hsymV t u ht (Finset.mem_range.mp hu)])
  obtain ⟨hs1, hs2⟩ := loopUp_store_spec nj (fun iz => perm (Lp j + 1 + iz))
    (fun iz => -(cblas_dsymv nj 1 V' nj (fun k => Lx (Lp j + 1 + k)) 0 st.z iz)) st.Xx
    (fun a ha b hb e => by
      have := hinj (Lp j + 1 + a) (by omega) (by omega) (Lp j + 1 + b)
        (by omega) (by omega) e
      omega)
  refine ⟨SimplicialState.mk
      (store (loopUp nj (fun iz Xx => store Xx (perm (Lp j + 1 + iz))
        (-(cblas_dsymv nj 1 V' nj (fun k => Lx (Lp j + 1 + k)) 0 st.z iz))) st.Xx)
        (perm (Lp j)) (1 / Lx (Lp j)
          + cblas_ddot nj (cblas_dsymv nj 1 V' nj (fun k => Lx (Lp j + 1 + k)) 0 st.z)
              (fun k => Lx (Lp j + 1 + k))))
      V' (cblas_dsymv nj 1 V' nj (fun k => Lx (Lp j + 1 + k)) 0 st.z), ?_, ?_, ?_, ?_⟩
  · unfold simplicial_column
    simp only [hnjdef, if_pos hgt, hV, Option.map_some']
  · intro t ht
    simp only []
    rw [store_other _ _ _ _ (fun e => by
      have := hinj (Lp j + 1 + t) (by omega) (by omega) (Lp j) (le_refl _) (by omega) e
      omega), hs1 t ht, hzX t ht]
  · simp only []
    rw [store_same]
    unfold cblas_ddot
    rw [Finset.sum_congr rfl (fun t ht => by rw [hzX t (Finset.mem_range.mp ht)])]
  · intro p hp
    simp only []
    rw [store_other _ _ _ _ (hp (Lp j) (le_refl _) (by omega)),
      hs2 p (fun iz hiz => hp (Lp j + 1 + iz) (by omega) (by omega))]

/-- The kernel on a panel with one column. -/
theorem spinv_block_column (l : ℚ) (hl : l ≠ 0) (k : Nat) (Lj Z V : Nat → ℚ) :
    (∀ t, t < k → spinv_block (column_panel l Lj) Z V (k + 1) 1 (1 + t)
      = -∑ u in range k, symLower V k t u * Lj u) ∧
    spinv_block (column_panel l Lj) Z V (k + 1) 1 0
      = 1 / l ^ 2 + ∑ t in range k, (∑ u in range k, symLower V k t u * Lj u) * Lj t := by
  have hd : ∀ i, i < 1 → column_panel l Lj (i + i * (k + 1)) ≠ 0 := by
    intro i hi
    have : i = 0 := by omega
    subst this
    simpa [column_panel] using hl
  obtain ⟨e1, e2⟩ := spinv_block_matrix (column_panel l Lj) Z V (k + 1) 1 (by omega) hd
  have hoff : ∀ t, t < k → spinv_block (column_panel l Lj) Z V (k + 1) 1 (1 + t)
      = -∑ u in range k, symLower V k t u * Lj u := by
    intro t ht
    have h := congrFun (congrFun e1 ⟨t, by omega⟩) ⟨0, by omega⟩
    rw [Matrix.add_apply, Matrix.mul_apply, Matrix.mul_apply, Matrix.zero_apply] at h
    simp only [matView, lowerView, symView, Fin.sum_univ_one, Fin.val_zero, Fin.isValue,
      zero_mul, add_zero, le_refl, if_true] at h
    rw [Fin.sum_univ_eq_sum_range (fun u =>
        symLower V (k + 1 - 1) t u * column_panel l Lj (1 + u)) (k + 1 - 1)] at h
    simp only [Nat.add_sub_cancel] at h
    have h2 : ∑ u in range k, symLower V k t u * column_panel l Lj (1 + u)
        = l * ∑ u in range k, symLower V k t u * Lj u := by
      rw [Finset.mul_sum]
      refine Finset.sum_congr rfl (fun u _ => ?_)
      simp only [column_panel, Nat.add_sub_cancel_left]
      rw [if_neg (by omega)]
      ring
    rw [h2] at h
    have h3 : column_panel l Lj 0 = l := by simp [column_panel]
    rw [h3] at h
    have h4 : l * (spinv_block (column_panel l Lj) Z V (k + 1) 1 (1 + t)
        + ∑ u in range k, symLower V k t u * Lj u) = 0 := by linear_combination h
    rcases mul_eq_zero.mp h4 with h5 | h5
    · exact absurd h5 hl
    · linear_combination h5
  refine ⟨hoff, ?_⟩
  have h := congrFun (congrFun e2 ⟨0, by omega⟩) ⟨0, by omega⟩
  rw [Matrix.mul_apply] at h
  simp only [Matrix.add_apply, Matrix.mul_apply, Matrix.transpose_apply, matView, lowerView,
    Fin.sum_univ_one, Fin.val_zero, Fin.isValue, zero_mul, add_zero, le_refl, if_true,
    Matrix.one_apply_eq, Nat.zero_add] at h
  rw [Fin.sum_univ_eq_sum_range (fun u =>
      spinv_block (column_panel l Lj) Z V (k + 1) 1 (1 + u) * column_panel l Lj (1 + u))
      (k + 1 - 1)] at h
  simp only [Nat.add_sub_cancel] at h
  have h2 : ∑ u in range k,
      spinv_block (column_panel l Lj) Z V (k + 1) 1 (1 + u) * column_panel l Lj (1 + u)
      = -(l * ∑ t in range k, (∑ u in range k, symLower V k t u * Lj u) * Lj t) := by
    rw [Finset.mul_sum, ← Finset.sum_neg_distrib]
    refine Finset.sum_congr rfl (fun u hu => ?_)
    rw [hoff u (Finset.mem_range.mp hu)]
    simp only [column_panel, Nat.add_sub_cancel_left]
    rw [if_neg (by omega)]
    ring
  have h3 : column_panel l Lj 0 = l := by simp [column_panel]
  rw [h2, h3] at h
  field_simp
  linear_combination h

/-! ## The slots read by the gathers -/

theorem mem_super_step_writes (Super Lpi Lpx : Nat → Nat) (s i j : Nat)
    (hj : j < Super (s + 1) - Super s) (hji : j ≤ i) (hi : i < Lpi (s + 1) - Lpi s) :
    Lpx s + i + j * (Lpi (s + 1) - Lpi s) ∈ super_step_writes Super Lpi Lpx s := by
  unfold super_step_writes
  simp only [List.mem_flatMap, List.mem_range, List.mem_append, List.mem_map]
  refine ⟨j, hj, ?_⟩
  by_cases hin : i < Super (s + 1) - Super s
  · exact Or.inl ⟨i - j, by omega, by rw [show j + (i - j) = i by omega]⟩
  · exact Or.inr ⟨i - (Super (s + 1) - Super s), by omega, by
      rw [show Super (s + 1) - Super s + (i - (Super (s + 1) - Super s)) = i by omega]⟩

/-- The slots read by the gather of the iteration `jl` of the simplicial column loop. -/
theorem simplicial_gather_indices (n : Nat) (Lp Li : Nat → Nat) (fuel : Nat)
    (wf : SimplicialWF n Lp Li) (hfill : SimplicialFillClosed n Lp Li) (hfuel : Lp n < fuel)
    (jl : Nat) (hjl : jl < n) :
    ∃ pos : Nat → Nat → Nat,
      (∀ jz iz, jz ≤ iz → iz < Lp (jl + 1) - 1 - Lp jl →
        jl < Li (Lp jl + 1 + jz) ∧ Li (Lp jl + 1 + jz) < n ∧
        Lp (Li (Lp jl + 1 + jz)) ≤ pos jz iz ∧ pos jz iz < Lp (Li (Lp jl + 1 + jz) + 1) ∧
        Li (pos jz iz) = Li (Lp jl + 1 + iz)) ∧
      ∀ (perm : Nat → Nat) (Xx V : Nat → ℚ),
        ∃ V', simplicial_gather Lp Li perm Xx (Lp jl) (Lp (jl + 1) - 1 - Lp jl) fuel V
            = some V' ∧
          ∀ jz iz, jz ≤ iz → iz < Lp (jl + 1) - 1 - Lp jl →
            V' (iz + jz * (Lp (jl + 1) - 1 - Lp jl)) = Xx (perm (pos jz iz)) := by
  generalize hnjdef : Lp (jl + 1) - 1 - Lp jl = nj
  have hr_gt : ∀ t, t < nj → jl < Li (Lp jl + 1 + t) := fun t ht =>
    wf.offdiag_gt hjl (by omega) (by omega)
  have hr_lt : ∀ t, t < nj → Li (Lp jl + 1 + t) < n := fun t ht =>
    wf.bound jl hjl _ (by omega) (by omega)
  have hr_asc : ∀ t u, t < u → u < nj → Li (Lp jl + 1 + t) < Li (Lp jl + 1 + u) :=
    fun t u htu hu => wf.asc_lt hjl (by omega) (by omega) (by omega)
  have hex : ∀ jz iz, jz ≤ iz → iz < nj → ∃ k, Lp (Li (Lp jl + 1 + jz)) ≤ k ∧
      k < Lp (Li (Lp jl + 1 + jz) + 1) ∧ Li k = Li (Lp jl + 1 + iz) := by
    intro jz iz hji hiz
    by_cases he : jz = iz
    · subst he
      exact ⟨Lp (Li (Lp jl + 1 + jz)), le_refl _, wf.nonempty _ (hr_lt jz hiz),
        wf.diag _ (hr_lt jz hiz)⟩
    · exact hfill jl hjl _ _ ⟨Lp jl + 1 + iz, by omega, by omega, rfl⟩
        ⟨Lp jl + 1 + jz, by omega, by omega, rfl⟩ (hr_gt jz (by omega))
        (hr_asc jz iz (by omega) hiz)
  choose! pos hpos using hex
  have hfuel' : ∀ c, c < n → Lp (c + 1) < fuel := fun c hc =>
    Nat.lt_of_le_of_lt (wf.Lp_mono (by omega : c + 1 ≤ n) (le_refl n)) hfuel
  refine ⟨pos, fun jz iz hji hiz => ?_, fun perm Xx V => ?_⟩
  · obtain ⟨p1, p2, p3⟩ := hpos jz iz hji hiz
    have hjx := hr_lt jz (by omega)
    exact ⟨hr_gt jz (by omega), hjx, p1, p2, p3⟩
  · exact simplicial_gather_spec Lp Li perm Xx (Lp jl) nj fuel V pos
      (by
        intro jz iz hji hiz
        obtain ⟨p1, p2, p3⟩ := hpos jz iz hji hiz
        have hjx := hr_lt jz (by omega)
        refine ⟨p1, fun q hq1 hq2 => ?_, by omega, ?_⟩
        · rw [← p3]
          exact wf.asc_lt hjx hq1 hq2 p2
        · have := hfuel' _ hjx
          omega)
      (by
        intro jz iz hji hiz
        obtain ⟨p1, p2, p3⟩ := hpos jz iz hji (by omega)
        obtain ⟨q1, q2, q3⟩ := hpos jz (iz + 1) (by omega) hiz
        have hjx := hr_lt jz (by omega)
        by_contra hcon
        have h1 := wf.asc_lt hjx q1 (by omega : pos jz (iz + 1) < pos jz iz) p2
        have h2 := hr_asc iz (iz + 1) (by omega) hiz
        omega)


/-- The indices read by the gather of the iteration `s` of the supernode loop: for every pair
`j ≤ i` of update rows the supernode `sc j` that holds column `jx` and the place `pos j i` of
row `ix` in its row list. -/
theorem super_gather_indices (n nsuper : Nat) (Super Lpi Lpx Ls : Nat → Nat) (fuel : Nat)
    (wf : SuperWF n nsuper Super Lpi Lpx Ls) (hfill : SuperFillClosed n nsuper Super Lpi Ls)
    (hfuel : nsuper + n < fuel) (s : Nat) (hs : s < nsuper) :
    ∃ (sc : Nat → Nat) (pos : Nat → Nat → Nat),
      (∀ j i, j ≤ i → i < (Lpi (s + 1) - Lpi s) - (Super (s + 1) - Super s) →
        s < sc j ∧ sc j < nsuper ∧
        Ls (Lpi s + (Super (s + 1) - Super s) + j) - Super (sc j)
          < Super (sc j + 1) - Super (sc j) ∧
        Ls (Lpi s + (Super (s + 1) - Super s) + j) - Super (sc j) ≤ pos j i ∧
        pos j i < Lpi (sc j + 1) - Lpi (sc j) ∧
        Ls (Lpi (sc j) + pos j i) = Ls (Lpi s + (Super (s + 1) - Super s) + i) ∧
        Super (sc j) + (Ls (Lpi s + (Super (s + 1) - Super s) + j) - Super (sc j))
          = Ls (Lpi s + (Super (s + 1) - Super s) + j)) ∧
      ∀ (perm : Nat → Nat) (Xx V : Nat → ℚ),
        ∃ V', super_gather Super Lpi Lpx Ls perm Xx s fuel V = some V' ∧
          ∀ j i, j ≤ i → i < (Lpi (s + 1) - Lpi s) - (Super (s + 1) - Super s) →
            V' (i + j * ((Lpi (s + 1) - Lpi s) - (Super (s + 1) - Super s)))
              = Xx (perm (Lpx (sc j) + pos j i
                + (Ls (Lpi s + (Super (s + 1) - Super s) + j) - Super (sc j))
                  * (Lpi (sc j + 1) - Lpi (sc j)))) := by
  have hcols := wf.cols s hs
  have hrows := wf.rows s hs
  have hr_lt : ∀ j, j < (Lpi (s + 1) - Lpi s) - (Super (s + 1) - Super s) →
      Ls (Lpi s + (Super (s + 1) - Super s) + j) < n := fun j hj => by
    rw [Nat.add_assoc]
    exact wf.bound s hs _ (by omega)
  have hr_ge : ∀ j, j < (Lpi (s + 1) - Lpi s) - (Super (s + 1) - Super s) →
      Super (s + 1) ≤ Ls (Lpi s + (Super (s + 1) - Super s) + j) := fun j hj => by
    have h1 := wf.srow_lt hs (by omega : Super (s + 1) - Super s - 1
      < Super (s + 1) - Super s + j) (by omega)
    rw [wf.own s hs _ (by omega), ← Nat.add_assoc] at h1
    omega
  have hr_asc : ∀ j i, j < i → i < (Lpi (s + 1) - Lpi s) - (Super (s + 1) - Super s) →
      Ls (Lpi s + (Super (s + 1) - Super s) + j)
        < Ls (Lpi s + (Super (s + 1) - Super s) + i) := fun j i hji hi => by
    rw [Nat.add_assoc, Nat.add_assoc]
    exact wf.srow_lt hs (by omega) (by omega)
  have hexsc : ∀ j, j < (Lpi (s + 1) - Lpi s) - (Super (s + 1) - Super s) →
      ∃ q, q < nsuper ∧ s + 1 ≤ q ∧ Super q ≤ Ls (Lpi s + (Super (s + 1) - Super s) + j) ∧
        Ls (Lpi s + (Super (s + 1) - Super s) + j) < Super (q + 1) := by
    intro j hj
    obtain ⟨q, hq, b, hb, e⟩ := wf.col_exists _ (hr_lt j hj)
    refine ⟨q, hq, ?_, by omega, by omega⟩
    by_contra hcon
    have h1 := wf.Super_mono (by omega : q + 1 ≤ s + 1) (by omega : s + 1 ≤ nsuper)
    have h2 := hr_ge j hj
    omega
  choose! sc hsc using hexsc
  have hexpos : ∀ j i, j ≤ i → i < (Lpi (s + 1) - Lpi s) - (Super (s + 1) - Super s) →
      ∃ il, Ls (Lpi s + (Super (s + 1) - Super s) + j) - Super (sc j) ≤ il ∧
        il < Lpi (sc j + 1) - Lpi (sc j) ∧
        Ls (Lpi (sc j) + il) = Ls (Lpi s + (Super (s + 1) - Super s) + i) := by
    intro j i hji hi
    obtain ⟨q1, q2, q3, q4⟩ := hsc j (by omega)
    have hrq := wf.rows (sc j) q1
    by_cases he : j = i
    · subst he
      exact ⟨_, le_refl _, by omega, by rw [wf.own (sc j) q1 _ (by omega)]; omega⟩
    · obtain ⟨s', hs', jj, hjj, ii, h1, h2, h3, h4⟩ := hfill (Super s)
        (by have := wf.col_lt hs (by omega : 0 < Super (s + 1) - Super s); omega) _ _
        ⟨s, hs, 0, by omega, Super (s + 1) - Super s + i, Nat.zero_le _, by omega, rfl,
          by rw [← Nat.add_assoc]⟩
        ⟨s, hs, 0, by omega, Super (s + 1) - Super s + j, Nat.zero_le _, by omega, rfl,
          by rw [← Nat.add_assoc]⟩
        (by have := hr_ge j (by omega); omega) (hr_asc j i (by omega) hi)
      obtain ⟨e1, e2⟩ := wf.col_unique hs' q1 hjj
        (by omega : Ls (Lpi s + (Super (s + 1) - Super s) + j) - Super (sc j)
          < Super (sc j + 1) - Super (sc j))
        (by omega : Super s' + jj = Super (sc j)
          + (Ls (Lpi s + (Super (s + 1) - Super s) + j) - Super (sc j)))
      subst e1
      exact ⟨ii, by omega, h2, h4⟩
  choose! pos hpos using hexpos
  refine ⟨sc, pos, fun j i hji hi => ?_, fun perm Xx V => ?_⟩
  · obtain ⟨q1, q2, q3, q4⟩ := hsc j (by omega)
    obtain ⟨p1, p2, p3⟩ := hpos j i hji hi
    exact ⟨by omega, q1, by omega, p1, p2, p3, by omega⟩
  · unfold super_gather
    have key := loopUp_inv
      (fun j (st : Option (Nat × (Nat → ℚ))) =>
        ∃ c V0, st = some (c, V0) ∧ s + 1 ≤ c ∧
          (j < (Lpi (s + 1) - Lpi s) - (Super (s + 1) - Super s) → c ≤ sc j) ∧
          ∀ j' i, j' < j → j' ≤ i → i < (Lpi (s + 1) - Lpi s) - (Super (s + 1) - Super s) →
            V0 (i + j' * ((Lpi (s + 1) - Lpi s) - (Super (s + 1) - Super s)))
              = Xx (perm (Lpx (sc j') + pos j' i
                + (Ls (Lpi s + (Super (s + 1) - Super s) + j') - Super (sc j'))
                  * (Lpi (sc j' + 1) - Lpi (sc j')))))
      ((Lpi (s + 1) - Lpi s) - (Super (s + 1) - Super s)) _ (some (s + 1, V))
      ⟨s + 1, V, rfl, le_refl _, fun h => (hsc 0 h).2.1, fun j' i h => absurd h (by omega)⟩
      (super_gather_step Super Lpi Lpx Ls perm Xx (Lpi s + (Super (s + 1) - Super s))
        ((Lpi (s + 1) - Lpi s) - (Super (s + 1) - Super s)) (s + 1) fuel sc pos
        (by
          intro j hj
          obtain ⟨q1, q2, q3, q4⟩ := hsc j hj
          refine ⟨q2, fun q a b => ?_, q4, by omega⟩
          have := wf.Super_mono (by omega : q + 1 ≤ sc j) (by omega : sc j ≤ nsuper)
          omega)
        (by
          intro j hj
          obtain ⟨q1, q2, q3, q4⟩ := hsc j (by omega)
          obtain ⟨r1, r2, r3, r4⟩ := hsc (j + 1) hj
          by_contra hcon
          have h1 := wf.Super_mono (by omega : sc (j + 1) + 1 ≤ sc j)
            (by omega : sc j ≤ nsuper)
          have h2 := hr_asc j (j + 1) (by omega) hj
          omega)
        (by
          intro j i hji hi
          obtain ⟨q1, q2, q3, q4⟩ := hsc j (by omega)
          obtain ⟨p1, p2, p3⟩ := hpos j i hji hi
          refine ⟨fun q hq => ?_, by omega, ?_⟩
          · rw [← p3]
            exact wf.srow_lt q1 hq p2
          · have h1 := wf.srow_idx_le q1 p2
            have h2 := hr_lt i hi
            omega)
        (by
          intro j i hji hi
          obtain ⟨q1, q2, q3, q4⟩ := hsc j (by omega)
          obtain ⟨p1, p2, p3⟩ := hpos j i hji (by omega)
          obtain ⟨r1, r2, r3⟩ := hpos j (i + 1) (by omega) hi
          by_contra hcon
          have h1 := wf.srow_lt q1 (by omega : pos j (i + 1) < pos j i) p2
          have h2 := hr_asc i (i + 1) (by omega) hi
          omega))
    obtain ⟨c, V0, hk, _, _, hval⟩ := key
    exact ⟨V0, congrArg (Option.map Prod.snd) hk, fun j i hji hi => hval j i (by omega) hji hi⟩

/-- The slots read by the gather of the iteration `s` of the supernode loop. -/
theorem super_gather_reads (n nsuper : Nat) (Super Lpi Lpx Ls : Nat → Nat) (fuel : Nat)
    (wf : SuperWF n nsuper Super Lpi Lpx Ls) (hfill : SuperFillClosed n nsuper Super Lpi Ls)
    (hfuel : nsuper + n < fuel) (s : Nat) (hs : s < nsuper) :
    ∃ (sc : Nat → Nat) (pos : Nat → Nat → Nat),
      (∀ j i, j ≤ i → i < (Lpi (s + 1) - Lpi s) - (Super (s + 1) - Super s) →
        s < sc j ∧ sc j < nsuper ∧
        Lpx (sc j) + pos j i
            + (Ls (Lpi s + (Super (s + 1) - Super s) + j) - Super (sc j))
              * (Lpi (sc j + 1) - Lpi (sc j))
          ∈ super_step_writes Super Lpi Lpx (sc j) ∧
        Ls (Lpi (sc j) + pos j i) = Ls (Lpi s + (Super (s + 1) - Super s) + i) ∧
        Super (sc j) + (Ls (Lpi s + (Super (s + 1) - Super s) + j) - Super (sc j))
          = Ls (Lpi s + (Super (s + 1) - Super s) + j)) ∧
      ∀ (perm : Nat → Nat) (Xx V : Nat → ℚ),
        ∃ V', super_gather Super Lpi Lpx Ls perm Xx s fuel V = some V' ∧
          ∀ j i, j ≤ i → i < (Lpi (s + 1) - Lpi s) - (Super (s + 1) - Super s) →
            V' (i + j * ((Lpi (s + 1) - Lpi s) - (Super (s + 1) - Super s)))
              = Xx (perm (Lpx (sc j) + pos j i
                + (Ls (Lpi s + (Super (s + 1) - Super s) + j) - Super (sc j))
                  * (Lpi (sc j + 1) - Lpi (sc j)))) := by
  obtain ⟨sc, pos, h1, h2⟩ := super_gather_indices n nsuper Super Lpi Lpx Ls fuel wf hfill hfuel
    s hs
  refine ⟨sc, pos, fun j i hji hi => ?_, h2⟩
  obtain ⟨a1, a2, a3, a4, a5, a6, a7⟩ := h1 j i hji hi
  exact ⟨a1, a2, mem_super_step_writes Super Lpi Lpx (sc j) (pos j i) _ a3 a4 a5, a6, a7⟩

/-! ## The size of the workspaces of the simplicial driver -/

/-- The second component of the cumulative sum: `maxsize + 1` bounds every column count. -/
theorem simplicial_cumsum_snd (n : Nat) (Xp : Nat → Nat) (maxsize : Nat) :
    ∀ j, 1 ≤ j → j ≤ n → Xp j ≤ (simplicial_cumsum n Xp maxsize).2 + 1 := by
  have key := loopUp_inv
    (fun t (st : (Nat → Nat) × Nat) =>
      (∀ j, t < j → st.1 j = Xp j) ∧ (∀ j, 1 ≤ j → j ≤ t → Xp j ≤ st.2 + 1))
    n (fun t st =>
      (store st.1 (t + 1) (st.1 (t + 1) + st.1 (t + 1 - 1)),
        if st.1 (t + 1) > st.2 then st.1 (t + 1) - 1 else st.2)) (Xp, maxsize)
    ⟨fun _ _ => rfl, fun j h1 h2 => absurd h2 (by omega)⟩
    (by
      rintro t ht ⟨Xp', m⟩ ⟨h1, h2⟩
      refine ⟨fun j hj => ?_, fun j hj1 hj2 => ?_⟩
      · show store Xp' (t + 1) _ j = Xp j
        rw [store_other _ _ _ _ (by omega)]
        exact h1 j (by omega)
      · show Xp j ≤ (if Xp' (t + 1) > m then Xp' (t + 1) - 1 else m) + 1
        have e := h1 (t + 1) (by omega)
        have e' : Xp' (t + 1) = Xp (t + 1) := e
        rw [e']
        by_cases hjt : j = t + 1
        · subst hjt
          split_ifs with hc <;> omega
        · have := h2 j hj1 (by omega)
          split_ifs with hc <;> omega)
  exact key.2


/-- In a fill-closed pattern the rows of a column are pairwise connected: for two stored rows
`a ≤ b` of column `jl`, row `b` is stored in column `a`. -/
theorem clique_stored (n : Nat) (Lp Li : Nat → Nat) (wf : SimplicialWF n Lp Li)
    (hfill : SimplicialFillClosed n Lp Li) (jl : Nat) (hjl : jl < n) (t u : Nat) (htu : t ≤ u)
    (hu : u < Lp (jl + 1) - Lp jl) :
    simplicial_stored Lp Li (Li (Lp jl + u)) (Li (Lp jl + t)) := by
  have hrt : Li (Lp jl + t) < n := wf.bound jl hjl _ (by omega) (by omega)
  by_cases he : t = u
  · subst he
    exact ⟨Lp (Li (Lp jl + t)), le_refl _, wf.nonempty _ hrt, wf.diag _ hrt⟩
  · by_cases h0 : t = 0
    · subst h0
      rw [Nat.add_zero, wf.diag jl hjl]
      exact ⟨Lp jl + u, by omega, by omega, rfl⟩
    · exact hfill jl hjl _ _ ⟨Lp jl + u, by omega, by omega, rfl⟩
        ⟨Lp jl + t, by omega, by omega, rfl⟩
        (wf.offdiag_gt hjl (by omega) (by omega))
        (wf.asc_lt hjl (by omega) (by omega) (by omega))

/-- In a fill-closed pattern some column of the result receives at least as many entries as
column `jl` of the factor holds. -/
theorem bucket_ge_column (n : Nat) (Lp Li : Nat → Nat) (Lperm : Option (Nat → Nat))
    (wf : SimplicialWF n Lp Li) (hfill : SimplicialFillClosed n Lp Li)
    (hp : PermOK n Lperm) (jl : Nat) (hjl : jl < n) :
    ∃ c, c < n ∧ Lp (jl + 1) - Lp jl ≤ (bucket Lperm (simplicial_entries n Lp Li) c).length := by
  have hne := wf.nonempty jl hjl
  have hrow_lt : ∀ t, t < Lp (jl + 1) - Lp jl → Li (Lp jl + t) < n := fun t ht =>
    wf.bound jl hjl _ (by omega) (by omega)
  have hrow_inj : ∀ t, t < Lp (jl + 1) - Lp jl → ∀ u, u < Lp (jl + 1) - Lp jl →
      Li (Lp jl + t) = Li (Lp jl + u) → t = u := by
    intro t ht u hu e
    by_contra hne'
    rcases Nat.lt_or_gt_of_ne hne' with h | h
    · have := wf.asc_lt hjl (by omega : Lp jl ≤ Lp jl + t) (by omega : Lp jl + t < Lp jl + u)
        (by omega)
      omega
    · have := wf.asc_lt hjl (by omega : Lp jl ≤ Lp jl + u) (by omega : Lp jl + u < Lp jl + t)
        (by omega)
      omega
  -- the row of the column with the least permuted index
  obtain ⟨ts, hts, hmin⟩ := Finset.exists_min_image (Finset.range (Lp (jl + 1) - Lp jl))
    (fun t => PERM Lperm (Li (Lp jl + t))) ⟨0, Finset.mem_range.mpr (by omega)⟩
  have hts' : ts < Lp (jl + 1) - Lp jl := Finset.mem_range.mp hts
  have hmin' : ∀ t, t < Lp (jl + 1) - Lp jl →
      PERM Lperm (Li (Lp jl + ts)) ≤ PERM Lperm (Li (Lp jl + t)) :=
    fun t ht => hmin t (Finset.mem_range.mpr ht)
  -- an entry of the factor for every row of the column, paired with that row
  have hex : ∀ t, t < Lp (jl + 1) - Lp jl → ∃ e : Entry, e ∈ simplicial_entries n Lp Li ∧
      e.il + e.jl = Li (Lp jl + t) + Li (Lp jl + ts) ∧
      e.jx Lperm = PERM Lperm (Li (Lp jl + ts)) := by
    intro t ht
    by_cases hc : t ≤ ts
    · obtain ⟨k, h1, h2, h3⟩ := clique_stored n Lp Li wf hfill jl hjl t ts hc hts'
      refine ⟨⟨k, Li k, Li (Lp jl + t)⟩, (mem_simplicial_entries n Lp Li _).mpr
        ⟨Li (Lp jl + t), hrow_lt t ht, k - Lp (Li (Lp jl + t)), by omega, ?_⟩, ?_, ?_⟩
      · rw [show Lp (Li (Lp jl + t)) + (k - Lp (Li (Lp jl + t))) = k by omega]
      · show Li k + Li (Lp jl + t) = _
        rw [h3]; omega
      · show min (PERM Lperm (Li k)) (PERM Lperm (Li (Lp jl + t))) = _
        rw [h3]
        exact Nat.min_eq_left (hmin' t ht)
    · obtain ⟨k, h1, h2, h3⟩ := clique_stored n Lp Li wf hfill jl hjl ts t (by omega) ht
      refine ⟨⟨k, Li k, Li (Lp jl + ts)⟩, (mem_simplicial_entries n Lp Li _).mpr
        ⟨Li (Lp jl + ts), hrow_lt ts hts', k - Lp (Li (Lp jl + ts)), by omega, ?_⟩, ?_, ?_⟩
      · rw [show Lp (Li (Lp jl + ts)) + (k - Lp (Li (Lp jl + ts))) = k by omega]
      · show Li k + Li (Lp jl + ts) = _
        rw [h3]
      · show min (PERM Lperm (Li k)) (PERM Lperm (Li (Lp jl + ts))) = _
        rw [h3]
        exact Nat.min_eq_right (hmin' t ht)
  haveI : Nonempty Entry := ⟨⟨0, 0, 0⟩⟩
  choose! e he using hex
  refine ⟨PERM Lperm (Li (Lp jl + ts)), hp.1 _ (hrow_lt ts hts'), ?_⟩
  have hnd : ((List.range (Lp (jl + 1) - Lp jl)).map e).Nodup :=
    nodup_map_range _ e (fun t ht u hu heq => by
      have h1 := (he t ht).2.1
      have h2 := (he u hu).2.1
      rw [heq] at h1
      exact hrow_inj t ht u hu (by omega))
  have hsub : (List.range (Lp (jl + 1) - Lp jl)).map e
      ⊆ bucket Lperm (simplicial_entries n Lp Li) (PERM Lperm (Li (Lp jl + ts))) := by
    intro x hx
    obtain ⟨t, ht, rfl⟩ := List.mem_map.mp hx
    have ht' := List.mem_range.mp ht
    unfold bucket
    exact List.mem_filter.mpr ⟨(he t ht').1, by simpa using (he t ht').2.2⟩
  have := (List.subperm_of_subset hnd hsub).length_le
  rwa [List.length_map, List.length_range] at this


theorem arrow_perm_wf : SimplicialWF 3 (arrN [0, 3, 4, 5]) (arrN [0, 1, 2, 1, 2]) :=
  simplicialWF_of_bounded 3 5 _ _ (by decide)

theorem arrow_perm_ok : PermOK 3 (some (arrN [2, 1, 0])) :=
  permOK_of_bounded 3 _ (by decide)

/-! ## The cursor of the supernodal gather -/

/-- The gather is its outer loop run for all `m2` update rows. -/
theorem super_gather_eq_loop (Super Lpi Lpx Ls perm : Nat → Nat) (Xx : Nat → ℚ) (s fuel : Nat)
    (V : Nat → ℚ) :
    super_gather Super Lpi Lpx Ls perm Xx s fuel V
      = (super_gather_loop Super Lpi Lpx Ls perm Xx s fuel V
          ((Lpi (s + 1) - Lpi s) - (Super (s + 1) - Super s))).map Prod.snd := rfl

/-- The cursor kept by the outer loop of the gather is `super_cursor`. -/
theorem super_gather_loop_cursor (Super Lpi Lpx Ls perm : Nat → Nat) (Xx : Nat → ℚ)
    (s fuel : Nat) (V : Nat → ℚ) :
    ∀ k st, super_gather_loop Super Lpi Lpx Ls perm Xx s fuel V k = some st →
      super_cursor Super Ls (Lpi s) (Super (s + 1) - Super s) s fuel k = some st.1 := by
  intro k
  induction k with
  | zero =>
    intro st h
    have h0 : some (s + 1, V) = some st := h
    cases h0
    rfl
  | succ k ih =>
    intro st h
    unfold super_gather_loop at h
    simp only [loopUp] at h
    cases hprev : super_gather_loop Super Lpi Lpx Ls perm Xx s fuel V k with
    | none =>
      unfold super_gather_loop at hprev
      rw [hprev] at h
      simp at h
    | some st0 =>
      have hc := ih st0 hprev
      unfold super_gather_loop at hprev
      rw [hprev] at h
      simp only [Option.some_bind] at h
      show Option.bind (super_cursor Super Ls (Lpi s) (Super (s + 1) - Super s) s fuel k) _ = _
      rw [hc, Option.some_bind]
      cases hsc : scan_super Super (Ls (Lpi s + (Super (s + 1) - Super s) + k)) fuel st0.1 with
      | none =>
        rw [hsc] at h
        simp at h
      | some scol =>
        rw [hsc] at h
        simp only [Option.some_bind, Option.map_eq_some'] at h
        obtain ⟨st', _, h2⟩ := h
        rw [← h2]

/-- The search `while (Super[scol+1]-1 < jx) scol++` started at `k < N` with `jx < Super[N]`
stops at the first `t ≥ k` with `jx < Super[t+1]`, and `t < N`. -/
theorem scan_super_first (Super : Nat → Nat) (jx fuel k N : Nat) (hk : k < N)
    (hN : jx < Super N) (hfuel : N - k ≤ fuel) :
    ∃ t, scan_super Super jx fuel k = some t ∧ k ≤ t ∧ t < N ∧ jx < Super (t + 1) ∧
      ∀ q, k ≤ q → q < t → Super (q + 1) ≤ jx := by
  induction fuel generalizing k with
  | zero => omega
  | succ f ih =>
    unfold scan_super
    by_cases hstop : jx < Super (k + 1)
    · rw [if_neg (by omega)]
      exact ⟨k, rfl, le_refl k, hk, hstop, fun q h1 h2 => by omega⟩
    · rw [if_pos (by omega)]
      have hk1 : k + 1 < N := by
        by_contra hcon
        have : k + 1 = N := by omega
        rw [this] at hstop
        exact hstop hN
      obtain ⟨t, t1, t2, t3, t4, t5⟩ := ih (k + 1) hk1 (by omega)
      refine ⟨t, t1, by omega, t3, t4, fun q h1 h2 => ?_⟩
      by_cases hq : q = k
      · subst hq; omega
      · exact t5 q (by omega) h2

/-- The cursor of the gather lands on the supernode of every update row. -/
theorem super_cursor_spec (Super Ls : Nat → Nat) (n nsuper psi0 m1 m2 s fuel : Nat)
    (hlast : Super nsuper = n) (hs : s < nsuper)
    (hasc : ∀ j, j + 1 < m2 → Ls (psi0 + m1 + j) ≤ Ls (psi0 + m1 + (j + 1)))
    (hrange : ∀ j, j < m2 → Super (s + 1) ≤ Ls (psi0 + m1 + j) ∧ Ls (psi0 + m1 + j) < n)
    (hfuel : nsuper < fuel) :
    ∀ j, j < m2 → ∃ scol, super_cursor Super Ls psi0 m1 s fuel (j + 1) = some scol ∧
      s < scol ∧ scol ≤ nsuper - 1 ∧ Super scol ≤ Ls (psi0 + m1 + j) ∧
      Ls (psi0 + m1 + j) < Super (scol + 1) := by
  intro j
  induction j with
  | zero =>
    intro hj
    have hr := hrange 0 hj
    have hs1 : s + 1 < nsuper := by
      by_contra hcon
      have : s + 1 = nsuper := by omega
      rw [this, hlast] at hr
      omega
    obtain ⟨t, t1, t2, t3, t4, t5⟩ := scan_super_first Super (Ls (psi0 + m1 + 0)) fuel (s + 1)
      nsuper hs1 (by rw [hlast]; exact hr.2) (by omega)
    refine ⟨t, ?_, by omega, by omega, ?_, t4⟩
    · show Option.bind (some (s + 1)) _ = _
      rw [Option.some_bind]
      exact t1
    · by_cases ht : t = s + 1
      · rw [ht]; exact hr.1
      · have := t5 (t - 1) (by omega) (by omega)
        rw [show t - 1 + 1 = t by omega] at this
        exact this
  | succ k ih =>
    intro hj
    obtain ⟨c, c1, c2, c3, c4, c5⟩ := ih (by omega)
    have hr := hrange (k + 1) hj
    have hle := hasc k hj
    obtain ⟨t, t1, t2, t3, t4, t5⟩ := scan_super_first Super (Ls (psi0 + m1 + (k + 1))) fuel c
      nsuper (by omega) (by rw [hlast]; exact hr.2) (by omega)
    refine ⟨t, ?_, by omega, by omega, ?_, t4⟩
    · show Option.bind (super_cursor Super Ls psi0 m1 s fuel (k + 1)) _ = _
      rw [c1, Option.some_bind]
      exact t1
    · by_cases ht : t = c
      · rw [ht]; omega
      · have := t5 (t - 1) (by omega) (by omega)
        rw [show t - 1 + 1 = t by omega] at this
        exact this

/-- A loop over an optional state that returns has returned from each of its prefixes. -/
theorem loopUp_bind_initial {σ : Type} (f : Nat → σ → Option σ) (s0 : σ) (n : Nat) :
    ∀ st, loopUp n (fun j (st : Option σ) => st.bind (f j)) (some s0) = some st →
      ∀ k, k ≤ n → ∃ st', loopUp k (fun j (st : Option σ) => st.bind (f j)) (some s0)
        = some st' := by
  induction n with
  | zero =>
    intro st h k hk
    have : k = 0 := by omega
    subst this
    exact ⟨st, h⟩
  | succ m ih =>
    intro st h k hk
    by_cases hkm : k = m + 1
    · subst hkm
      exact ⟨st, h⟩
    · have h' : (loopUp m (fun j (st : Option σ) => st.bind (f j)) (some s0)).bind (f m)
          = some st := h
      cases hprev : loopUp m (fun j (st : Option σ) => st.bind (f j)) (some s0) with
      | none =>
        rw [hprev] at h'
        simp at h'
      | some st0 => exact ih st0 hprev k (by omega)

/-- The outer loop of the gather returns from each of its prefixes when the gather returns. -/
theorem super_gather_loop_returns (Super Lpi Lpx Ls perm : Nat → Nat) (Xx : Nat → ℚ)
    (s fuel : Nat) (V V' : Nat → ℚ)
    (h : super_gather Super Lpi Lpx Ls perm Xx s fuel V = some V') (k : Nat)
    (hk : k ≤ (Lpi (s + 1) - Lpi s) - (Super (s + 1) - Super s)) :
    ∃ st, super_gather_loop Super Lpi Lpx Ls perm Xx s fuel V k = some st := by
  rw [super_gather_eq_loop, Option.map_eq_some'] at h
  obtain ⟨st, hst, _⟩ := h
  exact loopUp_bind_initial _ _ _ st hst k hk

/-! ## Symmetry of the top block of the kernel -/

/-- Two loops whose bodies agree on the iterations that are run are equal. -/
theorem loopUp_congr {σ : Type} (n : Nat) (f g : Nat → σ → σ) (s : σ)
    (h : ∀ k, k < n → ∀ x, f k x = g k x) : loopUp n f s = loopUp n g s := by
  induction n with
  | zero => rfl
  | succ k ih =>
    show f k (loopUp k f s) = g k (loopUp k g s)
    rw [ih (fun q hq x => h q (by omega) x), h k (by omega)]

/-- The top block `Z1` returned by the kernel is symmetric. -/
theorem spinv_block_symmetric (L Z V : Nat → ℚ) (m n : Nat) (hnm : n ≤ m)
    (hd : ∀ i, i < n → L (i + i * m) ≠ 0) :
    ∀ i j, i < n → j < n →
      spinv_block L Z V m n (i + j * m) = spinv_block L Z V m n (j + i * m) := by
  obtain ⟨e1, e2⟩ := spinv_block_matrix L Z V m n hnm hd
  have hu := lowerView_isUnit_det L m n hd
  -- the transposed top block satisfies the same equations
  have e3 : (lowerView L m n).transpose *
      ((matView (spinv_block L Z V m n) 0 m n n).transpose * lowerView L m n
        + (matView (spinv_block L Z V m n) n m (m - n) n).transpose * matView L n m (m - n) n)
      = 1 := by
    have hZ2 : matView (spinv_block L Z V m n) n m (m - n) n * lowerView L m n
        = -(symView V (m - n) (m - n) * matView L n m (m - n) n) :=
      eq_neg_of_add_eq_zero_left e1
    have hZ2t : (lowerView L m n).transpose
        * (matView (spinv_block L Z V m n) n m (m - n) n).transpose
        = -((matView L n m (m - n) n).transpose * symView V (m - n) (m - n)) := by
      rw [← Matrix.transpose_mul, hZ2, Matrix.transpose_neg, Matrix.transpose_mul,
        symView_transpose]
    have ht := congrArg Matrix.transpose e2
    rw [Matrix.transpose_one, Matrix.transpose_mul, Matrix.transpose_transpose,
      Matrix.transpose_add, Matrix.transpose_mul, Matrix.transpose_mul,
      Matrix.transpose_transpose, Matrix.add_mul, Matrix.mul_assoc
        (matView L n m (m - n) n).transpose, hZ2, Matrix.mul_assoc (lowerView L m n).transpose]
      at ht
    rw [Matrix.mul_add, ← Matrix.mul_assoc (lowerView L m n).transpose
      (matView (spinv_block L Z V m n) n m (m - n) n).transpose, hZ2t, Matrix.neg_mul,
      Matrix.mul_assoc (matView L n m (m - n) n).transpose]
    rw [Matrix.mul_neg] at ht
    exact ht
  have hsym := (block_unique (lowerView L m n) (matView L n m (m - n) n)
    (symView V (m - n) (m - n)) (matView (spinv_block L Z V m n) 0 m n n)
    (matView (spinv_block L Z V m n) 0 m n n).transpose
    (matView (spinv_block L Z V m n) n m (m - n) n)
    (matView (spinv_block L Z V m n) n m (m - n) n) hu e1 e2 e1 e3).1
  intro i j hi hj
  have := congrFun (congrFun hsym ⟨i, hi⟩) ⟨j, hj⟩
  simp only [matView, Matrix.transpose_apply, Nat.zero_add] at this
  exact this

/-- The scatter stores the same values with and without the symmetrisation. -/
theorem super_scatter_eq_plain (Super Lpi Lpx perm : Nat → Nat) (Z : Nat → ℚ) (s : Nat)
    (Xx : Nat → ℚ)
    (hsym : ∀ i j, i < Super (s + 1) - Super s → j < Super (s + 1) - Super s →
      Z (i + j * (Lpi (s + 1) - Lpi s)) = Z (j + i * (Lpi (s + 1) - Lpi s))) :
    super_scatter Super Lpi Lpx perm Z s Xx = super_scatter_plain Super Lpi Lpx perm Z s Xx := by
  unfold super_scatter super_scatter_plain
  refine loopUp_congr _ _ _ _ (fun j hj x => ?_)
  show loopUp _ _ (loopUp _ _ x) = loopUp _ _ (loopUp _ _ x)
  congr 1
  refine loopUp_congr _ _ _ _ (fun t ht y => ?_)
  show store y _ _ = store y _ _
  rw [← hsym (j + t) j (by omega) hj]
  have hhalf : ∀ a : ℚ, 1 / 2 * (a + a) = a := fun a => by ring
  rw [hhalf]

/-! ## The cursor of the simplicial gather -/

/-- The cursor of the simplicial gather, given for every pair `jz ≤ iz` the index `pos jz iz`
at which the scan of column `Li[kmin+1+jz]` for the row `Li[kmin+1+iz]` stops. -/
theorem simplicial_cursor_spec (Lp Li : Nat → Nat) (kmin nj fuel : Nat)
    (pos : Nat → Nat → Nat)
    (h1 : ∀ jz iz, jz ≤ iz → iz < nj →
      Lp (Li (kmin + 1 + jz)) ≤ pos jz iz ∧
      (∀ q, Lp (Li (kmin + 1 + jz)) ≤ q → q < pos jz iz → Li q < Li (kmin + 1 + iz)) ∧
      ¬ (Li (pos jz iz) < Li (kmin + 1 + iz)) ∧
      pos jz iz - Lp (Li (kmin + 1 + jz)) < fuel)
    (h2 : ∀ jz iz, jz ≤ iz → iz + 1 < nj → pos jz iz ≤ pos jz (iz + 1)) (jz : Nat) :
    ∀ t, jz + t < nj →
      simplicial_cursor Lp Li kmin jz fuel (t + 1) = some (pos jz (jz + t)) := by
  intro t
  induction t with
  | zero =>
    intro ht
    obtain ⟨a1, a2, a3, a4⟩ := h1 jz (jz + 0) (by omega) ht
    show Option.bind (some (Lp (Li (kmin + 1 + jz)))) _ = _
    rw [Option.some_bind]
    exact scan_spec Li _ fuel _ _ a1 a2 a3 a4
  | succ k ih =>
    intro ht
    obtain ⟨a1, a2, a3, a4⟩ := h1 jz (jz + (k + 1)) (by omega) ht
    obtain ⟨b1, _, _, _⟩ := h1 jz (jz + k) (by omega) (by omega)
    have hle := h2 jz (jz + k) (by omega) (by omega)
    show Option.bind (simplicial_cursor Lp Li kmin jz fuel (k + 1)) _ = _
    rw [ih (by omega), Option.some_bind]
    exact scan_spec Li _ fuel _ _ hle (fun q q1 q2 => a2 q (by omega) q2) a3 (by omega)

theorem dense_wf : SimplicialWF 3 (arrN [0, 3, 5, 6]) (arrN [0, 1, 2, 1, 2, 2]) :=
  simplicialWF_of_bounded 3 6 _ _ (by decide)

theorem dense_fill_closed :
    SimplicialFillClosed 3 (arrN [0, 3, 5, 6]) (arrN [0, 1, 2, 1, 2, 2]) :=
  fillClosed_of_check 3 6 _ _ (by decide)

/-! ## Assigned and read indices of the mapping table -/

/-- The second pass leaves the mapping table as it was at every index that is not the index
of an entry of the list. -/
theorem fillL_perm_frame (Lperm : Option (Nat → Nat)) (Xp : Nat → Nat) (E : List Entry) :
    ∀ (st : FillState) (k : Nat), (∀ e, e ∈ E → e.kl ≠ k) →
      (fillL Lperm Xp E st).perm k = st.perm k := by
  induction E using List.reverseRecOn with
  | nil => intro st k _; rfl
  | append_singleton P e0 ih =>
    intro st k hk
    rw [fillL_snoc]
    show store (fillL Lperm Xp P st).perm e0.kl _ k = st.perm k
    rw [store_other _ _ _ _ (fun h => hk e0 (by simp) h.symm)]
    exact ih st k (fun e he => hk e (by simp [he]))

/-- The column counters of the second pass do not depend on the contents of the row index array
and of the mapping table. -/
theorem fillL_ncol_indep (Lperm : Option (Nat → Nat)) (Xp : Nat → Nat) (E : List Entry) :
    ∀ (st st' : FillState), st.ncol = st'.ncol →
      (fillL Lperm Xp E st).ncol = (fillL Lperm Xp E st').ncol := by
  induction E using List.reverseRecOn with
  | nil => intro st st' h; exact h
  | append_singleton P e0 ih =>
    intro st st' h
    rw [fillL_snoc, fillL_snoc]
    show store (fillL Lperm Xp P st).ncol _ _ = store (fillL Lperm Xp P st').ncol _ _
    rw [ih st st' h]

/-- The mapping table after the second pass does not depend, at the index of an entry of the
list, on the contents of the table before the pass. -/
theorem fillL_perm_indep (Lperm : Option (Nat → Nat)) (Xp : Nat → Nat) (E : List Entry) :
    ∀ (st st' : FillState), st.ncol = st'.ncol → ∀ e, e ∈ E →
      (fillL Lperm Xp E st).perm e.kl = (fillL Lperm Xp E st').perm e.kl := by
  induction E using List.reverseRecOn with
  | nil => intro st st' _ e he; simp at he
  | append_singleton P e0 ih =>
    intro st st' h e he
    rw [fillL_snoc, fillL_snoc]
    have hn := fillL_ncol_indep Lperm Xp P st st' h
    show store (fillL Lperm Xp P st).perm e0.kl
        (Xp _ + (fillL Lperm Xp P st).ncol _) e.kl
      = store (fillL Lperm Xp P st').perm e0.kl
        (Xp _ + (fillL Lperm Xp P st').ncol _) e.kl
    by_cases hk : e.kl = e0.kl
    · rw [hk, store_same, store_same, hn]
    · rw [store_other _ _ _ _ hk, store_other _ _ _ _ hk]
      rcases List.mem_append.mp he with h1 | h1
      · exact ih st st' h e h1
      · simp only [List.mem_singleton] at h1
        exact absurd (by rw [h1]) hk

/-- The mapping table of the supernodal driver is the table of the second pass over the
entries of the lower trapezoids. -/
theorem super_pattern_perm (L : cholmod_factor) (h : Fresh) :
    (super_pattern L h).perm
      = (fillL L.Perm (super_pattern L h).Xp (super_entries L.nsuper L.super L.pi L.px L.s)
          { ncol := fun _ => 0, Xi := h.Xi, perm := h.perm }).perm := by
  rw [← super_fill_eq]
  rfl

/-- The column pointers of the result do not depend on the uninitialised arrays. -/
theorem super_pattern_Xp (L : cholmod_factor) (h h' : Fresh) :
    (super_pattern L h).Xp = (super_pattern L h').Xp := rfl

/-- The panels of a well-formed supernodal factor do not overlap: an index of the value array
determines its supernode and its place in the panel. -/
theorem SuperWF.panel_unique {n nsuper : Nat} {Super Lpi Lpx Ls : Nat → Nat}
    (wf : SuperWF n nsuper Super Lpi Lpx Ls) {s s' i j i' j' : Nat} (hs : s < nsuper)
    (hs' : s' < nsuper) (hi : i < Lpi (s + 1) - Lpi s) (hj : j < Super (s + 1) - Super s)
    (hi' : i' < Lpi (s' + 1) - Lpi s') (hj' : j' < Super (s' + 1) - Super s')
    (e : Lpx s + i + j * (Lpi (s + 1) - Lpi s) = Lpx s' + i' + j' * (Lpi (s' + 1) - Lpi s')) :
    s = s' ∧ i = i' ∧ j = j' := by
  have b1 := panel_index_lt hi hj
  have b2 := panel_index_lt hi' hj'
  have p1 := wf.panel s hs
  have p2 := wf.panel s' hs'
  have hss : s = s' := by
    by_contra hne
    rcases Nat.lt_or_gt_of_ne hne with hlt | hgt
    · have := wf.Lpx_mono (by omega : s + 1 ≤ s') (by omega)
      omega
    · have := wf.Lpx_mono (by omega : s' + 1 ≤ s) (by omega)
      omega
  subst hss
  have := colmajor_inj hi hi' (by omega : i + j * (Lpi (s + 1) - Lpi s)
    = i' + j' * (Lpi (s + 1) - Lpi s))
  exact ⟨rfl, this.1, this.2⟩

/-- The indices of the scatter of supernode `s` are the indices `Lpx[s] + i + j*ms` of the
lower trapezoid of its panel. -/
theorem super_step_writes_lower (Super Lpi Lpx : Nat → Nat) (s : Nat)
    (hnm : Super (s + 1) - Super s ≤ Lpi (s + 1) - Lpi s) (kl : Nat)
    (h : kl ∈ super_step_writes Super Lpi Lpx s) :
    ∃ j i, j < Super (s + 1) - Super s ∧ j ≤ i ∧ i < Lpi (s + 1) - Lpi s ∧
      kl = Lpx s + i + j * (Lpi (s + 1) - Lpi s) := by
  unfold super_step_writes at h
  simp only [List.mem_flatMap, List.mem_range, List.mem_append, List.mem_map] at h
  obtain ⟨j, hj, h | h⟩ := h
  · obtain ⟨t, ht, rfl⟩ := h
    exact ⟨j, j + t, hj, by omega, by omega, rfl⟩
  · obtain ⟨t, ht, rfl⟩ := h
    exact ⟨j, Super (s + 1) - Super s + t, hj, by omega, by omega, rfl⟩

/-- The scatter reads the mapping table only at the indices of the lower trapezoid of the
panel. -/
theorem super_scatter_perm_congr (Super Lpi Lpx perm perm' : Nat → Nat) (Z : Nat → ℚ) (s : Nat)
    (Xx : Nat → ℚ)
    (h : ∀ kl, kl ∈ super_step_writes Super Lpi Lpx s → perm kl = perm' kl) :
    super_scatter Super Lpi Lpx perm Z s Xx = super_scatter Super Lpi Lpx perm' Z s Xx := by
  unfold super_scatter
  refine loopUp_congr _ _ _ _ (fun j hj x => ?_)
  have e1 : ∀ y : Nat → ℚ,
      loopUp (Super (s + 1) - Super s - j) (fun t Xx =>
        store Xx (perm (Lpx s + (j + t) + j * (Lpi (s + 1) - Lpi s)))
          (1 / 2 * (Z (j + t + j * (Lpi (s + 1) - Lpi s))
            + Z (j + (j + t) * (Lpi (s + 1) - Lpi s))))) y
      = loopUp (Super (s + 1) - Super s - j) (fun t Xx =>
        store Xx (perm' (Lpx s + (j + t) + j * (Lpi (s + 1) - Lpi s)))
          (1 / 2 * (Z (j + t + j * (Lpi (s + 1) - Lpi s))
            + Z (j + (j + t) * (Lpi (s + 1) - Lpi s))))) y := fun y =>
    loopUp_congr _ _ _ _ (fun t ht y => by
      show store y (perm _) _ = store y (perm' _) _
      rw [h _ (by
        unfold super_step_writes
        simp only [List.mem_flatMap, List.mem_range, List.mem_append, List.mem_map]
        exact ⟨j, hj, Or.inl ⟨t, ht, rfl⟩⟩)])
  have e2 : ∀ y : Nat → ℚ,
      loopUp (Lpi (s + 1) - Lpi s - (Super (s + 1) - Super s)) (fun t Xx =>
        store Xx (perm (Lpx s + (Super (s + 1) - Super s + t) + j * (Lpi (s + 1) - Lpi s)))
          (Z (Super (s + 1) - Super s + t + j * (Lpi (s + 1) - Lpi s)))) y
      = loopUp (Lpi (s + 1) - Lpi s - (Super (s + 1) - Super s)) (fun t Xx =>
        store Xx (perm' (Lpx s + (Super (s + 1) - Super s + t) + j * (Lpi (s + 1) - Lpi s)))
          (Z (Super (s + 1) - Super s + t + j * (Lpi (s + 1) - Lpi s)))) y := fun y =>
    loopUp_congr _ _ _ _ (fun t ht y => by
      show store y (perm _) _ = store y (perm' _) _
      rw [h _ (by
        unfold super_step_writes
        simp only [List.mem_flatMap, List.mem_range, List.mem_append, List.mem_map]
        exact ⟨j, hj, Or.inr ⟨t, ht, rfl⟩⟩)])
  show loopUp _ _ (loopUp _ _ x) = loopUp _ _ (loopUp _ _ x)
  exact (e2 _).trans (congrArg _ (e1 x))

/-! ## The iterations of the descending loops -/

theorem loopDownSteps_shift {σ : Type} (n : Nat) (f : Nat → σ → σ) (s : σ) :
    ∀ d, d ≤ n → loopDownSteps (n + 1) f s (d + 1) = loopDownSteps n f (f n s) d := by
  intro d
  induction d with
  | zero => intro _; rfl
  | succ k ih =>
    intro hk
    show f (n + 1 - 1 - (k + 1)) (loopDownSteps (n + 1) f s (k + 1))
      = f (n - 1 - k) (loopDownSteps n f (f n s) k)
    rw [ih (by omega), show n + 1 - 1 - (k + 1) = n - 1 - k by omega]

/-- The descending loop is the state after all its iterations. -/
theorem loopDown_eq_steps {σ : Type} (n : Nat) (f : Nat → σ → σ) :
    ∀ s, loopDown n f s = loopDownSteps n f s n := by
  induction n with
  | zero => intro s; rfl
  | succ m ih =>
    intro s
    show loopDown m f (f m s) = _
    rw [ih (f m s), loopDownSteps_shift m f s m (le_refl m)]

theorem simplicial_numeric_eq_steps (n : Nat) (Lp Li perm : Nat → Nat) (Lx : Nat → ℚ)
    (fuel : Nat) (st : SimplicialState) :
    simplicial_numeric n Lp Li perm Lx fuel st
      = simplicial_numeric_steps n Lp Li perm Lx fuel st n :=
  loopDown_eq_steps n _ _

theorem super_numeric_eq_steps (nsuper : Nat) (Super Lpi Lpx Ls perm : Nat → Nat)
    (Lx : Nat → ℚ) (fuel : Nat) (st : SuperState) :
    super_numeric nsuper Super Lpi Lpx Ls perm Lx fuel st
      = super_numeric_steps nsuper Super Lpi Lpx Ls perm Lx fuel st nsuper :=
  loopDown_eq_steps nsuper _ _

/-- A descending loop all of whose iterations return, iteration `i` changing the array `X` of
the state only at the places `W i`, these being pairwise disjoint: the states after the
iterations, and the places written by iteration `c` are as it left them in every later
state. -/
theorem loopDownSteps_run {σ : Type} (n : Nat) (f : Nat → σ → Option σ) (s0 : σ)
    (X : σ → Nat → ℚ) (W : Nat → Nat → Prop)
    (hstep : ∀ i, i < n → ∀ st, ∃ st', f i st = some st' ∧ ∀ p, ¬ W i p → X st' p = X st p)
    (hdisj : ∀ i c, i < c → c < n → ∀ p, W c p → ¬ W i p) :
    ∃ S : Nat → σ, S 0 = s0 ∧
      (∀ d, d ≤ n →
        loopDownSteps n (fun i (st : Option σ) => st.bind (f i)) (some s0) d = some (S d)) ∧
      (∀ d, d < n → f (n - 1 - d) (S d) = some (S (d + 1))) ∧
      (∀ c, c < n → ∀ d, n - c ≤ d → d ≤ n → ∀ p, W c p → X (S d) p = X (S (n - c)) p) := by
  have hg : ∀ i, i < n → ∀ st, f i st = some ((f i st).getD st) := by
    intro i hi st
    obtain ⟨st', h1, _⟩ := hstep i hi st
    rw [h1]
    rfl
  have h3 : ∀ d, d < n → f (n - 1 - d)
      (loopDownSteps n (fun i st => (f i st).getD st) s0 d)
      = some (loopDownSteps n (fun i st => (f i st).getD st) s0 (d + 1)) := fun d hd =>
    hg (n - 1 - d) (by omega) _
  refine ⟨loopDownSteps n (fun i st => (f i st).getD st) s0, rfl, ?_, h3, ?_⟩
  · intro d
    induction d with
    | zero => intro _; rfl
    | succ k ih =>
      intro hk
      show Option.bind (loopDownSteps n (fun i (st : Option σ) => st.bind (f i)) (some s0) k)
        (f (n - 1 - k)) = _
      rw [ih (by omega), Option.some_bind]
      exact h3 k (by omega)
  · intro c hc d hd1 hd2 p hp
    induction d, hd1 using Nat.le_induction with
    | base => rfl
    | succ k hk ih =>
      have hfr : X (loopDownSteps n (fun i st => (f i st).getD st) s0 (k + 1)) p
          = X (loopDownSteps n (fun i st => (f i st).getD st) s0 k) p := by
        obtain ⟨st', h1, h2⟩ := hstep (n - 1 - k) (by omega)
          (loopDownSteps n (fun i st => (f i st).getD st) s0 k)
        have e := h3 k (by omega)
        rw [h1] at e
        rw [← Option.some.inj e]
        exact h2 p (hdisj (n - 1 - k) c (by omega) hc p hp)
      rw [hfr]
      exact ih (by omega)

/-! ## What one iteration writes -/

/-- One iteration of the column loop for a column with off-diagonal entries, given the result
`V'` of its gather: the state it leaves, with the values it stores in terms of the vector
`z` it computes. -/
theorem simplicial_column_stores (Lp Li perm : Nat → Nat) (Lx : Nat → ℚ) (fuel j : Nat)
    (st : SimplicialState) (hmany : Lp j + 1 < Lp (j + 1)) (V' : Nat → ℚ)
    (hV : simplicial_gather Lp Li perm st.Xx (Lp j) (Lp (j + 1) - 1 - Lp j) fuel st.V = some V')
    (hinj : ∀ k, Lp j ≤ k → k < Lp (j + 1) → ∀ k', Lp j ≤ k' → k' < Lp (j + 1) →
      perm k = perm k' → k = k') :
    ∃ st', simplicial_column Lp Li perm Lx fuel j st = some st' ∧
      st'.V = V' ∧
      st'.z = cblas_dsymv (Lp (j + 1) - 1 - Lp j) 1 V' (Lp (j + 1) - 1 - Lp j)
        (fun k => Lx (Lp j + 1 + k)) 0 st.z ∧
      (∀ t, t < Lp (j + 1) - 1 - Lp j → st'.Xx (perm (Lp j + 1 + t)) = -(st'.z t)) ∧
      st'.Xx (perm (Lp j))
        = 1 / Lx (Lp j) + cblas_ddot (Lp (j + 1) - 1 - Lp j) st'.z (fun k => Lx (Lp j + 1 + k)) ∧
      ∀ p, (∀ k, Lp j ≤ k → k < Lp (j + 1) → p ≠ perm k) → st'.Xx p = st.Xx p := by
  generalize hnjdef : Lp (j + 1) - 1 - Lp j = nj at hV ⊢
  have hgt : Lp (j + 1) - 1 > Lp j := by omega
  obtain ⟨hs1, hs2⟩ := loopUp_store_spec nj (fun iz => perm (Lp j + 1 + iz))
    (fun iz => -(cblas_dsymv nj 1 V' nj (fun k => Lx (Lp j + 1 + k)) 0 st.z iz)) st.Xx
    (fun a ha b hb e => by
      have := hinj (Lp j + 1 + a) (by omega) (by omega) (Lp j + 1 + b)
        (by omega) (by omega) e
      omega)
  refine ⟨SimplicialState.mk
      (store (loopUp nj (fun iz Xx => store Xx (perm (Lp j + 1 + iz))
        (-(cblas_dsymv nj 1 V' nj (fun k => Lx (Lp j + 1 + k)) 0 st.z iz))) st.Xx)
        (perm (Lp j)) (1 / Lx (Lp j)
          + cblas_ddot nj (cblas_dsymv nj 1 V' nj (fun k => Lx (Lp j + 1 + k)) 0 st.z)
              (fun k => Lx (Lp j + 1 + k))))
      V' (cblas_dsymv nj 1 V' nj (fun k => Lx (Lp j + 1 + k)) 0 st.z), ?_, rfl, rfl, ?_, ?_, ?_⟩
  · unfold simplicial_column
    simp only [hnjdef, if_pos hgt, hV, Option.map_some']
  · intro t ht
    simp only []
    rw [store_other _ _ _ _ (fun e => by
      have := hinj (Lp j + 1 + t) (by omega) (by omega) (Lp j) (le_refl _) (by omega) e
      omega), hs1 t ht]
  · simp only []
    rw [store_same]
  · intro p hp
    simp only []
    rw [store_other _ _ _ _ (hp (Lp j) (le_refl _) (by omega)),
      hs2 p (fun iz hiz => hp (Lp j + 1 + iz) (by omega) (by omega))]


/-- One iteration of the column loop on a well-formed factor with a fill-closed pattern: it
returns, the matrix `V` it leaves is the one it gathered, the values it leaves in the slots of
the column are those it computed, and no other slot changes. -/
theorem simplicial_column_spec (n : Nat) (Lp Li perm : Nat → Nat) (Lx : Nat → ℚ) (fuel : Nat)
    (wf : SimplicialWF n Lp Li) (hfill : SimplicialFillClosed n Lp Li) (hfuel : Lp n < fuel)
    (j : Nat) (hj : j < n)
    (hinj : ∀ k, Lp j ≤ k → k < Lp (j + 1) → ∀ k', Lp j ≤ k' → k' < Lp (j + 1) →
      perm k = perm k' → k = k')
    (st : SimplicialState) :
    ∃ st', simplicial_column Lp Li perm Lx fuel j st = some st' ∧
      (Lp (j + 1) = Lp j + 1 → st'.Xx (perm (Lp j)) = 1 / Lx (Lp j)) ∧
      (Lp j + 1 < Lp (j + 1) →
        simplicial_gather Lp Li perm st.Xx (Lp j) (Lp (j + 1) - 1 - Lp j) fuel st.V
          = some st'.V ∧
        st'.z = cblas_dsymv (Lp (j + 1) - 1 - Lp j) 1 st'.V (Lp (j + 1) - 1 - Lp j)
          (fun k => Lx (Lp j + 1 + k)) 0 st.z ∧
        (∀ t, t < Lp (j + 1) - 1 - Lp j → st'.Xx (perm (Lp j + 1 + t)) = -(st'.z t)) ∧
        st'.Xx (perm (Lp j))
          = 1 / Lx (Lp j)
            + cblas_ddot (Lp (j + 1) - 1 - Lp j) st'.z (fun k => Lx (Lp j + 1 + k))) ∧
      ∀ p, (∀ k, Lp j ≤ k → k < Lp (j + 1) → p ≠ perm k) → st'.Xx p = st.Xx p := by
  have hne := wf.nonempty j hj
  by_cases hone : Lp (j + 1) = Lp j + 1
  · refine ⟨{ st with Xx := store st.Xx (perm (Lp j)) (1 / Lx (Lp j)) },
      simplicial_column_diagonal Lp Li perm Lx fuel j st hone, fun _ => store_same _ _ _,
      fun h => by omega, fun p hp => store_other _ _ _ _ (hp (Lp j) (le_refl _) hne)⟩
  · obtain ⟨_, _, hg⟩ := simplicial_gather_indices n Lp Li fuel wf hfill hfuel j hj
    obtain ⟨V', hV', _⟩ := hg perm st.Xx st.V
    obtain ⟨st', s1, s2, s3, s4, s5, s6⟩ := simplicial_column_stores Lp Li perm Lx fuel j st
      (by omega) V' hV' hinj
    refine ⟨st', s1, fun h => absurd h hone, fun _ => ⟨?_, ?_, s4, s5⟩, s6⟩
    · rw [s2]; exact hV'
    · rw [s3, s2]

/-- One iteration of the supernode loop on a well-formed factor with a fill-closed pattern: it
returns, the matrix `V` it leaves is the one it gathered, `Z` is the result of the kernel, the
value array is the result of the scatter, whose slots hold the entries of `Z`, and no other
slot changes. -/
theorem super_step_writes_spec (n nsuper : Nat) (Super Lpi Lpx Ls perm : Nat → Nat)
    (Lx : Nat → ℚ) (fuel : Nat) (wf : SuperWF n nsuper Super Lpi Lpx Ls)
    (hfill : SuperFillClosed n nsuper Super Lpi Ls) (hfuel : nsuper + n < fuel)
    (s : Nat) (hs : s < nsuper)
    (hinj : ∀ j, j < Super (s + 1) - Super s → ∀ i, j ≤ i → i < Lpi (s + 1) - Lpi s →
      ∀ j', j' < Super (s + 1) - Super s → ∀ i', j' ≤ i' → i' < Lpi (s + 1) - Lpi s →
      perm (Lpx s + i + j * (Lpi (s + 1) - Lpi s))
        = perm (Lpx s + i' + j' * (Lpi (s + 1) - Lpi s)) → i = i' ∧ j = j')
    (st : SuperState) :
    ∃ st', super_step Super Lpi Lpx Ls perm Lx fuel s st = some st' ∧
      super_gather Super Lpi Lpx Ls perm st.Xx s fuel st.V = some st'.V ∧
      st'.Z = spinv_block (fun k => Lx (Lpx s + k)) st.Z st'.V (Lpi (s + 1) - Lpi s)
        (Super (s + 1) - Super s) ∧
      st'.Xx = super_scatter Super Lpi Lpx perm st'.Z s st.Xx ∧
      (∀ j, j < Super (s + 1) - Super s → ∀ i, j ≤ i → i < Lpi (s + 1) - Lpi s →
        st'.Xx (perm (Lpx s + i + j * (Lpi (s + 1) - Lpi s)))
          = if i < Super (s + 1) - Super s
            then 1 / 2 * (st'.Z (i + j * (Lpi (s + 1) - Lpi s))
              + st'.Z (j + i * (Lpi (s + 1) - Lpi s)))
            else st'.Z (i + j * (Lpi (s + 1) - Lpi s))) ∧
      ∀ p, (∀ j, j < Super (s + 1) - Super s → ∀ i, j ≤ i → i < Lpi (s + 1) - Lpi s →
        p ≠ perm (Lpx s + i + j * (Lpi (s + 1) - Lpi s))) → st'.Xx p = st.Xx p := by
  obtain ⟨_, _, _, hg⟩ := super_gather_reads n nsuper Super Lpi Lpx Ls fuel wf hfill hfuel s hs
  obtain ⟨V', hV', _⟩ := hg perm st.Xx st.V
  obtain ⟨c1, c2⟩ := super_scatter_spec Super Lpi Lpx perm
    (spinv_block (fun k => Lx (Lpx s + k)) st.Z V' (Lpi (s + 1) - Lpi s)
      (Super (s + 1) - Super s)) s st.Xx (wf.rows s hs) hinj
  refine ⟨SuperState.mk
    (super_scatter Super Lpi Lpx perm
      (spinv_block (fun k => Lx (Lpx s + k)) st.Z V' (Lpi (s + 1) - Lpi s)
        (Super (s + 1) - Super s)) s st.Xx) V'
    (spinv_block (fun k => Lx (Lpx s + k)) st.Z V' (Lpi (s + 1) - Lpi s)
      (Super (s + 1) - Super s)), ?_, hV', rfl, rfl, c1, c2⟩
  unfold super_step
  simp only [hV', Option.map_some']

/-- The scatter assigns the value slots of the indices `super_step_writes` and no other: a slot
that is not `perm[kl]` for an index `kl` of the list keeps its value, and the slot of an index
of the list holds an entry of `Z` whatever it held before. -/
theorem super_scatter_writes (Super Lpi Lpx perm : Nat → Nat) (Z : Nat → ℚ) (s : Nat)
    (hnm : Super (s + 1) - Super s ≤ Lpi (s + 1) - Lpi s)
    (hinj : ∀ j, j < Super (s + 1) - Super s → ∀ i, j ≤ i → i < Lpi (s + 1) - Lpi s →
      ∀ j', j' < Super (s + 1) - Super s → ∀ i', j' ≤ i' → i' < Lpi (s + 1) - Lpi s →
      perm (Lpx s + i + j * (Lpi (s + 1) - Lpi s))
        = perm (Lpx s + i' + j' * (Lpi (s + 1) - Lpi s)) → i = i' ∧ j = j') :
    (∀ (Xx : Nat → ℚ) p, (∀ kl, kl ∈ super_step_writes Super Lpi Lpx s → p ≠ perm kl) →
      super_scatter Super Lpi Lpx perm Z s Xx p = Xx p) ∧
    (∀ kl, kl ∈ super_step_writes Super Lpi Lpx s → ∀ Xx Xx' : Nat → ℚ,
      super_scatter Super Lpi Lpx perm Z s Xx (perm kl)
        = super_scatter Super Lpi Lpx perm Z s Xx' (perm kl)) := by
  refine ⟨fun Xx p hp => ?_, fun kl hkl Xx Xx' => ?_⟩
  · exact (super_scatter_spec Super Lpi Lpx perm Z s Xx hnm hinj).2 p
      (fun j hj i hji hi => hp _ (mem_super_step_writes Super Lpi Lpx s i j hj hji hi))
  · obtain ⟨j, i, hj, hji, hi, rfl⟩ := super_step_writes_lower Super Lpi Lpx s hnm kl hkl
    rw [(super_scatter_spec Super Lpi Lpx perm Z s Xx hnm hinj).1 j hj i hji hi,
      (super_scatter_spec Super Lpi Lpx perm Z s Xx' hnm hinj).1 j hj i hji hi]

/-! ## Every slot read by a gather was written by an earlier iteration -/

/-- The run of the column loop of the simplicial driver: the states after its iterations, what
every iteration writes, and for every slot read by the gather of an iteration the earlier
iteration that wrote it. -/
theorem simplicial_run_reads (n : Nat) (Lp Li perm : Nat → Nat) (Lx : Nat → ℚ) (fuel : Nat)
    (wf : SimplicialWF n Lp Li) (hfill : SimplicialFillClosed n Lp Li) (hfuel : Lp n < fuel)
    (hinj : ∀ c, c < n → ∀ k, Lp c ≤ k → k < Lp (c + 1) → ∀ c', c' < n → ∀ k', Lp c' ≤ k' →
      k' < Lp (c' + 1) → perm k = perm k' → k = k')
    (st0 : SimplicialState) :
    ∃ S : Nat → SimplicialState, S 0 = st0 ∧
      (∀ d, d ≤ n → simplicial_numeric_steps n Lp Li perm Lx fuel st0 d = some (S d)) ∧
      simplicial_numeric n Lp Li perm Lx fuel st0 = some (S n) ∧
      ∀ jl, jl < n →
        simplicial_column Lp Li perm Lx fuel jl (S (n - 1 - jl)) = some (S (n - jl)) ∧
        (Lp (jl + 1) = Lp jl + 1 → (S (n - jl)).Xx (perm (Lp jl)) = 1 / Lx (Lp jl)) ∧
        (Lp jl + 1 < Lp (jl + 1) →
          (S (n - jl)).z = cblas_dsymv (Lp (jl + 1) - 1 - Lp jl) 1 (S (n - jl)).V (Lp (jl + 1) - 1 - Lp jl)
            (fun k => Lx (Lp jl + 1 + k)) 0 (S (n - 1 - jl)).z ∧
          (∀ t, t < Lp (jl + 1) - 1 - Lp jl →
            (S (n - jl)).Xx (perm (Lp jl + 1 + t)) = -((S (n - jl)).z t)) ∧
          (S (n - jl)).Xx (perm (Lp jl))
            = 1 / Lx (Lp jl)
              + cblas_ddot (Lp (jl + 1) - 1 - Lp jl) (S (n - jl)).z (fun k => Lx (Lp jl + 1 + k))) ∧
        (∀ p, (∀ k, Lp jl ≤ k → k < Lp (jl + 1) → p ≠ perm k) →
          (S (n - jl)).Xx p = (S (n - 1 - jl)).Xx p) ∧
        ∀ jz iz, jz ≤ iz → iz < Lp (jl + 1) - 1 - Lp jl →
          ∃ k, jl < Li (Lp jl + 1 + jz) ∧ Li (Lp jl + 1 + jz) < n ∧
            Lp (Li (Lp jl + 1 + jz)) ≤ k ∧ k < Lp (Li (Lp jl + 1 + jz) + 1) ∧
            Li k = Li (Lp jl + 1 + iz) ∧
            (∀ (Xx V : Nat → ℚ), ∃ V',
              simplicial_gather Lp Li perm Xx (Lp jl) (Lp (jl + 1) - 1 - Lp jl) fuel V = some V' ∧
                V' (iz + jz * (Lp (jl + 1) - 1 - Lp jl)) = Xx (perm k)) ∧
            (S (n - jl)).V (iz + jz * (Lp (jl + 1) - 1 - Lp jl)) = (S (n - 1 - jl)).Xx (perm k) ∧
            (S (n - 1 - jl)).Xx (perm k) = (S (n - Li (Lp jl + 1 + jz))).Xx (perm k) := by
  obtain ⟨S, hS0, hS1, hS2, hS3⟩ := loopDownSteps_run n
    (fun jl => simplicial_column Lp Li perm Lx fuel jl) st0 (fun st => st.Xx)
    (fun c p => ∃ k, Lp c ≤ k ∧ k < Lp (c + 1) ∧ p = perm k)
    (fun i hi st => by
      obtain ⟨st', q1, _, _, q4⟩ := simplicial_column_spec n Lp Li perm Lx fuel wf hfill hfuel
        i hi (fun k k1 k2 k' k1' k2' e => hinj i hi k k1 k2 i hi k' k1' k2' e) st
      exact ⟨st', q1, fun p hp => q4 p (fun k k1 k2 e => hp ⟨k, k1, k2, e⟩)⟩)
    (fun i c hic hc p hp hp' => by
      obtain ⟨k, k1, k2, rfl⟩ := hp
      obtain ⟨k', k1', k2', e⟩ := hp'
      have := hinj c hc k k1 k2 i (by omega) k' k1' k2' e
      have := wf.Lp_mono (by omega : i + 1 ≤ c) (by omega)
      omega)
  refine ⟨S, hS0, hS1, ?_, fun jl hjl => ?_⟩
  · rw [simplicial_numeric_eq_steps]
    exact hS1 n (le_refl n)
  have hstep := hS2 (n - 1 - jl) (by omega)
  rw [show n - 1 - (n - 1 - jl) = jl by omega, show n - 1 - jl + 1 = n - jl by omega] at hstep
  obtain ⟨st', q1, q2, q3, q4⟩ := simplicial_column_spec n Lp Li perm Lx fuel wf hfill hfuel
    jl hjl (fun k k1 k2 k' k1' k2' e => hinj jl hjl k k1 k2 jl hjl k' k1' k2' e) (S (n - 1 - jl))
  have hst : st' = S (n - jl) := by
    rw [q1] at hstep
    exact Option.some.inj hstep
  subst hst
  obtain ⟨pos, hpos, hg⟩ := simplicial_gather_indices n Lp Li fuel wf hfill hfuel jl hjl
  refine ⟨q1, q2, fun h => ⟨(q3 h).2.1, (q3 h).2.2.1, (q3 h).2.2.2⟩, q4,
    fun jz iz hji hiz => ?_⟩
  obtain ⟨p1, p2, p3, p4, p5⟩ := hpos jz iz hji hiz
  have hmany : Lp jl + 1 < Lp (jl + 1) := by omega
  refine ⟨pos jz iz, p1, p2, p3, p4, p5, fun Xx V => ?_, ?_, ?_⟩
  · obtain ⟨V', hV', hval⟩ := hg perm Xx V
    exact ⟨V', hV', hval jz iz hji hiz⟩
  · obtain ⟨V', hV', hval⟩ := hg perm (S (n - 1 - jl)).Xx (S (n - 1 - jl)).V
    rw [(q3 hmany).1] at hV'
    rw [Option.some.inj hV']
    exact hval jz iz hji hiz
  · exact hS3 (Li (Lp jl + 1 + jz)) p2 (n - 1 - jl) (by omega) (by omega) _
      ⟨pos jz iz, p3, p4, rfl⟩

/-- The run of the supernode loop of the supernodal driver: the states after its iterations,
what the scatter of every iteration writes, and for every slot read by the gather of an
iteration the earlier iteration whose scatter wrote it. -/
theorem super_run_reads (n nsuper : Nat) (Super Lpi Lpx Ls perm : Nat → Nat) (Lx : Nat → ℚ)
    (fuel : Nat) (wf : SuperWF n nsuper Super Lpi Lpx Ls)
    (hfill : SuperFillClosed n nsuper Super Lpi Ls) (hfuel : nsuper + n < fuel)
    (hinj : ∀ s, s < nsuper → ∀ j, j < Super (s + 1) - Super s → ∀ i, j ≤ i →
      i < Lpi (s + 1) - Lpi s → ∀ s', s' < nsuper → ∀ j', j' < Super (s' + 1) - Super s' →
      ∀ i', j' ≤ i' → i' < Lpi (s' + 1) - Lpi s' →
      perm (Lpx s + i + j * (Lpi (s + 1) - Lpi s))
        = perm (Lpx s' + i' + j' * (Lpi (s' + 1) - Lpi s')) →
      s = s' ∧ i = i' ∧ j = j')
    (st0 : SuperState) :
    ∃ S : Nat → SuperState, S 0 = st0 ∧
      (∀ d, d ≤ nsuper →
        super_numeric_steps nsuper Super Lpi Lpx Ls perm Lx fuel st0 d = some (S d)) ∧
      super_numeric nsuper Super Lpi Lpx Ls perm Lx fuel st0 = some (S nsuper) ∧
      ∀ s, s < nsuper →
        super_step Super Lpi Lpx Ls perm Lx fuel s (S (nsuper - 1 - s)) = some (S (nsuper - s)) ∧
        (S (nsuper - s)).Z = spinv_block (fun k => Lx (Lpx s + k)) (S (nsuper - 1 - s)).Z (S (nsuper - s)).V
          (Lpi (s + 1) - Lpi s) (Super (s + 1) - Super s) ∧
        (S (nsuper - s)).Xx = super_scatter Super Lpi Lpx perm (S (nsuper - s)).Z s (S (nsuper - 1 - s)).Xx ∧
        (∀ j, j < Super (s + 1) - Super s → ∀ i, j ≤ i → i < Lpi (s + 1) - Lpi s →
          (S (nsuper - s)).Xx (perm (Lpx s + i + j * (Lpi (s + 1) - Lpi s)))
            = if i < Super (s + 1) - Super s
              then 1 / 2 * ((S (nsuper - s)).Z (i + j * (Lpi (s + 1) - Lpi s))
                + (S (nsuper - s)).Z (j + i * (Lpi (s + 1) - Lpi s)))
              else (S (nsuper - s)).Z (i + j * (Lpi (s + 1) - Lpi s))) ∧
        (∀ p, (∀ j, j < Super (s + 1) - Super s → ∀ i, j ≤ i → i < Lpi (s + 1) - Lpi s →
            p ≠ perm (Lpx s + i + j * (Lpi (s + 1) - Lpi s))) →
          (S (nsuper - s)).Xx p = (S (nsuper - 1 - s)).Xx p) ∧
        ∀ j i, j ≤ i → i < (Lpi (s + 1) - Lpi s) - (Super (s + 1) - Super s) →
          ∃ scol il jl, s < scol ∧ scol < nsuper ∧
            jl < Super (scol + 1) - Super scol ∧ jl ≤ il ∧ il < Lpi (scol + 1) - Lpi scol ∧
            Super scol + jl = Ls (Lpi s + (Super (s + 1) - Super s) + j) ∧
            Ls (Lpi scol + il) = Ls (Lpi s + (Super (s + 1) - Super s) + i) ∧
            (∀ (Xx V : Nat → ℚ), ∃ V',
              super_gather Super Lpi Lpx Ls perm Xx s fuel V = some V' ∧
                V' (i + j * ((Lpi (s + 1) - Lpi s) - (Super (s + 1) - Super s))) = Xx (perm (Lpx scol + il + jl * (Lpi (scol + 1) - Lpi scol)))) ∧
            (S (nsuper - s)).V (i + j * ((Lpi (s + 1) - Lpi s) - (Super (s + 1) - Super s))) = (S (nsuper - 1 - s)).Xx (perm (Lpx scol + il + jl * (Lpi (scol + 1) - Lpi scol))) ∧
            (S (nsuper - 1 - s)).Xx (perm (Lpx scol + il + jl * (Lpi (scol + 1) - Lpi scol)))
              = (S (nsuper - scol)).Xx (perm (Lpx scol + il + jl * (Lpi (scol + 1) - Lpi scol))) := by
  have hinjs : ∀ s, s < nsuper → ∀ j, j < Super (s + 1) - Super s → ∀ i, j ≤ i →
      i < Lpi (s + 1) - Lpi s → ∀ j', j' < Super (s + 1) - Super s → ∀ i', j' ≤ i' →
      i' < Lpi (s + 1) - Lpi s →
      perm (Lpx s + i + j * (Lpi (s + 1) - Lpi s))
        = perm (Lpx s + i' + j' * (Lpi (s + 1) - Lpi s)) → i = i' ∧ j = j' :=
    fun s hs j hj i hji hi j' hj' i' hji' hi' e =>
      (hinj s hs j hj i hji hi s hs j' hj' i' hji' hi' e).2
  obtain ⟨S, hS0, hS1, hS2, hS3⟩ := loopDownSteps_run nsuper
    (fun s => super_step Super Lpi Lpx Ls perm Lx fuel s) st0 (fun st => st.Xx)
    (fun c p => ∃ j i, j < Super (c + 1) - Super c ∧ j ≤ i ∧ i < Lpi (c + 1) - Lpi c ∧
      p = perm (Lpx c + i + j * (Lpi (c + 1) - Lpi c)))
    (fun s hs st => by
      obtain ⟨st', q1, _, _, _, _, q6⟩ := super_step_writes_spec n nsuper Super Lpi Lpx Ls perm
        Lx fuel wf hfill hfuel s hs (hinjs s hs) st
      exact ⟨st', q1, fun p hp => q6 p (fun j hj i hji hi e => hp ⟨j, i, hj, hji, hi, e⟩)⟩)
    (fun a c hac hc p hp hp' => by
      obtain ⟨j, i, hj, hji, hi, rfl⟩ := hp
      obtain ⟨j', i', hj', hji', hi', e⟩ := hp'
      have := (hinj c hc j hj i hji hi a (by omega) j' hj' i' hji' hi' e).1
      omega)
  refine ⟨S, hS0, hS1, ?_, fun s hs => ?_⟩
  · rw [super_numeric_eq_steps]
    exact hS1 nsuper (le_refl nsuper)
  have hstep := hS2 (nsuper - 1 - s) (by omega)
  rw [show nsuper - 1 - (nsuper - 1 - s) = s by omega,
    show nsuper - 1 - s + 1 = nsuper - s by omega] at hstep
  obtain ⟨st', q1, q2, q3, q4, q5, q6⟩ := super_step_writes_spec n nsuper Super Lpi Lpx Ls perm
    Lx fuel wf hfill hfuel s hs (hinjs s hs) (S (nsuper - 1 - s))
  have hst : st' = S (nsuper - s) := by
    rw [q1] at hstep
    exact Option.some.inj hstep
  subst hst
  obtain ⟨sc, pos, hpos, hg⟩ := super_gather_indices n nsuper Super Lpi Lpx Ls fuel wf hfill
    hfuel s hs
  refine ⟨q1, q3, q4, q5, q6, fun j i hji hi => ?_⟩
  obtain ⟨p1, p2, p3, p4, p5, p6, p7⟩ := hpos j i hji hi
  refine ⟨sc j, pos j i, Ls (Lpi s + (Super (s + 1) - Super s) + j) - Super (sc j),
    p1, p2, p3, p4, p5, p7, p6, fun Xx V => ?_, ?_, ?_⟩
  · obtain ⟨V', hV', hval⟩ := hg perm Xx V
    exact ⟨V', hV', hval j i hji hi⟩
  · obtain ⟨V', hV', hval⟩ := hg perm (S (nsuper - 1 - s)).Xx (S (nsuper - 1 - s)).V
    rw [q2] at hV'
    rw [Option.some.inj hV']
    exact hval j i hji hi
  · exact hS3 (sc j) p2 (nsuper - 1 - s) (by omega) (by omega) _
      ⟨_, pos j i, p3, p4, p5, rfl⟩

/-! ## The index of the dense workspace in machine integers -/

/-- Without overflow the index evaluated in `Int` is the exact one. -/
theorem V_index_exact (w iz jz nj : Nat) (hiz : iz < nj) (hjz : jz < nj)
    (hw : nj * nj ≤ 2 ^ (w - 1)) : V_index w iz jz nj = some (iz + jz * nj) := by
  have h1 : iz + jz * nj < nj * nj := panel_index_lt hiz hjz
  have h2 : jz * nj ≤ iz + jz * nj := Nat.le_add_left _ _
  unfold V_index
  rw [if_pos (by omega), if_pos (by omega)]

/-- Without overflow the gather with the index evaluated in `Int` is the gather with the exact
index. -/
theorem simplicial_gather_machine_eq (w : Nat) (Lp Li perm : Nat → Nat) (Xx : Nat → ℚ)
    (kmin nj fuel : Nat) (V : Nat → ℚ) (hw : nj * nj ≤ 2 ^ (w - 1)) :
    simplicial_gather_machine w Lp Li perm Xx kmin nj fuel V
      = simplicial_gather Lp Li perm Xx kmin nj fuel V := by
  unfold simplicial_gather_machine simplicial_gather
  refine loopUp_congr _ _ _ _ (fun jz hjz x => ?_)
  cases x with
  | none => rfl
  | some V0 =>
    show Option.map Prod.snd (loopUp _ _ _) = Option.map Prod.snd (loopUp _ _ _)
    congr 1
    refine loopUp_congr _ _ _ _ (fun t ht y => ?_)
    cases y with
    | none => rfl
    | some st =>
      show Option.bind (scan Li _ fuel st.1) _ = Option.map _ (scan Li _ fuel st.1)
      rw [V_index_exact w (jz + t) jz nj (by omega) hjz hw]
      cases scan Li (Li (kmin + 1 + (jz + t))) fuel st.1 <;> rfl

/-! ## The full lower triangle -/

theorem triangle_Lp_lt (N : Nat) {a b : Nat} (hab : a < b) (hb : b ≤ N) :
    triangle_Lp N a < triangle_Lp N b := by
  induction b with
  | zero => omega
  | succ m ih =>
    have hstep : triangle_Lp N (m + 1) = triangle_Lp N m + (N - m) := rfl
    by_cases h : a = m
    · subst h; omega
    · have := ih (by omega) (by omega)
      omega

theorem triangle_Lp_le (N : Nat) {a b : Nat} (hab : a ≤ b) (hb : b ≤ N) :
    triangle_Lp N a ≤ triangle_Lp N b := by
  by_cases h : a = b
  · subst h; exact le_refl _
  · exact Nat.le_of_lt (triangle_Lp_lt N (by omega) hb)

/-- The row index at the place `t` of column `j`. -/
theorem triangle_Li_eq (N j t : Nat) (hj : j < N) (ht : t < N - j) :
    triangle_Li N (triangle_Lp N j + t) = j + t := by
  have hstep : triangle_Lp N (j + 1) = triangle_Lp N j + (N - j) := rfl
  have hfilter : ((Finset.range N).filter fun c => triangle_Lp N (c + 1) ≤ triangle_Lp N j + t)
      = Finset.range j := by
    ext c
    simp only [Finset.mem_filter, Finset.mem_range]
    constructor
    · rintro ⟨hc, hle⟩
      by_contra hcon
      have := triangle_Lp_le N (by omega : j + 1 ≤ c + 1) (by omega)
      omega
    · intro hc
      have := triangle_Lp_le N (by omega : c + 1 ≤ j) (by omega)
      exact ⟨by omega, by omega⟩
  unfold triangle_Li
  rw [hfilter, Finset.card_range]
  omega

theorem triangle_wf (N : Nat) : SimplicialWF N (triangle_Lp N) (triangle_Li N) where
  nonempty := fun j hj => triangle_Lp_lt N (Nat.lt_succ_self j) hj
  diag := fun j hj => by
    have := triangle_Li_eq N j 0 hj (by omega)
    rw [Nat.add_zero, Nat.add_zero] at this
    exact this
  asc := fun j hj k h1 h2 => by
    have hstep : triangle_Lp N (j + 1) = triangle_Lp N j + (N - j) := rfl
    have e1 := triangle_Li_eq N j (k - triangle_Lp N j) hj (by omega)
    have e2 := triangle_Li_eq N j (k + 1 - triangle_Lp N j) hj (by omega)
    rw [show triangle_Lp N j + (k - triangle_Lp N j) = k by omega] at e1
    rw [show triangle_Lp N j + (k + 1 - triangle_Lp N j) = k + 1 by omega] at e2
    omega
  bound := fun j hj k h1 h2 => by
    have hstep : triangle_Lp N (j + 1) = triangle_Lp N j + (N - j) := rfl
    have e1 := triangle_Li_eq N j (k - triangle_Lp N j) hj (by omega)
    rw [show triangle_Lp N j + (k - triangle_Lp N j) = k by omega] at e1
    omega

theorem triangle_fill_closed (N : Nat) :
    SimplicialFillClosed N (triangle_Lp N) (triangle_Li N) := by
  rintro j hj i k ⟨q1, a1, a2, rfl⟩ ⟨q2, b1, b2, rfl⟩ hjk hki
  have hi := (triangle_wf N).bound j hj q1 a1 a2
  have hk := (triangle_wf N).bound j hj q2 b1 b2
  refine ⟨triangle_Lp N (triangle_Li N q2) + (triangle_Li N q1 - triangle_Li N q2),
    Nat.le_add_right _ _, ?_, ?_⟩
  · have hstep : triangle_Lp N (triangle_Li N q2 + 1)
        = triangle_Lp N (triangle_Li N q2) + (N - triangle_Li N q2) := rfl
    omega
  · rw [triangle_Li_eq N _ _ hk (by omega)]
    omega

/-! ## The claims -/

/-- C4: for `n ≤ m` and a panel `L` whose leading block `L1` (read through its lower triangle)
has a nonzero diagonal, and any buffer `V` read as a symmetric matrix through its lower
triangle, the block `Z = [Z1; Z2]` left by `spinv_block` satisfies `Z2 * L1 + V * L2 = 0` and
`Z1 * L1 + Z2ᵀ * L2 = (L1ᵀ)⁻¹`. -/
theorem spinv_block_equations (L Z V : Nat → ℚ) (m n : Nat) (hn : 1 ≤ n) (hnm : n ≤ m)
    (hd : ∀ i, i < n → L (i + i * m) ≠ 0) :
    matView (spinv_block L Z V m n) n m (m - n) n * lowerView L m n
        + symView V (m - n) (m - n) * matView L n m (m - n) n = 0 ∧
    matView (spinv_block L Z V m n) 0 m n n * lowerView L m n
        + (matView (spinv_block L Z V m n) n m (m - n) n).transpose * matView L n m (m - n) n
      = ((lowerView L m n).transpose)⁻¹ := by
  have _ := hn
  obtain ⟨h1, h2⟩ := spinv_block_matrix L Z V m n hnm hd
  exact ⟨h1, (Matrix.inv_eq_right_inv h2).symm⟩

theorem spinv_block_equations_witness :
    (1 ≤ 1 ∧ 1 ≤ 2 ∧ ∀ i, i < 1 → (fun k => [(2 : ℚ), 1].getD k 0) (i + i * 2) ≠ 0) ∧
    (matView (spinv_block (fun k => [(2 : ℚ), 1].getD k 0) (fun _ => 0)
          (fun k => [(3 : ℚ)].getD k 0) 2 1) 1 2 (2 - 1) 1
        * lowerView (fun k => [(2 : ℚ), 1].getD k 0) 2 1
        + symView (fun k => [(3 : ℚ)].getD k 0) (2 - 1) (2 - 1)
          * matView (fun k => [(2 : ℚ), 1].getD k 0) 1 2 (2 - 1) 1 = 0 ∧
      matView (spinv_block (fun k => [(2 : ℚ), 1].getD k 0) (fun _ => 0)
          (fun k => [(3 : ℚ)].getD k 0) 2 1) 0 2 1 1
        * lowerView (fun k => [(2 : ℚ), 1].getD k 0) 2 1
        + (matView (spinv_block (fun k => [(2 : ℚ), 1].getD k 0) (fun _ => 0)
          (fun k => [(3 : ℚ)].getD k 0) 2 1) 1 2 (2 - 1) 1).transpose
          * matView (fun k => [(2 : ℚ), 1].getD k 0) 1 2 (2 - 1) 1
        = ((lowerView (fun k => [(2 : ℚ), 1].getD k 0) 2 1).transpose)⁻¹) :=
  have hd : ∀ i, i < 1 → (fun k => [(2 : ℚ), 1].getD k 0) (i + i * 2) ≠ 0 := by
    intro i hi
    have : i = 0 := by omega
    subst this
    norm_num
  ⟨⟨le_refl 1, by decide, hd⟩,
    spinv_block_equations (fun k => [(2 : ℚ), 1].getD k 0) (fun _ => 0)
      (fun k => [(3 : ℚ)].getD k 0) 2 1 (le_refl 1) (by decide) hd⟩

/-- C5, as stated, fails: for the 2×1 panel `L1 = [1]`, `L2 = [1]` and `V = [1]` the buffer
after steps 1 and 2 does not hold `Z2 = -V L2` together with `Z1 = I - L2ᵀ V L2`
(it holds `Z1 = 2`, not `0`). -/
theorem products_minus_counterexample :
    ¬ (matView (spinv_block_products (fun _ => 1) (fun _ => 0) (fun _ => 1) 2 1) 1 2 (2 - 1) 1
          = -(symView (fun _ => 1) (2 - 1) (2 - 1) * matView (fun _ => 1) 1 2 (2 - 1) 1) ∧
        matView (spinv_block_products (fun _ => 1) (fun _ => 0) (fun _ => 1) 2 1) 0 2 1 1
          = 1 - (matView (fun _ => 1) 1 2 (2 - 1) 1).transpose
              * symView (fun _ => 1) (2 - 1) (2 - 1) * matView (fun _ => 1) 1 2 (2 - 1) 1) := by
  rintro ⟨_, h⟩
  have h00 := congrFun (congrFun h 0) 0
  simp [matView, spinv_block_products, loopUp, store, cblas_dsymm, cblas_dgemm, symLower,
    symView, Matrix.mul_apply] at h00

/-- C5 (amended): for `n < m`, after the identity initialisation, the symmetric product and the
general product of `spinv_block`, the blocks are `Z2 = -V L2` and `Z1 = I + L2ᵀ V L2`, where
`V` is the symmetric matrix read through the lower triangle of the buffer. -/
theorem products_blocks (L Z V : Nat → ℚ) (m n : Nat) (hnm : n < m) :
    matView (spinv_block_products L Z V m n) n m (m - n) n
        = -(symView V (m - n) (m - n) * matView L n m (m - n) n) ∧
    matView (spinv_block_products L Z V m n) 0 m n n
        = 1 + (matView L n m (m - n) n).transpose * symView V (m - n) (m - n)
            * matView L n m (m - n) n :=
  spinv_block_products_matrix L Z V m n (Nat.le_of_lt hnm)

theorem products_blocks_witness :
    1 < 2 ∧
    (matView (spinv_block_products (fun _ => 1) (fun _ => 0) (fun _ => 1) 2 1) 1 2 (2 - 1) 1
        = -(symView (fun _ => 1) (2 - 1) (2 - 1) * matView (fun _ => 1) 1 2 (2 - 1) 1) ∧
      matView (spinv_block_products (fun _ => 1) (fun _ => 0) (fun _ => 1) 2 1) 0 2 1 1
        = 1 + (matView (fun _ => 1) 1 2 (2 - 1) 1).transpose
            * symView (fun _ => 1) (2 - 1) (2 - 1) * matView (fun _ => 1) 1 2 (2 - 1) 1) :=
  ⟨by decide, products_blocks (fun _ => 1) (fun _ => 0) (fun _ => 1) 2 1 (by decide)⟩

/-- C6: with `m = n` and a nonzero diagonal of `L1`, `spinv_block` is the two triangular solves
applied to the identity (the symmetric update is skipped and `V` does not occur), its result
does not depend on `V`, and it is `(L1ᵀ)⁻¹ * L1⁻¹`, the inverse of `L1 * L1ᵀ`. -/
theorem spinv_block_square (L Z V V' : Nat → ℚ) (n : Nat)
    (hd : ∀ i, i < n → L (i + i * n) ≠ 0) :
    spinv_block L Z V n n
      = cblas_dtrsm_right n n 1 L n
          (cblas_dtrsm_left n n 1 L n
            (loopUp n (fun i Z => loopUp n (fun j Z =>
              store Z (i + j * n) (if i = j then 1 else 0)) Z) Z) 0 n) 0 n ∧
    spinv_block L Z V n n = spinv_block L Z V' n n ∧
    matView (spinv_block L Z V n n) 0 n n n
      = ((lowerView L n n).transpose)⁻¹ * (lowerView L n n)⁻¹ ∧
    matView (spinv_block L Z V n n) 0 n n n
      = (lowerView L n n * (lowerView L n n).transpose)⁻¹ := by
  refine ⟨spinv_block_square_eq L Z V n, ?_, spinv_block_square_matrix L Z V n hd, ?_⟩
  · rw [spinv_block_square_eq L Z V n, spinv_block_square_eq L Z V' n]
  · rw [Matrix.mul_inv_rev]
    exact spinv_block_square_matrix L Z V n hd

theorem spinv_block_square_witness :
    (∀ i, i < 1 → (fun _ => (2 : ℚ)) (i + i * 1) ≠ 0) ∧
    (spinv_block (fun _ => 2) (fun _ => 0) (fun _ => 5) 1 1
      = cblas_dtrsm_right 1 1 1 (fun _ => 2) 1
          (cblas_dtrsm_left 1 1 1 (fun _ => 2) 1
            (loopUp 1 (fun i Z => loopUp 1 (fun j Z =>
              store Z (i + j * 1) (if i = j then 1 else 0)) Z) (fun _ => 0)) 0 1) 0 1 ∧
    spinv_block (fun _ => 2) (fun _ => 0) (fun _ => 5) 1 1
      = spinv_block (fun _ => 2) (fun _ => 0) (fun _ => 7) 1 1 ∧
    matView (spinv_block (fun _ => 2) (fun _ => 0) (fun _ => 5) 1 1) 0 1 1 1
      = ((lowerView (fun _ => 2) 1 1).transpose)⁻¹ * (lowerView (fun _ => 2) 1 1)⁻¹ ∧
    matView (spinv_block (fun _ => 2) (fun _ => 0) (fun _ => 5) 1 1) 0 1 1 1
      = (lowerView (fun _ => 2) 1 1 * (lowerView (fun _ => 2) 1 1).transpose)⁻¹) :=
  ⟨fun _ _ => by norm_num,
    spinv_block_square (fun _ => 2) (fun _ => 0) (fun _ => 5) (fun _ => 7) 1
      (fun _ _ => by norm_num)⟩

/-- C7: for a simplicial factor in LLᵗ form that passes the validation of the dispatcher, with
every allocation of the driver succeeding, `spinv` returns `NULL` and the context holds the
status `CHOLMOD_INVALID`, which is negative. -/
theorem spinv_ll_simplicial_fails (ITYPE : Int) (L : cholmod_factor) (Common : cholmod_common)
    (a : Allocator) (h : Fresh) (fuel : Nat) (hit : Common.itype = ITYPE)
    (hv : xtype_invalid L CHOLMOD_REAL CHOLMOD_ZOMPLEX = false) (hs : L.is_super = false)
    (hll : L.is_ll = true) (ha : a.simplicial_ok) :
    spinv ITYPE (some L) (some Common) a h fuel
        = some (none, some { Common with status := CHOLMOD_INVALID }) ∧
      CHOLMOD_INVALID < CHOLMOD_OK :=
  ⟨spinv_unsupported ITYPE L Common a h fuel hit hv hs (Or.inl hll) ha, by decide⟩

theorem spinv_ll_simplicial_fails_witness :
    ((⟨0, 0⟩ : cholmod_common).itype = 0 ∧
      xtype_invalid tridiagonal_ll_factor CHOLMOD_REAL CHOLMOD_ZOMPLEX = false ∧
      tridiagonal_ll_factor.is_super = false ∧ tridiagonal_ll_factor.is_ll = true ∧
      alloc_ok.simplicial_ok) ∧
    (spinv 0 (some tridiagonal_ll_factor) (some ⟨0, 0⟩) alloc_ok fresh_junk 8
        = some (none, some { (⟨0, 0⟩ : cholmod_common) with status := CHOLMOD_INVALID }) ∧
      CHOLMOD_INVALID < CHOLMOD_OK) :=
  ⟨⟨rfl, by decide, rfl, rfl, ⟨rfl, rfl, rfl, rfl, rfl⟩⟩,
    spinv_ll_simplicial_fails 0 tridiagonal_ll_factor ⟨0, 0⟩ alloc_ok fresh_junk 8 rfl
      (by decide) rfl rfl ⟨rfl, rfl, rfl, rfl, rfl⟩⟩

/-- C8 (the code at the failing input): for the supernodal 1×1 factor of complex type, with every
allocation succeeding, `spinv` does not return `NULL` and leaves the status `CHOLMOD_OK`. -/
theorem spinv_super_complex_accepted :
    returned_null (spinv 0 (some complex_super_factor) (some ⟨0, 0⟩) alloc_ok fresh_junk 1)
        = false ∧
      returned_status (spinv 0 (some complex_super_factor) (some ⟨0, 0⟩) alloc_ok fresh_junk 1)
        = some CHOLMOD_OK := by
  constructor <;> rfl

/-- C9, as stated, fails: the status recorded for the unsupported LLᵗ form in the simplicial
path is not different from the status recorded for a missing factor. -/
theorem fault_status_counterexample :
    ¬ (returned_status (spinv 0 (some tridiagonal_ll_factor) (some ⟨0, 0⟩) alloc_ok fresh_junk 8)
        ≠ returned_status (spinv 0 none (some ⟨0, 0⟩) alloc_ok fresh_junk 8)) := by
  intro h
  exact h rfl

/-- C9 (amended): the unsupported-type faults of the simplicial path (LLᵗ form, complex or
zomplex type) and the invalid-argument faults (missing factor, mismatched integer width,
invalid numeric type) are all recorded as the one status `CHOLMOD_INVALID`, which differs from
`CHOLMOD_OUT_OF_MEMORY`. -/
theorem fault_status_values (ITYPE : Int) (L : cholmod_factor) (Common : cholmod_common)
    (a : Allocator) (h : Fresh) (fuel : Nat) (hit : Common.itype = ITYPE)
    (hv : xtype_invalid L CHOLMOD_REAL CHOLMOD_ZOMPLEX = false) (hs : L.is_super = false)
    (hun : L.is_ll = true ∨ L.xtype = CHOLMOD_COMPLEX ∨ L.xtype = CHOLMOD_ZOMPLEX)
    (ha : a.simplicial_ok) (hentry : Common.status ≠ CHOLMOD_OUT_OF_MEMORY) :
    returned_status (spinv ITYPE (some L) (some Common) a h fuel) = some CHOLMOD_INVALID ∧
    returned_status (spinv ITYPE none (some Common) a h fuel) = some CHOLMOD_INVALID ∧
    (∀ C : cholmod_common, C.itype ≠ ITYPE →
      returned_status (spinv ITYPE (some L) (some C) a h fuel) = some CHOLMOD_INVALID) ∧
    (∀ L' : cholmod_factor, xtype_invalid L' CHOLMOD_REAL CHOLMOD_ZOMPLEX = true →
      returned_status (spinv ITYPE (some L') (some Common) a h fuel) = some CHOLMOD_INVALID) ∧
    CHOLMOD_INVALID ≠ CHOLMOD_OUT_OF_MEMORY := by
  refine ⟨?_, ?_, ?_, ?_, by decide⟩
  · rw [spinv_unsupported ITYPE L Common a h fuel hit hv hs hun ha]
    rfl
  · simp [spinv, hit, hentry, returned_status, cholmod_error]
  · intro C hC
    simp [spinv, hC, returned_status]
  · intro L' hL'
    simp [spinv, hit, hL', hentry, returned_status, cholmod_error]

theorem fault_status_values_witness :
    ((⟨0, 0⟩ : cholmod_common).itype = 0 ∧
      xtype_invalid tridiagonal_ll_factor CHOLMOD_REAL CHOLMOD_ZOMPLEX = false ∧
      tridiagonal_ll_factor.is_super = false ∧
      (tridiagonal_ll_factor.is_ll = true ∨ tridiagonal_ll_factor.xtype = CHOLMOD_COMPLEX ∨
        tridiagonal_ll_factor.xtype = CHOLMOD_ZOMPLEX) ∧
      alloc_ok.simplicial_ok ∧ (⟨0, 0⟩ : cholmod_common).status ≠ CHOLMOD_OUT_OF_MEMORY) ∧
    (returned_status (spinv 0 (some tridiagonal_ll_factor) (some ⟨0, 0⟩) alloc_ok fresh_junk 8)
        = some CHOLMOD_INVALID ∧
      returned_status (spinv 0 none (some ⟨0, 0⟩) alloc_ok fresh_junk 8) = some CHOLMOD_INVALID ∧
      (∀ C : cholmod_common, C.itype ≠ 0 →
        returned_status (spinv 0 (some tridiagonal_ll_factor) (some C) alloc_ok fresh_junk 8)
          = some CHOLMOD_INVALID) ∧
      (∀ L' : cholmod_factor, xtype_invalid L' CHOLMOD_REAL CHOLMOD_ZOMPLEX = true →
        returned_status (spinv 0 (some L') (some ⟨0, 0⟩) alloc_ok fresh_junk 8)
          = some CHOLMOD_INVALID) ∧
      CHOLMOD_INVALID ≠ CHOLMOD_OUT_OF_MEMORY) :=
  ⟨⟨rfl, by decide, rfl, Or.inl rfl, ⟨rfl, rfl, rfl, rfl, rfl⟩, by decide⟩,
    fault_status_values 0 tridiagonal_ll_factor ⟨0, 0⟩ alloc_ok fresh_junk 8 rfl (by decide) rfl
      (Or.inl rfl) ⟨rfl, rfl, rfl, rfl, rfl⟩ (by decide)⟩

/-- C3: for a well-formed factor of either layout with `Perm` absent or a permutation of
`0 .. n-1`, the positions stored in the result after the pattern pass are, up to their order,
exactly the positions `(max (Perm i) (Perm j), min (Perm i) (Perm j))` of the stored
lower-triangular factor entries `(i, j)`; no position is stored twice, and every stored row
index is at least its column index. -/
theorem pattern_positions (L : cholmod_factor) (h : Fresh) (hp : PermOK L.n L.Perm)
    (wf : FactorWF L) :
    (positions L.n (factor_pattern L h).Xp (factor_pattern L h).Xi).Perm
        ((factor_entries L).map fun e =>
          (max (PERM L.Perm e.il) (PERM L.Perm e.jl),
            min (PERM L.Perm e.il) (PERM L.Perm e.jl))) ∧
      (positions L.n (factor_pattern L h).Xp (factor_pattern L h).Xi).Nodup ∧
      ∀ q, q ∈ positions L.n (factor_pattern L h).Xp (factor_pattern L h).Xi → q.2 ≤ q.1 := by
  obtain ⟨h1, h2⟩ := factor_positions L h hp wf
  refine ⟨h1, h1.nodup_iff.mpr h2, fun q hq => ?_⟩
  obtain ⟨e, _, rfl⟩ := List.mem_map.mp (h1.subset hq)
  exact le_trans (Nat.min_le_left _ _) (Nat.le_max_left _ _)

theorem pattern_positions_witness :
    (PermOK tridiagonal_perm_factor.n tridiagonal_perm_factor.Perm ∧
      FactorWF tridiagonal_perm_factor) ∧
    ((positions tridiagonal_perm_factor.n (factor_pattern tridiagonal_perm_factor fresh_junk).Xp
        (factor_pattern tridiagonal_perm_factor fresh_junk).Xi).Perm
        ((factor_entries tridiagonal_perm_factor).map fun e =>
          (max (PERM tridiagonal_perm_factor.Perm e.il) (PERM tridiagonal_perm_factor.Perm e.jl),
            min (PERM tridiagonal_perm_factor.Perm e.il)
              (PERM tridiagonal_perm_factor.Perm e.jl))) ∧
      (positions tridiagonal_perm_factor.n (factor_pattern tridiagonal_perm_factor fresh_junk).Xp
        (factor_pattern tridiagonal_perm_factor fresh_junk).Xi).Nodup ∧
      ∀ q, q ∈ positions tridiagonal_perm_factor.n
          (factor_pattern tridiagonal_perm_factor fresh_junk).Xp
          (factor_pattern tridiagonal_perm_factor fresh_junk).Xi → q.2 ≤ q.1) :=
  ⟨⟨tridiagonal_perm_ok, tridiagonal_perm_factor_wf⟩,
    pattern_positions tridiagonal_perm_factor fresh_junk tridiagonal_perm_ok
      tridiagonal_perm_factor_wf⟩

/-- C10: for a diagonal factor of order `n` with nonzero diagonal values (a simplicial LDLᵗ
factor with one entry per column, or a supernodal LLᵗ factor with one-column, one-row
supernodes) and `Perm` absent or a permutation, `spinv` returns a matrix whose stored
positions are exactly the `n` diagonal positions and whose value at `(Perm j, Perm j)` is
`1 / d_j` for the LDLᵗ factor and `1 / l_j²` for the LLᵗ factor. -/
theorem diagonal_factor_inverse (ITYPE : Int) (L : cholmod_factor) (Common : cholmod_common)
    (a : Allocator) (h : Fresh) (fuel : Nat) (hit : Common.itype = ITYPE)
    (hv : xtype_invalid L CHOLMOD_REAL CHOLMOD_ZOMPLEX = false) (hx : L.xtype = CHOLMOD_REAL)
    (hd : DiagonalFactor L) (hp : PermOK L.n L.Perm)
    (ha : if L.is_super then a.super_ok else a.simplicial_ok) (hsort : a.sort = true) :
    ∃ X, spinv ITYPE (some L) (some Common) a h fuel
          = some (some X, some { Common with status := CHOLMOD_OK }) ∧
      X.nrow = L.n ∧ X.ncol = L.n ∧ (∀ c, c ≤ L.n → X.p c = c) ∧
      positions L.n X.p X.i = ((List.range L.n).map fun c => (c, c)) ∧
      ∀ j, j < L.n → X.i (PERM L.Perm j) = PERM L.Perm j ∧
        X.x (PERM L.Perm j) = if L.is_super then 1 / (L.x (L.px j)) ^ 2 else 1 / L.x (L.p j) := by
  unfold DiagonalFactor at hd
  by_cases hs : L.is_super = true
  · rw [if_pos hs] at hd ha
    exact spinv_diagonal_super ITYPE L Common a h fuel hit hv hs hd hp ha hsort
  · rw [if_neg hs] at hd ha
    exact spinv_diagonal_simplicial ITYPE L Common a h fuel hit hv hx (by simpa using hs)
      hd.1 hd.2 hp ha hsort

theorem diagonal_factor_inverse_witness :
    ((⟨0, 0⟩ : cholmod_common).itype = 0 ∧
      xtype_invalid one_by_one_factor CHOLMOD_REAL CHOLMOD_ZOMPLEX = false ∧
      one_by_one_factor.xtype = CHOLMOD_REAL ∧ DiagonalFactor one_by_one_factor ∧
      PermOK one_by_one_factor.n one_by_one_factor.Perm ∧
      (if one_by_one_factor.is_super then alloc_ok.super_ok else alloc_ok.simplicial_ok) ∧
      alloc_ok.sort = true) ∧
    (∃ X, spinv 0 (some one_by_one_factor) (some ⟨0, 0⟩) alloc_ok fresh_junk 0
          = some (some X, some { (⟨0, 0⟩ : cholmod_common) with status := CHOLMOD_OK }) ∧
      X.nrow = one_by_one_factor.n ∧ X.ncol = one_by_one_factor.n ∧
      (∀ c, c ≤ one_by_one_factor.n → X.p c = c) ∧
      positions one_by_one_factor.n X.p X.i
        = ((List.range one_by_one_factor.n).map fun c => (c, c)) ∧
      ∀ j, j < one_by_one_factor.n →
        X.i (PERM one_by_one_factor.Perm j) = PERM one_by_one_factor.Perm j ∧
        X.x (PERM one_by_one_factor.Perm j)
          = if one_by_one_factor.is_super then
              1 / (one_by_one_factor.x (one_by_one_factor.px j)) ^ 2
            else 1 / one_by_one_factor.x (one_by_one_factor.p j)) ∧
    (∃ X, spinv 0 (some one_by_one_super_factor) (some ⟨0, 0⟩) alloc_ok fresh_junk 0
          = some (some X, some { (⟨0, 0⟩ : cholmod_common) with status := CHOLMOD_OK }) ∧
      X.nrow = one_by_one_super_factor.n ∧ X.ncol = one_by_one_super_factor.n ∧
      (∀ c, c ≤ one_by_one_super_factor.n → X.p c = c) ∧
      positions one_by_one_super_factor.n X.p X.i
        = ((List.range one_by_one_super_factor.n).map fun c => (c, c)) ∧
      ∀ j, j < one_by_one_super_factor.n →
        X.i (PERM one_by_one_super_factor.Perm j) = PERM one_by_one_super_factor.Perm j ∧
        X.x (PERM one_by_one_super_factor.Perm j)
          = if one_by_one_super_factor.is_super then
              1 / (one_by_one_super_factor.x (one_by_one_super_factor.px j)) ^ 2
            else 1 / one_by_one_super_factor.x (one_by_one_super_factor.p j)) :=
  ⟨⟨rfl, by decide, rfl, one_by_one_diagonal, permOK_none 1, ⟨rfl, rfl, rfl, rfl, rfl⟩, rfl⟩,
    diagonal_factor_inverse 0 one_by_one_factor ⟨0, 0⟩ alloc_ok fresh_junk 0 rfl (by decide) rfl
      one_by_one_diagonal (permOK_none 1) ⟨rfl, rfl, rfl, rfl, rfl⟩ rfl,
    diagonal_factor_inverse 0 one_by_one_super_factor ⟨0, 0⟩ alloc_ok fresh_junk 0 rfl
      (by decide) rfl one_by_one_super_diagonal (permOK_none 1)
      ⟨rfl, rfl, rfl, rfl, rfl, rfl⟩ rfl⟩

/-- C1: for a real simplicial LDLᵗ factor whose columns hold the diagonal first and strictly
ascending rows, with nonzero `D`, a fill-closed pattern and `Perm` absent or a permutation
`σ`, the numeric pass of `spinv_simplicial` (given enough fuel for its scans) ends with the
value `inv(A)[σ i, σ j]` in the slot `perm[k]` of every stored factor entry `k = (i, j)`, for
the matrix `A` with `A[σ i, σ j] = (L D Lᵗ)[i, j]`. -/
theorem simplicial_inverse_entries (L : cholmod_factor) (h : Fresh) (fuel : Nat)
    (wf : SimplicialWF L.n L.p L.i) (hfill : SimplicialFillClosed L.n L.p L.i)
    (hD : ∀ j, j < L.n → L.x (L.p j) ≠ 0) (hfuel : L.p L.n < fuel)
    (σ : Equiv.Perm (Fin L.n)) (hσ : ∀ i : Fin L.n, ((σ i : Fin L.n) : Nat) = PERM L.Perm i)
    (A : Matrix (Fin L.n) (Fin L.n) ℚ)
    (hA : ∀ i j, A (σ i) (σ j)
      = (simplicial_L L.n L.p L.i L.x * simplicial_D L.n L.p L.x
          * (simplicial_L L.n L.p L.i L.x).transpose) i j) :
    ∃ Xx, simplicial_values L h fuel = some Xx ∧
      ∀ (j : Fin L.n) (k : Nat), L.p j ≤ k → k < L.p (j + 1) →
        ∃ hi : L.i k < L.n,
          Xx ((simplicial_pattern L h).perm k) = A⁻¹ (σ ⟨L.i k, hi⟩) (σ j) := by
  obtain ⟨Xx, hXx, hval⟩ := simplicial_values_spec L h fuel wf hfill hD
    (permOK_of_equiv L.n L.Perm σ hσ) hfuel
  refine ⟨Xx, hXx, fun j k hk1 hk2 => ?_⟩
  have hi := wf.bound j j.2 k hk1 hk2
  refine ⟨hi, ?_⟩
  rw [hval j j.2 k hk1 hk2, natEntry_of_lt _ _ _ hi j.2, inv_of_permuted L.n σ A _ hA]

theorem simplicial_inverse_entries_witness :
    (SimplicialWF tridiagonal_factor.n tridiagonal_factor.p tridiagonal_factor.i ∧
      SimplicialFillClosed tridiagonal_factor.n tridiagonal_factor.p tridiagonal_factor.i ∧
      (∀ j, j < tridiagonal_factor.n → tridiagonal_factor.x (tridiagonal_factor.p j) ≠ 0) ∧
      tridiagonal_factor.p tridiagonal_factor.n < 6 ∧
      (∀ i : Fin tridiagonal_factor.n,
        ((Equiv.refl (Fin tridiagonal_factor.n) i : Fin tridiagonal_factor.n) : Nat)
          = PERM tridiagonal_factor.Perm i)) ∧
    ∃ Xx, simplicial_values tridiagonal_factor fresh_junk 6 = some Xx ∧
      ∀ (j : Fin tridiagonal_factor.n) (k : Nat), tridiagonal_factor.p j ≤ k →
        k < tridiagonal_factor.p (j + 1) →
        ∃ hi : tridiagonal_factor.i k < tridiagonal_factor.n,
          Xx ((simplicial_pattern tridiagonal_factor fresh_junk).perm k)
            = (simplicial_L tridiagonal_factor.n tridiagonal_factor.p tridiagonal_factor.i
                tridiagonal_factor.x
              * simplicial_D tridiagonal_factor.n tridiagonal_factor.p tridiagonal_factor.x
              * (simplicial_L tridiagonal_factor.n tridiagonal_factor.p tridiagonal_factor.i
                tridiagonal_factor.x).transpose)⁻¹
                (Equiv.refl (Fin tridiagonal_factor.n) ⟨tridiagonal_factor.i k, hi⟩)
                (Equiv.refl (Fin tridiagonal_factor.n) j) :=
  ⟨⟨tridiagonal_wf, tridiagonal_fill_closed, tridiagonal_diag_ne_zero, by decide,
      fun _ => rfl⟩,
    simplicial_inverse_entries tridiagonal_factor fresh_junk 6 tridiagonal_wf
      tridiagonal_fill_closed tridiagonal_diag_ne_zero (by decide) (Equiv.refl _)
      (fun _ => rfl) _ (fun _ _ => rfl)⟩


/-- C2: for a real supernodal LLᵗ factor whose supernodes partition the columns into
consecutive ranges, whose row lists are strictly ascending and begin with the own columns of
the supernode, with nonzero diagonal values, a fill-closed pattern and `Perm` absent or a
permutation `σ`, the numeric pass of `spinv_super` (given enough fuel for its scans, the
workspaces being unbounded arrays) ends with the value `inv(A)[σ row, σ col]` in the slot
`perm[kl]` of every stored entry `kl = Lpx[s] + i + j*ms`, `j ≤ i`, with row `Ls[psi0+i]` and
column `Super[s]+j`, for the matrix `A` with `A[σ i, σ j] = (L Lᵗ)[i, j]`. -/
theorem super_inverse_entries (L : cholmod_factor) (h : Fresh) (fuel : Nat)
    (wf : SuperWF L.n L.nsuper L.super L.pi L.px L.s)
    (hfill : SuperFillClosed L.n L.nsuper L.super L.pi L.s)
    (hnz : ∀ s, s < L.nsuper → ∀ j, j < L.super (s + 1) - L.super s →
      L.x (L.px s + j + j * (L.pi (s + 1) - L.pi s)) ≠ 0)
    (hfuel : L.nsuper + L.n < fuel)
    (σ : Equiv.Perm (Fin L.n)) (hσ : ∀ i : Fin L.n, ((σ i : Fin L.n) : Nat) = PERM L.Perm i)
    (A : Matrix (Fin L.n) (Fin L.n) ℚ)
    (hA : ∀ i j, A (σ i) (σ j)
      = (super_L L.n L.nsuper L.super L.pi L.px L.s L.x
          * (super_L L.n L.nsuper L.super L.pi L.px L.s L.x).transpose) i j) :
    ∃ Xx, super_values L h fuel = some Xx ∧
      ∀ s, s < L.nsuper → ∀ j, j < L.super (s + 1) - L.super s → ∀ i, j ≤ i →
        i < L.pi (s + 1) - L.pi s →
        ∃ (hr : L.s (L.pi s + i) < L.n) (hc : L.super s + j < L.n),
          Xx ((super_pattern L h).perm (L.px s + i + j * (L.pi (s + 1) - L.pi s)))
            = A⁻¹ (σ ⟨L.s (L.pi s + i), hr⟩) (σ ⟨L.super s + j, hc⟩) := by
  obtain ⟨Xx, hXx, hval⟩ := super_values_spec L h fuel wf hfill hnz
    (permOK_of_equiv L.n L.Perm σ hσ) hfuel
  refine ⟨Xx, hXx, fun s hs j hj i hji hi => ?_⟩
  have hr := wf.bound s hs i hi
  have hc := wf.col_lt hs hj
  refine ⟨hr, hc, ?_⟩
  rw [hval s hs j hj i hji hi, natEntry_of_lt _ _ _ hr hc, inv_of_permuted L.n σ A _ hA]

theorem super_inverse_entries_witness :
    (SuperWF two_supernode_factor.n two_supernode_factor.nsuper two_supernode_factor.super
        two_supernode_factor.pi two_supernode_factor.px two_supernode_factor.s ∧
      SuperFillClosed two_supernode_factor.n two_supernode_factor.nsuper
        two_supernode_factor.super two_supernode_factor.pi two_supernode_factor.s ∧
      (∀ s, s < two_supernode_factor.nsuper →
        ∀ j, j < two_supernode_factor.super (s + 1) - two_supernode_factor.super s →
        two_supernode_factor.x (two_supernode_factor.px s + j
          + j * (two_supernode_factor.pi (s + 1) - two_supernode_factor.pi s)) ≠ 0) ∧
      two_supernode_factor.nsuper + two_supernode_factor.n < 6 ∧
      (∀ i : Fin two_supernode_factor.n,
        ((Equiv.refl (Fin two_supernode_factor.n) i : Fin two_supernode_factor.n) : Nat)
          = PERM two_supernode_factor.Perm i)) ∧
    ∃ Xx, super_values two_supernode_factor fresh_junk 6 = some Xx ∧
      ∀ s, s < two_supernode_factor.nsuper →
        ∀ j, j < two_supernode_factor.super (s + 1) - two_supernode_factor.super s →
        ∀ i, j ≤ i → i < two_supernode_factor.pi (s + 1) - two_supernode_factor.pi s →
        ∃ (hr : two_supernode_factor.s (two_supernode_factor.pi s + i)
            < two_supernode_factor.n)
          (hc : two_supernode_factor.super s + j < two_supernode_factor.n),
          Xx ((super_pattern two_supernode_factor fresh_junk).perm
              (two_supernode_factor.px s + i
                + j * (two_supernode_factor.pi (s + 1) - two_supernode_factor.pi s)))
            = (super_L two_supernode_factor.n two_supernode_factor.nsuper
                two_supernode_factor.super two_supernode_factor.pi two_supernode_factor.px
                two_supernode_factor.s two_supernode_factor.x
              * (super_L two_supernode_factor.n two_supernode_factor.nsuper
                two_supernode_factor.super two_supernode_factor.pi two_supernode_factor.px
                two_supernode_factor.s two_supernode_factor.x).transpose)⁻¹
                (Equiv.refl (Fin two_supernode_factor.n)
                  ⟨two_supernode_factor.s (two_supernode_factor.pi s + i), hr⟩)
                (Equiv.refl (Fin two_supernode_factor.n)
                  ⟨two_supernode_factor.super s + j, hc⟩) :=
  ⟨⟨two_supernode_wf, two_supernode_fill_closed, two_supernode_diag_ne_zero, by decide,
      fun _ => rfl⟩,
    super_inverse_entries two_supernode_factor fresh_junk 6 two_supernode_wf
      two_supernode_fill_closed two_supernode_diag_ne_zero (by decide) (Equiv.refl _)
      (fun _ => rfl) _ (fun _ _ => rfl)⟩

/-- C11: for the simplicial LDLᵗ factor of order 3 with stored entries `(0,0)`, `(1,0)`,
`(1,1)`, `(2,1)`, `(2,2)`, no permutation, nonzero `D = (d0, d1, d2)` and the values `l10`,
`l21` below the diagonal, `spinv` (all allocations and the sort succeeding, fuel above 5)
returns a matrix whose stored positions are exactly those five, so `(2,0)` is not stored, with
the values `X22 = 1/d2`, `X21 = -l21/d2`, `X11 = 1/d1 + l21²/d2`, `X10 = -l10·X11`,
`X00 = 1/d0 + l10²·X11`, each of which is the entry of `inv(L D Lᵗ)` at its position. -/
theorem tridiagonal_inverse (ITYPE : Int) (Common : cholmod_common) (a : Allocator) (h : Fresh)
    (fuel : Nat) (d0 l10 d1 l21 d2 : ℚ) (hit : Common.itype = ITYPE) (hd0 : d0 ≠ 0)
    (hd1 : d1 ≠ 0) (hd2 : d2 ≠ 0) (ha : a.simplicial_ok) (hsort : a.sort = true)
    (hfuel : 5 < fuel) :
    ∃ X, spinv ITYPE (some (tridiagonal_ldl d0 l10 d1 l21 d2)) (some Common) a h fuel
          = some (some X, some { Common with status := CHOLMOD_OK }) ∧
      X.ncol = 3 ∧
      positions 3 X.p X.i = [(0, 0), (1, 0), (1, 1), (2, 1), (2, 2)] ∧
      (2, 0) ∉ positions 3 X.p X.i ∧
      X.x 4 = 1 / d2 ∧ X.x 3 = -l21 / d2 ∧ X.x 2 = 1 / d1 + l21 ^ 2 / d2 ∧
      X.x 1 = -l10 * X.x 2 ∧ X.x 0 = 1 / d0 + l10 ^ 2 * X.x 2 ∧
      ∀ c, c < 3 → ∀ k, X.p c ≤ k → k < X.p (c + 1) →
        X.x k = natEntry
          (simplicial_L 3 (arrN [0, 2, 4, 5]) (arrN [0, 1, 1, 2, 2])
              (arrQ [d0, l10, d1, l21, d2])
            * simplicial_D 3 (arrN [0, 2, 4, 5]) (arrQ [d0, l10, d1, l21, d2])
            * (simplicial_L 3 (arrN [0, 2, 4, 5]) (arrN [0, 1, 1, 2, 2])
              (arrQ [d0, l10, d1, l21, d2])).transpose)⁻¹ (X.i k) c := by
  have hD := tridiagonal_ldl_diag_ne_zero d0 l10 d1 l21 d2 hd0 hd1 hd2
  obtain ⟨Xx, hXx, hval⟩ := simplicial_values_spec (tridiagonal_ldl d0 l10 d1 l21 d2) h fuel
    tridiagonal_wf tridiagonal_fill_closed hD (permOK_none 3) hfuel
  obtain ⟨hsym, hlow, hdiag⟩ := simplicial_takahashi 3 (arrN [0, 2, 4, 5])
    (arrN [0, 1, 1, 2, 2]) (arrQ [d0, l10, d1, l21, d2]) tridiagonal_wf hD
  obtain ⟨h22, h21, h11, h10, h00⟩ := tridiagonal_ldl_entries d0 l10 d1 l21 d2 hd0 hd1 hd2 _
    hsym hlow hdiag
  obtain ⟨hXp, hXi, hperm, hpos⟩ := tridiagonal_ldl_pattern d0 l10 d1 l21 d2 h
  -- the values in terms of slots
  have hslot : ∀ c, c < 3 → ∀ k, arrN [0, 2, 4, 5] c ≤ k → k < arrN [0, 2, 4, 5] (c + 1) →
      Xx k = natEntry
          (simplicial_L 3 (arrN [0, 2, 4, 5]) (arrN [0, 1, 1, 2, 2])
              (arrQ [d0, l10, d1, l21, d2])
            * simplicial_D 3 (arrN [0, 2, 4, 5]) (arrQ [d0, l10, d1, l21, d2])
            * (simplicial_L 3 (arrN [0, 2, 4, 5]) (arrN [0, 1, 1, 2, 2])
              (arrQ [d0, l10, d1, l21, d2])).transpose)⁻¹ (arrN [0, 1, 1, 2, 2] k) c := by
    intro c hc k hk1 hk2
    have hk5 : k < 5 := by
      have : arrN [0, 2, 4, 5] (c + 1) ≤ 5 := by interval_cases c <;> decide
      omega
    have := hval c hc k hk1 hk2
    rw [hperm k hk5] at this
    exact this
  have hsorted : cholmod_sort
      { simplicial_result (tridiagonal_ldl d0 l10 d1 l21 d2) h Xx with stype := -1 }
      = { simplicial_result (tridiagonal_ldl d0 l10 d1 l21 d2) h Xx with
          stype := -1, sorted := true } := by
    refine cholmod_sort_sorted _ (fun j hj t u htu hu => ?_)
    have hj' : j < 3 := hj
    show (simplicial_pattern (tridiagonal_ldl d0 l10 d1 l21 d2) h).Xi
        ((simplicial_pattern (tridiagonal_ldl d0 l10 d1 l21 d2) h).Xp j + t)
      ≤ (simplicial_pattern (tridiagonal_ldl d0 l10 d1 l21 d2) h).Xi
        ((simplicial_pattern (tridiagonal_ldl d0 l10 d1 l21 d2) h).Xp j + u)
    have hu' : u < (simplicial_pattern (tridiagonal_ldl d0 l10 d1 l21 d2) h).Xp (j + 1)
        - (simplicial_pattern (tridiagonal_ldl d0 l10 d1 l21 d2) h).Xp j := hu
    rw [hXp j (by omega)]
    rw [hXp j (by omega), hXp (j + 1) (by omega)] at hu'
    have hb : arrN [0, 2, 4, 5] j + u < 5 := by
      interval_cases j <;> simp [arrN] at hu' ⊢ <;> omega
    rw [hXi _ hb, hXi _ (by omega)]
    have hu2 : u < 2 := by interval_cases j <;> simp [arrN] at hu' <;> omega
    interval_cases j <;> interval_cases u <;> interval_cases t <;>
      first | decide | simp [arrN] at hu'
  refine ⟨{ simplicial_result (tridiagonal_ldl d0 l10 d1 l21 d2) h Xx with
      stype := -1, sorted := true }, ?_, rfl, hpos, ?_, ?_⟩
  · rw [spinv_dispatch_simplicial ITYPE (tridiagonal_ldl d0 l10 d1 l21 d2) Common a h fuel hit
        rfl rfl,
      spinv_simplicial_real _ _ a h fuel rfl rfl rfl ha, hXx, hsort]
    simp only [Option.map_some']
    rw [cleanup_ok _ _ rfl, hsorted]
  · show (2, 0) ∉ positions 3 (simplicial_pattern (tridiagonal_ldl d0 l10 d1 l21 d2) h).Xp
      (simplicial_pattern (tridiagonal_ldl d0 l10 d1 l21 d2) h).Xi
    rw [hpos]
    decide
  · have x4 : Xx 4 = 1 / d2 := (hslot 2 (by decide) 4 (by decide) (by decide)).trans h22
    have x3 : Xx 3 = -l21 / d2 := (hslot 1 (by decide) 3 (by decide) (by decide)).trans h21
    have x2 : Xx 2 = 1 / d1 + l21 ^ 2 / d2 :=
      (hslot 1 (by decide) 2 (by decide) (by decide)).trans h11
    have x1 : Xx 1 = -l10 * (1 / d1 + l21 ^ 2 / d2) :=
      (hslot 0 (by decide) 1 (by decide) (by decide)).trans h10
    have x0 : Xx 0 = 1 / d0 + l10 ^ 2 * (1 / d1 + l21 ^ 2 / d2) :=
      (hslot 0 (by decide) 0 (by decide) (by decide)).trans h00
    refine ⟨x4, x3, x2, ?_, ?_, ?_⟩
    · show Xx 1 = -l10 * Xx 2
      rw [x1, x2]
    · show Xx 0 = 1 / d0 + l10 ^ 2 * Xx 2
      rw [x0, x2]
    · intro c hc k hk1 hk2
      have hk1' : (simplicial_pattern (tridiagonal_ldl d0 l10 d1 l21 d2) h).Xp c ≤ k := hk1
      have hk2' : k < (simplicial_pattern (tridiagonal_ldl d0 l10 d1 l21 d2) h).Xp (c + 1) :=
        hk2
      rw [hXp c (by omega)] at hk1'
      rw [hXp (c + 1) (by omega)] at hk2'
      have hk5 : k < 5 := by
        have : arrN [0, 2, 4, 5] (c + 1) ≤ 5 := by interval_cases c <;> decide
        omega
      show Xx k = natEntry _
        ((simplicial_pattern (tridiagonal_ldl d0 l10 d1 l21 d2) h).Xi k) c
      rw [hXi k hk5]
      exact hslot c hc k hk1' hk2'

theorem tridiagonal_inverse_witness :
    ((⟨0, 0⟩ : cholmod_common).itype = 0 ∧ (2 : ℚ) ≠ 0 ∧ (3 : ℚ) ≠ 0 ∧ (5 : ℚ) ≠ 0 ∧
      alloc_ok.simplicial_ok ∧ alloc_ok.sort = true ∧ 5 < 6) ∧
    ∃ X, spinv 0 (some (tridiagonal_ldl 2 (1 / 2) 3 (1 / 3) 5)) (some ⟨0, 0⟩) alloc_ok
          fresh_junk 6
          = some (some X, some { (⟨0, 0⟩ : cholmod_common) with status := CHOLMOD_OK }) ∧
      X.ncol = 3 ∧
      positions 3 X.p X.i = [(0, 0), (1, 0), (1, 1), (2, 1), (2, 2)] ∧
      (2, 0) ∉ positions 3 X.p X.i ∧
      X.x 4 = 1 / 5 ∧ X.x 3 = -(1 / 3) / 5 ∧ X.x 2 = 1 / 3 + (1 / 3) ^ 2 / 5 ∧
      X.x 1 = -(1 / 2) * X.x 2 ∧ X.x 0 = 1 / 2 + (1 / 2) ^ 2 * X.x 2 ∧
      ∀ c, c < 3 → ∀ k, X.p c ≤ k → k < X.p (c + 1) →
        X.x k = natEntry
          (simplicial_L 3 (arrN [0, 2, 4, 5]) (arrN [0, 1, 1, 2, 2])
              (arrQ [2, 1 / 2, 3, 1 / 3, 5])
            * simplicial_D 3 (arrN [0, 2, 4, 5]) (arrQ [2, 1 / 2, 3, 1 / 3, 5])
            * (simplicial_L 3 (arrN [0, 2, 4, 5]) (arrN [0, 1, 1, 2, 2])
              (arrQ [2, 1 / 2, 3, 1 / 3, 5])).transpose)⁻¹ (X.i k) c :=
  ⟨⟨rfl, by norm_num, by norm_num, by norm_num, ⟨rfl, rfl, rfl, rfl, rfl⟩, rfl, by decide⟩,
    tridiagonal_inverse 0 ⟨0, 0⟩ alloc_ok fresh_junk 6 2 (1 / 2) 3 (1 / 3) 5 rfl (by norm_num)
      (by norm_num) (by norm_num) ⟨rfl, rfl, rfl, rfl, rfl⟩ rfl (by decide)⟩

/-- C12, as stated, fails: a simplicial LLᵗ factor of order 0 passes validation, and `spinv`
returns `NULL` for it with the fault `CHOLMOD_INVALID`. -/
theorem empty_ll_counterexample :
    xtype_invalid empty_ll_factor CHOLMOD_REAL CHOLMOD_ZOMPLEX = false ∧
    empty_ll_factor.n = 0 ∧
    spinv 0 (some empty_ll_factor) (some ⟨0, 0⟩) alloc_ok fresh_junk 0
      = some (none, some ⟨CHOLMOD_INVALID, 0⟩) :=
  ⟨by decide, rfl, rfl⟩

/-- C12 (amended): for every well-formed factor of order 0 that passes validation and is
supernodal or a real simplicial LDLᵗ factor, when all allocations and the sort succeed, `spinv`
returns a matrix with 0 rows and columns, `Xp[0] = 0` and no stored position, and the status
on return is `CHOLMOD_OK`. -/
theorem empty_factor_result (ITYPE : Int) (L : cholmod_factor) (Common : cholmod_common)
    (a : Allocator) (h : Fresh) (fuel : Nat) (hit : Common.itype = ITYPE)
    (hv : xtype_invalid L CHOLMOD_REAL CHOLMOD_ZOMPLEX = false) (hn : L.n = 0)
    (hwf : FactorWF L)
    (hk : L.is_super = true ∨ (L.is_ll = false ∧ L.xtype = CHOLMOD_REAL))
    (ha : if L.is_super then a.super_ok else a.simplicial_ok) (hsort : a.sort = true) :
    ∃ X, spinv ITYPE (some L) (some Common) a h fuel
          = some (some X, some { Common with status := CHOLMOD_OK }) ∧
      X.nrow = 0 ∧ X.ncol = 0 ∧ X.p 0 = 0 ∧ positions X.ncol X.p X.i = [] := by
  by_cases hs : L.is_super = true
  · rw [if_pos hs] at ha
    unfold FactorWF at hwf
    rw [if_pos hs, hn] at hwf
    have hns := superWF_nsuper_zero hwf
    refine ⟨cholmod_sort { super_result L h h.Xx with stype := -1 }, ?_, hn, hn,
      super_pattern_empty L h hn hns, ?_⟩
    · rw [spinv_dispatch_super ITYPE L Common a h fuel hit hv hs,
        spinv_super_run L _ a h fuel rfl ha, super_values_empty L h fuel hns, hsort]
      simp only [Option.map_some']
      rw [cleanup_ok _ _ rfl]
    · show positions L.n _ _ = []
      rw [hn]
      rfl
  · rw [if_neg hs] at ha
    have hs' : L.is_super = false := by simpa using hs
    rcases hk with hk | ⟨hll, hx⟩
    · exact absurd hk hs
    refine ⟨cholmod_sort { simplicial_result L h h.Xx with stype := -1 }, ?_, hn, hn,
      simplicial_pattern_empty L h hn, ?_⟩
    · rw [spinv_dispatch_simplicial ITYPE L Common a h fuel hit hv hs',
        spinv_simplicial_real L _ a h fuel rfl hx hll ha, simplicial_values_empty L h fuel hn,
        hsort]
      simp only [Option.map_some']
      rw [cleanup_ok _ _ rfl]
    · show positions L.n _ _ = []
      rw [hn]
      rfl

theorem empty_factor_result_witness :
    (((⟨0, 0⟩ : cholmod_common).itype = 0 ∧
        xtype_invalid empty_ldl_factor CHOLMOD_REAL CHOLMOD_ZOMPLEX = false ∧
        empty_ldl_factor.n = 0 ∧ FactorWF empty_ldl_factor ∧
        (empty_ldl_factor.is_super = true ∨
          (empty_ldl_factor.is_ll = false ∧ empty_ldl_factor.xtype = CHOLMOD_REAL)) ∧
        (if empty_ldl_factor.is_super then alloc_ok.super_ok else alloc_ok.simplicial_ok) ∧
        alloc_ok.sort = true) ∧
      ∃ X, spinv 0 (some empty_ldl_factor) (some ⟨0, 0⟩) alloc_ok fresh_junk 0
            = some (some X, some { (⟨0, 0⟩ : cholmod_common) with status := CHOLMOD_OK }) ∧
        X.nrow = 0 ∧ X.ncol = 0 ∧ X.p 0 = 0 ∧ positions X.ncol X.p X.i = []) ∧
    ((xtype_invalid empty_super_factor CHOLMOD_REAL CHOLMOD_ZOMPLEX = false ∧
        empty_super_factor.n = 0 ∧ FactorWF empty_super_factor ∧
        (empty_super_factor.is_super = true ∨
          (empty_super_factor.is_ll = false ∧ empty_super_factor.xtype = CHOLMOD_REAL)) ∧
        (if empty_super_factor.is_super then alloc_ok.super_ok else alloc_ok.simplicial_ok)) ∧
      ∃ X, spinv 0 (some empty_super_factor) (some ⟨0, 0⟩) alloc_ok fresh_junk 0
            = some (some X, some { (⟨0, 0⟩ : cholmod_common) with status := CHOLMOD_OK }) ∧
        X.nrow = 0 ∧ X.ncol = 0 ∧ X.p 0 = 0 ∧ positions X.ncol X.p X.i = []) :=
  ⟨⟨⟨rfl, by decide, rfl, empty_ldl_wf, Or.inr ⟨rfl, rfl⟩, ⟨rfl, rfl, rfl, rfl, rfl⟩, rfl⟩,
      empty_factor_result 0 empty_ldl_factor ⟨0, 0⟩ alloc_ok fresh_junk 0 rfl (by decide) rfl
        empty_ldl_wf (Or.inr ⟨rfl, rfl⟩) ⟨rfl, rfl, rfl, rfl, rfl⟩ rfl⟩,
    ⟨⟨by decide, rfl, empty_super_wf, Or.inl rfl, ⟨rfl, rfl, rfl, rfl, rfl, rfl⟩⟩,
      empty_factor_result 0 empty_super_factor ⟨0, 0⟩ alloc_ok fresh_junk 0 rfl (by decide) rfl
        empty_super_wf (Or.inl rfl) ⟨rfl, rfl, rfl, rfl, rfl, rfl⟩ rfl⟩⟩

/-- C14: in both drivers, entered with a status that is not a fault, if one of the allocations
made before the numeric pass (the result, its reallocation, the column counter, the mapping
table, the dense workspaces) fails, the driver returns `NULL` with the status
`CHOLMOD_OUT_OF_MEMORY`, whatever the fuel and the factor values are, so without a numeric
pass; and whenever a driver returns, it returns a matrix if and only if the status on return
is not a fault. -/
theorem allocation_failure (L : cholmod_factor) (Common : cholmod_common) (a : Allocator)
    (h : Fresh) (fuel : Nat) (hst : CHOLMOD_OK ≤ Common.status) :
    (¬ a.simplicial_ok → spinv_simplicial L Common a h fuel
        = some (none, { Common with status := CHOLMOD_OUT_OF_MEMORY })) ∧
    (¬ a.super_ok → spinv_super L Common a h fuel
        = some (none, { Common with status := CHOLMOD_OUT_OF_MEMORY })) ∧
    (∀ r, spinv_simplicial L Common a h fuel = some r →
      (r.1.isSome ↔ CHOLMOD_OK ≤ r.2.status)) ∧
    (∀ r, spinv_super L Common a h fuel = some r →
      (r.1.isSome ↔ CHOLMOD_OK ≤ r.2.status)) := by
  refine ⟨spinv_simplicial_oom L Common a h fuel hst, spinv_super_oom L Common a h fuel hst,
    fun r hr => ?_, fun r hr => ?_⟩
  · obtain ⟨X, C, rfl⟩ := spinv_simplicial_cleanup L Common a h fuel r hr
    exact cleanup_returns_iff X C a.sort
  · obtain ⟨X, C, rfl⟩ := spinv_super_cleanup L Common a h fuel r hr
    exact cleanup_returns_iff X C a.sort

theorem allocation_failure_witness :
    CHOLMOD_OK ≤ (⟨0, 0⟩ : cholmod_common).status ∧
    ((¬ alloc_fail_V.simplicial_ok → spinv_simplicial tridiagonal_factor ⟨0, 0⟩ alloc_fail_V
          fresh_junk 0
        = some (none, { (⟨0, 0⟩ : cholmod_common) with status := CHOLMOD_OUT_OF_MEMORY })) ∧
    (¬ alloc_fail_V.super_ok → spinv_super tridiagonal_factor ⟨0, 0⟩ alloc_fail_V fresh_junk 0
        = some (none, { (⟨0, 0⟩ : cholmod_common) with status := CHOLMOD_OUT_OF_MEMORY })) ∧
    (∀ r, spinv_simplicial tridiagonal_factor ⟨0, 0⟩ alloc_fail_V fresh_junk 0 = some r →
      (r.1.isSome ↔ CHOLMOD_OK ≤ r.2.status)) ∧
    (∀ r, spinv_super tridiagonal_factor ⟨0, 0⟩ alloc_fail_V fresh_junk 0 = some r →
      (r.1.isSome ↔ CHOLMOD_OK ≤ r.2.status))) :=
  ⟨by decide, allocation_failure tridiagonal_factor ⟨0, 0⟩ alloc_fail_V fresh_junk 0
    (by decide)⟩

/-- C15, as stated, fails: for a simplicial LLᵗ factor and an allocator whose allocation of
the result fails, the simplicial driver reports `CHOLMOD_OUT_OF_MEMORY`, not the
unsupported-type fault. -/
theorem unsupported_immediate_counterexample :
    tridiagonal_ll_factor.is_ll = true ∧
    spinv_simplicial tridiagonal_ll_factor ⟨0, 0⟩ alloc_fail fresh_junk 8
      = some (none, ⟨CHOLMOD_OUT_OF_MEMORY, 0⟩) ∧
    CHOLMOD_OUT_OF_MEMORY ≠ CHOLMOD_INVALID :=
  ⟨rfl, rfl, by decide⟩

/-- C15 (amended): for a simplicial factor in LLᵗ form or of complex or zomplex type, the
simplicial driver raises the unsupported-type fault only after the result, the column counter,
the mapping table and the workspaces have been allocated: when these allocations succeed it
returns `NULL` with `CHOLMOD_INVALID` without a numeric pass, and when one of them fails it
returns `NULL` with `CHOLMOD_OUT_OF_MEMORY` instead. -/
theorem unsupported_after_allocation (L : cholmod_factor) (Common : cholmod_common)
    (a : Allocator) (h : Fresh) (fuel : Nat) (hst : Common.status = CHOLMOD_OK)
    (hx : L.xtype = CHOLMOD_REAL ∨ L.xtype = CHOLMOD_COMPLEX ∨ L.xtype = CHOLMOD_ZOMPLEX)
    (hun : L.is_ll = true ∨ L.xtype = CHOLMOD_COMPLEX ∨ L.xtype = CHOLMOD_ZOMPLEX) :
    (a.simplicial_ok → spinv_simplicial L Common a h fuel
        = some (none, { Common with status := CHOLMOD_INVALID })) ∧
    (¬ a.simplicial_ok → spinv_simplicial L Common a h fuel
        = some (none, { Common with status := CHOLMOD_OUT_OF_MEMORY })) :=
  ⟨fun ha => spinv_simplicial_unsupported L Common a h fuel hst hx hun ha,
    fun ha => spinv_simplicial_oom L Common a h fuel (by rw [hst]) ha⟩

theorem unsupported_after_allocation_witness :
    ((⟨0, 0⟩ : cholmod_common).status = CHOLMOD_OK ∧
      (tridiagonal_ll_factor.xtype = CHOLMOD_REAL ∨ tridiagonal_ll_factor.xtype = CHOLMOD_COMPLEX
        ∨ tridiagonal_ll_factor.xtype = CHOLMOD_ZOMPLEX) ∧
      (tridiagonal_ll_factor.is_ll = true ∨ tridiagonal_ll_factor.xtype = CHOLMOD_COMPLEX
        ∨ tridiagonal_ll_factor.xtype = CHOLMOD_ZOMPLEX)) ∧
    ((alloc_ok.simplicial_ok → spinv_simplicial tridiagonal_ll_factor ⟨0, 0⟩ alloc_ok
          fresh_junk 0
        = some (none, { (⟨0, 0⟩ : cholmod_common) with status := CHOLMOD_INVALID })) ∧
    (¬ alloc_ok.simplicial_ok → spinv_simplicial tridiagonal_ll_factor ⟨0, 0⟩ alloc_ok
          fresh_junk 0
        = some (none, { (⟨0, 0⟩ : cholmod_common) with status := CHOLMOD_OUT_OF_MEMORY }))) :=
  ⟨⟨rfl, Or.inl rfl, Or.inl rfl⟩,
    unsupported_after_allocation tridiagonal_ll_factor ⟨0, 0⟩ alloc_ok fresh_junk 0 rfl
      (Or.inl rfl) (Or.inl rfl)⟩

/-- C16: for a well-formed factor of either layout with `Perm` absent or a permutation, after
the pattern pass `Xp[0] = 0`, `Xp[jx+1] - Xp[jx]` is the number of stored factor entries
`(i, j)` with `min (Perm i, Perm j) = jx`, every stored entry `k = (i, j)` has
`Xp[jx] ≤ perm[k] < Xp[jx+1]` for `jx = min (Perm i, Perm j)` and
`Xi[perm[k]] = max (Perm i, Perm j)`, and `perm` is a bijection from the stored entries onto
the slots `0 .. Xp[n]-1`. -/
theorem mapping_table_bijection (L : cholmod_factor) (h : Fresh) (hp : PermOK L.n L.Perm)
    (wf : FactorWF L) :
    (factor_pattern L h).Xp 0 = 0 ∧
    (∀ jx, jx < L.n → (factor_pattern L h).Xp jx ≤ (factor_pattern L h).Xp (jx + 1) ∧
      (factor_pattern L h).Xp (jx + 1) - (factor_pattern L h).Xp jx
        = ((factor_entries L).filter fun e =>
            decide (min (PERM L.Perm e.il) (PERM L.Perm e.jl) = jx)).length) ∧
    (∀ e, e ∈ factor_entries L →
      (factor_pattern L h).Xp (min (PERM L.Perm e.il) (PERM L.Perm e.jl))
        ≤ (factor_pattern L h).perm e.kl ∧
      (factor_pattern L h).perm e.kl
        < (factor_pattern L h).Xp (min (PERM L.Perm e.il) (PERM L.Perm e.jl) + 1) ∧
      (factor_pattern L h).Xi ((factor_pattern L h).perm e.kl)
        = max (PERM L.Perm e.il) (PERM L.Perm e.jl) ∧
      (factor_pattern L h).perm e.kl < (factor_pattern L h).Xp L.n) ∧
    (∀ e, e ∈ factor_entries L → ∀ e', e' ∈ factor_entries L →
      (factor_pattern L h).perm e.kl = (factor_pattern L h).perm e'.kl → e = e') ∧
    (∀ q, q < (factor_pattern L h).Xp L.n →
      ∃ e, e ∈ factor_entries L ∧ (factor_pattern L h).perm e.kl = q) := by
  unfold FactorWF at wf
  unfold factor_pattern factor_entries
  by_cases hs : L.is_super = true
  · rw [if_pos hs] at wf ⊢
    rw [if_pos hs]
    obtain ⟨hXp, inv⟩ := super_pattern_inv L h wf hp
    exact mapping_table_spec L.Perm L.n _ _ _ _ hXp
      (super_key_lt L.n L.nsuper L.super L.pi L.px L.s L.Perm wf hp)
      (super_kl_nodup L.n L.nsuper L.super L.pi L.px L.s wf) inv
  · rw [if_neg hs] at wf ⊢
    rw [if_neg hs]
    obtain ⟨hXp, inv⟩ := simplicial_pattern_inv L h wf hp
    exact mapping_table_spec L.Perm L.n _ _ _ _ hXp
      (simplicial_key_lt L.n L.p L.i L.Perm hp)
      (simplicial_kl_nodup L.n L.p L.i wf) inv

theorem mapping_table_bijection_witness :
    (PermOK tridiagonal_perm_factor.n tridiagonal_perm_factor.Perm ∧
      FactorWF tridiagonal_perm_factor) ∧
    ((factor_pattern tridiagonal_perm_factor fresh_junk).Xp 0 = 0 ∧
    (∀ jx, jx < tridiagonal_perm_factor.n →
      (factor_pattern tridiagonal_perm_factor fresh_junk).Xp jx
        ≤ (factor_pattern tridiagonal_perm_factor fresh_junk).Xp (jx + 1) ∧
      (factor_pattern tridiagonal_perm_factor fresh_junk).Xp (jx + 1)
          - (factor_pattern tridiagonal_perm_factor fresh_junk).Xp jx
        = ((factor_entries tridiagonal_perm_factor).filter fun e =>
            decide (min (PERM tridiagonal_perm_factor.Perm e.il)
              (PERM tridiagonal_perm_factor.Perm e.jl) = jx)).length) ∧
    (∀ e, e ∈ factor_entries tridiagonal_perm_factor →
      (factor_pattern tridiagonal_perm_factor fresh_junk).Xp
          (min (PERM tridiagonal_perm_factor.Perm e.il)
            (PERM tridiagonal_perm_factor.Perm e.jl))
        ≤ (factor_pattern tridiagonal_perm_factor fresh_junk).perm e.kl ∧
      (factor_pattern tridiagonal_perm_factor fresh_junk).perm e.kl
        < (factor_pattern tridiagonal_perm_factor fresh_junk).Xp
            (min (PERM tridiagonal_perm_factor.Perm e.il)
              (PERM tridiagonal_perm_factor.Perm e.jl) + 1) ∧
      (factor_pattern tridiagonal_perm_factor fresh_junk).Xi
          ((factor_pattern tridiagonal_perm_factor fresh_junk).perm e.kl)
        = max (PERM tridiagonal_perm_factor.Perm e.il)
            (PERM tridiagonal_perm_factor.Perm e.jl) ∧
      (factor_pattern tridiagonal_perm_factor fresh_junk).perm e.kl
        < (factor_pattern tridiagonal_perm_factor fresh_junk).Xp tridiagonal_perm_factor.n) ∧
    (∀ e, e ∈ factor_entries tridiagonal_perm_factor →
      ∀ e', e' ∈ factor_entries tridiagonal_perm_factor →
      (factor_pattern tridiagonal_perm_factor fresh_junk).perm e.kl
        = (factor_pattern tridiagonal_perm_factor fresh_junk).perm e'.kl → e = e') ∧
    (∀ q, q < (factor_pattern tridiagonal_perm_factor fresh_junk).Xp tridiagonal_perm_factor.n →
      ∃ e, e ∈ factor_entries tridiagonal_perm_factor ∧
        (factor_pattern tridiagonal_perm_factor fresh_junk).perm e.kl = q)) :=
  ⟨⟨tridiagonal_perm_ok, tridiagonal_perm_factor_wf⟩,
    mapping_table_bijection tridiagonal_perm_factor fresh_junk tridiagonal_perm_ok
      tridiagonal_perm_factor_wf⟩

/-- C17: one iteration of the column loop of the simplicial driver for a column `j` of a
well-formed factor, with `perm` injective on the indices of the column and `pos jz iz` the
index of row `r_iz` in column `r_jz` (`r_1 < ... < r_k` the off-diagonal rows of column `j`,
`Lj` their values).  If `k = 0` the slot of `(j, j)` receives `1 / d_jj` and no other value slot
changes.  Otherwise, with `V[t, u]` the value of `Xx` before the iteration in the slot of the
pair `(r_t, r_u)` and `z = V·Lj`, the slot of `(r_t, j)` receives `-z[t]`, the slot of `(j, j)`
receives `1 / d_jj + dot (z, Lj)`, and no slot outside column `j` changes. -/
theorem simplicial_column_step (n : Nat) (Lp Li perm : Nat → Nat) (Lx : Nat → ℚ)
    (fuel : Nat) (wf : SimplicialWF n Lp Li) (hfuel : Lp n < fuel) (j : Nat) (hj : j < n)
    (hinj : ∀ k, Lp j ≤ k → k < Lp (j + 1) → ∀ k', Lp j ≤ k' → k' < Lp (j + 1) →
      perm k = perm k' → k = k')
    (st : SimplicialState) (pos : Nat → Nat → Nat)
    (hpos : ∀ jz iz, jz ≤ iz → iz < Lp (j + 1) - (Lp j + 1) →
      Lp (Li (Lp j + 1 + jz)) ≤ pos jz iz ∧ pos jz iz < Lp (Li (Lp j + 1 + jz) + 1) ∧
      Li (pos jz iz) = Li (Lp j + 1 + iz)) :
    ∃ st', simplicial_column Lp Li perm Lx fuel j st = some st' ∧
      (Lp (j + 1) - (Lp j + 1) = 0 → st'.Xx (perm (Lp j)) = 1 / Lx (Lp j) ∧
        ∀ p, p ≠ perm (Lp j) → st'.Xx p = st.Xx p) ∧
      (0 < Lp (j + 1) - (Lp j + 1) →
        (∀ t, t < Lp (j + 1) - (Lp j + 1) →
          st'.Xx (perm (Lp j + 1 + t))
            = -∑ u in range (Lp (j + 1) - (Lp j + 1)),
                (if u ≤ t then st.Xx (perm (pos u t)) else st.Xx (perm (pos t u)))
                  * Lx (Lp j + 1 + u)) ∧
        st'.Xx (perm (Lp j))
          = 1 / Lx (Lp j) + ∑ t in range (Lp (j + 1) - (Lp j + 1)),
              (∑ u in range (Lp (j + 1) - (Lp j + 1)),
                (if u ≤ t then st.Xx (perm (pos u t)) else st.Xx (perm (pos t u)))
                  * Lx (Lp j + 1 + u)) * Lx (Lp j + 1 + t) ∧
        ∀ p, (∀ k, Lp j ≤ k → k < Lp (j + 1) → p ≠ perm k) → st'.Xx p = st.Xx p) := by
  have hne := wf.nonempty j hj
  by_cases hone : Lp (j + 1) = Lp j + 1
  · refine ⟨{ st with Xx := store st.Xx (perm (Lp j)) (1 / Lx (Lp j)) },
      simplicial_column_diagonal Lp Li perm Lx fuel j st hone,
      fun _ => ⟨store_same _ _ _, fun p hp => store_other _ _ _ _ hp⟩, fun h => ?_⟩
    omega
  · obtain ⟨st', h1, h2, h3, h4⟩ := simplicial_column_values n Lp Li perm Lx fuel wf hfuel j hj
      hinj st (by omega) pos hpos
    exact ⟨st', h1, fun h => by omega, fun _ => ⟨h2, h3, h4⟩⟩

theorem simplicial_column_step_witness :
    (SimplicialWF 3 (arrN [0, 2, 4, 5]) (arrN [0, 1, 1, 2, 2]) ∧
      arrN [0, 2, 4, 5] 3 < 6 ∧ 1 < 3 ∧
      (∀ k, arrN [0, 2, 4, 5] 1 ≤ k → k < arrN [0, 2, 4, 5] (1 + 1) →
        ∀ k', arrN [0, 2, 4, 5] 1 ≤ k' → k' < arrN [0, 2, 4, 5] (1 + 1) →
        (fun q : Nat => q) k = (fun q : Nat => q) k' → k = k') ∧
      (∀ jz iz, jz ≤ iz → iz < arrN [0, 2, 4, 5] (1 + 1) - (arrN [0, 2, 4, 5] 1 + 1) →
        arrN [0, 2, 4, 5] (arrN [0, 1, 1, 2, 2] (arrN [0, 2, 4, 5] 1 + 1 + jz))
          ≤ (fun _ _ => 4) jz iz ∧
        (fun _ _ => 4) jz iz
          < arrN [0, 2, 4, 5] (arrN [0, 1, 1, 2, 2] (arrN [0, 2, 4, 5] 1 + 1 + jz) + 1) ∧
        arrN [0, 1, 1, 2, 2] ((fun _ _ => 4) jz iz)
          = arrN [0, 1, 1, 2, 2] (arrN [0, 2, 4, 5] 1 + 1 + iz))) ∧
    ∃ st', simplicial_column (arrN [0, 2, 4, 5]) (arrN [0, 1, 1, 2, 2]) (fun q => q)
          (arrQ [2, 1 / 2, 3, 1 / 3, 5]) 6 1 ⟨fun _ => 7, fun _ => 3, fun _ => 1⟩ = some st' ∧
      (arrN [0, 2, 4, 5] (1 + 1) - (arrN [0, 2, 4, 5] 1 + 1) = 0 →
        st'.Xx ((fun q : Nat => q) (arrN [0, 2, 4, 5] 1))
          = 1 / arrQ [2, 1 / 2, 3, 1 / 3, 5] (arrN [0, 2, 4, 5] 1) ∧
        ∀ p, p ≠ (fun q : Nat => q) (arrN [0, 2, 4, 5] 1) →
          st'.Xx p = (⟨fun _ => 7, fun _ => 3, fun _ => 1⟩ : SimplicialState).Xx p) ∧
      (0 < arrN [0, 2, 4, 5] (1 + 1) - (arrN [0, 2, 4, 5] 1 + 1) →
        (∀ t, t < arrN [0, 2, 4, 5] (1 + 1) - (arrN [0, 2, 4, 5] 1 + 1) →
          st'.Xx ((fun q : Nat => q) (arrN [0, 2, 4, 5] 1 + 1 + t))
            = -∑ u in range (arrN [0, 2, 4, 5] (1 + 1) - (arrN [0, 2, 4, 5] 1 + 1)),
                (if u ≤ t then
                    (⟨fun _ => 7, fun _ => 3, fun _ => 1⟩ : SimplicialState).Xx
                      ((fun q : Nat => q) ((fun _ _ => 4) u t))
                  else (⟨fun _ => 7, fun _ => 3, fun _ => 1⟩ : SimplicialState).Xx
                      ((fun q : Nat => q) ((fun _ _ => 4) t u)))
                  * arrQ [2, 1 / 2, 3, 1 / 3, 5] (arrN [0, 2, 4, 5] 1 + 1 + u)) ∧
        st'.Xx ((fun q : Nat => q) (arrN [0, 2, 4, 5] 1))
          = 1 / arrQ [2, 1 / 2, 3, 1 / 3, 5] (arrN [0, 2, 4, 5] 1)
            + ∑ t in range (arrN [0, 2, 4, 5] (1 + 1) - (arrN [0, 2, 4, 5] 1 + 1)),
              (∑ u in range (arrN [0, 2, 4, 5] (1 + 1) - (arrN [0, 2, 4, 5] 1 + 1)),
                (if u ≤ t then
                    (⟨fun _ => 7, fun _ => 3, fun _ => 1⟩ : SimplicialState).Xx
                      ((fun q : Nat => q) ((fun _ _ => 4) u t))
                  else (⟨fun _ => 7, fun _ => 3, fun _ => 1⟩ : SimplicialState).Xx
                      ((fun q : Nat => q) ((fun _ _ => 4) t u)))
                  * arrQ [2, 1 / 2, 3, 1 / 3, 5] (arrN [0, 2, 4, 5] 1 + 1 + u))
                * arrQ [2, 1 / 2, 3, 1 / 3, 5] (arrN [0, 2, 4, 5] 1 + 1 + t) ∧
        ∀ p, (∀ k, arrN [0, 2, 4, 5] 1 ≤ k → k < arrN [0, 2, 4, 5] (1 + 1) →
            p ≠ (fun q : Nat => q) k) →
          st'.Xx p = (⟨fun _ => 7, fun _ => 3, fun _ => 1⟩ : SimplicialState).Xx p) :=
  have hpos : ∀ jz iz, jz ≤ iz →
      iz < arrN [0, 2, 4, 5] (1 + 1) - (arrN [0, 2, 4, 5] 1 + 1) →
      arrN [0, 2, 4, 5] (arrN [0, 1, 1, 2, 2] (arrN [0, 2, 4, 5] 1 + 1 + jz))
        ≤ (fun _ _ => 4) jz iz ∧
      (fun _ _ => 4) jz iz
        < arrN [0, 2, 4, 5] (arrN [0, 1, 1, 2, 2] (arrN [0, 2, 4, 5] 1 + 1 + jz) + 1) ∧
      arrN [0, 1, 1, 2, 2] ((fun _ _ => 4) jz iz)
        = arrN [0, 1, 1, 2, 2] (arrN [0, 2, 4, 5] 1 + 1 + iz) := by
    intro jz iz h1 h2
    have h3 : iz < 1 := h2
    have h4 : iz = 0 := by omega
    have h5 : jz = 0 := by omega
    subst h4 h5
    decide
  ⟨⟨tridiagonal_wf, by decide, by decide, fun _ _ _ _ _ _ e => e, hpos⟩,
    simplicial_column_step 3 (arrN [0, 2, 4, 5]) (arrN [0, 1, 1, 2, 2]) (fun q => q)
      (arrQ [2, 1 / 2, 3, 1 / 3, 5]) 6 tridiagonal_wf (by decide) 1 (by decide)
      (fun _ _ _ _ _ _ e => e) ⟨fun _ => 7, fun _ => 3, fun _ => 1⟩ (fun _ _ => 4) hpos⟩

/-- C18: for `l ≠ 0`, a vector `Lj` of length `k` and a matrix `V` read through its lower
triangle, `spinv_block` on the `(k+1) × 1` panel `[l ; l·Lj]` returns
`Z1 = 1/l² + Ljᵗ·V·Lj` and `Z2 = -V·Lj`.  For a column `j` of a well-formed factor with a
fill-closed pattern that has `k` off-diagonal entries with the values `Lj` and the diagonal
value `d_jj = l²` (`perm` injective on the indices of the column), the iteration `j` of the
column loop of the simplicial driver returns, and the values it leaves in the slot of the
diagonal entry and in the slots of the off-diagonal entries are `Z1` and `Z2` of the kernel
applied to that panel and to the matrix `V` gathered by the iteration. -/
theorem column_step_is_block_kernel (l : ℚ) (hl : l ≠ 0) (k : Nat) (Lj Z V : Nat → ℚ)
    (n : Nat) (Lp Li perm : Nat → Nat) (Lx : Nat → ℚ) (fuel : Nat)
    (wf : SimplicialWF n Lp Li) (hfill : SimplicialFillClosed n Lp Li) (hfuel : Lp n < fuel)
    (j : Nat) (hj : j < n)
    (hinj : ∀ q, Lp j ≤ q → q < Lp (j + 1) → ∀ q', Lp j ≤ q' → q' < Lp (j + 1) →
      perm q = perm q' → q = q')
    (st : SimplicialState) (hk : Lp (j + 1) - 1 - Lp j = k) (hd : Lx (Lp j) = l ^ 2)
    (hLj : ∀ t, t < k → Lx (Lp j + 1 + t) = Lj t) :
    spinv_block (column_panel l Lj) Z V (k + 1) 1 0
      = 1 / l ^ 2 + ∑ t in range k, (∑ u in range k, symLower V k t u * Lj u) * Lj t ∧
    (∀ t, t < k → spinv_block (column_panel l Lj) Z V (k + 1) 1 (1 + t)
      = -∑ u in range k, symLower V k t u * Lj u) ∧
    ∃ st', simplicial_column Lp Li perm Lx fuel j st = some st' ∧
      st'.Xx (perm (Lp j)) = spinv_block (column_panel l Lj) Z st'.V (k + 1) 1 0 ∧
      ∀ t, t < k →
        st'.Xx (perm (Lp j + 1 + t)) = spinv_block (column_panel l Lj) Z st'.V (k + 1) 1 (1 + t) := by
  obtain ⟨h1, h2⟩ := spinv_block_column l hl k Lj Z V
  refine ⟨h2, h1, ?_⟩
  have hne := wf.nonempty j hj
  by_cases hone : Lp (j + 1) = Lp j + 1
  · have hk0 : k = 0 := by omega
    subst hk0
    refine ⟨{ st with Xx := store st.Xx (perm (Lp j)) (1 / Lx (Lp j)) },
      simplicial_column_diagonal Lp Li perm Lx fuel j st hone, ?_, fun t ht => by omega⟩
    show store st.Xx (perm (Lp j)) (1 / Lx (Lp j)) (perm (Lp j)) = _
    rw [store_same, (spinv_block_column l hl 0 Lj Z st.V).2, hd]
    simp
  · obtain ⟨_, _, hg⟩ := simplicial_gather_indices n Lp Li fuel wf hfill hfuel j hj
    obtain ⟨V', hV', _⟩ := hg perm st.Xx st.V
    obtain ⟨st', s1, s2, s3, s4, s5, _⟩ := simplicial_column_stores Lp Li perm Lx fuel j st
      (by omega) V' hV' hinj
    rw [hk] at s3 s4 s5
    obtain ⟨k1, k2⟩ := spinv_block_column l hl k Lj Z st'.V
    obtain ⟨hz, _⟩ := cblas_dsymv_spec k 1 V' k (fun q => Lx (Lp j + 1 + q)) 0 st.z
    have hz' : ∀ t, t < k → st'.z t = ∑ u in range k, symLower st'.V k t u * Lj u := by
      intro t ht
      rw [s3, hz t ht, one_mul, zero_mul, add_zero, s2]
      exact Finset.sum_congr rfl (fun u hu => by rw [hLj u (Finset.mem_range.mp hu)])
    refine ⟨st', s1, ?_, fun t ht => by rw [s4 t ht, k1 t ht, hz' t ht]⟩
    rw [s5, k2, hd]
    unfold cblas_ddot
    congr 1
    exact Finset.sum_congr rfl (fun t ht => by
      beta_reduce
      rw [hz' t (Finset.mem_range.mp ht), hLj t (Finset.mem_range.mp ht)])

theorem column_step_is_block_kernel_witness :
    ((3 : ℚ) ≠ 0 ∧ SimplicialWF 3 (arrN [0, 2, 4, 5]) (arrN [0, 1, 1, 2, 2]) ∧
      SimplicialFillClosed 3 (arrN [0, 2, 4, 5]) (arrN [0, 1, 1, 2, 2]) ∧
      arrN [0, 2, 4, 5] 3 < 6 ∧ 1 < 3 ∧
      (∀ q, arrN [0, 2, 4, 5] 1 ≤ q → q < arrN [0, 2, 4, 5] (1 + 1) →
        ∀ q', arrN [0, 2, 4, 5] 1 ≤ q' → q' < arrN [0, 2, 4, 5] (1 + 1) →
        (fun q : Nat => q) q = (fun q : Nat => q) q' → q = q') ∧
      arrN [0, 2, 4, 5] (1 + 1) - 1 - arrN [0, 2, 4, 5] 1 = 1 ∧
      arrQ [4, 1 / 2, 9, 1 / 3, 25] (arrN [0, 2, 4, 5] 1) = (3 : ℚ) ^ 2 ∧
      (∀ t, t < 1 →
        arrQ [4, 1 / 2, 9, 1 / 3, 25] (arrN [0, 2, 4, 5] 1 + 1 + t) = arrQ [1 / 3] t)) ∧
    (spinv_block (column_panel 3 (arrQ [1 / 3])) (fun _ => 1) (arrQ [1 / 5]) (1 + 1) 1 0
      = 1 / (3 : ℚ) ^ 2 + ∑ t in range 1,
          (∑ u in range 1, symLower (arrQ [1 / 5]) 1 t u * arrQ [1 / 3] u) * arrQ [1 / 3] t ∧
    (∀ t, t < 1 →
      spinv_block (column_panel 3 (arrQ [1 / 3])) (fun _ => 1) (arrQ [1 / 5]) (1 + 1) 1 (1 + t)
      = -∑ u in range 1, symLower (arrQ [1 / 5]) 1 t u * arrQ [1 / 3] u) ∧
    ∃ st', simplicial_column (arrN [0, 2, 4, 5]) (arrN [0, 1, 1, 2, 2]) (fun q => q)
          (arrQ [4, 1 / 2, 9, 1 / 3, 25]) 6 1 ⟨fun _ => 7, fun _ => 3, fun _ => 1⟩ = some st' ∧
      st'.Xx ((fun q : Nat => q) (arrN [0, 2, 4, 5] 1))
        = spinv_block (column_panel 3 (arrQ [1 / 3])) (fun _ => 1) st'.V (1 + 1) 1 0 ∧
      ∀ t, t < 1 →
        st'.Xx ((fun q : Nat => q) (arrN [0, 2, 4, 5] 1 + 1 + t))
          = spinv_block (column_panel 3 (arrQ [1 / 3])) (fun _ => 1) st'.V (1 + 1) 1 (1 + t)) :=
  ⟨⟨by norm_num, tridiagonal_wf, tridiagonal_fill_closed, by decide, by decide,
      fun q _ _ q' _ _ e => e, by decide, by norm_num [arrQ, arrN],
      fun t ht => by interval_cases t; norm_num [arrQ, arrN]⟩,
    column_step_is_block_kernel 3 (by norm_num) 1 (arrQ [1 / 3]) (fun _ => 1) (arrQ [1 / 5])
      3 (arrN [0, 2, 4, 5]) (arrN [0, 1, 1, 2, 2]) (fun q => q) (arrQ [4, 1 / 2, 9, 1 / 3, 25]) 6
      tridiagonal_wf tridiagonal_fill_closed (by decide) 1 (by decide)
      (fun q _ _ q' _ _ e => e) ⟨fun _ => 7, fun _ => 3, fun _ => 1⟩ (by decide)
      (by norm_num [arrQ, arrN]) (fun t ht => by interval_cases t; norm_num [arrQ, arrN])⟩

/-- C19: for a well-formed simplicial factor and a well-formed supernodal factor with
fill-closed patterns, a mapping table `perm` that is injective on the stored entries and enough
fuel for the searches, the descending loop started in any state returns, and `S d` being its
state after `d` iterations: the iteration of column `jl` (of supernode `s`) leads from
`S (n-1-jl)` to `S (n-jl)`; it leaves in the slots of its column the values it computed from
`z` (its scatter leaves in the slots of the lower trapezoid of its panel the entries of `Z`)
and changes no other slot; and every value its gather stores in `V` is read from the slot
`perm[k]` of an entry `k` of a column `jx` with `jl < jx < n` (of a supernode `scol` with
`s < scol < nsuper`), which at that time still holds what the iteration of `jx` (of `scol`), a
strictly earlier iteration of the loop, left in it. -/
theorem write_before_read (n : Nat) (Lp Li perm : Nat → Nat) (Lx : Nat → ℚ) (fuel : Nat)
    (wf : SimplicialWF n Lp Li) (hfill : SimplicialFillClosed n Lp Li) (hfuel : Lp n < fuel)
    (hinj : ∀ c, c < n → ∀ k, Lp c ≤ k → k < Lp (c + 1) → ∀ c', c' < n → ∀ k', Lp c' ≤ k' →
      k' < Lp (c' + 1) → perm k = perm k' → k = k')
    (st0 : SimplicialState)
    (m nsuper : Nat) (Super Lpi Lpx Ls sperm : Nat → Nat) (sLx : Nat → ℚ) (sfuel : Nat)
    (swf : SuperWF m nsuper Super Lpi Lpx Ls)
    (sfill : SuperFillClosed m nsuper Super Lpi Ls) (hsfuel : nsuper + m < sfuel)
    (sinj : ∀ s, s < nsuper → ∀ j, j < Super (s + 1) - Super s → ∀ i, j ≤ i →
      i < Lpi (s + 1) - Lpi s → ∀ s', s' < nsuper → ∀ j', j' < Super (s' + 1) - Super s' →
      ∀ i', j' ≤ i' → i' < Lpi (s' + 1) - Lpi s' →
      sperm (Lpx s + i + j * (Lpi (s + 1) - Lpi s))
        = sperm (Lpx s' + i' + j' * (Lpi (s' + 1) - Lpi s')) →
      s = s' ∧ i = i' ∧ j = j')
    (sst0 : SuperState) :
    (∃ S : Nat → SimplicialState, S 0 = st0 ∧
      (∀ d, d ≤ n → simplicial_numeric_steps n Lp Li perm Lx fuel st0 d = some (S d)) ∧
      simplicial_numeric n Lp Li perm Lx fuel st0 = some (S n) ∧
      ∀ jl, jl < n →
        simplicial_column Lp Li perm Lx fuel jl (S (n - 1 - jl)) = some (S (n - jl)) ∧
        (Lp (jl + 1) = Lp jl + 1 → (S (n - jl)).Xx (perm (Lp jl)) = 1 / Lx (Lp jl)) ∧
        (Lp jl + 1 < Lp (jl + 1) →
          (S (n - jl)).z = cblas_dsymv (Lp (jl + 1) - 1 - Lp jl) 1 (S (n - jl)).V (Lp (jl + 1) - 1 - Lp jl)
            (fun k => Lx (Lp jl + 1 + k)) 0 (S (n - 1 - jl)).z ∧
          (∀ t, t < Lp (jl + 1) - 1 - Lp jl →
            (S (n - jl)).Xx (perm (Lp jl + 1 + t)) = -((S (n - jl)).z t)) ∧
          (S (n - jl)).Xx (perm (Lp jl))
            = 1 / Lx (Lp jl)
              + cblas_ddot (Lp (jl + 1) - 1 - Lp jl) (S (n - jl)).z (fun k => Lx (Lp jl + 1 + k))) ∧
        (∀ p, (∀ k, Lp jl ≤ k → k < Lp (jl + 1) → p ≠ perm k) →
          (S (n - jl)).Xx p = (S (n - 1 - jl)).Xx p) ∧
        ∀ jz iz, jz ≤ iz → iz < Lp (jl + 1) - 1 - Lp jl →
          ∃ k, jl < Li (Lp jl + 1 + jz) ∧ Li (Lp jl + 1 + jz) < n ∧
            Lp (Li (Lp jl + 1 + jz)) ≤ k ∧ k < Lp (Li (Lp jl + 1 + jz) + 1) ∧
            Li k = Li (Lp jl + 1 + iz) ∧
            (∀ (Xx V : Nat → ℚ), ∃ V',
              simplicial_gather Lp Li perm Xx (Lp jl) (Lp (jl + 1) - 1 - Lp jl) fuel V = some V' ∧
                V' (iz + jz * (Lp (jl + 1) - 1 - Lp jl)) = Xx (perm k)) ∧
            (S (n - jl)).V (iz + jz * (Lp (jl + 1) - 1 - Lp jl)) = (S (n - 1 - jl)).Xx (perm k) ∧
            (S (n - 1 - jl)).Xx (perm k) = (S (n - Li (Lp jl + 1 + jz))).Xx (perm k)) ∧
    (∃ S : Nat → SuperState, S 0 = sst0 ∧
      (∀ d, d ≤ nsuper →
        super_numeric_steps nsuper Super Lpi Lpx Ls sperm sLx sfuel sst0 d = some (S d)) ∧
      super_numeric nsuper Super Lpi Lpx Ls sperm sLx sfuel sst0 = some (S nsuper) ∧
      ∀ s, s < nsuper →
        super_step Super Lpi Lpx Ls sperm sLx sfuel s (S (nsuper - 1 - s)) = some (S (nsuper - s)) ∧
        (S (nsuper - s)).Z = spinv_block (fun k => sLx (Lpx s + k)) (S (nsuper - 1 - s)).Z (S (nsuper - s)).V
          (Lpi (s + 1) - Lpi s) (Super (s + 1) - Super s) ∧
        (S (nsuper - s)).Xx = super_scatter Super Lpi Lpx sperm (S (nsuper - s)).Z s (S (nsuper - 1 - s)).Xx ∧
        (∀ j, j < Super (s + 1) - Super s → ∀ i, j ≤ i → i < Lpi (s + 1) - Lpi s →
          (S (nsuper - s)).Xx (sperm (Lpx s + i + j * (Lpi (s + 1) - Lpi s)))
            = if i < Super (s + 1) - Super s
              then 1 / 2 * ((S (nsuper - s)).Z (i + j * (Lpi (s + 1) - Lpi s))
                + (S (nsuper - s)).Z (j + i * (Lpi (s + 1) - Lpi s)))
              else (S (nsuper - s)).Z (i + j * (Lpi (s + 1) - Lpi s))) ∧
        (∀ p, (∀ j, j < Super (s + 1) - Super s → ∀ i, j ≤ i → i < Lpi (s + 1) - Lpi s →
            p ≠ sperm (Lpx s + i + j * (Lpi (s + 1) - Lpi s))) →
          (S (nsuper - s)).Xx p = (S (nsuper - 1 - s)).Xx p) ∧
        ∀ j i, j ≤ i → i < (Lpi (s + 1) - Lpi s) - (Super (s + 1) - Super s) →
          ∃ scol il jl, s < scol ∧ scol < nsuper ∧
            jl < Super (scol + 1) - Super scol ∧ jl ≤ il ∧ il < Lpi (scol + 1) - Lpi scol ∧
            Super scol + jl = Ls (Lpi s + (Super (s + 1) - Super s) + j) ∧
            Ls (Lpi scol + il) = Ls (Lpi s + (Super (s + 1) - Super s) + i) ∧
            (∀ (Xx V : Nat → ℚ), ∃ V',
              super_gather Super Lpi Lpx Ls sperm Xx s sfuel V = some V' ∧
                V' (i + j * ((Lpi (s + 1) - Lpi s) - (Super (s + 1) - Super s))) = Xx (sperm (Lpx scol + il + jl * (Lpi (scol + 1) - Lpi scol)))) ∧
            (S (nsuper - s)).V (i + j * ((Lpi (s + 1) - Lpi s) - (Super (s + 1) - Super s))) = (S (nsuper - 1 - s)).Xx (sperm (Lpx scol + il + jl * (Lpi (scol + 1) - Lpi scol))) ∧
            (S (nsuper - 1 - s)).Xx (sperm (Lpx scol + il + jl * (Lpi (scol + 1) - Lpi scol)))
              = (S (nsuper - scol)).Xx (sperm (Lpx scol + il + jl * (Lpi (scol + 1) - Lpi scol)))) :=
  ⟨simplicial_run_reads n Lp Li perm Lx fuel wf hfill hfuel hinj st0,
    super_run_reads m nsuper Super Lpi Lpx Ls sperm sLx sfuel swf sfill hsfuel sinj sst0⟩

theorem write_before_read_witness :
    (SimplicialWF 3 (arrN [0, 3, 5, 6]) (arrN [0, 1, 2, 1, 2, 2]) ∧
      SimplicialFillClosed 3 (arrN [0, 3, 5, 6]) (arrN [0, 1, 2, 1, 2, 2]) ∧
      arrN [0, 3, 5, 6] 3 < 7 ∧
      (∀ c, c < 3 → ∀ k, (arrN [0, 3, 5, 6]) c ≤ k → k < (arrN [0, 3, 5, 6]) (c + 1) → ∀ c', c' < 3 → ∀ k', (arrN [0, 3, 5, 6]) c' ≤ k' →
        k' < (arrN [0, 3, 5, 6]) (c' + 1) → (fun q : Nat => q) k = (fun q : Nat => q) k' → k = k') ∧
      SuperWF 3 2 two_supernode_factor.super two_supernode_factor.pi two_supernode_factor.px two_supernode_factor.s ∧
      SuperFillClosed 3 2 two_supernode_factor.super two_supernode_factor.pi two_supernode_factor.s ∧
      2 + 3 < 6 ∧
      (∀ s, s < 2 → ∀ j, j < two_supernode_factor.super (s + 1) - two_supernode_factor.super s → ∀ i, j ≤ i →
        i < two_supernode_factor.pi (s + 1) - two_supernode_factor.pi s → ∀ s', s' < 2 → ∀ j', j' < two_supernode_factor.super (s' + 1) - two_supernode_factor.super s' →
        ∀ i', j' ≤ i' → i' < two_supernode_factor.pi (s' + 1) - two_supernode_factor.pi s' →
        (fun q : Nat => q) (two_supernode_factor.px s + i + j * (two_supernode_factor.pi (s + 1) - two_supernode_factor.pi s))
          = (fun q : Nat => q) (two_supernode_factor.px s' + i' + j' * (two_supernode_factor.pi (s' + 1) - two_supernode_factor.pi s')) →
        s = s' ∧ i = i' ∧ j = j')) ∧
    ((∃ S : Nat → SimplicialState, S 0 = (⟨fun _ => 7, fun _ => 3, fun _ => 1⟩ : SimplicialState) ∧
      (∀ d, d ≤ 3 → simplicial_numeric_steps 3 (arrN [0, 3, 5, 6]) (arrN [0, 1, 2, 1, 2, 2]) (fun q : Nat => q) (arrQ [2, 1, 1 / 2, 3, 1 / 3, 5]) 7 (⟨fun _ => 7, fun _ => 3, fun _ => 1⟩ : SimplicialState) d = some (S d)) ∧
      simplicial_numeric 3 (arrN [0, 3, 5, 6]) (arrN [0, 1, 2, 1, 2, 2]) (fun q : Nat => q) (arrQ [2, 1, 1 / 2, 3, 1 / 3, 5]) 7 (⟨fun _ => 7, fun _ => 3, fun _ => 1⟩ : SimplicialState) = some (S 3) ∧
      ∀ jl, jl < 3 →
        simplicial_column (arrN [0, 3, 5, 6]) (arrN [0, 1, 2, 1, 2, 2]) (fun q : Nat => q) (arrQ [2, 1, 1 / 2, 3, 1 / 3, 5]) 7 jl (S (3 - 1 - jl)) = some (S (3 - jl)) ∧
        ((arrN [0, 3, 5, 6]) (jl + 1) = (arrN [0, 3, 5, 6]) jl + 1 → (S (3 - jl)).Xx ((fun q : Nat => q) ((arrN [0, 3, 5, 6]) jl)) = 1 / (arrQ [2, 1, 1 / 2, 3, 1 / 3, 5]) ((arrN [0, 3, 5, 6]) jl)) ∧
        ((arrN [0, 3, 5, 6]) jl + 1 < (arrN [0, 3, 5, 6]) (jl + 1) →
          (S (3 - jl)).z = cblas_dsymv ((arrN [0, 3, 5, 6]) (jl + 1) - 1 - (arrN [0, 3, 5, 6]) jl) 1 (S (3 - jl)).V ((arrN [0, 3, 5, 6]) (jl + 1) - 1 - (arrN [0, 3, 5, 6]) jl)
            (fun k => (arrQ [2, 1, 1 / 2, 3, 1 / 3, 5]) ((arrN [0, 3, 5, 6]) jl + 1 + k)) 0 (S (3 - 1 - jl)).z ∧
          (∀ t, t < (arrN [0, 3, 5, 6]) (jl + 1) - 1 - (arrN [0, 3, 5, 6]) jl →
            (S (3 - jl)).Xx ((fun q : Nat => q) ((arrN [0, 3, 5, 6]) jl + 1 + t)) = -((S (3 - jl)).z t)) ∧
          (S (3 - jl)).Xx ((fun q : Nat => q) ((arrN [0, 3, 5, 6]) jl))
            = 1 / (arrQ [2, 1, 1 / 2, 3, 1 / 3, 5]) ((arrN [0, 3, 5, 6]) jl)
              + cblas_ddot ((arrN [0, 3, 5, 6]) (jl + 1) - 1 - (arrN [0, 3, 5, 6]) jl) (S (3 - jl)).z (fun k => (arrQ [2, 1, 1 / 2, 3, 1 / 3, 5]) ((arrN [0, 3, 5, 6]) jl + 1 + k))) ∧
        (∀ p, (∀ k, (arrN [0, 3, 5, 6]) jl ≤ k → k < (arrN [0, 3, 5, 6]) (jl + 1) → p ≠ (fun q : Nat => q) k) →
          (S (3 - jl)).Xx p = (S (3 - 1 - jl)).Xx p) ∧
        ∀ jz iz, jz ≤ iz → iz < (arrN [0, 3, 5, 6]) (jl + 1) - 1 - (arrN [0, 3, 5, 6]) jl →
          ∃ k, jl < (arrN [0, 1, 2, 1, 2, 2]) ((arrN [0, 3, 5, 6]) jl + 1 + jz) ∧ (arrN [0, 1, 2, 1, 2, 2]) ((arrN [0, 3, 5, 6]) jl + 1 + jz) < 3 ∧
            (arrN [0, 3, 5, 6]) ((arrN [0, 1, 2, 1, 2, 2]) ((arrN [0, 3, 5, 6]) jl + 1 + jz)) ≤ k ∧ k < (arrN [0, 3, 5, 6]) ((arrN [0, 1, 2, 1, 2, 2]) ((arrN [0, 3, 5, 6]) jl + 1 + jz) + 1) ∧
            (arrN [0, 1, 2, 1, 2, 2]) k = (arrN [0, 1, 2, 1, 2, 2]) ((arrN [0, 3, 5, 6]) jl + 1 + iz) ∧
            (∀ (Xx V : Nat → ℚ), ∃ V',
              simplicial_gather (arrN [0, 3, 5, 6]) (arrN [0, 1, 2, 1, 2, 2]) (fun q : Nat => q) Xx ((arrN [0, 3, 5, 6]) jl) ((arrN [0, 3, 5, 6]) (jl + 1) - 1 - (arrN [0, 3, 5, 6]) jl) 7 V = some V' ∧
                V' (iz + jz * ((arrN [0, 3, 5, 6]) (jl + 1) - 1 - (arrN [0, 3, 5, 6]) jl)) = Xx ((fun q : Nat => q) k)) ∧
            (S (3 - jl)).V (iz + jz * ((arrN [0, 3, 5, 6]) (jl + 1) - 1 - (arrN [0, 3, 5, 6]) jl)) = (S (3 - 1 - jl)).Xx ((fun q : Nat => q) k) ∧
            (S (3 - 1 - jl)).Xx ((fun q : Nat => q) k) = (S (3 - (arrN [0, 1, 2, 1, 2, 2]) ((arrN [0, 3, 5, 6]) jl + 1 + jz))).Xx ((fun q : Nat => q) k)) ∧
    (∃ S : Nat → SuperState, S 0 = (⟨fun _ => 7, fun _ => 3, fun _ => 1⟩ : SuperState) ∧
      (∀ d, d ≤ 2 →
        super_numeric_steps 2 two_supernode_factor.super two_supernode_factor.pi two_supernode_factor.px two_supernode_factor.s (fun q : Nat => q) two_supernode_factor.x 6 (⟨fun _ => 7, fun _ => 3, fun _ => 1⟩ : SuperState) d = some (S d)) ∧
      super_numeric 2 two_supernode_factor.super two_supernode_factor.pi two_supernode_factor.px two_supernode_factor.s (fun q : Nat => q) two_supernode_factor.x 6 (⟨fun _ => 7, fun _ => 3, fun _ => 1⟩ : SuperState) = some (S 2) ∧
      ∀ s, s < 2 →
        super_step two_supernode_factor.super two_supernode_factor.pi two_supernode_factor.px two_supernode_factor.s (fun q : Nat => q) two_supernode_factor.x 6 s (S (2 - 1 - s)) = some (S (2 - s)) ∧
        (S (2 - s)).Z = spinv_block (fun k => two_supernode_factor.x (two_supernode_factor.px s + k)) (S (2 - 1 - s)).Z (S (2 - s)).V
          (two_supernode_factor.pi (s + 1) - two_supernode_factor.pi s) (two_supernode_factor.super (s + 1) - two_supernode_factor.super s) ∧
        (S (2 - s)).Xx = super_scatter two_supernode_factor.super two_supernode_factor.pi two_supernode_factor.px (fun q : Nat => q) (S (2 - s)).Z s (S (2 - 1 - s)).Xx ∧
        (∀ j, j < two_supernode_factor.super (s + 1) - two_supernode_factor.super s → ∀ i, j ≤ i → i < two_supernode_factor.pi (s + 1) - two_supernode_factor.pi s →
          (S (2 - s)).Xx ((fun q : Nat => q) (two_supernode_factor.px s + i + j * (two_supernode_factor.pi (s + 1) - two_supernode_factor.pi s)))
            = if i < two_supernode_factor.super (s + 1) - two_supernode_factor.super s
              then 1 / 2 * ((S (2 - s)).Z (i + j * (two_supernode_factor.pi (s + 1) - two_supernode_factor.pi s))
                + (S (2 - s)).Z (j + i * (two_supernode_factor.pi (s + 1) - two_supernode_factor.pi s)))
              else (S (2 - s)).Z (i + j * (two_supernode_factor.pi (s + 1) - two_supernode_factor.pi s))) ∧
        (∀ p, (∀ j, j < two_supernode_factor.super (s + 1) - two_supernode_factor.super s → ∀ i, j ≤ i → i < two_supernode_factor.pi (s + 1) - two_supernode_factor.pi s →
            p ≠ (fun q : Nat => q) (two_supernode_factor.px s + i + j * (two_supernode_factor.pi (s + 1) - two_supernode_factor.pi s))) →
          (S (2 - s)).Xx p = (S (2 - 1 - s)).Xx p) ∧
        ∀ j i, j ≤ i → i < (two_supernode_factor.pi (s + 1) - two_supernode_factor.pi s) - (two_supernode_factor.super (s + 1) - two_supernode_factor.super s) →
          ∃ scol il jl, s < scol ∧ scol < 2 ∧
            jl < two_supernode_factor.super (scol + 1) - two_supernode_factor.super scol ∧ jl ≤ il ∧ il < two_supernode_factor.pi (scol + 1) - two_supernode_factor.pi scol ∧
            two_supernode_factor.super scol + jl = two_supernode_factor.s (two_supernode_factor.pi s + (two_supernode_factor.super (s + 1) - two_supernode_factor.super s) + j) ∧
            two_supernode_factor.s (two_supernode_factor.pi scol + il) = two_supernode_factor.s (two_supernode_factor.pi s + (two_supernode_factor.super (s + 1) - two_supernode_factor.super s) + i) ∧
            (∀ (Xx V : Nat → ℚ), ∃ V',
              super_gather two_supernode_factor.super two_supernode_factor.pi two_supernode_factor.px two_supernode_factor.s (fun q : Nat => q) Xx s 6 V = some V' ∧
                V' (i + j * ((two_supernode_factor.pi (s + 1) - two_supernode_factor.pi s) - (two_supernode_factor.super (s + 1) - two_supernode_factor.super s))) = Xx ((fun q : Nat => q) (two_supernode_factor.px scol + il + jl * (two_supernode_factor.pi (scol + 1) - two_supernode_factor.pi scol)))) ∧
            (S (2 - s)).V (i + j * ((two_supernode_factor.pi (s + 1) - two_supernode_factor.pi s) - (two_supernode_factor.super (s + 1) - two_supernode_factor.super s))) = (S (2 - 1 - s)).Xx ((fun q : Nat => q) (two_supernode_factor.px scol + il + jl * (two_supernode_factor.pi (scol + 1) - two_supernode_factor.pi scol))) ∧
            (S (2 - 1 - s)).Xx ((fun q : Nat => q) (two_supernode_factor.px scol + il + jl * (two_supernode_factor.pi (scol + 1) - two_supernode_factor.pi scol)))
              = (S (2 - scol)).Xx ((fun q : Nat => q) (two_supernode_factor.px scol + il + jl * (two_supernode_factor.pi (scol + 1) - two_supernode_factor.pi scol))))) :=
  ⟨⟨dense_wf, dense_fill_closed, by decide, fun c _ k _ _ c' _ k' _ _ e => e,
      two_supernode_wf, two_supernode_fill_closed, by decide,
      fun s hs j hj i _ hi s' hs' j' hj' i' _ hi' e =>
        two_supernode_wf.panel_unique hs hs' hi hj hi' hj' e⟩,
    write_before_read 3 (arrN [0, 3, 5, 6]) (arrN [0, 1, 2, 1, 2, 2]) (fun q => q)
      (arrQ [2, 1, 1 / 2, 3, 1 / 3, 5]) 7 dense_wf dense_fill_closed (by decide)
      (fun c _ k _ _ c' _ k' _ _ e => e) ⟨fun _ => 7, fun _ => 3, fun _ => 1⟩
      3 2 two_supernode_factor.super two_supernode_factor.pi two_supernode_factor.px two_supernode_factor.s (fun q => q) two_supernode_factor.x 6
      two_supernode_wf two_supernode_fill_closed (by decide)
      (fun s hs j hj i _ hi s' hs' j' hj' i' _ hi' e =>
        two_supernode_wf.panel_unique hs hs' hi hj hi' hj' e)
      ⟨fun _ => 7, fun _ => 3, fun _ => 1⟩⟩

/-- C20, as stated, fails in two ways.  For a well-formed simplicial pattern that is not closed
under fill and the permutation `[2, 1, 0]`, the computed `maxsize` is 1 while the first column
has `nj = 2` off-diagonal entries, and the index `1 + 1*nj` used on `V` is not below
`maxsize*maxsize`.  For the full lower triangle of order 46342 (well formed, closed under fill,
no permutation) the first column has `nj = 46341`, and for `iz = jz = 46340` the index
`iz + jz*nj = 2147488280` evaluated in the 32-bit `Int` overflows: no index below
`maxsize*maxsize` is computed. -/
theorem workspace_bound_counterexample :
    (SimplicialWF arrow_perm_factor.n arrow_perm_factor.p arrow_perm_factor.i ∧
      PermOK arrow_perm_factor.n arrow_perm_factor.Perm ∧
      (simplicial_pattern arrow_perm_factor fresh_junk).maxsize = 1 ∧
      arrow_perm_factor.p (0 + 1) - 1 - arrow_perm_factor.p 0 = 2 ∧
      ¬ (arrow_perm_factor.p (0 + 1) - 1 - arrow_perm_factor.p 0
          ≤ (simplicial_pattern arrow_perm_factor fresh_junk).maxsize) ∧
      ¬ (1 + 1 * (arrow_perm_factor.p (0 + 1) - 1 - arrow_perm_factor.p 0)
          < (simplicial_pattern arrow_perm_factor fresh_junk).maxsize
            * (simplicial_pattern arrow_perm_factor fresh_junk).maxsize)) ∧
    (SimplicialWF (triangle_factor 46342).n (triangle_factor 46342).p (triangle_factor 46342).i ∧
      SimplicialFillClosed (triangle_factor 46342).n (triangle_factor 46342).p (triangle_factor 46342).i ∧
      PermOK (triangle_factor 46342).n (triangle_factor 46342).Perm ∧
      (triangle_factor 46342).p (0 + 1) - 1 - (triangle_factor 46342).p 0 = 46341 ∧
      V_index 32 46340 46340 46341 = none ∧
      ¬ (∀ iz jz, jz ≤ iz → iz < (triangle_factor 46342).p (0 + 1) - 1 - (triangle_factor 46342).p 0 →
        ∃ idx, V_index 32 iz jz ((triangle_factor 46342).p (0 + 1) - 1 - (triangle_factor 46342).p 0) = some idx ∧
          idx < (simplicial_pattern (triangle_factor 46342) fresh_junk).maxsize
            * (simplicial_pattern (triangle_factor 46342) fresh_junk).maxsize)) :=
  ⟨⟨arrow_perm_wf, arrow_perm_ok, by decide, by decide, by decide, by decide⟩,
    triangle_wf 46342, triangle_fill_closed 46342, permOK_none 46342, rfl, by decide,
    fun hall => by
      obtain ⟨idx, h1, _⟩ := hall 46340 46340 (le_refl _) (by decide)
      have h2 : V_index 32 46340 46340 46341 = none := by decide
      have h3 : V_index 32 46340 46340 ((triangle_factor 46342).p (0 + 1) - 1 - (triangle_factor 46342).p 0) = none := h2
      rw [h3] at h1
      exact Option.noConfusion h1⟩

/-- C20 (amended): for a well-formed simplicial factor whose pattern is closed under fill and
`Perm` absent or a permutation, the `maxsize` computed by `spinv_simplicial` is at least the
number `nj` of off-diagonal entries of every factor column, so the exact value of every index
`iz + jz*nj` is below `maxsize*maxsize` and every index used on `z` is below `maxsize + 1`; for
a column with `nj*nj ≤ 2^(w-1)`, `w` the width of `Int`, the index evaluated in `Int` is that
exact value, and the gather with the index evaluated in `Int` is the gather with the exact
index. -/
theorem workspace_bound (w : Nat) (L : cholmod_factor) (h : Fresh)
    (wf : SimplicialWF L.n L.p L.i) (hfill : SimplicialFillClosed L.n L.p L.i)
    (hp : PermOK L.n L.Perm) :
    ∀ jl, jl < L.n →
      L.p (jl + 1) - 1 - L.p jl ≤ (simplicial_pattern L h).maxsize ∧
      (∀ iz jz, iz < L.p (jl + 1) - 1 - L.p jl → jz < L.p (jl + 1) - 1 - L.p jl →
        iz + jz * (L.p (jl + 1) - 1 - L.p jl) < (simplicial_pattern L h).maxsize * (simplicial_pattern L h).maxsize) ∧
      ((L.p (jl + 1) - 1 - L.p jl) * (L.p (jl + 1) - 1 - L.p jl) ≤ 2 ^ (w - 1) →
        (∀ iz jz, iz < L.p (jl + 1) - 1 - L.p jl → jz < L.p (jl + 1) - 1 - L.p jl →
          ∃ idx, V_index w iz jz (L.p (jl + 1) - 1 - L.p jl) = some idx ∧
            idx = iz + jz * (L.p (jl + 1) - 1 - L.p jl) ∧ idx < (simplicial_pattern L h).maxsize * (simplicial_pattern L h).maxsize) ∧
        ∀ (perm : Nat → Nat) (Xx V : Nat → ℚ) (fuel : Nat),
          simplicial_gather_machine w L.p L.i perm Xx (L.p jl) (L.p (jl + 1) - 1 - L.p jl) fuel V
            = simplicial_gather L.p L.i perm Xx (L.p jl) (L.p (jl + 1) - 1 - L.p jl) fuel V) ∧
      (∀ iz, iz < L.p (jl + 1) - 1 - L.p jl → iz < (simplicial_pattern L h).maxsize + 1) := by
  intro jl hjl
  obtain ⟨c, hc, hlen⟩ := bucket_ge_column L.n L.p L.i L.Perm wf hfill hp jl hjl
  have hmax : (simplicial_pattern L h).maxsize
      = (simplicial_cumsum L.n (simplicial_count L.n L.p L.i L.Perm (fun _ => 0)) 0).2 := rfl
  have h1 := simplicial_cumsum_snd L.n (simplicial_count L.n L.p L.i L.Perm (fun _ => 0)) 0
    (c + 1) (by omega) (by omega)
  rw [← hmax, simplicial_count_eq, (countL_spec L.Perm _ _).2 c, Nat.zero_add] at h1
  have hne := wf.nonempty jl hjl
  have hnj : L.p (jl + 1) - 1 - L.p jl ≤ (simplicial_pattern L h).maxsize := by omega
  have hidx : ∀ iz jz, iz < L.p (jl + 1) - 1 - L.p jl → jz < L.p (jl + 1) - 1 - L.p jl →
      iz + jz * (L.p (jl + 1) - 1 - L.p jl)
        < (simplicial_pattern L h).maxsize * (simplicial_pattern L h).maxsize :=
    fun iz jz hiz hjz =>
      Nat.lt_of_lt_of_le (panel_index_lt hiz hjz) (Nat.mul_le_mul hnj hnj)
  exact ⟨hnj, hidx,
    fun hw => ⟨fun iz jz hiz hjz => ⟨_, V_index_exact w iz jz _ hiz hjz hw, rfl, hidx iz jz hiz hjz⟩,
      fun perm Xx V fuel => simplicial_gather_machine_eq w L.p L.i perm Xx _ _ fuel V hw⟩,
    fun iz hiz => by omega⟩

theorem workspace_bound_witness :
    (SimplicialWF tridiagonal_perm_factor.n tridiagonal_perm_factor.p tridiagonal_perm_factor.i ∧
      SimplicialFillClosed tridiagonal_perm_factor.n tridiagonal_perm_factor.p
        tridiagonal_perm_factor.i ∧
      PermOK tridiagonal_perm_factor.n tridiagonal_perm_factor.Perm) ∧
    (∀ jl, jl < tridiagonal_perm_factor.n →
      tridiagonal_perm_factor.p (jl + 1) - 1 - tridiagonal_perm_factor.p jl ≤ (simplicial_pattern tridiagonal_perm_factor fresh_junk).maxsize ∧
      (∀ iz jz, iz < tridiagonal_perm_factor.p (jl + 1) - 1 - tridiagonal_perm_factor.p jl → jz < tridiagonal_perm_factor.p (jl + 1) - 1 - tridiagonal_perm_factor.p jl →
        iz + jz * (tridiagonal_perm_factor.p (jl + 1) - 1 - tridiagonal_perm_factor.p jl) < (simplicial_pattern tridiagonal_perm_factor fresh_junk).maxsize * (simplicial_pattern tridiagonal_perm_factor fresh_junk).maxsize) ∧
      ((tridiagonal_perm_factor.p (jl + 1) - 1 - tridiagonal_perm_factor.p jl) * (tridiagonal_perm_factor.p (jl + 1) - 1 - tridiagonal_perm_factor.p jl) ≤ 2 ^ (32 - 1) →
        (∀ iz jz, iz < tridiagonal_perm_factor.p (jl + 1) - 1 - tridiagonal_perm_factor.p jl → jz < tridiagonal_perm_factor.p (jl + 1) - 1 - tridiagonal_perm_factor.p jl →
          ∃ idx, V_index 32 iz jz (tridiagonal_perm_factor.p (jl + 1) - 1 - tridiagonal_perm_factor.p jl) = some idx ∧
            idx = iz + jz * (tridiagonal_perm_factor.p (jl + 1) - 1 - tridiagonal_perm_factor.p jl) ∧ idx < (simplicial_pattern tridiagonal_perm_factor fresh_junk).maxsize * (simplicial_pattern tridiagonal_perm_factor fresh_junk).maxsize) ∧
        ∀ (perm : Nat → Nat) (Xx V : Nat → ℚ) (fuel : Nat),
          simplicial_gather_machine 32 tridiagonal_perm_factor.p tridiagonal_perm_factor.i perm Xx (tridiagonal_perm_factor.p jl) (tridiagonal_perm_factor.p (jl + 1) - 1 - tridiagonal_perm_factor.p jl) fuel V
            = simplicial_gather tridiagonal_perm_factor.p tridiagonal_perm_factor.i perm Xx (tridiagonal_perm_factor.p jl) (tridiagonal_perm_factor.p (jl + 1) - 1 - tridiagonal_perm_factor.p jl) fuel V) ∧
      (∀ iz, iz < tridiagonal_perm_factor.p (jl + 1) - 1 - tridiagonal_perm_factor.p jl → iz < (simplicial_pattern tridiagonal_perm_factor fresh_junk).maxsize + 1)) :=
  ⟨⟨tridiagonal_wf, tridiagonal_fill_closed, tridiagonal_perm_ok⟩,
    workspace_bound 32 tridiagonal_perm_factor fresh_junk tridiagonal_wf tridiagonal_fill_closed
      tridiagonal_perm_ok⟩

/-- C21: in the gather of `spinv_super` for a supernode `s < nsuper` whose update rows
`Ls[psi0+m1+j]`, `j < m2`, are ascending and lie in `[Super[s+1], n)` with `n = Super[nsuper]`,
the shared forward cursor stops for every update row `jx` (every search returns with any fuel
above `nsuper`) at an `scol` with `s < scol ≤ nsuper-1` and `Super[scol] ≤ jx < Super[scol+1]`:
the supernode that contains column `jx`. This `scol` is the cursor of the outer loop of the
gather whenever the loop returns from the iteration of `jx`, and the loop does return from it
for a well-formed factor with a fill-closed pattern. -/
theorem gather_cursor_lands (Super Lpi Lpx Ls perm : Nat → Nat) (Xx V : Nat → ℚ)
    (n nsuper s fuel : Nat) (hlast : Super nsuper = n) (hs : s < nsuper)
    (hasc : ∀ j, j + 1 < (Lpi (s + 1) - Lpi s) - (Super (s + 1) - Super s) → Ls (Lpi s + (Super (s + 1) - Super s) + j) ≤ Ls (Lpi s + (Super (s + 1) - Super s) + (j + 1)))
    (hrange : ∀ j, j < (Lpi (s + 1) - Lpi s) - (Super (s + 1) - Super s) →
      Super (s + 1) ≤ Ls (Lpi s + (Super (s + 1) - Super s) + j) ∧ Ls (Lpi s + (Super (s + 1) - Super s) + j) < n)
    (hfuel : nsuper < fuel) :
    ∀ j, j < (Lpi (s + 1) - Lpi s) - (Super (s + 1) - Super s) →
      ∃ scol, super_cursor Super Ls (Lpi s) (Super (s + 1) - Super s) s fuel (j + 1)
          = some scol ∧
        s < scol ∧ scol ≤ nsuper - 1 ∧ Super scol ≤ Ls (Lpi s + (Super (s + 1) - Super s) + j) ∧
        Ls (Lpi s + (Super (s + 1) - Super s) + j) < Super (scol + 1) ∧
        (∀ st, super_gather_loop Super Lpi Lpx Ls perm Xx s fuel V (j + 1) = some st →
          st.1 = scol) ∧
        (SuperWF n nsuper Super Lpi Lpx Ls → SuperFillClosed n nsuper Super Lpi Ls →
          nsuper + n < fuel →
          ∃ st, super_gather_loop Super Lpi Lpx Ls perm Xx s fuel V (j + 1) = some st ∧
            st.1 = scol) := by
  intro j hj
  obtain ⟨scol, c1, c2, c3, c4, c5⟩ := super_cursor_spec Super Ls n nsuper (Lpi s)
    (Super (s + 1) - Super s) ((Lpi (s + 1) - Lpi s) - (Super (s + 1) - Super s)) s fuel hlast hs
    hasc hrange hfuel j hj
  have hlink : ∀ st, super_gather_loop Super Lpi Lpx Ls perm Xx s fuel V (j + 1) = some st →
      st.1 = scol := fun st hst => by
    have := super_gather_loop_cursor Super Lpi Lpx Ls perm Xx s fuel V (j + 1) st hst
    rw [c1] at this
    exact (Option.some.inj this).symm
  refine ⟨scol, c1, c2, c3, c4, c5, hlink, fun wf hfill hf => ?_⟩
  obtain ⟨_, _, _, hg⟩ := super_gather_reads n nsuper Super Lpi Lpx Ls fuel wf hfill hf s hs
  obtain ⟨V', hV', _⟩ := hg perm Xx V
  obtain ⟨st, hst⟩ := super_gather_loop_returns Super Lpi Lpx Ls perm Xx s fuel V V' hV'
    (j + 1) (by omega)
  exact ⟨st, hst, hlink st hst⟩

theorem gather_cursor_lands_witness :
    (dense_super_factor.super 3 = 3 ∧ 0 < 3 ∧
      (∀ j, j + 1 < (dense_super_factor.pi (0 + 1) - dense_super_factor.pi 0) - (dense_super_factor.super (0 + 1) - dense_super_factor.super 0) →
        dense_super_factor.s (dense_super_factor.pi 0 + (dense_super_factor.super (0 + 1) - dense_super_factor.super 0) + j)
          ≤ dense_super_factor.s (dense_super_factor.pi 0 + (dense_super_factor.super (0 + 1) - dense_super_factor.super 0) + (j + 1))) ∧
      (∀ j, j < (dense_super_factor.pi (0 + 1) - dense_super_factor.pi 0) - (dense_super_factor.super (0 + 1) - dense_super_factor.super 0) →
        dense_super_factor.super (0 + 1) ≤ dense_super_factor.s (dense_super_factor.pi 0 + (dense_super_factor.super (0 + 1) - dense_super_factor.super 0) + j) ∧
        dense_super_factor.s (dense_super_factor.pi 0 + (dense_super_factor.super (0 + 1) - dense_super_factor.super 0) + j) < 3) ∧
      3 < 7) ∧
    ∀ j, j < (dense_super_factor.pi (0 + 1) - dense_super_factor.pi 0) - (dense_super_factor.super (0 + 1) - dense_super_factor.super 0) →
      ∃ scol, super_cursor dense_super_factor.super dense_super_factor.s (dense_super_factor.pi 0)
          (dense_super_factor.super (0 + 1) - dense_super_factor.super 0) 0 7 (j + 1) = some scol ∧
        0 < scol ∧ scol ≤ 3 - 1 ∧
        dense_super_factor.super scol ≤ dense_super_factor.s (dense_super_factor.pi 0 + (dense_super_factor.super (0 + 1) - dense_super_factor.super 0) + j) ∧
        dense_super_factor.s (dense_super_factor.pi 0 + (dense_super_factor.super (0 + 1) - dense_super_factor.super 0) + j) < dense_super_factor.super (scol + 1) ∧
        (∀ st, super_gather_loop dense_super_factor.super dense_super_factor.pi dense_super_factor.px dense_super_factor.s (fun k => k) (fun _ => 0) 0 7
            (fun _ => 0) (j + 1) = some st →
          st.1 = scol) ∧
        (SuperWF 3 3 dense_super_factor.super dense_super_factor.pi dense_super_factor.px dense_super_factor.s →
          SuperFillClosed 3 3 dense_super_factor.super dense_super_factor.pi dense_super_factor.s → 3 + 3 < 7 →
          ∃ st, super_gather_loop dense_super_factor.super dense_super_factor.pi dense_super_factor.px dense_super_factor.s (fun k => k) (fun _ => 0) 0 7
            (fun _ => 0) (j + 1) = some st ∧
            st.1 = scol) :=
  ⟨⟨rfl, by decide,
      fun j hj => by
        have hj1 : j + 1 < 2 := hj
        have hj2 : j < 1 := by omega
        interval_cases j
        decide,
      fun j hj => by
        have hj2 : j < 2 := hj
        interval_cases j <;> decide,
      by decide⟩,
    gather_cursor_lands dense_super_factor.super dense_super_factor.pi dense_super_factor.px dense_super_factor.s (fun k => k) (fun _ => 0) (fun _ => 0)
      3 3 0 7 rfl (by decide)
      (fun j hj => by
        have hj1 : j + 1 < 2 := hj
        have hj2 : j < 1 := by omega
        interval_cases j
        decide)
      (fun j hj => by
        have hj2 : j < 2 := hj
        interval_cases j <;> decide)
      (by decide)⟩


/-- C22: for `n ≤ m`, every panel `L` whose leading block `L1` has a nonzero diagonal and
every buffer `V` (read as a symmetric matrix through its lower triangle), the top block `Z1` of
the result of `spinv_block` is symmetric in exact arithmetic, so `0.5*(Z[i,j]+Z[j,i])` equals
`Z[i,j]` on the diagonal block, and the scatter of a supernode with `ns = n` columns and
`ms = m` rows stores the same array with and without the symmetrisation. -/
theorem symmetrisation_changes_nothing (L Z V : Nat → ℚ) (m n : Nat) (hnm : n ≤ m)
    (hd : ∀ i, i < n → L (i + i * m) ≠ 0)
    (Super Lpi Lpx perm : Nat → Nat) (s : Nat) (Xx : Nat → ℚ)
    (hns : Super (s + 1) - Super s = n) (hms : Lpi (s + 1) - Lpi s = m) :
    (∀ i j, i < n → j < n →
      spinv_block L Z V m n (i + j * m) = spinv_block L Z V m n (j + i * m)) ∧
    (∀ i j, i < n → j < n →
      1 / 2 * (spinv_block L Z V m n (i + j * m) + spinv_block L Z V m n (j + i * m))
        = spinv_block L Z V m n (i + j * m)) ∧
    super_scatter Super Lpi Lpx perm (spinv_block L Z V m n) s Xx
      = super_scatter_plain Super Lpi Lpx perm (spinv_block L Z V m n) s Xx := by
  have hsym := spinv_block_symmetric L Z V m n hnm hd
  refine ⟨hsym, fun i j hi hj => ?_, ?_⟩
  · rw [← hsym i j hi hj]
    ring
  · refine super_scatter_eq_plain Super Lpi Lpx perm _ s Xx (fun i j hi hj => ?_)
    rw [hns] at hi hj
    rw [hms]
    exact hsym i j hi hj

theorem symmetrisation_changes_nothing_witness :
    (2 ≤ 3 ∧ (∀ i, i < 2 → two_supernode_factor.x (i + i * 3) ≠ 0) ∧
      two_supernode_factor.super (0 + 1) - two_supernode_factor.super 0 = 2 ∧
      two_supernode_factor.pi (0 + 1) - two_supernode_factor.pi 0 = 3) ∧
    ((∀ i j, i < 2 → j < 2 →
      spinv_block two_supernode_factor.x (fun _ => 0) (fun _ => 1) 3 2 (i + j * 3)
        = spinv_block two_supernode_factor.x (fun _ => 0) (fun _ => 1) 3 2 (j + i * 3)) ∧
    (∀ i j, i < 2 → j < 2 →
      1 / 2 * (spinv_block two_supernode_factor.x (fun _ => 0) (fun _ => 1) 3 2 (i + j * 3)
          + spinv_block two_supernode_factor.x (fun _ => 0) (fun _ => 1) 3 2 (j + i * 3))
        = spinv_block two_supernode_factor.x (fun _ => 0) (fun _ => 1) 3 2 (i + j * 3)) ∧
    super_scatter two_supernode_factor.super two_supernode_factor.pi two_supernode_factor.px (fun k => k)
        (spinv_block two_supernode_factor.x (fun _ => 0) (fun _ => 1) 3 2) 0 (fun _ => 0)
      = super_scatter_plain two_supernode_factor.super two_supernode_factor.pi two_supernode_factor.px (fun k => k)
        (spinv_block two_supernode_factor.x (fun _ => 0) (fun _ => 1) 3 2) 0 (fun _ => 0)) :=
  ⟨⟨by decide,
      fun i hi => by interval_cases i <;> simp [two_supernode_factor, arrQ],
      rfl, rfl⟩,
    symmetrisation_changes_nothing two_supernode_factor.x (fun _ => 0) (fun _ => 1) 3 2 (by decide)
      (fun i hi => by interval_cases i <;> simp [two_supernode_factor, arrQ])
      two_supernode_factor.super two_supernode_factor.pi two_supernode_factor.px (fun k => k) 0 (fun _ => 0) rfl rfl⟩


/-- C23: in the gather of `spinv_simplicial` for a column `jl` of a well-formed factor (every
column sorted ascending with its diagonal first) with a fill-closed pattern, for every pair
`jz ≤ iz < nj` the search for the row `ix = Li[kmin+1+iz]` in the column
`jx = Li[kmin+1+jz]`, started at the diagonal of column `jx` and continued across the rows of
the current column, returns (with any fuel above `Lp[n]`) an index `kx` with
`Lp[jx] ≤ kx < Lp[jx+1]` and `Li[kx] = ix`; `kx` is the only index of column `jx` with row
`ix` and lies in no other column, and the gather returns with `V[iz+jz*nj] = Xx[perm[kx]]`. -/
theorem simplicial_search_lands (n : Nat) (Lp Li : Nat → Nat) (fuel : Nat)
    (wf : SimplicialWF n Lp Li) (hfill : SimplicialFillClosed n Lp Li) (hfuel : Lp n < fuel)
    (jl : Nat) (hjl : jl < n) :
    ∃ pos : Nat → Nat → Nat,
      (∀ jz iz, jz ≤ iz → iz < Lp (jl + 1) - 1 - Lp jl →
        simplicial_cursor Lp Li (Lp jl) jz fuel (iz - jz + 1) = some (pos jz iz) ∧
        Lp (Li (Lp jl + 1 + jz)) ≤ pos jz iz ∧ pos jz iz < Lp (Li (Lp jl + 1 + jz) + 1) ∧
        Li (pos jz iz) = Li (Lp jl + 1 + iz) ∧
        (∀ k, Lp (Li (Lp jl + 1 + jz)) ≤ k → k < Lp (Li (Lp jl + 1 + jz) + 1) →
          Li k = Li (Lp jl + 1 + iz) → k = pos jz iz) ∧
        (∀ c, c < n → Lp c ≤ pos jz iz → pos jz iz < Lp (c + 1) → c = Li (Lp jl + 1 + jz))) ∧
      ∀ (perm : Nat → Nat) (Xx V : Nat → ℚ),
        ∃ V', simplicial_gather Lp Li perm Xx (Lp jl) (Lp (jl + 1) - 1 - Lp jl) fuel V
            = some V' ∧
          ∀ jz iz, jz ≤ iz → iz < Lp (jl + 1) - 1 - Lp jl →
            V' (iz + jz * (Lp (jl + 1) - 1 - Lp jl)) = Xx (perm (pos jz iz)) := by
  generalize hnjdef : Lp (jl + 1) - 1 - Lp jl = nj
  have hr_gt : ∀ t, t < nj → jl < Li (Lp jl + 1 + t) := fun t ht =>
    wf.offdiag_gt hjl (by omega) (by omega)
  have hr_lt : ∀ t, t < nj → Li (Lp jl + 1 + t) < n := fun t ht =>
    wf.bound jl hjl _ (by omega) (by omega)
  have hr_asc : ∀ t u, t < u → u < nj → Li (Lp jl + 1 + t) < Li (Lp jl + 1 + u) :=
    fun t u htu hu => wf.asc_lt hjl (by omega) (by omega) (by omega)
  have hex : ∀ jz iz, jz ≤ iz → iz < nj → ∃ k, Lp (Li (Lp jl + 1 + jz)) ≤ k ∧
      k < Lp (Li (Lp jl + 1 + jz) + 1) ∧ Li k = Li (Lp jl + 1 + iz) := by
    intro jz iz hji hiz
    by_cases he : jz = iz
    · subst he
      exact ⟨Lp (Li (Lp jl + 1 + jz)), le_refl _, wf.nonempty _ (hr_lt jz hiz),
        wf.diag _ (hr_lt jz hiz)⟩
    · exact hfill jl hjl _ _ ⟨Lp jl + 1 + iz, by omega, by omega, rfl⟩
        ⟨Lp jl + 1 + jz, by omega, by omega, rfl⟩ (hr_gt jz (by omega))
        (hr_asc jz iz (by omega) hiz)
  choose! pos hpos using hex
  have hfuel' : ∀ c, c < n → Lp (c + 1) < fuel := fun c hc =>
    Nat.lt_of_le_of_lt (wf.Lp_mono (by omega : c + 1 ≤ n) (le_refl n)) hfuel
  have h1 : ∀ jz iz, jz ≤ iz → iz < nj →
      Lp (Li (Lp jl + 1 + jz)) ≤ pos jz iz ∧
      (∀ q, Lp (Li (Lp jl + 1 + jz)) ≤ q → q < pos jz iz → Li q < Li (Lp jl + 1 + iz)) ∧
      ¬ (Li (pos jz iz) < Li (Lp jl + 1 + iz)) ∧
      pos jz iz - Lp (Li (Lp jl + 1 + jz)) < fuel := by
    intro jz iz hji hiz
    obtain ⟨p1, p2, p3⟩ := hpos jz iz hji hiz
    have hjx := hr_lt jz (by omega)
    refine ⟨p1, fun q hq1 hq2 => ?_, by omega, ?_⟩
    · rw [← p3]
      exact wf.asc_lt hjx hq1 hq2 p2
    · have := hfuel' _ hjx
      omega
  have h2 : ∀ jz iz, jz ≤ iz → iz + 1 < nj → pos jz iz ≤ pos jz (iz + 1) := by
    intro jz iz hji hiz
    obtain ⟨p1, p2, p3⟩ := hpos jz iz hji (by omega)
    obtain ⟨q1, q2, q3⟩ := hpos jz (iz + 1) (by omega) hiz
    have hjx := hr_lt jz (by omega)
    by_contra hcon
    have h1 := wf.asc_lt hjx q1 (by omega : pos jz (iz + 1) < pos jz iz) p2
    have h2 := hr_asc iz (iz + 1) (by omega) hiz
    omega
  refine ⟨pos, fun jz iz hji hiz => ?_, fun perm Xx V =>
    simplicial_gather_spec Lp Li perm Xx (Lp jl) nj fuel V pos h1 h2⟩
  obtain ⟨p1, p2, p3⟩ := hpos jz iz hji hiz
  have hjx := hr_lt jz (by omega)
  refine ⟨?_, p1, p2, p3, fun k k1 k2 k3 => ?_, fun c hc c1 c2 => ?_⟩
  · have := simplicial_cursor_spec Lp Li (Lp jl) nj fuel pos h1 h2 jz (iz - jz) (by omega)
    rw [show jz + (iz - jz) = iz by omega] at this
    exact this
  · by_contra hne
    rcases Nat.lt_or_gt_of_ne hne with hlt | hgt
    · have := wf.asc_lt hjx k1 hlt p2
      omega
    · have := wf.asc_lt hjx p1 hgt k2
      omega
  · by_contra hne
    rcases Nat.lt_or_gt_of_ne hne with hlt | hgt
    · have := wf.Lp_mono (by omega : c + 1 ≤ Li (Lp jl + 1 + jz)) (by omega)
      omega
    · have := wf.Lp_mono (by omega : Li (Lp jl + 1 + jz) + 1 ≤ c) (by omega)
      omega

theorem simplicial_search_lands_witness :
    (SimplicialWF 3 dense_factor.p dense_factor.i ∧
      SimplicialFillClosed 3 dense_factor.p dense_factor.i ∧ dense_factor.p 3 < 7 ∧ 0 < 3) ∧
    (∃ pos : Nat → Nat → Nat,
      (∀ jz iz, jz ≤ iz → iz < dense_factor.p (0 + 1) - 1 - dense_factor.p 0 →
        simplicial_cursor dense_factor.p dense_factor.i (dense_factor.p 0) jz 7 (iz - jz + 1) = some (pos jz iz) ∧
        dense_factor.p (dense_factor.i (dense_factor.p 0 + 1 + jz)) ≤ pos jz iz ∧ pos jz iz < dense_factor.p (dense_factor.i (dense_factor.p 0 + 1 + jz) + 1) ∧
        dense_factor.i (pos jz iz) = dense_factor.i (dense_factor.p 0 + 1 + iz) ∧
        (∀ k, dense_factor.p (dense_factor.i (dense_factor.p 0 + 1 + jz)) ≤ k → k < dense_factor.p (dense_factor.i (dense_factor.p 0 + 1 + jz) + 1) →
          dense_factor.i k = dense_factor.i (dense_factor.p 0 + 1 + iz) → k = pos jz iz) ∧
        (∀ c, c < 3 → dense_factor.p c ≤ pos jz iz → pos jz iz < dense_factor.p (c + 1) → c = dense_factor.i (dense_factor.p 0 + 1 + jz))) ∧
      ∀ (perm : Nat → Nat) (Xx V : Nat → ℚ),
        ∃ V', simplicial_gather dense_factor.p dense_factor.i perm Xx (dense_factor.p 0) (dense_factor.p (0 + 1) - 1 - dense_factor.p 0) 7 V
            = some V' ∧
          ∀ jz iz, jz ≤ iz → iz < dense_factor.p (0 + 1) - 1 - dense_factor.p 0 →
            V' (iz + jz * (dense_factor.p (0 + 1) - 1 - dense_factor.p 0)) = Xx (perm (pos jz iz))) :=
  ⟨⟨dense_wf, dense_fill_closed, by decide, by decide⟩,
    simplicial_search_lands 3 dense_factor.p dense_factor.i 7 dense_wf dense_fill_closed
      (by decide) 0 (by decide)⟩


/-- C24: in `spinv_super` the mapping table keeps its uninitialised contents at every index
that is not `Lpx[s] + i + j*ms` with `j < ns`, `j ≤ i < ms` (any factor), in particular, for a
well-formed factor, at the strictly upper slots `i < j < ns` of every diagonal block; at the
indices `Lpx[s] + i + j*ms` with `j ≤ i` its value does not depend on the uninitialised
contents. The indices of the scatter of a supernode are such indices and the scatter reads
the table nowhere else; for a well-formed factor with a fill-closed pattern the gather of every
supernode returns and every index at which it reads the table is an index of the scatter of
a later supernode. -/
theorem table_read_where_assigned (L : cholmod_factor) (fuel : Nat)
    (wf : SuperWF L.n L.nsuper L.super L.pi L.px L.s)
    (hfill : SuperFillClosed L.n L.nsuper L.super L.pi L.s) (hfuel : L.nsuper + L.n < fuel) :
    (∀ (h : Fresh) (k : Nat),
      (∀ s j i, s < L.nsuper → j < L.super (s + 1) - L.super s → j ≤ i → i < L.pi (s + 1) - L.pi s →
        k ≠ L.px s + i + j * (L.pi (s + 1) - L.pi s)) →
      (super_pattern L h).perm k = h.perm k) ∧
    (∀ (h : Fresh) (s j i : Nat), s < L.nsuper → j < L.super (s + 1) - L.super s → i < j →
      (super_pattern L h).perm (L.px s + i + j * (L.pi (s + 1) - L.pi s))
        = h.perm (L.px s + i + j * (L.pi (s + 1) - L.pi s))) ∧
    (∀ (h h' : Fresh) (s j i : Nat), s < L.nsuper → j < L.super (s + 1) - L.super s → j ≤ i →
      i < L.pi (s + 1) - L.pi s →
      (super_pattern L h).perm (L.px s + i + j * (L.pi (s + 1) - L.pi s))
        = (super_pattern L h').perm (L.px s + i + j * (L.pi (s + 1) - L.pi s))) ∧
    (∀ s, s < L.nsuper →
      (∀ kl, kl ∈ super_step_writes L.super L.pi L.px s →
        ∃ j i, j < L.super (s + 1) - L.super s ∧ j ≤ i ∧ i < L.pi (s + 1) - L.pi s ∧
          kl = L.px s + i + j * (L.pi (s + 1) - L.pi s)) ∧
      (∀ (perm perm' : Nat → Nat) (Z Xx : Nat → ℚ),
        (∀ kl, kl ∈ super_step_writes L.super L.pi L.px s → perm kl = perm' kl) →
        super_scatter L.super L.pi L.px perm Z s Xx
          = super_scatter L.super L.pi L.px perm' Z s Xx)) ∧
    (∀ s, s < L.nsuper → ∃ (sc : Nat → Nat) (pos : Nat → Nat → Nat),
      (∀ j i, j ≤ i → i < (L.pi (s + 1) - L.pi s) - (L.super (s + 1) - L.super s) →
        s < sc j ∧ sc j < L.nsuper ∧
        L.px (sc j) + pos j i
              + (L.s (L.pi s + (L.super (s + 1) - L.super s) + j) - L.super (sc j))
                * (L.pi (sc j + 1) - L.pi (sc j))
          ∈ super_step_writes L.super L.pi L.px (sc j)) ∧
      ∀ (perm : Nat → Nat) (Xx V : Nat → ℚ),
        ∃ V', super_gather L.super L.pi L.px L.s perm Xx s fuel V = some V' ∧
          ∀ j i, j ≤ i → i < (L.pi (s + 1) - L.pi s) - (L.super (s + 1) - L.super s) →
            V' (i + j * ((L.pi (s + 1) - L.pi s) - (L.super (s + 1) - L.super s)))
              = Xx (perm (L.px (sc j) + pos j i
              + (L.s (L.pi s + (L.super (s + 1) - L.super s) + j) - L.super (sc j))
                * (L.pi (sc j + 1) - L.pi (sc j))))) := by
  have hmem : ∀ s j i, s < L.nsuper → j < L.super (s + 1) - L.super s → j ≤ i → i < L.pi (s + 1) - L.pi s →
      (⟨L.px s + (j + (i - j)) + j * (L.pi (s + 1) - L.pi s), L.s (L.pi s + (j + (i - j))),
        L.super s + j⟩ : Entry) ∈ super_entries L.nsuper L.super L.pi L.px L.s :=
    fun s j i hs hj hji hi =>
      (mem_super_entries L.nsuper L.super L.pi L.px L.s _).mpr
        ⟨s, hs, j, hj, i - j, by omega, rfl⟩
  have hframe : ∀ (h : Fresh) (k : Nat),
      (∀ s j i, s < L.nsuper → j < L.super (s + 1) - L.super s → j ≤ i → i < L.pi (s + 1) - L.pi s →
        k ≠ L.px s + i + j * (L.pi (s + 1) - L.pi s)) →
      (super_pattern L h).perm k = h.perm k := by
    intro h k hk
    rw [super_pattern_perm]
    refine fillL_perm_frame L.Perm _ _ _ k (fun e he => ?_)
    obtain ⟨s, hs, j, hj, t, ht, rfl⟩ := (mem_super_entries L.nsuper L.super L.pi L.px L.s e).mp he
    exact fun e => hk s j (j + t) hs hj (by omega) (by omega) e.symm
  refine ⟨hframe, fun h s j i hs hj hij => ?_, fun h h' s j i hs hj hji hi => ?_,
    fun s hs => ⟨fun kl hkl => super_step_writes_lower L.super L.pi L.px s (wf.rows s hs) kl hkl,
      fun perm perm' Z Xx hp => super_scatter_perm_congr L.super L.pi L.px perm perm' Z s Xx hp⟩,
    fun s hs => ?_⟩
  · refine hframe h _ (fun s' j' i' hs' hj' hji' hi' e => ?_)
    have hrows := wf.rows s hs
    have := wf.panel_unique hs hs' (by omega : i < L.pi (s + 1) - L.pi s) hj hi' hj' e
    omega
  · have := fillL_perm_indep L.Perm (super_pattern L h).Xp
      (super_entries L.nsuper L.super L.pi L.px L.s)
      { ncol := fun _ => 0, Xi := h.Xi, perm := h.perm }
      { ncol := fun _ => 0, Xi := h'.Xi, perm := h'.perm } rfl _ (hmem s j i hs hj hji hi)
    rw [show j + (i - j) = i by omega] at this
    rw [super_pattern_perm L h, super_pattern_perm L h', super_pattern_Xp L h' h]
    exact this
  · obtain ⟨sc, pos, h1, h2⟩ := super_gather_reads L.n L.nsuper L.super L.pi L.px L.s fuel wf
      hfill hfuel s hs
    exact ⟨sc, pos, fun j i hji hi => ⟨(h1 j i hji hi).1, (h1 j i hji hi).2.1,
      (h1 j i hji hi).2.2.1⟩, h2⟩

theorem table_read_where_assigned_witness :
    (SuperWF two_supernode_factor.n two_supernode_factor.nsuper two_supernode_factor.super two_supernode_factor.pi two_supernode_factor.px two_supernode_factor.s ∧
      SuperFillClosed two_supernode_factor.n two_supernode_factor.nsuper two_supernode_factor.super two_supernode_factor.pi two_supernode_factor.s ∧
      two_supernode_factor.nsuper + two_supernode_factor.n < 6) ∧
    ((∀ (h : Fresh) (k : Nat),
      (∀ s j i, s < two_supernode_factor.nsuper → j < two_supernode_factor.super (s + 1) - two_supernode_factor.super s → j ≤ i → i < two_supernode_factor.pi (s + 1) - two_supernode_factor.pi s →
        k ≠ two_supernode_factor.px s + i + j * (two_supernode_factor.pi (s + 1) - two_supernode_factor.pi s)) →
      (super_pattern two_supernode_factor h).perm k = h.perm k) ∧
    (∀ (h : Fresh) (s j i : Nat), s < two_supernode_factor.nsuper → j < two_supernode_factor.super (s + 1) - two_supernode_factor.super s → i < j →
      (super_pattern two_supernode_factor h).perm (two_supernode_factor.px s + i + j * (two_supernode_factor.pi (s + 1) - two_supernode_factor.pi s))
        = h.perm (two_supernode_factor.px s + i + j * (two_supernode_factor.pi (s + 1) - two_supernode_factor.pi s))) ∧
    (∀ (h h' : Fresh) (s j i : Nat), s < two_supernode_factor.nsuper → j < two_supernode_factor.super (s + 1) - two_supernode_factor.super s → j ≤ i →
      i < two_supernode_factor.pi (s + 1) - two_supernode_factor.pi s →
      (super_pattern two_supernode_factor h).perm (two_supernode_factor.px s + i + j * (two_supernode_factor.pi (s + 1) - two_supernode_factor.pi s))
        = (super_pattern two_supernode_factor h').perm (two_supernode_factor.px s + i + j * (two_supernode_factor.pi (s + 1) - two_supernode_factor.pi s))) ∧
    (∀ s, s < two_supernode_factor.nsuper →
      (∀ kl, kl ∈ super_step_writes two_supernode_factor.super two_supernode_factor.pi two_supernode_factor.px s →
        ∃ j i, j < two_supernode_factor.super (s + 1) - two_supernode_factor.super s ∧ j ≤ i ∧ i < two_supernode_factor.pi (s + 1) - two_supernode_factor.pi s ∧
          kl = two_supernode_factor.px s + i + j * (two_supernode_factor.pi (s + 1) - two_supernode_factor.pi s)) ∧
      (∀ (perm perm' : Nat → Nat) (Z Xx : Nat → ℚ),
        (∀ kl, kl ∈ super_step_writes two_supernode_factor.super two_supernode_factor.pi two_supernode_factor.px s → perm kl = perm' kl) →
        super_scatter two_supernode_factor.super two_supernode_factor.pi two_supernode_factor.px perm Z s Xx
          = super_scatter two_supernode_factor.super two_supernode_factor.pi two_supernode_factor.px perm' Z s Xx)) ∧
    (∀ s, s < two_supernode_factor.nsuper → ∃ (sc : Nat → Nat) (pos : Nat → Nat → Nat),
      (∀ j i, j ≤ i → i < (two_supernode_factor.pi (s + 1) - two_supernode_factor.pi s) - (two_supernode_factor.super (s + 1) - two_supernode_factor.super s) →
        s < sc j ∧ sc j < two_supernode_factor.nsuper ∧
        two_supernode_factor.px (sc j) + pos j i
              + (two_supernode_factor.s (two_supernode_factor.pi s + (two_supernode_factor.super (s + 1) - two_supernode_factor.super s) + j) - two_supernode_factor.super (sc j))
                * (two_supernode_factor.pi (sc j + 1) - two_supernode_factor.pi (sc j))
          ∈ super_step_writes two_supernode_factor.super two_supernode_factor.pi two_supernode_factor.px (sc j)) ∧
      ∀ (perm : Nat → Nat) (Xx V : Nat → ℚ),
        ∃ V', super_gather two_supernode_factor.super two_supernode_factor.pi two_supernode_factor.px two_supernode_factor.s perm Xx s 6 V = some V' ∧
          ∀ j i, j ≤ i → i < (two_supernode_factor.pi (s + 1) - two_supernode_factor.pi s) - (two_supernode_factor.super (s + 1) - two_supernode_factor.super s) →
            V' (i + j * ((two_supernode_factor.pi (s + 1) - two_supernode_factor.pi s) - (two_supernode_factor.super (s + 1) - two_supernode_factor.super s)))
              = Xx (perm (two_supernode_factor.px (sc j) + pos j i
              + (two_supernode_factor.s (two_supernode_factor.pi s + (two_supernode_factor.super (s + 1) - two_supernode_factor.super s) + j) - two_supernode_factor.super (sc j))
                * (two_supernode_factor.pi (sc j + 1) - two_supernode_factor.pi (sc j)))))) :=
  ⟨⟨two_supernode_wf, two_supernode_fill_closed, by decide⟩,
    table_read_where_assigned two_supernode_factor 6 two_supernode_wf two_supernode_fill_closed (by decide)⟩

end Spinv
